import Mathlib

/-!
# JSON-to-class generator: embedding of `main.cpp`

A shallow embedding of the hand-written JSON parser, of the method-table
splitting code of `main` and of the two emitters.

Conventions of the embedding.

* A C++ `std::string` is a `List Char` (`Str`); every character stands for one
  byte.
* A `double` is the rational number it stands for (`ℚ`); infinities and NaN do
  not occur in the program.  The conversion `stod` rounds to the nearest
  `double` and throws `out_of_range` as the C library does; the arithmetic on
  doubles that the emitter performs (`ceil`, `floor`, the formatting) is exact.
* A function that can throw, read out of bounds or loop returns a `Res`:
  `ok` for a normal return, `throw` for a C++ exception, `undefined` for undefined
  behaviour (an unchecked out-of-bounds read, an out-of-range conversion) and
  `nofuel` when the bound on the number of loop iterations is used up.
* `std::unordered_map<string, JSONValue>` is an association list with pairwise
  distinct keys.  The parser builds the list in the order of insertion.  The
  order in which the container is iterated is its hash order, which the source
  does not fix: the emitter, which iterates the map, reads its list as the order
  of iteration, and that order is any arrangement (`List.Perm`) of the entries
  of the parsed object.
-/

set_option maxRecDepth 100000

/-- A C++ string: the sequence of its bytes. -/
abbrev Str := List Char

/-- The C++ exceptions the program can raise. -/
inductive Exn where
  | invalid_argument
  | out_of_range
  deriving DecidableEq, Repr

/-- Outcome of a computation of the program. -/
inductive Res (α : Type) where
  | ok (a : α)
  | throw (e : Exn)
  | undefined
  | nofuel
  deriving DecidableEq, Repr

namespace Res

/-- Sequencing: the first abnormal outcome is the outcome of the whole. -/
def bind {α β : Type} (x : Res α) (f : α → Res β) : Res β :=
  match x with
  | ok a => f a
  | throw e => throw e
  | undefined => undefined
  | nofuel => nofuel

end Res

/-- The enum `JSONValueType`. -/
inductive JSONValueType where
  | Null | Boolean | Number | String | Array | Object
  deriving DecidableEq, Repr

/-- The class `JSONValue`.  Each constructor of the C++ class sets the tag and
one payload member and leaves the other members default-initialised, so a value
is determined by its tag and that payload. -/
inductive JSONValue where
  | null
  | boolean (b : Bool)
  | number (q : ℚ)
  | string (s : Str)
  | array (xs : List JSONValue)
  | object (kvs : List (Str × JSONValue))

namespace JSONValue

/-- Member `type`. -/
def type : JSONValue → JSONValueType
  | null => .Null
  | boolean _ => .Boolean
  | number _ => .Number
  | string _ => .String
  | array _ => .Array
  | object _ => .Object

/-- Member `numberValue` (zero unless the value is a number). -/
def numberValue : JSONValue → ℚ
  | number q => q
  | _ => 0

/-- Member `stringValue` (empty unless the value is a string). -/
def stringValue : JSONValue → Str
  | string s => s
  | _ => []

/-- Member `arrayValue` (empty unless the value is an array). -/
def arrayValue : JSONValue → List JSONValue
  | array xs => xs
  | _ => []

/-- Member `objectValue` (empty unless the value is an object). -/
def objectValue : JSONValue → List (Str × JSONValue)
  | object kvs => kvs
  | _ => []

mutual

/-- Structural equality test on values. -/
def beq : JSONValue → JSONValue → Bool
  | null, null => true
  | boolean a, boolean b => a == b
  | number a, number b => a == b
  | string a, string b => a == b
  | array a, array b => beqList a b
  | object a, object b => beqKvs a b
  | _, _ => false

/-- Structural equality test on sequences of values. -/
def beqList : List JSONValue → List JSONValue → Bool
  | [], [] => true
  | a :: as, b :: bs => beq a b && beqList as bs
  | _, _ => false

/-- Structural equality test on sequences of key/value pairs. -/
def beqKvs : List (Str × JSONValue) → List (Str × JSONValue) → Bool
  | [], [] => true
  | (k, a) :: as, (l, b) :: bs => k == l && beq a b && beqKvs as bs
  | _, _ => false

end

end JSONValue

/-! ## `std::string` and `std::unordered_map` primitives -/

/-- The C function `isspace` in the "C" locale. -/
def isspace (c : Char) : Bool :=
  c == ' ' || c == '\t' || c == '\n' || c == '\x0b' || c == '\x0c' || c == '\r'

/-- The C function `isdigit`. -/
def isdigit (c : Char) : Bool :=
  48 ≤ c.toNat && c.toNat ≤ 57

/-- The C function `isxdigit`. -/
def isxdigit (c : Char) : Bool :=
  isdigit c || (97 ≤ c.toNat && c.toNat ≤ 102) || (65 ≤ c.toNat && c.toNat ≤ 70)

/-- Method `string::substr(pos, n)`: throws `out_of_range` when `pos` is past
the end. -/
def substr (s : Str) (pos n : Nat) : Res Str :=
  if pos > s.length then .throw .out_of_range else .ok ((s.drop pos).take n)

/-- Method `string::substr(pos)`, the rest of the string from `pos`. -/
def substrFrom (s : Str) (pos : Nat) : Res Str :=
  if pos > s.length then .throw .out_of_range else .ok (s.drop pos)

/-- Method `string::find(str)`: the first position at which `d` occurs in `s`;
`none` stands for `string::npos`. -/
def find : Str → Str → Option Nat
  | [], d => if d.isPrefixOf [] then some 0 else none
  | c :: cs, d =>
    if d.isPrefixOf (c :: cs) then some 0 else (find cs d).map (· + 1)

/-- Lookup in the map (`find` on the container). -/
def mapFind (m : List (Str × JSONValue)) (k : Str) : Option JSONValue :=
  (m.find? (fun kv => kv.1 == k)).map (·.2)

/-- Method `unordered_map::emplace`: inserts only when the key is absent.  The
list keeps the entries in the order of insertion, which is not the order in
which the container is iterated. -/
def emplace (m : List (Str × JSONValue)) (k : Str) (v : JSONValue) :
    List (Str × JSONValue) :=
  if m.any (fun kv => kv.1 == k) then m else m ++ [(k, v)]

/-- Method `unordered_map::operator[]`: the value at `k`, and the map, to which
a default-constructed (null) value is added when the key was absent.  The place
of the new entry in the list says nothing of its place in the iteration. -/
def mapIndex (m : List (Str × JSONValue)) (k : Str) :
    JSONValue × List (Str × JSONValue) :=
  match mapFind m k with
  | some v => (v, m)
  | none => (.null, m ++ [(k, .null)])

/-! ## Number conversions -/

/-- Value of a run of decimal digits. -/
def decVal (ds : Str) : Nat :=
  ds.foldl (fun acc c => 10 * acc + (c.toNat - 48)) 0

/-- Value of one hexadecimal digit. -/
def hexDigitVal (c : Char) : Nat :=
  if isdigit c then c.toNat - 48
  else if 97 ≤ c.toNat then c.toNat - 87
  else c.toNat - 55

/-- Value of a run of hexadecimal digits. -/
def hexVal (ds : Str) : Nat :=
  ds.foldl (fun acc c => 16 * acc + hexDigitVal c) 0

/-- The call `stoi(str, nullptr, 16)`: leading whitespace, an optional sign, an
optional `0x` prefix and the longest run of hexadecimal digits.  Throws
`invalid_argument` when there is no digit, `out_of_range` when the value does
not fit an `int`. -/
def stoi16 (str : Str) : Res Int :=
  let t := str.dropWhile isspace
  let neg := t.head? == some '-'
  let t := if t.head? == some '-' || t.head? == some '+' then t.drop 1 else t
  let t := match t with
    | '0' :: x :: h :: r => if (x == 'x' || x == 'X') && isxdigit h then h :: r else t
    | _ => t
  let ds := t.takeWhile isxdigit
  if ds.isEmpty then .throw .invalid_argument
  else
    let v : Int := if neg then -(hexVal ds : Int) else (hexVal ds : Int)
    if v < -2147483648 || v > 2147483647 then .throw .out_of_range else .ok v

/-- The exact value of the decimal text that `strtod` reads at the head of `str`:
an optional sign, digits, an optional fraction and an optional exponent (taken
only when it has a digit).  Throws `invalid_argument`, as `stod` does, when the
mantissa has no digit. -/
def strtodValue (str : Str) : Res ℚ :=
  let t := str.dropWhile isspace
  let neg := t.head? == some '-'
  let t := if t.head? == some '-' || t.head? == some '+' then t.drop 1 else t
  let ip := t.takeWhile isdigit
  let t := t.dropWhile isdigit
  let fp := if t.head? == some '.' then (t.drop 1).takeWhile isdigit else []
  let t := if t.head? == some '.' then (t.drop 1).dropWhile isdigit else t
  if ip.isEmpty && fp.isEmpty then .throw .invalid_argument
  else
    let t := if t.head? == some 'e' || t.head? == some 'E' then t.drop 1 else []
    let eneg := t.head? == some '-'
    let t := if t.head? == some '-' || t.head? == some '+' then t.drop 1 else t
    let ex := decVal (t.takeWhile isdigit)
    let m : Int := if neg then -(decVal (ip ++ fp) : Int) else (decVal (ip ++ fp) : Int)
    if eneg then .ok (mkRat m (10 ^ (fp.length + ex)))
    else if fp.length ≤ ex then .ok (mkRat (m * 10 ^ (ex - fp.length)) 1)
    else .ok (mkRat m (10 ^ (fp.length - ex)))

/-- Halving `n` until it is below 2, at most `fuel` times: the number of
halvings. -/
def ilog2Fuel : Nat → Nat → Nat
  | 0, _ => 0
  | fuel + 1, n => if n < 2 then 0 else ilog2Fuel fuel (n / 2) + 1

/-- The integer part of the binary logarithm of a positive `n`. -/
def ilog2 (n : Nat) : Nat :=
  ilog2Fuel n n

/-- The binade of `n / d`, for positive `n` and `d`: the integer `E` with
`2 ^ E ≤ n / d < 2 ^ (E + 1)`. -/
def binade (n d : Nat) : Int :=
  let e0 : Int := (ilog2 n : Int) - (ilog2 d : Int)
  if d * 2 ^ e0.toNat ≤ n * 2 ^ (-e0).toNat then e0 else e0 - 1

/-- The integer nearest to `n / (d * 2 ^ u)`, a tie going to the even
neighbour. -/
def roundScaled (n d : Nat) (u : Int) : Nat :=
  let num := n * 2 ^ (-u).toNat
  let den := d * 2 ^ u.toNat
  if 2 * (num % den) > den ∨ (2 * (num % den) = den ∧ (num / den) % 2 = 1) then num / den + 1
  else num / den

/-- The conversion of an exact value to `double` that `stod` performs through
`strtod`: IEEE 754 binary64, rounding to nearest, a tie to the even mantissa; the
result is `m * 2 ^ u` with `u` the exponent of the last place, at least -1074.
`out_of_range` is thrown when the rounded value is not finite, and when the
value is tiny (below the smallest normal number `2 ^ -1022` once rounded to 53
bits) and not representable. -/
def roundToDouble (v : ℚ) : Res ℚ :=
  if v.num = 0 then .ok 0
  else
    let n := v.num.natAbs
    let u := max (binade n v.den - 52) (-1074)
    let m := roundScaled n v.den u
    if 2 ^ 1024 ≤ m * 2 ^ u.toNat then .throw .out_of_range
    else if (n * 2 ^ (-u).toNat) % (v.den * 2 ^ u.toNat) ≠ 0 ∧
        (binade n v.den < -1023 ∨
          (binade n v.den = -1023 ∧ roundScaled n v.den (-1075) < 2 ^ 53)) then
      .throw .out_of_range
    else if v.num < 0 then .ok (mkRat (-((m * 2 ^ u.toNat : Nat) : Int)) (2 ^ (-u).toNat))
    else .ok (mkRat ((m * 2 ^ u.toNat : Nat) : Int) (2 ^ (-u).toNat))

/-- The call `stod(str)`: the decimal text at the head of `str`, converted to
`double`. -/
def stod (str : Str) : Res ℚ :=
  (strtodValue str).bind roundToDouble

/-! ## The class `JSONParser`

The members `jsonString` and `index` are passed explicitly: every function takes
the text and the cursor and returns the new cursor with its result. -/

namespace JSONParser

/-- Method `skipWhiteSpace`: the cursor after the longest run of whitespace that
starts at `index` (the loop stops at the end of the text). -/
def skipWhiteSpace (jsonString : Str) (index : Nat) : Nat :=
  index + ((jsonString.drop index).takeWhile isspace).length

/-- The loop `while (index < size && isdigit(getCurrentChar())) ++index` of
`parseNumber`. -/
def skipDigits (jsonString : Str) (index : Nat) : Nat :=
  index + ((jsonString.drop index).takeWhile isdigit).length

/-- Method `getCurrentChar`, that is `jsonString[index]`: the terminating NUL at
`index == size()`, undefined behaviour beyond. -/
def getCurrentChar (jsonString : Str) (index : Nat) : Res Char :=
  if index < jsonString.length then .ok (jsonString.getD index '\x00')
  else if index = jsonString.length then .ok '\x00'
  else .undefined

/-- Method `expect`: the cursor after `expected` and the whitespace behind it. -/
def expect (jsonString : Str) (index : Nat) (expected : Str) : Res Nat :=
  (substr jsonString index expected.length).bind fun sub =>
    if sub = expected then .ok (skipWhiteSpace jsonString (index + expected.length))
    else .throw .invalid_argument

/-- The one-character cases of the `switch` in `parseString`: the character an
escape letter stands for. -/
def escapeChar (c : Char) : Option Char :=
  if c = '"' then some '"'
  else if c = '\\' then some '\\'
  else if c = '/' then some '/'
  else if c = 'b' then some '\x08'
  else if c = 'f' then some '\x0c'
  else if c = 'n' then some '\n'
  else if c = 'r' then some '\r'
  else if c = 't' then some '\t'
  else none

/-- The `switch` on the character behind a backslash in `parseString`: the
extended result and the cursor at the `break`. -/
def parseEscape (jsonString : Str) (index : Nat) (currentChar : Char) (result : Str) :
    Res (Str × Nat) :=
  if currentChar = 'u' then
    (substr jsonString (index + 1) 4).bind fun hexString =>
    (stoi16 hexString).bind fun codePoint =>
      if codePoint < 0xD800 || codePoint > 0xDFFF then
        .ok (result ++ [Char.ofNat (codePoint % 256).toNat], index + 5)
      else .throw .invalid_argument
  else
    match escapeChar currentChar with
    | some x => .ok (result ++ [x], index)
    | none => .throw .invalid_argument

/-- The `while` loop of `parseString` and the test behind it.  `fuel` bounds the
number of iterations. -/
def parseStringLoop (jsonString : Str) :
    Nat → Nat → Char → Str → Res (Str × Nat)
  | 0, _, _, _ => .nofuel
  | fuel + 1, index, currentChar, result =>
    if currentChar ≠ '"' ∧ index < jsonString.length then
      if currentChar = '\\' then
        (getCurrentChar jsonString (index + 1)).bind fun c =>
        (parseEscape jsonString (index + 1) c result).bind fun ri =>
        (getCurrentChar jsonString (ri.2 + 1)).bind fun c2 =>
          parseStringLoop jsonString fuel (ri.2 + 1) c2 ri.1
      else
        (getCurrentChar jsonString (index + 1)).bind fun c2 =>
          parseStringLoop jsonString fuel (index + 1) c2 (result ++ [currentChar])
    else if currentChar = '"' then
      .ok (result, skipWhiteSpace jsonString (index + 1))
    else .throw .invalid_argument

/-- Method `parseString`.  Every iteration of the loop moves the cursor forward,
so `size + 1` iterations are enough. -/
def parseString (jsonString : Str) (index : Nat) : Res (Str × Nat) :=
  (expect jsonString index ['"']).bind fun index =>
  (getCurrentChar jsonString index).bind fun currentChar =>
    parseStringLoop jsonString (jsonString.length + 1) index currentChar []

/-- The `if` on the sign at the head of `parseNumber` (lines 201 to 203). -/
def numberSign (jsonString : Str) (index : Nat) : Res Nat :=
  (getCurrentChar jsonString index).bind fun c =>
    .ok (if c = '-' then index + 1 else index)

/-- The `if` on the fraction in `parseNumber` (lines 209 to 215). -/
def numberFraction (jsonString : Str) (index : Nat) : Res Nat :=
  (getCurrentChar jsonString index).bind fun c =>
    .ok (if c = '.' then skipDigits jsonString (index + 1) else index)

/-- The `if` on the exponent in `parseNumber` (lines 217 to 227). -/
def numberExponent (jsonString : Str) (index : Nat) : Res Nat :=
  (getCurrentChar jsonString index).bind fun c =>
    if c = 'e' ∨ c = 'E' then
      (getCurrentChar jsonString (index + 1)).bind fun c =>
        .ok (skipDigits jsonString (if c = '-' ∨ c = '+' then index + 2 else index + 1))
    else .ok index

/-- The cursor behind the text of a number (lines 201 to 227 of
`parseNumber`). -/
def numberEnd (jsonString : Str) (index : Nat) : Res Nat :=
  (numberSign jsonString index).bind fun index =>
  (numberFraction jsonString (skipDigits jsonString index)).bind fun index =>
    numberExponent jsonString index

/-- Method `parseNumber`. -/
def parseNumber (jsonString : Str) (index : Nat) : Res (ℚ × Nat) :=
  let startIndex := index
  (numberEnd jsonString index).bind fun index =>
  (substr jsonString startIndex (index - startIndex)).bind fun numberString =>
  (stod numberString).bind fun d =>
    .ok (d, skipWhiteSpace jsonString index)

mutual

/-- Method `parse`, with a bound `fuel` on the depth of calls and loop
iterations. -/
def parseFuel : Nat → Str → Nat → Res (JSONValue × Nat)
  | 0, _, _ => .nofuel
  | fuel + 1, jsonString, index =>
    let index := skipWhiteSpace jsonString index
    (getCurrentChar jsonString index).bind fun firstChar =>
      if firstChar = 'n' then
        (expect jsonString index ['n', 'u', 'l', 'l']).bind fun i => .ok (.null, i)
      else if firstChar = 't' then
        (expect jsonString index ['t', 'r', 'u', 'e']).bind fun i => .ok (.boolean true, i)
      else if firstChar = 'f' then
        (expect jsonString index ['f', 'a', 'l', 's', 'e']).bind fun i =>
          .ok (.boolean false, i)
      else if firstChar = '"' then
        (parseString jsonString index).bind fun r => .ok (.string r.1, r.2)
      else if isdigit firstChar ∨ firstChar = '-' then
        (parseNumber jsonString index).bind fun r => .ok (.number r.1, r.2)
      else if firstChar = '[' then
        (expect jsonString index ['[']).bind fun i =>
        (parseArrayLoop fuel jsonString i []).bind fun r => .ok (.array r.1, r.2)
      else if firstChar = '{' then
        (expect jsonString index ['{']).bind fun i =>
        (parseObjectLoop fuel jsonString i []).bind fun r => .ok (.object r.1, r.2)
      else .throw .invalid_argument

/-- The `while` loop of `parseArray` and the statements behind it. -/
def parseArrayLoop : Nat → Str → Nat → List JSONValue → Res (List JSONValue × Nat)
  | 0, _, _, _ => .nofuel
  | fuel + 1, jsonString, index, result =>
    (getCurrentChar jsonString index).bind fun c =>
      if c ≠ ']' then
        (parseFuel fuel jsonString index).bind fun vi =>
        (getCurrentChar jsonString vi.2).bind fun c2 =>
          if c2 = ',' then
            parseArrayLoop fuel jsonString (skipWhiteSpace jsonString (vi.2 + 1))
              (result ++ [vi.1])
          else if c2 ≠ ']' then .throw .invalid_argument
          else parseArrayLoop fuel jsonString vi.2 (result ++ [vi.1])
      else .ok (result, skipWhiteSpace jsonString (index + 1))

/-- The `while` loop of `parseObject` and the statements behind it. -/
def parseObjectLoop : Nat → Str → Nat → List (Str × JSONValue) →
    Res (List (Str × JSONValue) × Nat)
  | 0, _, _, _ => .nofuel
  | fuel + 1, jsonString, index, result =>
    (getCurrentChar jsonString index).bind fun c =>
      if c ≠ '}' then
        (parseString jsonString index).bind fun ki =>
        (expect jsonString ki.2 [':']).bind fun i =>
        (parseFuel fuel jsonString i).bind fun vi =>
        (getCurrentChar jsonString vi.2).bind fun c2 =>
          if c2 = ',' then
            parseObjectLoop fuel jsonString (skipWhiteSpace jsonString (vi.2 + 1))
              (emplace result ki.1 vi.1)
          else if c2 ≠ '}' then .throw .invalid_argument
          else parseObjectLoop fuel jsonString vi.2 (emplace result ki.1 vi.1)
      else .ok (result, skipWhiteSpace jsonString (index + 1))

end

/-- Method `parse` on a fresh parser (`index = 0`): the value and the final
cursor.  A call of `parse` consumes a character before it recurses and a loop
iteration consumes one before the next, so twice the length of the text bounds
the fuel that a run can use (`parse_ne_nofuel` below proves that the result is
never `nofuel`). -/
def parse (jsonString : Str) : Res (JSONValue × Nat) :=
  parseFuel (2 * jsonString.length + 1) jsonString 0

end JSONParser

/-! ## The method table (the splitting code of `main`) -/

/-- The loop of `split`.  `fuel` bounds the number of iterations. -/
def splitLoop (delimiter : Str) : Nat → Str → List Str → Res (List Str)
  | 0, _, _ => .nofuel
  | fuel + 1, s, tokens =>
    match find s delimiter with
    | some pos =>
      splitLoop delimiter fuel (s.drop (pos + delimiter.length)) (tokens ++ [s.take pos])
    | none => .ok (tokens ++ [s])

/-- The function `split`.  With a non-empty delimiter every iteration shortens
`s`, so `length + 1` iterations are enough; with an empty one the loop of the
source does not end. -/
def split (s delimiter : Str) : Res (List Str) :=
  splitLoop delimiter (s.length + 1) s []

/-- Membership in the set `" \t\n\r"` of `removeWhitespace`. -/
def isBlank (c : Char) : Bool :=
  c == ' ' || c == '\t' || c == '\n' || c == '\r'

/-- The function `removeWhitespace`: `start` is `find_first_not_of`, which is
`npos` exactly when the whole string is blank, `last` is `find_last_not_of`. -/
def removeWhitespace (str : Str) : Str :=
  let start := (str.takeWhile isBlank).length
  if start = str.length then []
  else
    let last := str.length - 1 - (str.reverse.takeWhile isBlank).length
    (str.drop start).take (last - start + 1)

/-- The five vectors that `main` fills and hands to the emitters. -/
structure MethodTable where
  classStrings : List Str
  visStrings : List Str
  returnTypeStrings : List Str
  mtdNameStrings : List Str
  mtdImplStrings : List Str
  deriving DecidableEq, Repr

/-- The method table with no record. -/
def emptyTable : MethodTable := ⟨[], [], [], [], []⟩

/-- The sentinel line `"######\n"`. -/
def sentinel : Str := ['#', '#', '#', '#', '#', '#', '\n']

/-- Body of the first loop of `main` for one chunk: class name and visibility.
Reading `classVisStrings[1]` when the chunk has no `" -"` is an unchecked
out-of-bounds read. -/
def classVis (classVisString : Str) : Res (Str × Str) :=
  (split classVisString [' ', '-']).bind fun classVisStrings =>
    match classVisStrings with
    | p0 :: p1 :: _ => .ok (removeWhitespace p0, removeWhitespace p1)
    | _ => .undefined

/-- The first loop of `main`, over the chunks at positions 0, 2, 4, ...: the
vectors `classStrings` and `visStrings`. -/
def classVisLoop : List Str → Res (List Str × List Str)
  | [] => .ok ([], [])
  | [c] => (classVis c).bind fun cv => .ok ([cv.1], [cv.2])
  | c :: _ :: rest =>
    (classVis c).bind fun cv =>
    (classVisLoop rest).bind fun r => .ok (cv.1 :: r.1, cv.2 :: r.2)

/-- Body of the second loop of `main` for one chunk: return type, method name
and implementation.  `substr(splitIdx)` throws `out_of_range` when `find`
returned `npos`. -/
def retTypeMtdNameImpl (retTypeMtdNameImplString : Str) : Res (Str × Str × Str) :=
  match find retTypeMtdNameImplString ['{'] with
  | none => .throw .out_of_range
  | some splitIdx =>
    let retTypeMtdNameString := removeWhitespace (retTypeMtdNameImplString.take splitIdx)
    let mtdImplString := removeWhitespace (retTypeMtdNameImplString.drop splitIdx)
    match find retTypeMtdNameString [' '] with
    | none => .throw .out_of_range
    | some splitIdx2 =>
      .ok (retTypeMtdNameString.take splitIdx2,
        removeWhitespace (retTypeMtdNameString.drop splitIdx2), mtdImplString)

/-- The second loop of `main`, over the chunks at positions 1, 3, 5, ...: the
vectors `returnTypeStrings`, `mtdNameStrings` and `mtdImplStrings`. -/
def mtdLoop : List Str → Res (List Str × List Str × List Str)
  | [] => .ok ([], [], [])
  | [_] => .ok ([], [], [])
  | _ :: c :: rest =>
    (retTypeMtdNameImpl c).bind fun m =>
    (mtdLoop rest).bind fun r => .ok (m.1 :: r.1, m.2.1 :: r.2.1, m.2.2 :: r.2.2)

/-- The chunks of the companion text: `split` on the sentinel, first chunk
erased. -/
def chunks (txtString : Str) : Res (List Str) :=
  (split txtString sentinel).bind fun splitStrings => .ok (splitStrings.drop 1)

/-- Lines 461 to 488 of `main`: the method table built from the text of the
companion file. -/
def methodTable (txtString : Str) : Res MethodTable :=
  (chunks txtString).bind fun splitStrings =>
  (classVisLoop splitStrings).bind fun cv =>
  (mtdLoop splitStrings).bind fun m =>
    .ok ⟨cv.1, cv.2, m.1, m.2.1, m.2.2⟩

/-! ## The emitters -/

/-- The function `to_string(int)`. -/
def intToString (i : Int) : Str :=
  if i < 0 then '-' :: Nat.toDigits 10 i.natAbs else Nat.toDigits 10 i.natAbs

/-- The function `to_string(double)`, that is the format `%f`: six decimals,
rounded to nearest, a tie to the even neighbour. -/
def doubleToString (q : ℚ) : Str :=
  let scaled := q.num.natAbs * 10 ^ 6
  let n := scaled / q.den
  let r := scaled % q.den
  let n := if 2 * r > q.den ∨ (2 * r = q.den ∧ n % 2 = 1) then n + 1 else n
  let frac := Nat.toDigits 10 (n % 10 ^ 6)
  (if q.num < 0 then ['-'] else []) ++ Nat.toDigits 10 (n / 10 ^ 6) ++ ['.'] ++
    List.replicate (6 - frac.length) '0' ++ frac

/-- The call `numStr.erase(numStr.find_last_not_of(c) + 1, npos)`: the string
without its trailing run of `c`. -/
def eraseTrailing (c : Char) (numStr : Str) : Str :=
  (numStr.reverse.dropWhile (· == c)).reverse

/-- The conversion `int(double)` of an integral value followed by `to_string`;
undefined behaviour when the value does not fit an `int`. -/
def intText (q : ℚ) : Res Str :=
  if -2147483648 ≤ q.num ∧ q.num ≤ 2147483647 then .ok (intToString q.num) else .undefined

/-- The local strings and the counter of the key loop of `generate_impl_file`,
with the map `jsonMap`. -/
structure FieldAcc where
  jsonMap : List (Str × JSONValue)
  count : Nat
  headerParamStr : Str
  consParamStr : Str
  consInitStr : Str
  objInstStr : Str

/-- The type name, and the argument text, for the value of a field (lines 324
to 342); nothing for a value that is neither a string nor a number. -/
def fieldFragments (value : JSONValue) : Res (Option (Str × Str)) :=
  if value.type = .String then
    .ok (some ("string".toList, ['"'] ++ value.stringValue ++ ['"']))
  else if value.type = .Number then
    if Rat.ceil value.numberValue = Rat.floor value.numberValue then
      (intText value.numberValue).bind fun t => .ok (some ("int".toList, t))
    else
      .ok (some ("float".toList,
        eraseTrailing '.' (eraseTrailing '0' (doubleToString value.numberValue)) ++ ['f']))
  else .ok none

/-- One iteration of the key loop of `generate_impl_file` (lines 318 to 356).
When the value key is absent, `jsonMap[valueKey]` (line 322) inserts it into the
map that the range-for is iterating: the insertion may rehash the container,
which invalidates the iterator of the loop, so the source does not determine
what the loop does next and the outcome is `undefined`.  The message written to
`cout` for an unsupported key is not part of the model. -/
def fieldStep (acc : FieldAcc) (element : Str × JSONValue) : Res FieldAcc :=
  if (find element.1 "Field".toList).isSome then
    (substrFrom element.1 5).bind fun index =>
    let valueKey := "Value".toList ++ index
    if (mapFind acc.jsonMap valueKey).isNone then .undefined else
    let vm := mapIndex acc.jsonMap valueKey
    let name := element.2.stringValue
    let consInitStr := acc.consInitStr ++ ("this->".toList ++ name ++ " = ".toList ++ name ++
      ";\n".toList)
    (fieldFragments vm.1).bind fun frag =>
    let headerParamStr := match frag with
      | some (ty, _) => acc.headerParamStr ++ (ty ++ " ".toList ++ name ++ ";\n".toList)
      | none => acc.headerParamStr
    let consParamStr := match frag with
      | some (ty, _) => acc.consParamStr ++ (ty ++ " ".toList ++ name)
      | none => acc.consParamStr
    let objInstStr := match frag with
      | some (_, arg) => acc.objInstStr ++ arg
      | none => acc.objInstStr
    let count := acc.count + 1
    if count ≠ ((vm.2.length + 2 ^ 64 - 2) % 2 ^ 64) / 2 then
      .ok ⟨vm.2, count, headerParamStr, consParamStr ++ ", ".toList, consInitStr,
        objInstStr ++ ", ".toList⟩
    else .ok ⟨vm.2, count, headerParamStr, consParamStr, consInitStr, objInstStr⟩
  else .ok acc

/-- The key loop of `generate_impl_file` over the entries of `jsonMap` in the
order in which the container iterates them. -/
def fieldLoop : List (Str × JSONValue) → FieldAcc → Res FieldAcc
  | [], acc => .ok acc
  | element :: rest, acc => (fieldStep acc element).bind fun acc => fieldLoop rest acc

/-- The strings filled by the method loop of `generate_impl_file`. -/
structure MtdAcc where
  privateMtdStr : Str
  publicMtdStr : Str
  protectedMtdStr : Str
  cppMtdStr : Str
  deriving DecidableEq

/-- The unchecked `operator[]` of `vector`. -/
def vecAt (v : List Str) (i : Nat) : Res Str :=
  match v.get? i with
  | some x => .ok x
  | none => .undefined

/-- One iteration of the method loop of `generate_impl_file` (lines 369 to
385) at index `i`. -/
def mtdStep (t : MethodTable) (className : Str) (i : Nat) (acc : MtdAcc) : Res MtdAcc :=
  (vecAt t.classStrings i).bind fun cls =>
    if cls = className then
      (vecAt t.returnTypeStrings i).bind fun returnType =>
      (vecAt t.mtdNameStrings i).bind fun mtdName =>
      (vecAt t.mtdImplStrings i).bind fun mtdImpl =>
      let cppMtdStr := acc.cppMtdStr ++
        (returnType ++ " ".toList ++ className ++ "::".toList ++ mtdName ++ mtdImpl ++ "\n".toList)
      (vecAt t.visStrings i).bind fun currVis =>
      let currMtdStr := returnType ++ " ".toList ++ mtdName ++ ";\n".toList
      if currVis = "private".toList then
        .ok ⟨acc.privateMtdStr ++ currMtdStr, acc.publicMtdStr, acc.protectedMtdStr, cppMtdStr⟩
      else if currVis = "public".toList then
        .ok ⟨acc.privateMtdStr, acc.publicMtdStr ++ currMtdStr, acc.protectedMtdStr, cppMtdStr⟩
      else
        .ok ⟨acc.privateMtdStr, acc.publicMtdStr, acc.protectedMtdStr ++ currMtdStr, cppMtdStr⟩
    else .ok acc

/-- The method loop of `generate_impl_file` over the indices `is`. -/
def mtdStrLoop (t : MethodTable) (className : Str) : List Nat → MtdAcc → Res MtdAcc
  | [], acc => .ok acc
  | i :: is, acc => (mtdStep t className i acc).bind fun acc => mtdStrLoop t className is acc

/-- The texts an emitter appends to `header_file` and to `cpp_file`, and the
string it returns. -/
structure Emitted where
  header : Str
  cpp : Str
  outStr : Str
  deriving DecidableEq

/-- The function `generate_impl_file`.  The list of `inJsonValue.objectValue`
is read as the order in which the range-for of line 317 visits the entries; the
keys `Class` and `Instance`, which `operator[]` adds when they are absent (lines
304 and 407), are passed over by the loop wherever they stand. -/
def generate_impl_file (inJsonValue : JSONValue) (t : MethodTable) : Res Emitted :=
  let cm := mapIndex inJsonValue.objectValue "Class".toList
  let className := cm.1.stringValue
  let objectValue := cm.2
  (fieldLoop objectValue ⟨objectValue, 0, [], [], [], []⟩).bind fun f =>
  (mtdStrLoop t className (List.range t.classStrings.length) ⟨[], [], [], []⟩).bind fun m =>
  let instance_ := (mapIndex objectValue "Instance".toList).1.stringValue
  .ok {
    header := "class ".toList ++ className ++ " \x7b\n".toList ++ "private:\n".toList ++
      f.headerParamStr ++ m.privateMtdStr ++ "public:\n".toList ++ className ++ "(".toList ++
      f.consParamStr ++ ");\n".toList ++ m.publicMtdStr ++ "protected: \n".toList ++
      m.protectedMtdStr ++ "\x7d;\n".toList
    cpp := className ++ "::".toList ++ className ++ "(".toList ++ f.consParamStr ++
      ") \x7b\n".toList ++ f.consInitStr ++ "\x7d\n".toList ++ m.cppMtdStr
    outStr := className ++ " ".toList ++ instance_ ++ " = ".toList ++ className ++
      "(".toList ++ f.objInstStr ++ ");\n".toList }

/-- The calls of `generate_impl_file` on the elements of an array, in order:
the concatenated header text, definition text and returned statements. -/
def generate_impl_files : List JSONValue → MethodTable → Res Emitted
  | [], _ => .ok ⟨[], [], []⟩
  | parsedJsonValue :: rest, t =>
    (generate_impl_file parsedJsonValue t).bind fun e =>
    (generate_impl_files rest t).bind fun r =>
      .ok ⟨e.header ++ r.header, e.cpp ++ r.cpp, e.outStr ++ r.outStr⟩

/-- The function `generate_file`: the texts written to `header_file` and to
`cpp_file`; `outStr` holds `mainStr`. -/
def generate_file (inJsonValue : JSONValue) (fileName : Str) (t : MethodTable) :
    Res Emitted :=
  let capFileName := fileName.map Char.toUpper
  (if inJsonValue.arrayValue.isEmpty then generate_impl_file inJsonValue t
    else generate_impl_files inJsonValue.arrayValue t).bind fun e =>
  .ok {
    header := "#ifndef ".toList ++ capFileName ++ "_H\n".toList ++ "#define ".toList ++
      capFileName ++ "_H\n".toList ++ "#include <string>\n".toList ++
      "using namespace std;\n".toList ++ e.header ++ "#endif\n".toList
    cpp := "#include <iostream>\n".toList ++ "#include \"".toList ++ fileName ++
      ".h\"\n".toList ++ "using namespace std;\n".toList ++ e.cpp ++
      "int main(int argc, char *argv[]) \x7b\n".toList ++ e.outStr ++ "return 0;\n\x7d\n".toList
    outStr := e.outStr }

/-! ## Records of an aligned method table -/

/-- One method record: the entries of the five vectors at one position. -/
structure MethodRecord where
  cls : Str
  vis : Str
  ret : Str
  name : Str
  impl : Str
  deriving DecidableEq, Repr

/-- The records of five sequences read in parallel. -/
def recordsOf : List Str → List Str → List Str → List Str → List Str → List MethodRecord
  | c :: cs, v :: vs, r :: rs, n :: ns, b :: bs => ⟨c, v, r, n, b⟩ :: recordsOf cs vs rs ns bs
  | _, _, _, _, _ => []

/-- The records of a method table. -/
def MethodTable.records (t : MethodTable) : List MethodRecord :=
  recordsOf t.classStrings t.visStrings t.returnTypeStrings t.mtdNameStrings t.mtdImplStrings

/-- A method table is aligned when its five sequences have the same length. -/
def MethodTable.aligned (t : MethodTable) : Prop :=
  t.visStrings.length = t.classStrings.length ∧
  t.returnTypeStrings.length = t.classStrings.length ∧
  t.mtdNameStrings.length = t.classStrings.length ∧
  t.mtdImplStrings.length = t.classStrings.length

/-- The method table whose five sequences are the components of the records. -/
def tableOf (rs : List MethodRecord) : MethodTable :=
  ⟨rs.map (·.cls), rs.map (·.vis), rs.map (·.ret), rs.map (·.name), rs.map (·.impl)⟩

/-- The declaration line `<returnType> <methodName>;` of a record. -/
def declLine (r : MethodRecord) : Str :=
  r.ret ++ " ".toList ++ r.name ++ ";\n".toList

/-- The definition line `<returnType> C::<methodName><body>` of a record. -/
def defLine (C : Str) (r : MethodRecord) : Str :=
  r.ret ++ " ".toList ++ C ++ "::".toList ++ r.name ++ r.impl ++ "\n".toList

/-- What one record adds to the four strings of the method loop. -/
def addRecord (C : Str) (acc : MtdAcc) (r : MethodRecord) : MtdAcc :=
  if r.cls = C then
    if r.vis = "private".toList then
      ⟨acc.privateMtdStr ++ declLine r, acc.publicMtdStr, acc.protectedMtdStr,
        acc.cppMtdStr ++ defLine C r⟩
    else if r.vis = "public".toList then
      ⟨acc.privateMtdStr, acc.publicMtdStr ++ declLine r, acc.protectedMtdStr,
        acc.cppMtdStr ++ defLine C r⟩
    else
      ⟨acc.privateMtdStr, acc.publicMtdStr, acc.protectedMtdStr ++ declLine r,
        acc.cppMtdStr ++ defLine C r⟩
  else acc

/-! ## Companion texts made of records -/

/-- The six characters of the sentinel before its newline. -/
def hashes : Str := ['#', '#', '#', '#', '#', '#']

/-- The header chunk of a record: class name, `" -"`, visibility, newline. -/
def headerChunk (r : MethodRecord) : Str :=
  r.cls ++ " -".toList ++ r.vis ++ "\n".toList

/-- The body chunk of a record: return type, method name and body, separated by
blanks, and a newline. -/
def bodyChunk (r : MethodRecord) : Str :=
  r.ret ++ " ".toList ++ r.name ++ " ".toList ++ r.impl ++ "\n".toList

/-- The text of one record: a sentinel line before each of its two chunks. -/
def recordText (r : MethodRecord) : Str :=
  sentinel ++ headerChunk r ++ sentinel ++ bodyChunk r

/-- The companion text: a preamble followed by the texts of the records. -/
def companionText (preamble : Str) (rs : List MethodRecord) : Str :=
  preamble ++ (rs.map recordText).flatten

/-- A word: not empty, without blank and without opening brace. -/
def plainWord (w : Str) : Prop :=
  w ≠ [] ∧ ∀ c ∈ w, isBlank c = false ∧ c ≠ '{'

/-- A body: begins with an opening brace, does not end in a blank and does not
contain the sentinel. -/
def plainBody (b : Str) : Prop :=
  b.head? = some '{' ∧ (∀ c ∈ b.getLast?, isBlank c = false) ∧ find b sentinel = none

/-- The conditions of the claim on a record. -/
def claimRecord (r : MethodRecord) : Prop :=
  plainWord r.cls ∧ plainWord r.vis ∧ plainWord r.ret ∧ plainWord r.name ∧ plainBody r.impl

/-- The conditions of the claim and, in addition, neither the visibility nor
the body ends in six hash signs. -/
def goodRecord (r : MethodRecord) : Prop :=
  claimRecord r ∧ ¬ hashes <:+ r.vis ∧ ¬ hashes <:+ r.impl

/-- The chunks of the records: header chunk and body chunk of each, in order. -/
def chunkList : List MethodRecord → List Str
  | [] => []
  | r :: rs => headerChunk r :: bodyChunk r :: chunkList rs

instance (w : Str) : Decidable (plainWord w) :=
  inferInstanceAs (Decidable (w ≠ [] ∧ ∀ c ∈ w, isBlank c = false ∧ c ≠ '{'))

instance (b : Str) : Decidable (plainBody b) :=
  inferInstanceAs (Decidable (b.head? = some '{' ∧ (∀ c ∈ b.getLast?, isBlank c = false) ∧
    find b sentinel = none))

instance (r : MethodRecord) : Decidable (claimRecord r) :=
  inferInstanceAs (Decidable (plainWord r.cls ∧ plainWord r.vis ∧ plainWord r.ret ∧
    plainWord r.name ∧ plainBody r.impl))

instance (r : MethodRecord) : Decidable (goodRecord r) :=
  inferInstanceAs (Decidable (claimRecord r ∧ ¬ hashes <:+ r.vis ∧ ¬ hashes <:+ r.impl))

/-! ## Object nodes with missing keys -/

/-- The string under a key of an object, empty when the key is absent. -/
def keyString (m : List (Str × JSONValue)) (k : Str) : Str :=
  match mapFind m k with
  | some v => v.stringValue
  | none => []

/-- A value is not an integral number outside the range of `int`. -/
def fitsInt : JSONValue → Bool
  | .number q =>
    decide (Rat.ceil q = Rat.floor q → -2147483648 ≤ q.num ∧ q.num ≤ 2147483647)
  | _ => true

/-- No value of the object is an integral number outside the range of `int`. -/
def intsFit (m : List (Str × JSONValue)) : Prop :=
  ∀ kv ∈ m, fitsInt kv.2 = true

instance (m : List (Str × JSONValue)) : Decidable (intsFit m) :=
  inferInstanceAs (Decidable (∀ kv ∈ m, fitsInt kv.2 = true))

/-! ## Texts inside a larger text -/

/-- A character that ends a number and is not whitespace: no digit, no dot, no
exponent mark, no sign. -/
def isNeutral (c : Char) : Prop :=
  isspace c = false ∧ isdigit c = false ∧ c ≠ '.' ∧ c ≠ 'e' ∧ c ≠ 'E' ∧ c ≠ '+' ∧ c ≠ '-'

instance (c : Char) : Decidable (isNeutral c) :=
  inferInstanceAs (Decidable (isspace c = false ∧ isdigit c = false ∧ c ≠ '.' ∧ c ≠ 'e' ∧
    c ≠ 'E' ∧ c ≠ '+' ∧ c ≠ '-'))

/-- The text `s` is empty or begins with a neutral character. -/
def neutralNext (s : Str) : Prop :=
  ∀ c ∈ s.head?, isNeutral c

instance (s : Str) : Decidable (neutralNext s) :=
  inferInstanceAs (Decidable (∀ c ∈ s.head?, isNeutral c))

/-! ## Decimal texts -/

/-- The value of a run of decimal digits, most significant digit first. -/
def digitsValue (ds : Str) : Nat :=
  Nat.ofDigits 10 ((ds.map fun c => c.toNat - 48).reverse)

/-- The optional fraction of a decimal text: a `.` followed by digits. -/
def fractionText : Option Str → Str
  | some f => '.' :: f
  | none => []

/-- A decimal text: an optional `-`, the digits `ip` and the optional
fraction. -/
def decimalText (neg : Bool) (ip : Str) (fp : Option Str) : Str :=
  (if neg then ['-'] else []) ++ ip ++ fractionText fp

/-- The number a decimal text denotes. -/
def decimalValue (neg : Bool) (ip : Str) (fp : Option Str) : ℚ :=
  (if neg then -1 else 1) *
    ((digitsValue ip : ℚ) + (digitsValue (fp.getD []) : ℚ) / 10 ^ (fp.getD []).length)

/-- All characters of a text are decimal digits. -/
def allDigits (ds : Str) : Prop :=
  ∀ c ∈ ds, isdigit c = true

instance (ds : Str) : Decidable (allDigits ds) :=
  inferInstanceAs (Decidable (∀ c ∈ ds, isdigit c = true))

/-! ## Fields of an object node -/

/-- A key that the key loop of the emitter treats as a field: it contains
`Field`. -/
def isFieldKey (k : Str) : Bool :=
  (find k "Field".toList).isSome

/-- The key under which the emitter looks up the value of a field: `Value`
followed by what stands behind the first five characters of the field key. -/
def valueKeyOf (k : Str) : Str :=
  "Value".toList ++ k.drop 5

/-- The text of a number that is not integral: `to_string`, the trailing zeros
and a trailing dot trimmed, and the suffix `f`. -/
def floatText (q : ℚ) : Str :=
  eraseTrailing '.' (eraseTrailing '0' (doubleToString q)) ++ ['f']

/-- The type of the member declared for a literal: `string` for a string, `int`
for an integral number, `float` for another number. -/
def typeName : JSONValue → Str
  | .string _ => "string".toList
  | .number q => if Rat.ceil q = Rat.floor q then "int".toList else "float".toList
  | _ => []

/-- The instantiation argument of a literal: a string quoted verbatim, an
integral number as its integer text, another number trimmed with the suffix. -/
def argText : JSONValue → Str
  | .string s => ['"'] ++ s ++ ['"']
  | .number q => if Rat.ceil q = Rat.floor q then intToString q.num else floatText q
  | _ => []

/-- A value that is a string or a number. -/
def isLiteral : JSONValue → Bool
  | .string _ => true
  | .number _ => true
  | _ => false

/-- The member declaration `<type> <field>;` of a field; nothing when the value
is neither string nor number. -/
def declOf (name : Str) (value : JSONValue) : Str :=
  if isLiteral value then typeName value ++ " ".toList ++ name ++ ";\n".toList else []

/-- The constructor parameter `<type> <field>` of a field; nothing when the
value is neither string nor number. -/
def paramOf (name : Str) (value : JSONValue) : Str :=
  if isLiteral value then typeName value ++ " ".toList ++ name else []

/-- The constructor initializer line `this-><field> = <field>;` of a field. -/
def initOf (name : Str) : Str :=
  "this->".toList ++ name ++ " = ".toList ++ name ++ ";\n".toList

/-- The fields of the entries `l` in the order of the entries: the name under
each field key and the value under the matching value key of the map `m`. -/
def fieldsIn (m l : List (Str × JSONValue)) : List (Str × JSONValue) :=
  (l.filter fun kv => isFieldKey kv.1).map fun kv =>
    (kv.2.stringValue, (mapFind m (valueKeyOf kv.1)).getD .null)

/-- The right-hand side of the boundary test, `(jsonMap.size() - 2) / 2` in
unsigned 64-bit arithmetic. -/
def boundary (m : List (Str × JSONValue)) : Nat :=
  ((m.length + 2 ^ 64 - 2) % 2 ^ 64) / 2

/-- The fragments `xs`, each followed by `", "` unless its number, counted from
`count + 1`, equals `n`. -/
def sepJoin (n : Nat) : Nat → List Str → Str
  | _, [] => []
  | count, x :: xs =>
    x ++ (if count + 1 ≠ n then ", ".toList else []) ++ sepJoin n (count + 1) xs

/-- The fragments joined by `", "`: a separator behind each but the last. -/
def commaJoin : List Str → Str
  | [] => []
  | [x] => x
  | x :: y :: xs => x ++ ", ".toList ++ commaJoin (y :: xs)

/-- A field of an object node: the index `i` of its keys `Field<i>` and
`Value<i>`, its name and its literal value. -/
structure FieldSpec where
  idx : Str
  name : Str
  value : JSONValue

/-- The two entries of a field: `Field<i>` with the name, `Value<i>` with the
literal. -/
def FieldSpec.entries (f : FieldSpec) : List (Str × JSONValue) :=
  [("Field".toList ++ f.idx, .string f.name), ("Value".toList ++ f.idx, f.value)]

/-- The object node with `Class`, `Instance` and the pairs of the fields, in
this order. -/
def objectOf (C I : Str) (fields : List FieldSpec) : List (Str × JSONValue) :=
  ("Class".toList, .string C) :: ("Instance".toList, .string I) ::
    (fields.map FieldSpec.entries).flatten

/-- The indices of the fields are runs of digits, pairwise different. -/
def goodIndices (fields : List FieldSpec) : Prop :=
  (∀ f ∈ fields, allDigits f.idx) ∧ (fields.map FieldSpec.idx).Nodup

instance (fields : List FieldSpec) : Decidable (goodIndices fields) :=
  inferInstanceAs (Decidable ((∀ f ∈ fields, allDigits f.idx) ∧ (fields.map FieldSpec.idx).Nodup))

/-! ## Texts of arrays and objects -/

/-- A value text: `parse` accepts it and consumes it whole. -/
def accepted (v : Str) : Bool :=
  match JSONParser.parse v with
  | .ok (_, j) => j == v.length
  | _ => false

/-- A key text: `parseString` accepts it and consumes it whole. -/
def acceptedKey (kt : Str) : Bool :=
  match JSONParser.parseString kt 0 with
  | .ok (_, j) => j == kt.length
  | _ => false

/-- The head of an array text: the opening bracket and the element texts `es`,
each followed by a comma. -/
def arrayHead (es : List Str) : Str :=
  '[' :: (es.map fun e => e ++ [',']).flatten

/-- The head of an object text: the opening brace and the pairs `ps` of a key
text and a value text, written `key:value` and each followed by a comma. -/
def objectHead (ps : List (Str × Str)) : Str :=
  '{' :: (ps.map fun p => p.1 ++ ':' :: p.2 ++ [',']).flatten

/-! ## Canonical serialization

The program has no serializer.  The definitions of this section follow the
specification, which describes the canonical JSON text of a value: they are the
specification side of the round trip, and no part of `main.cpp`. -/

/-- The text of a character inside a canonical string: quote, backslash and
the control characters are escaped. -/
def escapeOf (c : Char) : Str :=
  if c = '"' then ['\\', '"']
  else if c = '\\' then ['\\', '\\']
  else if c = '\x08' then ['\\', 'b']
  else if c = '\x0c' then ['\\', 'f']
  else if c = '\n' then ['\\', 'n']
  else if c = '\r' then ['\\', 'r']
  else if c = '\t' then ['\\', 't']
  else if c.toNat < 32 then
    ['\\', 'u', '0', '0', Nat.digitChar (c.toNat / 16), Nat.digitChar (c.toNat % 16)]
  else [c]

/-- The canonical text of a string: its characters, escaped, between double
quotes. -/
def serializeString (s : Str) : Str :=
  ['"'] ++ (s.map escapeOf).flatten ++ ['"']

mutual

/-- The canonical JSON text of a value: the keywords, the decimal integer of an
integer-valued number, the canonical text of a string, and arrays and objects
with comma-separated members. -/
def serialize : JSONValue → Str
  | .null => "null".toList
  | .boolean b => if b then "true".toList else "false".toList
  | .number q => intToString q.num
  | .string s => serializeString s
  | .array xs => ['['] ++ serializeList xs ++ [']']
  | .object kvs => ['{'] ++ serializeKvs kvs ++ ['}']

/-- The canonical texts of the elements of an array, separated by commas. -/
def serializeList : List JSONValue → Str
  | [] => []
  | x :: xs => serialize x ++ (if xs.isEmpty then [] else [',']) ++ serializeList xs

/-- The canonical texts of the pairs of an object, separated by commas. -/
def serializeKvs : List (Str × JSONValue) → Str
  | [] => []
  | (k, x) :: kvs =>
    serializeString k ++ [':'] ++ serialize x ++ (if kvs.isEmpty then [] else [',']) ++
      serializeKvs kvs

end

/-! ## Texts followed by whitespace -/

/-- A character that cannot continue the text of a number. -/
def isQuiet (c : Char) : Prop :=
  isdigit c = false ∧ c ≠ '.' ∧ c ≠ 'e' ∧ c ≠ 'E' ∧ c ≠ '+' ∧ c ≠ '-'

instance (c : Char) : Decidable (isQuiet c) :=
  inferInstanceAs (Decidable (isdigit c = false ∧ c ≠ '.' ∧ c ≠ 'e' ∧ c ≠ 'E' ∧ c ≠ '+' ∧
    c ≠ '-'))

/-- The text `s` is empty or begins with a character that cannot continue the
text of a number; whitespace is such a character. -/
def quietNext (s : Str) : Prop :=
  ∀ c ∈ s.head?, isQuiet c

instance (s : Str) : Decidable (quietNext s) :=
  inferInstanceAs (Decidable (∀ c ∈ s.head?, isQuiet c))

/-- The cursor `j` of a run on the text `v`, as it is when `s` follows `v`: a run
that ends at the end of `v` goes on over the whitespace at the head of `s`. -/
def cursorIn (v s : Str) (j : Nat) : Nat :=
  if j = v.length then j + (s.takeWhile isspace).length else j

/-! ## Decidable equality of values -/

namespace JSONValue

mutual

theorem beq_eq : ∀ a b : JSONValue, beq a b = true → a = b
  | null, null, _ => rfl
  | boolean a, boolean b, h => by simp [beq] at h; rw [h]
  | number a, number b, h => by simp [beq] at h; rw [h]
  | string a, string b, h => by simp [beq] at h; rw [h]
  | array a, array b, h => by simp only [beq] at h; rw [beqList_eq a b h]
  | object a, object b, h => by simp only [beq] at h; rw [beqKvs_eq a b h]
  | null, boolean _, h | null, number _, h | null, string _, h
  | null, array _, h | null, object _, h
  | boolean _, null, h | boolean _, number _, h | boolean _, string _, h
  | boolean _, array _, h | boolean _, object _, h
  | number _, null, h | number _, boolean _, h | number _, string _, h
  | number _, array _, h | number _, object _, h
  | string _, null, h | string _, boolean _, h | string _, number _, h
  | string _, array _, h | string _, object _, h
  | array _, null, h | array _, boolean _, h | array _, number _, h
  | array _, string _, h | array _, object _, h
  | object _, null, h | object _, boolean _, h | object _, number _, h
  | object _, string _, h | object _, array _, h => by simp [beq] at h

theorem beqList_eq : ∀ a b : List JSONValue, beqList a b = true → a = b
  | [], [], _ => rfl
  | a :: as, b :: bs, h => by
    simp only [beqList, Bool.and_eq_true] at h
    rw [beq_eq a b h.1, beqList_eq as bs h.2]
  | [], _ :: _, h | _ :: _, [], h => by simp [beqList] at h

theorem beqKvs_eq : ∀ a b : List (Str × JSONValue), beqKvs a b = true → a = b
  | [], [], _ => rfl
  | (k, a) :: as, (l, b) :: bs, h => by
    simp only [beqKvs, Bool.and_eq_true, beq_iff_eq] at h
    rw [h.1.1, beq_eq a b h.1.2, beqKvs_eq as bs h.2]
  | [], _ :: _, h | _ :: _, [], h => by simp [beqKvs] at h

end

mutual

theorem beq_self : ∀ a : JSONValue, beq a a = true
  | null => rfl
  | boolean a => by simp [beq]
  | number a => by simp [beq]
  | string a => by simp [beq]
  | array a => by simp only [beq]; exact beqList_self a
  | object a => by simp only [beq]; exact beqKvs_self a

theorem beqList_self : ∀ a : List JSONValue, beqList a a = true
  | [] => rfl
  | a :: as => by
    simp only [beqList, Bool.and_eq_true]; exact ⟨beq_self a, beqList_self as⟩

theorem beqKvs_self : ∀ a : List (Str × JSONValue), beqKvs a a = true
  | [] => rfl
  | (k, a) :: as => by
    simp only [beqKvs, Bool.and_eq_true, beq_self_eq_true, true_and]
    exact ⟨beq_self a, beqKvs_self as⟩

end

instance : DecidableEq JSONValue := fun a b =>
  if h : beq a b = true then isTrue (beq_eq a b h)
  else isFalse (fun e => h (e ▸ beq_self a))

end JSONValue

/-! ## Evaluations at concrete inputs -/

/-- C5, at the empty array: `generate_file` calls the per-object emitter once,
on the array node itself, and the entry point holds the statement `  = ();`
made of empty names. -/
theorem generate_file_empty_array (fileName : Str) :
    generate_file (.array []) fileName emptyTable =
      .ok {
        header := "#ifndef ".toList ++ fileName.map Char.toUpper ++
          "_H\n#define ".toList ++ fileName.map Char.toUpper ++
          "_H\n#include <string>\nusing namespace std;\n".toList ++
          "class  \x7b\nprivate:\npublic:\n();\nprotected: \n\x7d;\n#endif\n".toList
        cpp := "#include <iostream>\n#include \"".toList ++ fileName ++
          ".h\"\nusing namespace std;\n::() \x7b\n\x7d\n".toList ++
          "int main(int argc, char *argv[]) \x7b\n  = ();\nreturn 0;\n\x7d\n".toList
        outStr := "  = ();\n".toList } := by
  simp [generate_file, generate_impl_file, emptyTable, JSONValue.arrayValue,
    JSONValue.objectValue, mapIndex, mapFind, fieldLoop, fieldStep, find, mtdStrLoop,
    JSONValue.stringValue, Res.bind]

/-- C6, at the text of the claim, which has no sentinel between the header and
the body: the builder yields one class name, a visibility that is the whole
rest of the text, and no return type, method name or body. -/
theorem methodTable_claim_text :
    methodTable "######\nFoo -private\nint bar \x7b()\n\x7b return 1; \x7d".toList =
        .ok ⟨["Foo".toList], ["private\nint bar \x7b()\n\x7b return 1; \x7d".toList],
          [], [], []⟩ ∧
      ¬ ∃ body, methodTable "######\nFoo -private\nint bar \x7b()\n\x7b return 1; \x7d".toList =
        .ok ⟨["Foo".toList], ["private".toList], ["int".toList], ["bar".toList], [body]⟩ := by
  have h : methodTable "######\nFoo -private\nint bar \x7b()\n\x7b return 1; \x7d".toList =
      .ok ⟨["Foo".toList], ["private\nint bar \x7b()\n\x7b return 1; \x7d".toList],
        [], [], []⟩ := by decide!
  refine ⟨h, ?_⟩
  rintro ⟨body, hb⟩
  rw [h] at hb
  injection hb with hb
  injection hb with _ _ hb
  exact List.noConfusion hb

/-- C6 as amended, with the sentinel between the header and the body: the
builder yields exactly one record, class `Foo`, visibility `private`, return
type `int`, method name `bar` and the body from the first brace on. -/
theorem methodTable_one_record :
    methodTable "######\nFoo -private\n######\nint bar \x7b()\n\x7b return 1; \x7d".toList =
      .ok ⟨["Foo".toList], ["private".toList], ["int".toList], ["bar".toList],
        ["\x7b()\n\x7b return 1; \x7d".toList]⟩ := by
  decide!

/-- C9, at a text with one chunk behind the preamble: the builder completes
with one class name and one visibility and no return type, method name or
body, and the emitter of an object of that class then reads
`returnTypeStrings[0]` out of bounds. -/
theorem methodTable_odd_chunks :
    methodTable "######\nFoo -private\n".toList =
        .ok ⟨["Foo".toList], ["private".toList], [], [], []⟩ ∧
      generate_impl_file (.object [("Class".toList, .string "Foo".toList)])
        ⟨["Foo".toList], ["private".toList], [], [], []⟩ = .undefined := by
  constructor
  · decide!
  · decide!

/-! ## The method loop of the emitter -/

theorem Res.bind_ok {α β : Type} (a : α) (f : α → Res β) : (Res.ok a).bind f = f a := rfl

theorem recordsOf_tableOf (rs : List MethodRecord) : (tableOf rs).records = rs := by
  induction rs with
  | nil => rfl
  | cons r rs ih =>
    simp only [MethodTable.records, tableOf, List.map_cons, recordsOf] at ih ⊢
    rw [ih]

theorem tableOf_recordsOf :
    ∀ cs vs rs ns bs : List Str, vs.length = cs.length → rs.length = cs.length →
      ns.length = cs.length → bs.length = cs.length →
      tableOf (recordsOf cs vs rs ns bs) = ⟨cs, vs, rs, ns, bs⟩
  | [], [], [], [], [], _, _, _, _ => rfl
  | c :: cs, v :: vs, r :: rs, n :: ns, b :: bs, h1, h2, h3, h4 => by
    have ih := tableOf_recordsOf cs vs rs ns bs (by simpa using h1) (by simpa using h2)
      (by simpa using h3) (by simpa using h4)
    simp only [tableOf, MethodTable.mk.injEq] at ih
    simp only [recordsOf, tableOf, List.map_cons, MethodTable.mk.injEq]
    simp [ih.1, ih.2.1, ih.2.2.1, ih.2.2.2.1, ih.2.2.2.2]
  | [], _ :: _, _, _, _, h1, _, _, _ => by simp at h1
  | [], [], _ :: _, _, _, _, h2, _, _ => by simp at h2
  | [], [], [], _ :: _, _, _, _, h3, _ => by simp at h3
  | [], [], [], [], _ :: _, _, _, _, h4 => by simp at h4
  | _ :: _, [], _, _, _, h1, _, _, _ => by simp at h1
  | _ :: _, _ :: _, [], _, _, _, h2, _, _ => by simp at h2
  | _ :: _, _ :: _, _ :: _, [], _, _, _, h3, _ => by simp at h3
  | _ :: _, _ :: _, _ :: _, _ :: _, [], _, _, _, h4 => by simp at h4

theorem aligned_eq_tableOf (t : MethodTable) (h : t.aligned) : tableOf t.records = t := by
  obtain ⟨cs, vs, rs, ns, bs⟩ := t
  exact tableOf_recordsOf cs vs rs ns bs h.1 h.2.1 h.2.2.1 h.2.2.2

theorem vecAt_map {α : Type} (f : α → Str) (pre : List α) (r : α) (suf : List α) :
    vecAt ((pre ++ r :: suf).map f) pre.length = .ok (f r) := by
  have h : ((pre ++ r :: suf).map f)[pre.length]? = some (f r) := by
    rw [List.getElem?_map, List.getElem?_append_right (le_refl _)]
    simp
  unfold vecAt
  rw [List.get?_eq_getElem?, h]

theorem mtdStep_tableOf (C : Str) (pre : List MethodRecord) (r : MethodRecord)
    (suf : List MethodRecord) (acc : MtdAcc) :
    mtdStep (tableOf (pre ++ r :: suf)) C pre.length acc = .ok (addRecord C acc r) := by
  unfold mtdStep addRecord
  simp only [tableOf, vecAt_map, Res.bind_ok, declLine, defLine]
  split_ifs <;> rfl

theorem mtdStrLoop_tableOf (C : Str) :
    ∀ (suf pre : List MethodRecord) (acc : MtdAcc),
      mtdStrLoop (tableOf (pre ++ suf)) C (List.range' pre.length suf.length) acc =
        .ok (suf.foldl (addRecord C) acc)
  | [], _, _ => rfl
  | r :: suf, pre, acc => by
    have ih := mtdStrLoop_tableOf C suf (pre ++ [r]) (addRecord C acc r)
    simp only [List.append_assoc, List.singleton_append, List.length_append,
      List.length_singleton] at ih
    simp only [List.length_cons, List.range'_succ, mtdStrLoop, mtdStep_tableOf, Res.bind_ok,
      List.foldl_cons]
    exact ih

theorem find_nil (d : Str) : find [] d = if d = [] then some 0 else none := by
  cases d <;> simp [find, List.isPrefixOf]

theorem find_cons (c : Char) (cs d : Str) :
    find (c :: cs) d = if d <+: c :: cs then some 0 else (find cs d).map (· + 1) := by
  simp only [find, List.isPrefixOf_iff_prefix]

theorem find_some_occurs : ∀ (s d : Str) (p : Nat), find s d = some p → d <+: s.drop p
  | [], d, p, h => by
    rw [find_nil] at h
    split at h
    · subst_vars; simp
    · cases h
  | c :: cs, d, p, h => by
    rw [find_cons] at h
    split at h
    · cases h; simpa
    · cases hf : find cs d with
      | none => rw [hf] at h; cases h
      | some q =>
        rw [hf] at h
        cases h
        simpa using find_some_occurs cs d q hf

theorem find_some_first : ∀ (s d : Str) (p : Nat), find s d = some p →
    ∀ q, q < p → ¬ d <+: s.drop q
  | [], d, p, h => by
    rw [find_nil] at h
    split at h
    · cases h; intro q hq; omega
    · cases h
  | c :: cs, d, p, h => by
    rw [find_cons] at h
    split at h
    · cases h; intro q hq; omega
    · rename_i hn
      cases hf : find cs d with
      | none => rw [hf] at h; cases h
      | some r =>
        rw [hf] at h
        simp only [Option.map_some', Option.some.injEq] at h
        subst h
        intro q hq
        cases q with
        | zero => simpa using hn
        | succ q => simpa using find_some_first cs d r hf q (by omega)

theorem find_none_drop : ∀ (s d : Str), find s d = none → ∀ q, ¬ d <+: s.drop q
  | [], d, h => by
    rw [find_nil] at h
    split at h
    · cases h
    · rename_i hd
      intro q hq
      simp at hq
      exact hd hq
  | c :: cs, d, h => by
    rw [find_cons] at h
    split at h
    · cases h
    · rename_i hn
      cases hf : find cs d with
      | some r => rw [hf] at h; cases h
      | none =>
        intro q
        cases q with
        | zero => simpa using hn
        | succ q => simpa using find_none_drop cs d hf q

theorem find_of_first : ∀ (s d : Str) (p : Nat), d <+: s.drop p →
    (∀ q, q < p → ¬ d <+: s.drop q) → find s d = some p
  | [], d, p, h, hq => by
    simp at h
    subst h
    cases p with
    | zero => simp [find_nil]
    | succ p => exact absurd (by simp) (hq 0 (by omega))
  | c :: cs, d, p, h, hq => by
    rw [find_cons]
    cases p with
    | zero => simp at h; simp [h]
    | succ p =>
      have h0 : ¬ d <+: c :: cs := by simpa using hq 0 (by omega)
      rw [if_neg h0, find_of_first cs d p (by simpa using h)
        (fun q hlt => by simpa using hq (q + 1) (by omega))]
      rfl

theorem find_none_of (s d : Str) (h : ∀ q, ¬ d <+: s.drop q) : find s d = none := by
  cases hf : find s d with
  | none => rfl
  | some p => exact absurd (find_some_occurs s d p hf) (h p)

theorem find_some_le (s d : Str) (p : Nat) (h : find s d = some p) :
    p + d.length ≤ s.length := by
  have := (find_some_occurs s d p h).length_le
  simp at this
  by_cases hp : p ≤ s.length
  · omega
  · have hd : d.length = 0 := by omega
    have hd0 : d = [] := List.length_eq_zero.mp hd
    subst hd0
    have := find_some_first s [] p h 0 (by omega)
    simp at this

theorem splitLoop_none (d s : Str) (fuel : Nat) (tokens : List Str) (h : find s d = none) :
    splitLoop d (fuel + 1) s tokens = .ok (tokens ++ [s]) := by
  simp [splitLoop, h]

theorem splitLoop_some (d s : Str) (fuel p : Nat) (tokens : List Str)
    (h : find s d = some p) :
    splitLoop d (fuel + 1) s tokens =
      splitLoop d fuel (s.drop (p + d.length)) (tokens ++ [s.take p]) := by
  simp [splitLoop, h]

/-- With a non-empty delimiter and fuel above the length, `split` returns; it
returns at least one token, and at least two when the delimiter occurs. -/
theorem splitLoop_total (d : Str) (hd : d ≠ []) :
    ∀ (fuel : Nat) (s : Str) (tokens : List Str), s.length < fuel →
      ∃ t l, splitLoop d fuel s tokens = .ok (tokens ++ t :: l) ∧
        (find s d = none → t = s ∧ l = []) ∧ (find s d ≠ none → l ≠ [])
  | 0, _, _, h => by omega
  | fuel + 1, s, tokens, h => by
    cases hf : find s d with
    | none =>
      exact ⟨s, [], by rw [splitLoop_none d s fuel tokens hf], fun _ => ⟨rfl, rfl⟩,
        fun hn => absurd rfl hn⟩
    | some p =>
      have hle := find_some_le s d p hf
      have hpos : 0 < d.length := List.length_pos.mpr hd
      obtain ⟨t, l, h1, _, _⟩ := splitLoop_total d hd fuel (s.drop (p + d.length))
        (tokens ++ [s.take p]) (by simp; omega)
      refine ⟨s.take p, t :: l, ?_, fun hn => Option.noConfusion hn, fun _ => (by simp)⟩
      rw [splitLoop_some d s fuel p tokens hf, h1]
      simp

/-! ## Failures of the method-table builder -/

theorem split_total (s d : Str) (hd : d ≠ []) :
    ∃ t l, split s d = .ok (t :: l) ∧
      (find s d = none → t = s ∧ l = []) ∧ (find s d ≠ none → l ≠ []) := by
  obtain ⟨t, l, h, h1, h2⟩ := splitLoop_total d hd (s.length + 1) s [] (by omega)
  exact ⟨t, l, by simpa [split] using h, h1, h2⟩

theorem chunks_total (txtString : Str) : ∃ cs, chunks txtString = .ok cs := by
  obtain ⟨t, l, h, _, _⟩ := split_total txtString sentinel (by decide)
  exact ⟨l, by simp [chunks, h, Res.bind]⟩

theorem classVis_none (c : Str) (h : find c [' ', '-'] = none) :
    classVis c = .undefined := by
  obtain ⟨t, l, hs, h1, _⟩ := split_total c [' ', '-'] (by decide)
  obtain ⟨_, hl⟩ := h1 h
  subst hl
  simp [classVis, hs, Res.bind]

theorem classVis_some (c : Str) (h : find c [' ', '-'] ≠ none) :
    ∃ cv, classVis c = .ok cv := by
  obtain ⟨t, l, hs, _, h2⟩ := split_total c [' ', '-'] (by decide)
  cases l with
  | nil => exact absurd rfl (h2 h)
  | cons p1 l => exact ⟨_, by simp only [classVis, hs, Res.bind]; rfl⟩

theorem classVisLoop_undefined : ∀ cs : List Str,
    (∃ i c, i % 2 = 0 ∧ cs.get? i = some c ∧ find c [' ', '-'] = none) →
      classVisLoop cs = .undefined
  | [], ⟨i, c, _, hc, _⟩ => by simp at hc
  | [c0], ⟨i, c, hi, hc, hf⟩ => by
    cases i with
    | zero =>
      simp at hc
      subst hc
      simp [classVisLoop, classVis_none c0 hf, Res.bind]
    | succ i => simp at hc
  | c0 :: x :: rest, ⟨i, c, hi, hc, hf⟩ => by
    by_cases h0 : find c0 [' ', '-'] = none
    · simp [classVisLoop, classVis_none c0 h0, Res.bind]
    · obtain ⟨cv, hcv⟩ := classVis_some c0 h0
      have hrest : classVisLoop rest = .undefined := by
        apply classVisLoop_undefined rest
        match i, hi, hc with
        | 0, _, hc =>
          simp at hc
          subst hc
          exact absurd hf h0
        | 1, hi, _ => omega
        | i + 2, hi, hc => exact ⟨i, c, by omega, by simpa using hc, hf⟩
      simp [classVisLoop, hcv, hrest, Res.bind]

theorem classVisLoop_ok : ∀ cs : List Str,
    (∀ i c, i % 2 = 0 → cs.get? i = some c → find c [' ', '-'] ≠ none) →
      ∃ r, classVisLoop cs = .ok r
  | [], _ => ⟨_, rfl⟩
  | [c0], h => by
    obtain ⟨cv, hcv⟩ := classVis_some c0 (h 0 c0 rfl rfl)
    exact ⟨_, by simp only [classVisLoop, hcv, Res.bind]; rfl⟩
  | c0 :: x :: rest, h => by
    obtain ⟨cv, hcv⟩ := classVis_some c0 (h 0 c0 rfl rfl)
    obtain ⟨r, hr⟩ := classVisLoop_ok rest
      (fun i c hi hc => h (i + 2) c (by omega) (by simpa using hc))
    exact ⟨_, by simp only [classVisLoop, hcv, hr, Res.bind]; rfl⟩

theorem retTypeMtdNameImpl_none (c : Str) (h : find c ['{'] = none) :
    retTypeMtdNameImpl c = .throw .out_of_range := by
  simp [retTypeMtdNameImpl, h]

theorem retTypeMtdNameImpl_cases (c : Str) :
    retTypeMtdNameImpl c = .throw .out_of_range ∨ ∃ m, retTypeMtdNameImpl c = .ok m := by
  unfold retTypeMtdNameImpl
  split
  · exact Or.inl rfl
  · dsimp only
    split
    · exact Or.inl rfl
    · exact Or.inr ⟨_, rfl⟩

theorem mtdLoop_cases : ∀ cs : List Str,
    mtdLoop cs = .throw .out_of_range ∨ ∃ r, mtdLoop cs = .ok r
  | [] => Or.inr ⟨_, rfl⟩
  | [_] => Or.inr ⟨_, rfl⟩
  | _ :: c :: rest => by
    rcases retTypeMtdNameImpl_cases c with h | ⟨m, h⟩
    · exact Or.inl (by simp [mtdLoop, h, Res.bind])
    · rcases mtdLoop_cases rest with hr | ⟨r, hr⟩
      · exact Or.inl (by simp [mtdLoop, h, hr, Res.bind])
      · exact Or.inr ⟨_, by simp only [mtdLoop, h, hr, Res.bind]; rfl⟩

theorem mtdLoop_throw : ∀ cs : List Str,
    (∃ i c, i % 2 = 1 ∧ cs.get? i = some c ∧ find c ['{'] = none) →
      mtdLoop cs = .throw .out_of_range
  | [], ⟨i, c, _, hc, _⟩ => by simp at hc
  | [c0], ⟨i, c, hi, hc, hf⟩ => by
    cases i with
    | zero => omega
    | succ i => simp at hc
  | x :: c0 :: rest, ⟨i, c, hi, hc, hf⟩ => by
    rcases retTypeMtdNameImpl_cases c0 with h | ⟨m, h⟩
    · simp [mtdLoop, h, Res.bind]
    · have hrest : mtdLoop rest = .throw .out_of_range := by
        apply mtdLoop_throw rest
        match i, hi, hc with
        | 0, hi, _ => omega
        | 1, _, hc =>
          simp at hc
          subst hc
          rw [retTypeMtdNameImpl_none c0 hf] at h
          cases h
        | i + 2, hi, hc => exact ⟨i, c, by omega, by simpa using hc, hf⟩
      simp [mtdLoop, h, hrest, Res.bind]

/-- C8 at the empty companion text: no chunk is left behind the preamble, fewer
than two, and the builder does not fail; it returns the empty table. -/
theorem methodTable_no_chunk :
    chunks [] = .ok [] ∧ methodTable [] = .ok emptyTable := by
  constructor
  · decide!
  · decide!

/-- C8 as amended: the builder fails, `out_of_range` being thrown by `substr`,
for every companion text in which every header chunk (even position behind the
preamble) has a `" -"` and a body chunk (odd position) has no brace; with no
chunk behind the preamble it does not fail and returns the empty table. -/
theorem methodTable_failures (txtString : Str) :
    ∃ cs, chunks txtString = .ok cs ∧
      (cs = [] → methodTable txtString = .ok emptyTable) ∧
      ((∀ i c, i % 2 = 0 → cs.get? i = some c → find c " -".toList ≠ none) →
        (∃ i c, i % 2 = 1 ∧ cs.get? i = some c ∧ find c ['{'] = none) →
        methodTable txtString = .throw .out_of_range) := by
  obtain ⟨cs, hcs⟩ := chunks_total txtString
  refine ⟨cs, hcs, ?_, ?_⟩
  · intro h
    subst h
    simp [methodTable, hcs, Res.bind, classVisLoop, mtdLoop, emptyTable]
  · intro h1 h2
    obtain ⟨r, hr⟩ := classVisLoop_ok cs h1
    simp [methodTable, hcs, Res.bind, hr, mtdLoop_throw cs h2]

/-- C8 as amended on two companion texts: one whose body chunk has no brace,
and one without sentinel. -/
theorem methodTable_failures_witness :
    methodTable "######\nA -p\n######\nint f \n".toList = .throw .out_of_range ∧
      methodTable "no method".toList = .ok emptyTable := by
  refine ⟨?_, ?_⟩
  · obtain ⟨cs, hcs, _, h2⟩ := methodTable_failures "######\nA -p\n######\nint f \n".toList
    have hc : chunks "######\nA -p\n######\nint f \n".toList =
        .ok ["A -p\n".toList, "int f \n".toList] := by decide!
    rw [hc] at hcs
    injection hcs with hcs
    subst hcs
    refine h2 ?_ ⟨1, "int f \n".toList, rfl, rfl, by decide!⟩
    intro i c hi hc
    match i, hi, hc with
    | 0, _, hc =>
      simp only [List.get?_cons_zero, Option.some.injEq] at hc
      subst hc
      decide!
    | 1, hi, _ => omega
    | i + 2, _, hc => simp at hc
  · obtain ⟨cs, hcs, h0, _⟩ := methodTable_failures "no method".toList
    have hc : chunks "no method".toList = .ok [] := by decide!
    rw [hc] at hcs
    injection hcs with hcs
    exact h0 hcs.symm

/-! ## Occurrences of a delimiter in a concatenation -/

theorem prefix_append_cases {α : Type} (h a b : List α) (hp : h <+: a ++ b) :
    h <+: a ∨ ∃ t, t ≠ [] ∧ h = a ++ t ∧ t <+: b := by
  rcases List.prefix_or_prefix_of_prefix hp (List.prefix_append a b) with h1 | ⟨t, ht⟩
  · exact Or.inl h1
  · cases t with
    | nil => exact Or.inl (by simp at ht; rw [← ht])
    | cons x t =>
      refine Or.inr ⟨x :: t, by simp, ht.symm, ?_⟩
      rw [← ht] at hp
      exact (List.prefix_append_right_inj a).mp hp

theorem suffix_append_cases {α : Type} (h a b : List α) (hp : h <:+ a ++ b) :
    h <:+ b ∨ ∃ t, t ≠ [] ∧ h = t ++ b ∧ t <:+ a := by
  have hr : h.reverse <+: b.reverse ++ a.reverse := by
    rw [← List.reverse_append]; exact List.reverse_prefix.mpr hp
  rcases prefix_append_cases _ _ _ hr with h1 | ⟨t, ht, he, hpre⟩
  · exact Or.inl ( List.reverse_prefix.mp h1)
  · refine Or.inr ⟨t.reverse, by simpa using ht, ?_, ?_⟩
    · have := congrArg List.reverse he
      simpa using this
    · exact List.reverse_prefix.mp (by simpa using hpre)

theorem mem_of_suffix_concat {α : Type} (t y : List α) (c : α) (ht : t ≠ [])
    (hs : t <:+ y ++ [c]) : c ∈ t := by
  have hr : t.reverse <+: c :: y.reverse := by
    have := List.reverse_prefix.mpr hs
    simpa using this
  cases htr : t.reverse with
  | nil => simp at htr; exact absurd htr ht
  | cons x l =>
    rw [htr] at hr
    have hx : x = c := by
      have := List.cons_prefix_cons.mp hr
      exact this.1
    have : x ∈ t.reverse := by rw [htr]; simp
    rw [hx] at this
    simpa using this

/-- When the first character of the delimiter is not in `a`, the first
occurrence in `a ++ d ++ rest` is at the end of `a`. -/
theorem find_append_of_head_not_mem (a d' rest : Str) (c : Char) (hc : c ∉ a) :
    find (a ++ (c :: d') ++ rest) (c :: d') = some a.length := by
  apply find_of_first
  · simp
  · intro q hq hpre
    rw [List.append_assoc, List.drop_append_of_le_length (by omega)] at hpre
    cases hd : a.drop q with
    | nil =>
      have := congrArg List.length hd
      simp at this
      omega
    | cons y l =>
      rw [hd] at hpre
      have hy : c = y := by
        have := List.cons_prefix_cons.mp hpre
        exact this.1
      have hmem : y ∈ a := List.mem_of_mem_drop (by rw [hd]; simp)
      exact hc (hy ▸ hmem)

theorem find_none_of_head_not_mem (s d' : Str) (c : Char) (hc : c ∉ s) :
    find s (c :: d') = none := by
  apply find_none_of
  intro q hpre
  cases hd : s.drop q with
  | nil => rw [hd] at hpre; simp at hpre
  | cons y l =>
    rw [hd] at hpre
    have hy : c = y := (List.cons_prefix_cons.mp hpre).1
    have hmem : y ∈ s := List.mem_of_mem_drop (by rw [hd]; simp)
    exact hc (hy ▸ hmem)

theorem sentinel_eq : sentinel = hashes ++ ['\n'] := rfl

theorem not_prefix_sentinel_of_not_mem (y : Str) (h : '\n' ∉ y) : ¬ sentinel <+: y := by
  intro hp
  exact h (hp.subset (by simp [sentinel]))

theorem find_sentinel_none_of_not_mem (y : Str) (h : '\n' ∉ y) : find y sentinel = none := by
  apply find_none_of
  intro q hp
  exact not_prefix_sentinel_of_not_mem _ (fun hm => h (List.mem_of_mem_drop hm)) hp

/-- The sentinel does not overlap itself: no proper non-empty suffix of it is a
prefix of a text that begins with it. -/
theorem sentinel_no_overlap (u t rest : Str) (hu : u ≠ []) (ht : t ≠ [])
    (he : sentinel = u ++ t) : ¬ t <+: sentinel ++ rest := by
  have hlen : u.length + t.length = 7 := by
    have := congrArg List.length he
    simp [sentinel] at this
    omega
  have hu1 : 0 < u.length := List.length_pos.mpr hu
  have ht1 : 0 < t.length := List.length_pos.mpr ht
  have htd : t = sentinel.drop u.length := by rw [he]; simp
  intro hp
  rw [htd] at hp
  generalize u.length = k at hp hu1 hlen
  have hk : k ≤ 6 := by omega
  interval_cases k <;> simp [sentinel] at hp

/-- A text without the sentinel, followed by the sentinel: the first occurrence
is at the end of the text. -/
theorem find_sentinel_append (a rest : Str) (h : find a sentinel = none) :
    find (a ++ sentinel ++ rest) sentinel = some a.length := by
  apply find_of_first
  · simp
  · intro q hq hpre
    rw [List.append_assoc, List.drop_append_of_le_length (by omega)] at hpre
    rcases prefix_append_cases _ _ _ hpre with h1 | ⟨t, ht, he, hp⟩
    · exact find_none_drop a sentinel h q h1
    · refine sentinel_no_overlap (a.drop q) t rest ?_ ht he hp
      intro h0
      have := congrArg List.length h0
      simp at this
      omega

/-- A text without the sentinel that does not end in six hash signs, followed
by a newline, is still without the sentinel. -/
theorem find_sentinel_concat (b : Str) (h : find b sentinel = none) (hs : ¬ hashes <:+ b) :
    find (b ++ ['\n']) sentinel = none := by
  apply find_none_of
  intro q hpre
  rw [List.drop_append_eq_append_drop] at hpre
  rcases prefix_append_cases _ _ _ hpre with h1 | ⟨t, ht, he, hp⟩
  · exact find_none_drop b sentinel h q h1
  · have ht1 : t = ['\n'] := by
      cases hk : q - b.length with
      | zero =>
        rw [hk] at hp
        simp only [List.drop_zero] at hp
        cases t with
        | nil => exact absurd rfl ht
        | cons x t =>
          have h2 := List.cons_prefix_cons.mp hp
          have h3 : t = [] := List.prefix_nil.mp h2.2
          rw [h2.1, h3]
      | succ k =>
        rw [hk] at hp
        simp at hp
        exact absurd hp ht
    rw [ht1, sentinel_eq] at he
    have h4 : hashes = b.drop q := List.append_cancel_right he
    exact hs (h4 ▸ List.drop_suffix q b)

/-! ## The chunks of a record -/

theorem removeWhitespace_trim (a x b : Str) (ha : ∀ c ∈ a, isBlank c = true)
    (hb : ∀ c ∈ b, isBlank c = true) (hx : x ≠ [])
    (hh : ∀ c ∈ x.head?, isBlank c = false) (hl : ∀ c ∈ x.getLast?, isBlank c = false) :
    removeWhitespace (a ++ x ++ b) = x := by
  have h1 : (a ++ x ++ b).takeWhile isBlank = a := by
    cases x with
    | nil => exact absurd rfl hx
    | cons y x' =>
      have hy : isBlank y = false := hh y (by simp)
      rw [List.append_assoc, List.takeWhile_append_of_pos ha]
      simp [List.takeWhile_cons, hy]
  have h2 : (a ++ x ++ b).reverse.takeWhile isBlank = b.reverse := by
    have hz : ∀ c ∈ x.reverse.head?, isBlank c = false := by
      intro c hc
      apply hl c
      simpa [List.head?_reverse] using hc
    cases hr : x.reverse with
    | nil => simp at hr; exact absurd hr hx
    | cons z x' =>
      rw [hr] at hz
      have hz' : isBlank z = false := hz z (by simp)
      rw [List.reverse_append, List.reverse_append, hr,
        List.takeWhile_append_of_pos (by simpa using hb)]
      simp [List.takeWhile_cons, hz']
  have hxl : 0 < x.length := List.length_pos.mpr hx
  unfold removeWhitespace
  simp only [h1, h2, List.length_append, List.length_reverse]
  rw [if_neg (by omega)]
  have h3 : a.length + x.length + b.length - 1 - b.length - a.length + 1 = x.length := by
    omega
  rw [h3, List.append_assoc, List.drop_left, List.take_left]

theorem plainWord_not_mem (w : Str) (h : plainWord w) (c : Char) (hc : isBlank c = true) :
    c ∉ w := by
  intro hm
  have := (h.2 c hm).1
  rw [hc] at this
  cases this

theorem plainWord_head (w : Str) (h : plainWord w) : ∀ c ∈ w.head?, isBlank c = false := by
  intro c hc
  exact (h.2 c (List.mem_of_mem_head? hc)).1

theorem plainWord_getLast (w : Str) (h : plainWord w) :
    ∀ c ∈ w.getLast?, isBlank c = false := by
  intro c hc
  exact (h.2 c (List.mem_of_mem_getLast? hc)).1

theorem find_sentinel_headerChunk (r : MethodRecord) (h : goodRecord r) :
    find (headerChunk r) sentinel = none := by
  have hc := plainWord_not_mem r.cls h.1.1 '\n' rfl
  have hv := plainWord_not_mem r.vis h.1.2.1 '\n' rfl
  have hx : '\n' ∉ r.cls ++ " -".toList ++ r.vis := by
    simp only [List.mem_append, not_or]
    exact ⟨⟨hc, by decide⟩, hv⟩
  apply find_sentinel_concat _ (find_sentinel_none_of_not_mem _ hx)
  intro hs
  rcases suffix_append_cases _ _ _ hs with h1 | ⟨t, ht, he, hsuf⟩
  · exact h.2.1 h1
  · have hm : '-' ∈ t := mem_of_suffix_concat t (r.cls ++ [' ']) '-' ht (by simpa using hsuf)
    have : '-' ∈ hashes := by rw [he]; exact List.mem_append_left _ hm
    revert this
    decide

theorem find_sentinel_bodyChunk (r : MethodRecord) (h : goodRecord r) :
    find (bodyChunk r) sentinel = none := by
  have hr := plainWord_not_mem r.ret h.1.2.2.1 '\n' rfl
  have hn := plainWord_not_mem r.name h.1.2.2.2.1 '\n' rfl
  have hB := find_sentinel_concat r.impl h.1.2.2.2.2.2.2 h.2.2
  have hP : '\n' ∉ r.ret ++ " ".toList ++ r.name ++ " ".toList := by
    simp only [List.mem_append, not_or]
    exact ⟨⟨⟨hr, by decide⟩, hn⟩, by decide⟩
  apply find_none_of
  intro q hpre
  have he : bodyChunk r = (r.ret ++ " ".toList ++ r.name ++ " ".toList) ++ (r.impl ++ ['\n']) := by
    simp [bodyChunk]
  rw [he, List.drop_append_eq_append_drop] at hpre
  rcases prefix_append_cases _ _ _ hpre with h1 | ⟨t, ht, heq, hp⟩
  · exact not_prefix_sentinel_of_not_mem _ (fun hm => hP (List.mem_of_mem_drop hm)) h1
  · cases hd : (r.ret ++ " ".toList ++ r.name ++ " ".toList).drop q with
    | nil =>
      rw [hd] at heq
      simp only [List.nil_append] at heq
      rw [← heq] at hp
      exact find_none_drop _ sentinel hB _ hp
    | cons y l =>
      have hsuf : y :: l <:+ (r.ret ++ " ".toList ++ r.name) ++ [' '] := by
        rw [← hd]; exact List.drop_suffix _ _
      have hm : ' ' ∈ y :: l := mem_of_suffix_concat _ _ ' ' (by simp) hsuf
      have : ' ' ∈ sentinel := by
        rw [heq, hd]; exact List.mem_append_left _ hm
      revert this
      decide

theorem classVis_headerChunk (r : MethodRecord) (h : goodRecord r) :
    classVis (headerChunk r) = .ok (r.cls, r.vis) := by
  have hc := plainWord_not_mem r.cls h.1.1 ' ' rfl
  have hv := plainWord_not_mem r.vis h.1.2.1 ' ' rfl
  have h1 : find (headerChunk r) [' ', '-'] = some r.cls.length := by
    have := find_append_of_head_not_mem r.cls ['-'] (r.vis ++ ['\n']) ' ' hc
    simpa [headerChunk] using this
  have h2 : find (r.vis ++ ['\n']) [' ', '-'] = none :=
    find_none_of_head_not_mem _ _ ' ' (by simp [hv])
  have hlen : ∃ n, (headerChunk r).length + 1 = n + 1 + 1 := by
    have : 0 < (headerChunk r).length := by simp [headerChunk]
    exact ⟨(headerChunk r).length - 1, by omega⟩
  obtain ⟨n, hn⟩ := hlen
  have hs : split (headerChunk r) [' ', '-'] = .ok [r.cls, r.vis ++ ['\n']] := by
    unfold split
    rw [hn, splitLoop_some _ _ _ _ _ h1]
    have hd : (headerChunk r).drop (r.cls.length + [' ', '-'].length) = r.vis ++ ['\n'] := by
      have : headerChunk r = (r.cls ++ [' ', '-']) ++ (r.vis ++ ['\n']) := by
        simp [headerChunk]
      rw [this, List.drop_left' (by simp)]
    have ht : (headerChunk r).take r.cls.length = r.cls := by
      have : headerChunk r = r.cls ++ ([' ', '-'] ++ r.vis ++ ['\n']) := by
        simp [headerChunk]
      rw [this, List.take_left]
    rw [hd, ht, splitLoop_none _ _ _ _ h2]
    rfl
  have t1 : removeWhitespace r.cls = r.cls := by
    have := removeWhitespace_trim [] r.cls [] (by simp) (by simp) h.1.1.1
      (plainWord_head _ h.1.1) (plainWord_getLast _ h.1.1)
    simpa using this
  have t2 : removeWhitespace (r.vis ++ ['\n']) = r.vis := by
    have := removeWhitespace_trim [] r.vis ['\n'] (by simp) (by simp [isBlank]) h.1.2.1.1
      (plainWord_head _ h.1.2.1) (plainWord_getLast _ h.1.2.1)
    simpa using this
  simp only [classVis, hs, Res.bind, t1, t2]

theorem retTypeMtdNameImpl_bodyChunk (r : MethodRecord) (h : goodRecord r) :
    retTypeMtdNameImpl (bodyChunk r) = .ok (r.ret, r.name, r.impl) := by
  obtain ⟨hret, hname, hhead, hlast, _⟩ := h.1.2.2
  obtain ⟨b', hb'⟩ : ∃ b', r.impl = '{' :: b' := by
    cases hi : r.impl with
    | nil => rw [hi] at hhead; cases hhead
    | cons y b' =>
      rw [hi] at hhead
      simp at hhead
      exact ⟨b', by rw [hhead]⟩
  obtain ⟨P, hPd⟩ : ∃ P, P = r.ret ++ " ".toList ++ r.name ++ " ".toList := ⟨_, rfl⟩
  have hP : '{' ∉ P := by
    rw [hPd]
    simp only [List.mem_append, not_or]
    exact ⟨⟨⟨fun hm => (hret.2 _ hm).2 rfl, by decide⟩, fun hm => (hname.2 _ hm).2 rfl⟩,
      by decide⟩
  have he : bodyChunk r = P ++ ['{'] ++ (b' ++ ['\n']) := by
    simp [bodyChunk, hb', hPd]
  have h1 : find (bodyChunk r) ['{'] = some P.length := by
    rw [he]
    exact find_append_of_head_not_mem _ [] _ '{' hP
  have htake : (bodyChunk r).take P.length = P := by
    rw [he, List.append_assoc, List.take_left]
  have hdrop : (bodyChunk r).drop P.length = r.impl ++ ['\n'] := by
    rw [he, List.append_assoc, List.drop_left, hb']
    simp
  rw [hPd] at htake hdrop h1
  have hx : r.ret ++ " ".toList ++ r.name ≠ [] := by
    simp
  have t1 : removeWhitespace (r.ret ++ " ".toList ++ r.name ++ " ".toList) =
      r.ret ++ " ".toList ++ r.name := by
    have := removeWhitespace_trim [] (r.ret ++ " ".toList ++ r.name) [' '] (by simp)
      (by simp [isBlank]) hx
      (by
        intro c hc
        apply plainWord_head _ hret c
        cases hr : r.ret with
        | nil => exact absurd hr hret.1
        | cons y l => rw [hr] at hc; simpa using hc)
      (by
        intro c hc
        apply plainWord_getLast _ hname c
        rw [List.getLast?_append_of_ne_nil _ hname.1] at hc
        exact hc)
    simpa using this
  have t2 : removeWhitespace (r.impl ++ ['\n']) = r.impl := by
    have := removeWhitespace_trim [] r.impl ['\n'] (by simp) (by simp [isBlank])
      (by rw [hb']; simp) (by rw [hb']; simp [isBlank]) hlast
    simpa using this
  have h2 : find (r.ret ++ " ".toList ++ r.name) [' '] = some r.ret.length := by
    have := find_append_of_head_not_mem r.ret [] r.name ' '
      (plainWord_not_mem _ hret ' ' rfl)
    simpa using this
  have t3 : removeWhitespace ((r.ret ++ " ".toList ++ r.name).drop r.ret.length) = r.name := by
    have hd : (r.ret ++ " ".toList ++ r.name).drop r.ret.length = [' '] ++ r.name := by
      rw [List.append_assoc, List.drop_left]
      rfl
    have := removeWhitespace_trim [' '] r.name [] (by simp [isBlank]) (by simp) hname.1
      (plainWord_head _ hname) (plainWord_getLast _ hname)
    rw [hd]
    simpa using this
  have t4 : (r.ret ++ " ".toList ++ r.name).take r.ret.length = r.ret := by
    rw [List.append_assoc, List.take_left]
  unfold retTypeMtdNameImpl
  simp only [h1, htake, hdrop, t1, t2, h2, t3, t4]

/-! ## The method table of a companion text made of records -/

theorem splitLoop_companion : ∀ (rs : List MethodRecord) (a : Str) (tokens : List Str)
    (fuel : Nat), find a sentinel = none → (∀ r ∈ rs, goodRecord r) →
      (a ++ (rs.map recordText).flatten).length < fuel →
      splitLoop sentinel fuel (a ++ (rs.map recordText).flatten) tokens =
        .ok (tokens ++ a :: chunkList rs)
  | [], a, tokens, fuel, ha, _, hf => by
    cases fuel with
    | zero => omega
    | succ f =>
      simp only [List.map_nil, List.flatten_nil, List.append_nil, chunkList]
      exact splitLoop_none sentinel a f tokens ha
  | r :: rs, a, tokens, fuel, ha, hr, hf => by
    obtain ⟨rest, hrest⟩ : ∃ rest, rest = (rs.map recordText).flatten := ⟨_, rfl⟩
    have htext : a ++ ((r :: rs).map recordText).flatten =
        a ++ sentinel ++ (headerChunk r ++ sentinel ++ (bodyChunk r ++ rest)) := by
      simp [recordText, hrest]
    have hgood := hr r (by simp)
    have hlen : (a ++ ((r :: rs).map recordText).flatten).length =
        a.length + 7 + ((headerChunk r).length + 7 + (bodyChunk r ++ rest).length) := by
      rw [htext]
      simp [sentinel]
      omega
    rw [htext]
    rw [hlen] at hf
    obtain ⟨f, hfeq⟩ : ∃ f, fuel = f + 1 + 1 := ⟨fuel - 2, by omega⟩
    subst hfeq
    rw [splitLoop_some sentinel _ (f + 1) a.length tokens (find_sentinel_append a _ ha)]
    have hd1 : (a ++ sentinel ++ (headerChunk r ++ sentinel ++ (bodyChunk r ++ rest))).drop
        (a.length + sentinel.length) = headerChunk r ++ sentinel ++ (bodyChunk r ++ rest) := by
      rw [List.drop_left' (by simp)]
    have ht1 : (a ++ sentinel ++ (headerChunk r ++ sentinel ++ (bodyChunk r ++ rest))).take
        a.length = a := by
      rw [List.append_assoc, List.take_left]
    rw [hd1, ht1, splitLoop_some sentinel _ f (headerChunk r).length _
      (find_sentinel_append _ _ (find_sentinel_headerChunk r hgood))]
    have hd2 : (headerChunk r ++ sentinel ++ (bodyChunk r ++ rest)).drop
        ((headerChunk r).length + sentinel.length) = bodyChunk r ++ rest := by
      rw [List.drop_left' (by simp)]
    have ht2 : (headerChunk r ++ sentinel ++ (bodyChunk r ++ rest)).take
        (headerChunk r).length = headerChunk r := by
      rw [List.append_assoc, List.take_left]
    rw [hd2, ht2, hrest, splitLoop_companion rs (bodyChunk r) _ f
      (find_sentinel_bodyChunk r hgood) (fun x hx => hr x (by simp [hx]))
      (by rw [← hrest]; omega)]
    simp [chunkList]

theorem chunks_companionText (preamble : Str) (rs : List MethodRecord)
    (hp : find preamble sentinel = none) (hr : ∀ r ∈ rs, goodRecord r) :
    chunks (companionText preamble rs) = .ok (chunkList rs) := by
  have := splitLoop_companion rs preamble [] ((companionText preamble rs).length + 1) hp hr
    (by simp [companionText])
  simp only [chunks, split, companionText] at this ⊢
  rw [this]
  rfl

theorem classVisLoop_chunkList : ∀ rs : List MethodRecord, (∀ r ∈ rs, goodRecord r) →
    classVisLoop (chunkList rs) = .ok (rs.map (·.cls), rs.map (·.vis))
  | [], _ => rfl
  | r :: rs, hr => by
    simp only [chunkList, classVisLoop, classVis_headerChunk r (hr r (by simp)),
      classVisLoop_chunkList rs (fun x hx => hr x (by simp [hx])), Res.bind, List.map_cons]

theorem mtdLoop_chunkList : ∀ rs : List MethodRecord, (∀ r ∈ rs, goodRecord r) →
    mtdLoop (chunkList rs) = .ok (rs.map (·.ret), rs.map (·.name), rs.map (·.impl))
  | [], _ => rfl
  | r :: rs, hr => by
    simp only [chunkList, mtdLoop, retTypeMtdNameImpl_bodyChunk r (hr r (by simp)),
      mtdLoop_chunkList rs (fun x hx => hr x (by simp [hx])), Res.bind, List.map_cons]

/-- C7 at a record whose visibility is six hash signs: every condition of the
claim holds, yet with the newline behind it the visibility forms a sentinel
line, the text splits into other chunks and the builder reads out of bounds
instead of returning the table of the record. -/
theorem methodTable_visibility_hashes :
    claimRecord ⟨"A".toList, "######".toList, "int".toList, "f".toList, "\x7b\x7d".toList⟩ ∧
      find [] sentinel = none ∧
      methodTable (companionText []
        [⟨"A".toList, "######".toList, "int".toList, "f".toList, "\x7b\x7d".toList⟩]) =
          .undefined := by
  decide!

/-- C7 as amended: for every preamble without the sentinel and every list of
records whose class name, visibility, return type and method name are words
(not empty, no blank, no brace), whose body begins with a brace, does not end
in a blank and does not contain the sentinel, and whose visibility and body do
not end in six hash signs, the builder turns the companion text of the records
into the five sequences of their components, in order. -/
theorem methodTable_companionText (preamble : Str) (rs : List MethodRecord)
    (hp : find preamble sentinel = none) (hr : ∀ r ∈ rs, goodRecord r) :
    methodTable (companionText preamble rs) = .ok (tableOf rs) := by
  simp only [methodTable, chunks_companionText preamble rs hp hr, classVisLoop_chunkList rs hr,
    mtdLoop_chunkList rs hr, Res.bind, tableOf]

/-- C7 as amended on a preamble and two records. -/
theorem methodTable_companionText_witness :
    find "// methods\n".toList sentinel = none ∧
      (∀ r ∈ [(⟨"Foo".toList, "private".toList, "int".toList, "bar".toList,
          "\x7b()\n\x7b return 1; \x7d".toList⟩ : MethodRecord),
          ⟨"Foo".toList, "public".toList, "void".toList, "baz".toList, "\x7b\x7d".toList⟩],
        goodRecord r) ∧
      methodTable ("// methods\n######\nFoo -private\n######\nint bar \x7b()\n\x7b return 1; \x7d\n" ++
        "######\nFoo -public\n######\nvoid baz \x7b\x7d\n").toList =
        .ok ⟨["Foo".toList, "Foo".toList], ["private".toList, "public".toList],
          ["int".toList, "void".toList], ["bar".toList, "baz".toList],
          ["\x7b()\n\x7b return 1; \x7d".toList, "\x7b\x7d".toList]⟩ :=
  ⟨by decide!, by decide!,
    methodTable_companionText "// methods\n".toList
      [⟨"Foo".toList, "private".toList, "int".toList, "bar".toList,
        "\x7b()\n\x7b return 1; \x7d".toList⟩,
        ⟨"Foo".toList, "public".toList, "void".toList, "baz".toList, "\x7b\x7d".toList⟩]
      (by decide!) (by decide!)⟩

/-! ## The emitter on object nodes with missing keys -/

theorem fieldFragments_ok (v : JSONValue) (h : fitsInt v = true) :
    ∃ frag, fieldFragments v = .ok frag := by
  unfold fieldFragments
  split_ifs with h1 h2 h3
  · exact ⟨_, rfl⟩
  · cases v with
    | number q =>
      simp only [fitsInt, decide_eq_true_eq] at h
      simp only [JSONValue.numberValue] at h3 ⊢
      have hr := h h3
      simp only [intText, hr, and_self, if_true, Res.bind]
      exact ⟨_, rfl⟩
    | null | boolean _ | string _ | array _ | object _ => simp [JSONValue.type] at h2
  · exact ⟨_, rfl⟩
  · exact ⟨_, rfl⟩

theorem mapFind_mem (m : List (Str × JSONValue)) (k : Str) (v : JSONValue)
    (h : mapFind m k = some v) : ∃ kv ∈ m, kv.2 = v := by
  unfold mapFind at h
  cases hf : m.find? (fun kv => kv.1 == k) with
  | none => rw [hf] at h; cases h
  | some kv =>
    rw [hf] at h
    simp only [Option.map_some', Option.some.injEq] at h
    exact ⟨kv, List.mem_of_find?_eq_some hf, h⟩

theorem mapIndex_fits (m : List (Str × JSONValue)) (k : Str) (h : intsFit m) :
    fitsInt (mapIndex m k).1 = true ∧ intsFit (mapIndex m k).2 := by
  unfold mapIndex
  cases hf : mapFind m k with
  | some v =>
    obtain ⟨kv, hkv, he⟩ := mapFind_mem m k v hf
    exact ⟨he ▸ h kv hkv, h⟩
  | none =>
    refine ⟨rfl, ?_⟩
    intro kv hkv
    rcases List.mem_append.mp hkv with h1 | h1
    · exact h kv h1
    · simp only [List.mem_singleton] at h1
      rw [h1]
      rfl

theorem mtdStrLoop_ok (t : MethodTable) (C : Str) (h : t.aligned) :
    ∃ m, mtdStrLoop t C (List.range t.classStrings.length) ⟨[], [], [], []⟩ = .ok m := by
  have ht := aligned_eq_tableOf t h
  have hl : t.classStrings.length = t.records.length := by
    conv_lhs => rw [← ht]
    simp [tableOf]
  have := mtdStrLoop_tableOf C t.records [] ⟨[], [], [], []⟩
  simp only [List.nil_append, List.length_nil] at this
  rw [ht] at this
  exact ⟨_, by rw [hl, List.range_eq_range', this]⟩

theorem mapIndex_stringValue (m : List (Str × JSONValue)) (k : Str) :
    (mapIndex m k).1.stringValue = keyString m k := by
  unfold mapIndex keyString
  cases mapFind m k <;> rfl

theorem mapFind_append_other (m : List (Str × JSONValue)) (k k' : Str) (v : JSONValue)
    (h : k' ≠ k) : mapFind (m ++ [(k', v)]) k = mapFind m k := by
  unfold mapFind
  rw [List.find?_append]
  cases m.find? (fun kv => kv.1 == k) with
  | some kv => rfl
  | none =>
    have hb : (k' == k) = false := by simpa using h
    simp [List.find?, hb]

theorem keyString_mapIndex_other (m : List (Str × JSONValue)) (k k' : Str) (h : k' ≠ k) :
    keyString (mapIndex m k').2 k = keyString m k := by
  unfold mapIndex
  cases mapFind m k' with
  | some v => rfl
  | none =>
    simp only [keyString, mapFind_append_other m k k' .null h]

/-! ## The cursor of the parser -/

namespace JSONParser

theorem bind_eq_ok {α β : Type} {x : Res α} {f : α → Res β} {b : β}
    (h : x.bind f = .ok b) : ∃ a, x = .ok a ∧ f a = .ok b := by
  cases x with
  | ok a => exact ⟨a, rfl, h⟩
  | throw e => cases h
  | undefined => cases h
  | nofuel => cases h

theorem getCurrentChar_of_lt (s : Str) (i : Nat) (h : i < s.length) :
    getCurrentChar s i = .ok (s.getD i '\x00') := by
  simp [getCurrentChar, h]

theorem getCurrentChar_length (s : Str) : getCurrentChar s s.length = .ok '\x00' := by
  simp [getCurrentChar]

theorem getCurrentChar_ok_le (s : Str) (i : Nat) (c : Char) (h : getCurrentChar s i = .ok c) :
    i ≤ s.length := by
  unfold getCurrentChar at h
  split_ifs at h <;> omega

theorem getCurrentChar_lt_of_ne (s : Str) (i : Nat) (c : Char)
    (h : getCurrentChar s i = .ok c) (hc : c ≠ '\x00') : i < s.length := by
  unfold getCurrentChar at h
  split_ifs at h with h1 h2
  · exact h1
  · cases h; exact absurd rfl hc

theorem takeWhile_length_le {α : Type} (f : α → Bool) (l : List α) :
    (l.takeWhile f).length ≤ l.length :=
  (List.takeWhile_sublist f).length_le

theorem le_skipWhiteSpace (s : Str) (i : Nat) : i ≤ skipWhiteSpace s i := by
  simp [skipWhiteSpace]

theorem skipWhiteSpace_le (s : Str) (i : Nat) (h : i ≤ s.length) :
    skipWhiteSpace s i ≤ s.length := by
  have := takeWhile_length_le isspace (s.drop i)
  simp only [List.length_drop] at this
  unfold skipWhiteSpace
  omega

theorem le_skipDigits (s : Str) (i : Nat) : i ≤ skipDigits s i := by
  simp [skipDigits]

theorem skipDigits_le (s : Str) (i : Nat) (h : i ≤ s.length) : skipDigits s i ≤ s.length := by
  have := takeWhile_length_le isdigit (s.drop i)
  simp only [List.length_drop] at this
  unfold skipDigits
  omega

/-! ### The text `v` between `p` and `s` -/

theorem drop_ctx (p v s : Str) (i : Nat) (hi : i ≤ v.length) :
    (p ++ v ++ s).drop (p.length + i) = v.drop i ++ s := by
  rw [List.append_assoc, List.drop_append, List.drop_append_of_le_length hi]

theorem getD_ctx (p v s : Str) (i : Nat) (hi : i < v.length) :
    (p ++ v ++ s).getD (p.length + i) '\x00' = v.getD i '\x00' := by
  rw [List.append_assoc, List.getD_append_right _ _ _ _ (by omega),
    List.getD_append _ _ _ _ (by omega)]
  congr 1
  omega

theorem takeWhile_append_of_head {α : Type} (f : α → Bool) (r s : List α)
    (hs : ∀ c ∈ s.head?, f c = false) : (r ++ s).takeWhile f = r.takeWhile f := by
  induction r with
  | nil =>
    cases s with
    | nil => rfl
    | cons c s => simp [List.takeWhile_cons, hs c (by simp)]
  | cons x r ih =>
    simp only [List.cons_append, List.takeWhile_cons, ih]

theorem skipWhiteSpace_ctx (p v s : Str) (i : Nat) (hi : i ≤ v.length)
    (hs : ∀ c ∈ s.head?, isspace c = false) :
    skipWhiteSpace (p ++ v ++ s) (p.length + i) = p.length + skipWhiteSpace v i := by
  unfold skipWhiteSpace
  rw [drop_ctx p v s i hi, takeWhile_append_of_head isspace _ s hs]
  omega

theorem skipDigits_ctx (p v s : Str) (i : Nat) (hi : i ≤ v.length)
    (hs : ∀ c ∈ s.head?, isdigit c = false) :
    skipDigits (p ++ v ++ s) (p.length + i) = p.length + skipDigits v i := by
  unfold skipDigits
  rw [drop_ctx p v s i hi, takeWhile_append_of_head isdigit _ s hs]
  omega

theorem neutralNext_space (s : Str) (h : neutralNext s) : ∀ c ∈ s.head?, isspace c = false :=
  fun c hc => (h c hc).1

theorem neutralNext_digit (s : Str) (h : neutralNext s) : ∀ c ∈ s.head?, isdigit c = false :=
  fun c hc => (h c hc).2.1

/-- The character under the cursor inside `v` and inside the larger text: the
same, or, at the end of `v`, NUL in `v` and a neutral character in the larger
text. -/
theorem getCurrentChar_ctx (p v s : Str) (i : Nat) (hi : i ≤ v.length) (hs : neutralNext s) :
    ∃ c c', getCurrentChar v i = .ok c ∧ getCurrentChar (p ++ v ++ s) (p.length + i) = .ok c' ∧
      ((i < v.length ∧ c = c') ∨ (i = v.length ∧ c = '\x00' ∧ isNeutral c')) := by
  rcases Nat.lt_or_ge i v.length with h | h
  · refine ⟨_, _, getCurrentChar_of_lt v i h, getCurrentChar_of_lt _ _ (by simp; omega), ?_⟩
    exact Or.inl ⟨h, (getD_ctx p v s i h).symm⟩
  · have he : i = v.length := by omega
    subst he
    cases s with
    | nil =>
      refine ⟨_, '\x00', getCurrentChar_length v, ?_,
        Or.inr ⟨rfl, rfl, (by decide : isNeutral '\x00')⟩⟩
      have : p.length + v.length = (p ++ v ++ []).length := by simp
      rw [this]
      exact getCurrentChar_length _
    | cons c s =>
      refine ⟨_, c, getCurrentChar_length v, ?_, Or.inr ⟨rfl, rfl, hs c (by simp)⟩⟩
      rw [getCurrentChar_of_lt _ _ (by simp)]
      congr 1
      rw [List.append_assoc, List.getD_append_right _ _ _ _ (by omega),
        List.getD_append_right _ _ _ _ (by omega)]
      simp

theorem getCurrentChar_ctx_lt (p v s : Str) (i : Nat) (hi : i < v.length) :
    getCurrentChar (p ++ v ++ s) (p.length + i) = getCurrentChar v i := by
  rw [getCurrentChar_of_lt v i hi, getCurrentChar_of_lt _ _ (by simp; omega), getD_ctx p v s i hi]

/-! ### `expect` -/

theorem expect_ok (v : Str) (i : Nat) (lit : Str) (j : Nat) (h : expect v i lit = .ok j) :
    i + lit.length ≤ v.length ∧ (v.drop i).take lit.length = lit ∧
      j = skipWhiteSpace v (i + lit.length) := by
  unfold expect substr at h
  split_ifs at h with h1
  · cases h
  · simp only [Res.bind] at h
    split_ifs at h with h2
    have hl := congrArg List.length h2
    simp only [List.length_take, List.length_drop] at hl
    cases h
    exact ⟨by omega, h2, rfl⟩

theorem expect_of (v : Str) (i : Nat) (lit : Str) (h1 : i ≤ v.length)
    (h2 : (v.drop i).take lit.length = lit) :
    expect v i lit = .ok (skipWhiteSpace v (i + lit.length)) := by
  unfold expect substr
  rw [if_neg (by omega)]
  simp only [Res.bind, h2, if_true]

theorem expect_bounds (v : Str) (i : Nat) (lit : Str) (j : Nat) (h : expect v i lit = .ok j) :
    i + lit.length ≤ j ∧ j ≤ v.length := by
  obtain ⟨h1, _, h3⟩ := expect_ok v i lit j h
  rw [h3]
  exact ⟨le_skipWhiteSpace _ _, skipWhiteSpace_le _ _ h1⟩

theorem expect_ctx (p v s : Str) (i : Nat) (lit : Str) (j : Nat)
    (hs : ∀ c ∈ s.head?, isspace c = false) (h : expect v i lit = .ok j) :
    expect (p ++ v ++ s) (p.length + i) lit = .ok (p.length + j) := by
  obtain ⟨h1, h2, h3⟩ := expect_ok v i lit j h
  have hd : ((p ++ v ++ s).drop (p.length + i)).take lit.length = lit := by
    rw [drop_ctx p v s i (by omega), List.take_append_of_le_length (by simp; omega), h2]
  rw [expect_of _ _ _ (by simp; omega) hd, h3, Nat.add_assoc,
    skipWhiteSpace_ctx p v s _ h1 hs]

/-! ### `parseString` -/

theorem parseEscape_le (v : Str) (k : Nat) (c : Char) (res r : Str) (k' : Nat)
    (h : parseEscape v k c res = .ok (r, k')) : k ≤ k' := by
  unfold parseEscape at h
  by_cases hu : c = 'u'
  · rw [if_pos hu] at h
    obtain ⟨hex, _, h⟩ := bind_eq_ok h
    obtain ⟨cp, _, h⟩ := bind_eq_ok h
    split_ifs at h
    simp only [Res.ok.injEq, Prod.mk.injEq] at h
    omega
  · rw [if_neg hu] at h
    cases he : escapeChar c with
    | none => rw [he] at h; cases h
    | some x =>
      rw [he] at h
      simp only [Res.ok.injEq, Prod.mk.injEq] at h
      omega

theorem parseEscape_ctx (p v s : Str) (k : Nat) (c : Char) (res r : Str) (k' : Nat)
    (h : parseEscape v k c res = .ok (r, k')) (hk : k' + 1 ≤ v.length) :
    parseEscape (p ++ v ++ s) (p.length + k) c res = .ok (r, p.length + k') := by
  unfold parseEscape at h ⊢
  by_cases hu : c = 'u'
  · rw [if_pos hu] at h ⊢
    obtain ⟨hex, h1, h⟩ := bind_eq_ok h
    obtain ⟨cp, h2, h⟩ := bind_eq_ok h
    split_ifs at h with h3
    simp only [Res.ok.injEq, Prod.mk.injEq] at h
    obtain ⟨hr, hk'⟩ := h
    subst hk'
    have hsub : substr (p ++ v ++ s) (p.length + k + 1) 4 = .ok hex := by
      unfold substr at h1 ⊢
      split_ifs at h1 with h4
      rw [if_neg (by simp; omega)]
      simp only [Res.ok.injEq] at h1
      rw [Nat.add_assoc, drop_ctx p v s (k + 1) (by omega),
        List.take_append_of_le_length (by simp; omega), h1]
    rw [hsub, Res.bind_ok, h2, Res.bind_ok, if_pos h3, hr, Nat.add_assoc]
  · rw [if_neg hu] at h ⊢
    cases he : escapeChar c with
    | none => rw [he] at h; cases h
    | some x =>
      rw [he] at h
      simp only [Res.ok.injEq, Prod.mk.injEq] at h
      simp only [h.1, h.2]

theorem parseStringLoop_lt (v : Str) (fuel i : Nat) (c : Char) (res : Str) (x : Str × Nat)
    (h : parseStringLoop v fuel i c res = .ok x) (hc : getCurrentChar v i = .ok c) :
    i < v.length := by
  by_contra hlt
  have hle := getCurrentChar_ok_le v i c hc
  have he : i = v.length := by omega
  subst he
  rw [getCurrentChar_length] at hc
  cases hc
  cases fuel with
  | zero => cases h
  | succ fuel => simp [parseStringLoop] at h

theorem parseStringLoop_ctx (p v s : Str) (hs : ∀ c ∈ s.head?, isspace c = false) :
    ∀ (fuel fuel' i : Nat) (c : Char) (res r : Str) (j : Nat), fuel ≤ fuel' →
      getCurrentChar v i = .ok c → parseStringLoop v fuel i c res = .ok (r, j) →
      parseStringLoop (p ++ v ++ s) fuel' (p.length + i) c res = .ok (r, p.length + j) ∧
        i < j ∧ j ≤ v.length
  | 0, _, _, _, _, _, _, _, _, h => by cases h
  | fuel + 1, 0, _, _, _, _, _, hf, _, _ => by omega
  | fuel + 1, fuel' + 1, i, c, res, r, j, hf, hc, h => by
    have hi := parseStringLoop_lt v _ i c res _ h hc
    have hit : p.length + i < (p ++ v ++ s).length := by simp; omega
    unfold parseStringLoop at h ⊢
    by_cases hq : c = '"'
    · simp only [hq, ne_eq, not_true_eq_false, false_and, if_false, if_true] at h ⊢
      cases h
      refine ⟨?_, by have := le_skipWhiteSpace v (i + 1); omega,
        skipWhiteSpace_le v _ (by omega)⟩
      rw [Nat.add_assoc, skipWhiteSpace_ctx p v s (i + 1) (by omega) hs]
    · simp only [ne_eq, hq, not_false_eq_true, hi, hit, and_self, if_true] at h ⊢
      by_cases hb : c = '\\'
      · simp only [hb, if_true] at h ⊢
        obtain ⟨c1, h1, h⟩ := bind_eq_ok h
        obtain ⟨ri, h2, h⟩ := bind_eq_ok h
        obtain ⟨c2, h3, h⟩ := bind_eq_ok h
        have hle := parseEscape_le v _ _ _ _ _ h2
        have hlt := parseStringLoop_lt v _ _ _ _ _ h h3
        obtain ⟨ih1, ih2, ih3⟩ := parseStringLoop_ctx p v s hs fuel fuel' (ri.2 + 1) c2 ri.1 r j
          (by omega) h3 h
        have e1 : getCurrentChar (p ++ v ++ s) (p.length + i + 1) = .ok c1 := by
          rw [Nat.add_assoc, getCurrentChar_ctx_lt p v s (i + 1) (by omega), h1]
        have e2 : parseEscape (p ++ v ++ s) (p.length + i + 1) c1 res =
            .ok (ri.1, p.length + ri.2) := by
          rw [Nat.add_assoc]
          exact parseEscape_ctx p v s (i + 1) c1 res ri.1 ri.2 h2 (by omega)
        have e3 : getCurrentChar (p ++ v ++ s) (p.length + ri.2 + 1) = .ok c2 := by
          rw [Nat.add_assoc, getCurrentChar_ctx_lt p v s (ri.2 + 1) hlt, h3]
        simp only [e1, e2, e3, Res.bind]
        rw [Nat.add_assoc]
        exact ⟨ih1, by omega, ih3⟩
      · simp only [hb, if_false] at h ⊢
        obtain ⟨c2, h3, h⟩ := bind_eq_ok h
        have hlt := parseStringLoop_lt v _ _ _ _ _ h h3
        obtain ⟨ih1, ih2, ih3⟩ := parseStringLoop_ctx p v s hs fuel fuel' (i + 1) c2
          (res ++ [c]) r j (by omega) h3 h
        have e3 : getCurrentChar (p ++ v ++ s) (p.length + i + 1) = .ok c2 := by
          rw [Nat.add_assoc, getCurrentChar_ctx_lt p v s (i + 1) hlt, h3]
        simp only [e3, Res.bind]
        rw [Nat.add_assoc]
        exact ⟨ih1, by omega, ih3⟩

theorem parseString_ctx (p v s : Str) (hs : ∀ c ∈ s.head?, isspace c = false)
    (i : Nat) (r : Str) (j : Nat) (h : parseString v i = .ok (r, j)) :
    parseString (p ++ v ++ s) (p.length + i) = .ok (r, p.length + j) ∧ i < j ∧ j ≤ v.length := by
  unfold parseString at h ⊢
  obtain ⟨i1, h1, h⟩ := bind_eq_ok h
  obtain ⟨c, h2, h⟩ := bind_eq_ok h
  have hb := expect_bounds v i _ i1 h1
  have hlt := parseStringLoop_lt v _ _ _ _ _ h h2
  obtain ⟨ih1, ih2, ih3⟩ := parseStringLoop_ctx p v s hs (v.length + 1)
    ((p ++ v ++ s).length + 1) i1 c [] r j (by simp; omega) h2 h
  have e2 : getCurrentChar (p ++ v ++ s) (p.length + i1) = .ok c := by
    rw [getCurrentChar_ctx_lt p v s i1 hlt, h2]
  simp only [expect_ctx p v s i _ i1 hs h1, e2, Res.bind]
  simp only [List.length_singleton] at hb
  exact ⟨ih1, by omega, ih3⟩

/-! ### `parseNumber` -/

theorem numberSign_ctx (p v s : Str) (hs : neutralNext s) (i j : Nat)
    (h : numberSign v i = .ok j) :
    numberSign (p ++ v ++ s) (p.length + i) = .ok (p.length + j) ∧ i ≤ j ∧ j ≤ v.length := by
  unfold numberSign at h ⊢
  obtain ⟨c0, h0, h⟩ := bind_eq_ok h
  have hi := getCurrentChar_ok_le v i c0 h0
  obtain ⟨c, c', hc, hc', hcase⟩ := getCurrentChar_ctx p v s i hi hs
  rw [h0] at hc
  simp only [Res.ok.injEq] at hc h
  subst hc
  rw [hc', Res.bind_ok]
  rcases hcase with ⟨hlt, he⟩ | ⟨_, he, hn⟩
  · subst he
    by_cases hm : c0 = '-'
    · rw [if_pos hm] at h ⊢
      exact ⟨by rw [← h, Nat.add_assoc], by omega, by omega⟩
    · rw [if_neg hm] at h ⊢
      exact ⟨by rw [← h], by omega, by omega⟩
  · have hm : ¬ c0 = '-' := by rw [he]; decide
    rw [if_neg hm] at h
    rw [if_neg hn.2.2.2.2.2.2]
    exact ⟨by rw [← h], by omega, by omega⟩

theorem numberFraction_ctx (p v s : Str) (hs : neutralNext s) (i j : Nat)
    (h : numberFraction v i = .ok j) :
    numberFraction (p ++ v ++ s) (p.length + i) = .ok (p.length + j) ∧ i ≤ j ∧
      j ≤ v.length := by
  unfold numberFraction at h ⊢
  obtain ⟨c0, h0, h⟩ := bind_eq_ok h
  have hi := getCurrentChar_ok_le v i c0 h0
  obtain ⟨c, c', hc, hc', hcase⟩ := getCurrentChar_ctx p v s i hi hs
  rw [h0] at hc
  simp only [Res.ok.injEq] at hc h
  subst hc
  rw [hc', Res.bind_ok]
  rcases hcase with ⟨hlt, he⟩ | ⟨_, he, hn⟩
  · subst he
    by_cases hm : c0 = '.'
    · rw [if_pos hm] at h ⊢
      have h1 := le_skipDigits v (i + 1)
      have h2 := skipDigits_le v (i + 1) (by omega)
      refine ⟨?_, by omega, by omega⟩
      rw [← h, Nat.add_assoc, skipDigits_ctx p v s (i + 1) (by omega) (neutralNext_digit s hs)]
    · rw [if_neg hm] at h ⊢
      exact ⟨by rw [← h], by omega, by omega⟩
  · have hm : ¬ c0 = '.' := by rw [he]; decide
    rw [if_neg hm] at h
    rw [if_neg hn.2.2.1]
    exact ⟨by rw [← h], by omega, by omega⟩

theorem numberExponent_ctx (p v s : Str) (hs : neutralNext s) (i j : Nat)
    (h : numberExponent v i = .ok j) :
    numberExponent (p ++ v ++ s) (p.length + i) = .ok (p.length + j) ∧ i ≤ j ∧
      j ≤ v.length := by
  unfold numberExponent at h ⊢
  obtain ⟨c0, h0, h⟩ := bind_eq_ok h
  have hi := getCurrentChar_ok_le v i c0 h0
  obtain ⟨c, c', hc, hc', hcase⟩ := getCurrentChar_ctx p v s i hi hs
  rw [h0] at hc
  simp only [Res.ok.injEq] at hc
  subst hc
  rw [hc', Res.bind_ok]
  rcases hcase with ⟨hlt, he⟩ | ⟨_, he, hn⟩
  · subst he
    by_cases hm : c0 = 'e' ∨ c0 = 'E'
    · rw [if_pos hm] at h ⊢
      obtain ⟨c1, h1, h⟩ := bind_eq_ok h
      obtain ⟨d, d', hd, hd', hcase'⟩ := getCurrentChar_ctx p v s (i + 1) (by omega) hs
      rw [h1] at hd
      simp only [Res.ok.injEq] at hd h
      subst hd
      rw [Nat.add_assoc, hd', Res.bind_ok]
      rcases hcase' with ⟨hlt', he'⟩ | ⟨_, he', hn'⟩
      · subst he'
        by_cases hg : c1 = '-' ∨ c1 = '+'
        · rw [if_pos hg] at h ⊢
          have h2 := le_skipDigits v (i + 2)
          have h3 := skipDigits_le v (i + 2) (by omega)
          refine ⟨?_, by omega, by omega⟩
          rw [← h, Nat.add_assoc,
            skipDigits_ctx p v s (i + 2) (by omega) (neutralNext_digit s hs)]
        · rw [if_neg hg] at h ⊢
          have h2 := le_skipDigits v (i + 1)
          have h3 := skipDigits_le v (i + 1) (by omega)
          refine ⟨?_, by omega, by omega⟩
          rw [← h, skipDigits_ctx p v s (i + 1) (by omega) (neutralNext_digit s hs)]
      · have hg : ¬ (c1 = '-' ∨ c1 = '+') := by rw [he']; decide
        have hg' : ¬ (d' = '-' ∨ d' = '+') := by
          rintro (h4 | h4)
          · exact hn'.2.2.2.2.2.2 h4
          · exact hn'.2.2.2.2.2.1 h4
        rw [if_neg hg] at h
        rw [if_neg hg']
        have h2 := le_skipDigits v (i + 1)
        have h3 := skipDigits_le v (i + 1) (by omega)
        refine ⟨?_, by omega, by omega⟩
        rw [← h, skipDigits_ctx p v s (i + 1) (by omega) (neutralNext_digit s hs)]
    · rw [if_neg hm] at h ⊢
      simp only [Res.ok.injEq] at h
      exact ⟨by rw [← h], by omega, by omega⟩
  · have hm : ¬ (c0 = 'e' ∨ c0 = 'E') := by rw [he]; decide
    have hm' : ¬ (c' = 'e' ∨ c' = 'E') := by
      rintro (h4 | h4)
      · exact hn.2.2.2.1 h4
      · exact hn.2.2.2.2.1 h4
    rw [if_neg hm] at h
    rw [if_neg hm']
    simp only [Res.ok.injEq] at h
    exact ⟨by rw [← h], by omega, by omega⟩

theorem numberEnd_ctx (p v s : Str) (hs : neutralNext s) (i j : Nat)
    (h : numberEnd v i = .ok j) :
    numberEnd (p ++ v ++ s) (p.length + i) = .ok (p.length + j) ∧ i ≤ j ∧ j ≤ v.length := by
  unfold numberEnd at h ⊢
  obtain ⟨i1, h1, h⟩ := bind_eq_ok h
  obtain ⟨i2, h2, h⟩ := bind_eq_ok h
  obtain ⟨e1, b1, b1'⟩ := numberSign_ctx p v s hs i i1 h1
  have hd1 := le_skipDigits v i1
  have hd2 := skipDigits_le v i1 b1'
  obtain ⟨e2, b2, b2'⟩ := numberFraction_ctx p v s hs _ i2 h2
  obtain ⟨e3, b3, b3'⟩ := numberExponent_ctx p v s hs i2 j h
  rw [e1, Res.bind_ok, skipDigits_ctx p v s i1 b1' (neutralNext_digit s hs), e2, Res.bind_ok, e3]
  exact ⟨rfl, by omega, b3'⟩

theorem stod_nil : stod [] = .throw .invalid_argument := by decide

theorem parseNumber_ctx (p v s : Str) (hs : neutralNext s) (i : Nat) (q : ℚ) (j : Nat)
    (h : parseNumber v i = .ok (q, j)) :
    parseNumber (p ++ v ++ s) (p.length + i) = .ok (q, p.length + j) ∧ i < j ∧
      j ≤ v.length := by
  unfold parseNumber at h ⊢
  obtain ⟨e, h1, h⟩ := bind_eq_ok h
  obtain ⟨ns, h2, h⟩ := bind_eq_ok h
  obtain ⟨d, h3, h⟩ := bind_eq_ok h
  obtain ⟨e1, b1, b1'⟩ := numberEnd_ctx p v s hs i e h1
  simp only [Res.ok.injEq, Prod.mk.injEq] at h
  have hns : ns = (v.drop i).take (e - i) := by
    unfold substr at h2
    split_ifs at h2
    simp only [Res.ok.injEq] at h2
    exact h2.symm
  have hne : ns ≠ [] := by
    intro h0
    rw [h0, stod_nil] at h3
    cases h3
  have hlt : i < e := by
    by_contra hge
    have : e - i = 0 := by omega
    rw [this] at hns
    exact hne (by simpa using hns)
  have hsub : substr (p ++ v ++ s) (p.length + i) (p.length + e - (p.length + i)) = .ok ns := by
    unfold substr
    rw [if_neg (by simp; omega), drop_ctx p v s i (by omega),
      List.take_append_of_le_length (by simp; omega), hns]
    congr 2
    omega
  have hj1 := le_skipWhiteSpace v e
  have hj2 := skipWhiteSpace_le v e b1'
  rw [e1, Res.bind_ok, hsub, Res.bind_ok, h3, Res.bind_ok,
    skipWhiteSpace_ctx p v s e b1' (neutralNext_space s hs), h.1, h.2]
  exact ⟨rfl, by omega, by omega⟩

/-! ### `parse` inside a larger text, with at least as much fuel -/

theorem parseFuel_succ (n : Nat) (v : Str) (i : Nat) :
    parseFuel (n + 1) v i =
      (getCurrentChar v (skipWhiteSpace v i)).bind fun firstChar =>
        if firstChar = 'n' then
          (expect v (skipWhiteSpace v i) ['n', 'u', 'l', 'l']).bind fun i => .ok (.null, i)
        else if firstChar = 't' then
          (expect v (skipWhiteSpace v i) ['t', 'r', 'u', 'e']).bind fun i =>
            .ok (.boolean true, i)
        else if firstChar = 'f' then
          (expect v (skipWhiteSpace v i) ['f', 'a', 'l', 's', 'e']).bind fun i =>
            .ok (.boolean false, i)
        else if firstChar = '"' then
          (parseString v (skipWhiteSpace v i)).bind fun r => .ok (.string r.1, r.2)
        else if isdigit firstChar ∨ firstChar = '-' then
          (parseNumber v (skipWhiteSpace v i)).bind fun r => .ok (.number r.1, r.2)
        else if firstChar = '[' then
          (expect v (skipWhiteSpace v i) ['[']).bind fun i =>
          (parseArrayLoop n v i []).bind fun r => .ok (.array r.1, r.2)
        else if firstChar = '{' then
          (expect v (skipWhiteSpace v i) ['{']).bind fun i =>
          (parseObjectLoop n v i []).bind fun r => .ok (.object r.1, r.2)
        else .throw .invalid_argument := by
  rw [parseFuel]

theorem parseArrayLoop_succ (n : Nat) (v : Str) (i : Nat) (acc : List JSONValue) :
    parseArrayLoop (n + 1) v i acc =
      (getCurrentChar v i).bind fun c =>
        if c ≠ ']' then
          (parseFuel n v i).bind fun vi =>
          (getCurrentChar v vi.2).bind fun c2 =>
            if c2 = ',' then
              parseArrayLoop n v (skipWhiteSpace v (vi.2 + 1)) (acc ++ [vi.1])
            else if c2 ≠ ']' then .throw .invalid_argument
            else parseArrayLoop n v vi.2 (acc ++ [vi.1])
        else .ok (acc, skipWhiteSpace v (i + 1)) := by
  rw [parseArrayLoop]

theorem parseObjectLoop_succ (n : Nat) (v : Str) (i : Nat) (acc : List (Str × JSONValue)) :
    parseObjectLoop (n + 1) v i acc =
      (getCurrentChar v i).bind fun c =>
        if c ≠ '}' then
          (parseString v i).bind fun ki =>
          (expect v ki.2 [':']).bind fun i =>
          (parseFuel n v i).bind fun vi =>
          (getCurrentChar v vi.2).bind fun c2 =>
            if c2 = ',' then
              parseObjectLoop n v (skipWhiteSpace v (vi.2 + 1)) (emplace acc ki.1 vi.1)
            else if c2 ≠ '}' then .throw .invalid_argument
            else parseObjectLoop n v vi.2 (emplace acc ki.1 vi.1)
        else .ok (acc, skipWhiteSpace v (i + 1)) := by
  rw [parseObjectLoop]

theorem keyword_ctx (p v s : Str) (hs : neutralNext s) (i : Nat) (lit : Str) (a b : JSONValue)
    (j : Nat) (hl : 0 < lit.length)
    (h : ((expect v i lit).bind fun k => Res.ok (a, k)) = .ok (b, j)) :
    ((expect (p ++ v ++ s) (p.length + i) lit).bind fun k => Res.ok (a, k)) =
        .ok (b, p.length + j) ∧ i < j ∧ j ≤ v.length := by
  obtain ⟨j', he, h⟩ := bind_eq_ok h
  have hb := expect_bounds v i lit j' he
  rw [expect_ctx p v s i lit j' (neutralNext_space s hs) he, Res.bind_ok]
  simp only [Res.ok.injEq, Prod.mk.injEq] at h
  obtain ⟨ha, hj⟩ := h
  subst ha hj
  exact ⟨rfl, by omega, hb.2⟩

/-- A successful run of `parse`, of the array loop and of the object loop on `v`
is repeated inside `p ++ v ++ s`, with any fuel that is not smaller, when `s` is
empty or begins with a neutral character; the cursor moves forward and stays
inside `v`. -/
theorem parse_ctx_all (p v s : Str) (hs : neutralNext s) : ∀ n : Nat,
    (∀ (n' i : Nat) (a : JSONValue) (j : Nat), n ≤ n' → parseFuel n v i = .ok (a, j) →
      parseFuel n' (p ++ v ++ s) (p.length + i) = .ok (a, p.length + j) ∧
        i < j ∧ j ≤ v.length) ∧
    (∀ (n' i : Nat) (acc r : List JSONValue) (j : Nat), n ≤ n' →
      parseArrayLoop n v i acc = .ok (r, j) →
      parseArrayLoop n' (p ++ v ++ s) (p.length + i) acc = .ok (r, p.length + j) ∧
        i < j ∧ j ≤ v.length) ∧
    (∀ (n' i : Nat) (acc r : List (Str × JSONValue)) (j : Nat), n ≤ n' →
      parseObjectLoop n v i acc = .ok (r, j) →
      parseObjectLoop n' (p ++ v ++ s) (p.length + i) acc = .ok (r, p.length + j) ∧
        i < j ∧ j ≤ v.length)
  | 0 => by
    refine ⟨?_, ?_, ?_⟩
    · intro n' i a j _ h
      rw [parseFuel] at h
      cases h
    · intro n' i acc r j _ h
      rw [parseArrayLoop] at h
      cases h
    · intro n' i acc r j _ h
      rw [parseObjectLoop] at h
      cases h
  | n + 1 => by
    obtain ⟨ihP, ihA, ihO⟩ := parse_ctx_all p v s hs n
    have hsp := neutralNext_space s hs
    refine ⟨?_, ?_, ?_⟩
    · intro n' i a j hn h
      obtain ⟨m, rfl⟩ : ∃ m, n' = m + 1 := ⟨n' - 1, by omega⟩
      rw [parseFuel_succ] at h ⊢
      obtain ⟨c, hc, h⟩ := bind_eq_ok h
      have hi1 := getCurrentChar_ok_le _ _ _ hc
      have hii := le_skipWhiteSpace v i
      rw [skipWhiteSpace_ctx p v s i (by omega) hsp]
      have key : c ≠ '\x00' →
          getCurrentChar (p ++ v ++ s) (p.length + skipWhiteSpace v i) = .ok c := by
        intro hne
        rw [getCurrentChar_ctx_lt p v s _ (getCurrentChar_lt_of_ne v _ c hc hne), hc]
      by_cases h1 : c = 'n'
      · rw [key (by rw [h1]; decide), Res.bind_ok]
        rw [if_pos h1] at h ⊢
        obtain ⟨e, b1, b2⟩ := keyword_ctx p v s hs _ _ _ _ _ (by simp) h
        exact ⟨e, by omega, b2⟩
      rw [if_neg h1] at h
      by_cases h2 : c = 't'
      · rw [key (by rw [h2]; decide), Res.bind_ok, if_neg h1]
        rw [if_pos h2] at h ⊢
        obtain ⟨e, b1, b2⟩ := keyword_ctx p v s hs _ _ _ _ _ (by simp) h
        exact ⟨e, by omega, b2⟩
      rw [if_neg h2] at h
      by_cases h3 : c = 'f'
      · rw [key (by rw [h3]; decide), Res.bind_ok, if_neg h1, if_neg h2]
        rw [if_pos h3] at h ⊢
        obtain ⟨e, b1, b2⟩ := keyword_ctx p v s hs _ _ _ _ _ (by simp) h
        exact ⟨e, by omega, b2⟩
      rw [if_neg h3] at h
      by_cases h4 : c = '"'
      · rw [key (by rw [h4]; decide), Res.bind_ok, if_neg h1, if_neg h2, if_neg h3]
        rw [if_pos h4] at h ⊢
        obtain ⟨r, hr, h⟩ := bind_eq_ok h
        obtain ⟨e, b1, b2⟩ := parseString_ctx p v s hsp _ r.1 r.2 hr
        rw [e, Res.bind_ok]
        simp only [Res.ok.injEq, Prod.mk.injEq] at h
        obtain ⟨ha, hj⟩ := h
        subst ha hj
        exact ⟨rfl, by omega, b2⟩
      rw [if_neg h4] at h
      by_cases h5 : isdigit c ∨ c = '-'
      · have hne : c ≠ '\x00' := by
          intro h0
          rw [h0] at h5
          revert h5
          decide
        rw [key hne, Res.bind_ok, if_neg h1, if_neg h2, if_neg h3, if_neg h4]
        rw [if_pos h5] at h ⊢
        obtain ⟨r, hr, h⟩ := bind_eq_ok h
        obtain ⟨e, b1, b2⟩ := parseNumber_ctx p v s hs _ r.1 r.2 hr
        rw [e, Res.bind_ok]
        simp only [Res.ok.injEq, Prod.mk.injEq] at h
        obtain ⟨ha, hj⟩ := h
        subst ha hj
        exact ⟨rfl, by omega, b2⟩
      rw [if_neg h5] at h
      by_cases h6 : c = '['
      · rw [key (by rw [h6]; decide), Res.bind_ok, if_neg h1, if_neg h2, if_neg h3, if_neg h4,
          if_neg h5]
        rw [if_pos h6] at h ⊢
        obtain ⟨i2, he, h⟩ := bind_eq_ok h
        obtain ⟨r, hr, h⟩ := bind_eq_ok h
        have hb := expect_bounds v _ _ i2 he
        obtain ⟨e, b1, b2⟩ := ihA m i2 [] r.1 r.2 (by omega) hr
        rw [expect_ctx p v s _ _ i2 hsp he, Res.bind_ok, e, Res.bind_ok]
        simp only [Res.ok.injEq, Prod.mk.injEq] at h
        obtain ⟨ha, hj⟩ := h
        subst ha hj
        exact ⟨rfl, by omega, b2⟩
      rw [if_neg h6] at h
      by_cases h7 : c = '{'
      · rw [key (by rw [h7]; decide), Res.bind_ok, if_neg h1, if_neg h2, if_neg h3, if_neg h4,
          if_neg h5, if_neg h6]
        rw [if_pos h7] at h ⊢
        obtain ⟨i2, he, h⟩ := bind_eq_ok h
        obtain ⟨r, hr, h⟩ := bind_eq_ok h
        have hb := expect_bounds v _ _ i2 he
        obtain ⟨e, b1, b2⟩ := ihO m i2 [] r.1 r.2 (by omega) hr
        rw [expect_ctx p v s _ _ i2 hsp he, Res.bind_ok, e, Res.bind_ok]
        simp only [Res.ok.injEq, Prod.mk.injEq] at h
        obtain ⟨ha, hj⟩ := h
        subst ha hj
        exact ⟨rfl, by omega, b2⟩
      rw [if_neg h7] at h
      cases h
    · intro n' i acc r j hn h
      obtain ⟨m, rfl⟩ : ∃ m, n' = m + 1 := ⟨n' - 1, by omega⟩
      rw [parseArrayLoop_succ] at h ⊢
      obtain ⟨c, hc, h⟩ := bind_eq_ok h
      have hi := getCurrentChar_ok_le _ _ _ hc
      by_cases h1 : c = ']'
      · have hlt := getCurrentChar_lt_of_ne v _ c hc (by rw [h1]; decide)
        rw [getCurrentChar_ctx_lt p v s i hlt, hc, Res.bind_ok]
        rw [if_neg (fun hx => hx h1)] at h ⊢
        simp only [Res.ok.injEq, Prod.mk.injEq] at h
        obtain ⟨ha, hj⟩ := h
        subst ha hj
        have h2 := le_skipWhiteSpace v (i + 1)
        have h3 := skipWhiteSpace_le v (i + 1) (by omega)
        rw [Nat.add_assoc, skipWhiteSpace_ctx p v s (i + 1) (by omega) hsp]
        exact ⟨rfl, by omega, h3⟩
      · rw [if_pos h1] at h
        obtain ⟨vi, hv, h⟩ := bind_eq_ok h
        obtain ⟨c2, hc2, h⟩ := bind_eq_ok h
        obtain ⟨e, b1, b2⟩ := ihP m i vi.1 vi.2 (by omega) hv
        rw [getCurrentChar_ctx_lt p v s i (by omega), hc, Res.bind_ok, if_pos h1, e, Res.bind_ok]
        by_cases h2 : c2 = ','
        · have hlt := getCurrentChar_lt_of_ne v _ c2 hc2 (by rw [h2]; decide)
          rw [getCurrentChar_ctx_lt p v s vi.2 hlt, hc2, Res.bind_ok]
          rw [if_pos h2] at h ⊢
          have h3 := le_skipWhiteSpace v (vi.2 + 1)
          obtain ⟨e', b1', b2'⟩ := ihA m _ _ r j (by omega) h
          rw [Nat.add_assoc, skipWhiteSpace_ctx p v s (vi.2 + 1) (by omega) hsp]
          exact ⟨e', by omega, b2'⟩
        · rw [if_neg h2] at h
          by_cases h3 : c2 = ']'
          · have hlt := getCurrentChar_lt_of_ne v _ c2 hc2 (by rw [h3]; decide)
            rw [getCurrentChar_ctx_lt p v s vi.2 hlt, hc2, Res.bind_ok, if_neg h2]
            rw [if_neg (fun hx => hx h3)] at h ⊢
            obtain ⟨e', b1', b2'⟩ := ihA m _ _ r j (by omega) h
            exact ⟨e', by omega, b2'⟩
          · rw [if_pos h3] at h
            cases h
    · intro n' i acc r j hn h
      obtain ⟨m, rfl⟩ : ∃ m, n' = m + 1 := ⟨n' - 1, by omega⟩
      rw [parseObjectLoop_succ] at h ⊢
      obtain ⟨c, hc, h⟩ := bind_eq_ok h
      have hi := getCurrentChar_ok_le _ _ _ hc
      by_cases h1 : c = '}'
      · have hlt := getCurrentChar_lt_of_ne v _ c hc (by rw [h1]; decide)
        rw [getCurrentChar_ctx_lt p v s i hlt, hc, Res.bind_ok]
        rw [if_neg (fun hx => hx h1)] at h ⊢
        simp only [Res.ok.injEq, Prod.mk.injEq] at h
        obtain ⟨ha, hj⟩ := h
        subst ha hj
        have h2 := le_skipWhiteSpace v (i + 1)
        have h3 := skipWhiteSpace_le v (i + 1) (by omega)
        rw [Nat.add_assoc, skipWhiteSpace_ctx p v s (i + 1) (by omega) hsp]
        exact ⟨rfl, by omega, h3⟩
      · rw [if_pos h1] at h
        obtain ⟨ki, hk, h⟩ := bind_eq_ok h
        obtain ⟨i2, he, h⟩ := bind_eq_ok h
        obtain ⟨vi, hv, h⟩ := bind_eq_ok h
        obtain ⟨c2, hc2, h⟩ := bind_eq_ok h
        obtain ⟨ek, bk1, bk2⟩ := parseString_ctx p v s hsp i ki.1 ki.2 hk
        have hb := expect_bounds v _ _ i2 he
        obtain ⟨e, b1, b2⟩ := ihP m i2 vi.1 vi.2 (by omega) hv
        rw [getCurrentChar_ctx_lt p v s i (by omega), hc, Res.bind_ok, if_pos h1, ek,
          Res.bind_ok, expect_ctx p v s _ _ i2 hsp he, Res.bind_ok, e, Res.bind_ok]
        by_cases h2 : c2 = ','
        · have hlt := getCurrentChar_lt_of_ne v _ c2 hc2 (by rw [h2]; decide)
          rw [getCurrentChar_ctx_lt p v s vi.2 hlt, hc2, Res.bind_ok]
          rw [if_pos h2] at h ⊢
          have h3 := le_skipWhiteSpace v (vi.2 + 1)
          obtain ⟨e', b1', b2'⟩ := ihO m _ _ r j (by omega) h
          rw [Nat.add_assoc, skipWhiteSpace_ctx p v s (vi.2 + 1) (by omega) hsp]
          exact ⟨e', by omega, b2'⟩
        · rw [if_neg h2] at h
          by_cases h3 : c2 = '}'
          · have hlt := getCurrentChar_lt_of_ne v _ c2 hc2 (by rw [h3]; decide)
            rw [getCurrentChar_ctx_lt p v s vi.2 hlt, hc2, Res.bind_ok, if_neg h2]
            rw [if_neg (fun hx => hx h3)] at h ⊢
            obtain ⟨e', b1', b2'⟩ := ihO m _ _ r j (by omega) h
            exact ⟨e', by omega, b2'⟩
          · rw [if_pos h3] at h
            cases h

/-- More fuel does not change a successful run of `parse`; such a run moves the
cursor forward and leaves it inside the text. -/
theorem parseFuel_mono (v : Str) (n n' i : Nat) (a : JSONValue) (j : Nat) (hn : n ≤ n')
    (h : parseFuel n v i = .ok (a, j)) :
    parseFuel n' v i = .ok (a, j) ∧ i < j ∧ j ≤ v.length := by
  have := (parse_ctx_all [] v [] (by intro c hc; simp at hc) n).1 n' i a j hn h
  simpa using this

/-! ### Stepping through a text -/

theorem drop_at (pre : Str) (rest : Str) : (pre ++ rest).drop pre.length = rest := by
  simp

theorem getCurrentChar_at (pre : Str) (c : Char) (rest : Str) :
    getCurrentChar (pre ++ c :: rest) pre.length = .ok c := by
  rw [getCurrentChar_of_lt _ _ (by simp), List.getD_append_right _ _ _ _ (le_refl _)]
  simp

theorem skipWhiteSpace_at (pre : Str) (c : Char) (rest : Str) (hc : isspace c = false) :
    skipWhiteSpace (pre ++ c :: rest) pre.length = pre.length := by
  unfold skipWhiteSpace
  rw [drop_at, List.takeWhile_cons, hc]
  rfl

theorem skipWhiteSpace_end (s : Str) : skipWhiteSpace s s.length = s.length := by
  simp [skipWhiteSpace]

theorem takeWhile_dropWhile {α : Type} (f : α → Bool) (l : List α) :
    (l.dropWhile f).takeWhile f = [] := by
  induction l with
  | nil => rfl
  | cons x l ih =>
    by_cases hx : f x = true
    · simp only [List.dropWhile_cons, hx, if_true, ih]
    · simp [List.dropWhile_cons, List.takeWhile_cons, hx]

theorem drop_takeWhile_length {α : Type} (f : α → Bool) (l : List α) :
    l.drop (l.takeWhile f).length = l.dropWhile f := by
  induction l with
  | nil => rfl
  | cons x l ih =>
    by_cases hx : f x = true
    · simp only [List.takeWhile_cons, hx, if_true, List.length_cons, List.drop_succ_cons, ih,
        List.dropWhile_cons]
    · simp only [List.takeWhile_cons, hx, List.dropWhile_cons]
      rfl

theorem skipWhiteSpace_idem (s : Str) (i : Nat) :
    skipWhiteSpace s (skipWhiteSpace s i) = skipWhiteSpace s i := by
  unfold skipWhiteSpace
  rw [← List.drop_drop, drop_takeWhile_length, takeWhile_dropWhile]
  rfl

theorem parseFuel_skip (n : Nat) (s : Str) (i : Nat) :
    parseFuel n s (skipWhiteSpace s i) = parseFuel n s i := by
  cases n with
  | zero => rw [parseFuel, parseFuel]
  | succ n => rw [parseFuel_succ, parseFuel_succ, skipWhiteSpace_idem]

/-- The call of `parse` at an opening brace: the object loop behind it. -/
theorem parseFuel_object (m : Nat) (pre rest : Str) :
    parseFuel (m + 1) (pre ++ '{' :: rest) pre.length =
      (parseObjectLoop m (pre ++ '{' :: rest)
        (skipWhiteSpace (pre ++ '{' :: rest) (pre.length + 1)) []).bind
        fun r => .ok (.object r.1, r.2) := by
  rw [parseFuel_succ, skipWhiteSpace_at pre '{' rest (by decide), getCurrentChar_at,
    Res.bind_ok]
  rw [if_neg (by decide), if_neg (by decide), if_neg (by decide), if_neg (by decide),
    if_neg (by decide), if_neg (by decide), if_pos rfl]
  rw [expect_of _ _ _ (by simp) (by rw [drop_at]; rfl), Res.bind_ok]
  rfl

/-- One iteration of the object loop on a key, a colon, a value text and a
comma or closing brace. -/
theorem parseObjectLoop_pair (p kt k v : Str) (c : Char) (rest : Str) (n m : Nat)
    (a : JSONValue) (acc : List (Str × JSONValue))
    (hk : parseString kt 0 = .ok (k, kt.length))
    (hv : parseFuel n v 0 = .ok (a, v.length)) (hn : n ≤ m) (hc : c = ',' ∨ c = '}') :
    parseObjectLoop (m + 1) (p ++ kt ++ ':' :: (v ++ c :: rest)) p.length acc =
      if c = ',' then
        parseObjectLoop m (p ++ kt ++ ':' :: (v ++ c :: rest))
          (skipWhiteSpace (p ++ kt ++ ':' :: (v ++ c :: rest))
            (p.length + kt.length + 1 + v.length + 1)) (emplace acc k a)
      else
        parseObjectLoop m (p ++ kt ++ ':' :: (v ++ c :: rest))
          (p.length + kt.length + 1 + v.length) (emplace acc k a) := by
  obtain ⟨T, hT⟩ : ∃ T, T = p ++ kt ++ ':' :: (v ++ c :: rest) := ⟨_, rfl⟩
  rw [← hT]
  -- the key
  obtain ⟨ek, bk1, _⟩ := parseString_ctx p kt (':' :: (v ++ c :: rest))
    (by intro x hx; simp at hx; subst hx; decide) 0 k kt.length hk
  rw [← hT] at ek
  have hkt : ∃ kt', kt = '"' :: kt' := by
    unfold parseString at hk
    obtain ⟨i1, h1, _⟩ := bind_eq_ok hk
    obtain ⟨_, h2, _⟩ := expect_ok kt 0 _ i1 h1
    cases kt with
    | nil => simp at h2
    | cons x kt' =>
      simp at h2
      exact ⟨kt', by rw [h2]⟩
  obtain ⟨kt', hkt'⟩ := hkt
  have h0 : getCurrentChar T p.length = .ok '"' := by
    rw [hT, hkt', List.append_assoc, List.cons_append]
    exact getCurrentChar_at p '"' _
  -- the colon
  have hcolon : expect T (p.length + kt.length) [':'] =
      .ok (skipWhiteSpace T (p.length + kt.length + 1)) := by
    have hd : T.drop (p.length + kt.length) = ':' :: (v ++ c :: rest) := by
      rw [hT, ← List.length_append, drop_at]
    exact expect_of T _ _ (by rw [hT]; simp) (by rw [hd]; rfl)
  -- the value
  have hneutral : neutralNext (c :: rest) := by
    intro x hx
    simp at hx
    subst hx
    rcases hc with h | h <;> subst h <;> decide
  obtain ⟨ev, _, _⟩ := (parse_ctx_all (p ++ kt ++ [':']) v (c :: rest) hneutral n).1 m 0 a
    v.length hn hv
  have hT' : p ++ kt ++ [':'] ++ v ++ c :: rest = T := by
    rw [hT]; simp
  rw [hT'] at ev
  have hlen : (p ++ kt ++ [':']).length = p.length + kt.length + 1 := by
    simp only [List.length_append, List.length_singleton]
  rw [hlen, Nat.add_zero] at ev
  have hcur : getCurrentChar T (p.length + kt.length + 1 + v.length) = .ok c := by
    have : T = (p ++ kt ++ [':'] ++ v) ++ c :: rest := by rw [← hT']
    rw [this]
    have hl : p.length + kt.length + 1 + v.length = (p ++ kt ++ [':'] ++ v).length := by
      simp only [List.length_append, List.length_singleton]
    rw [hl]
    exact getCurrentChar_at _ c rest
  rw [parseObjectLoop_succ, h0, Res.bind_ok, if_pos (by decide)]
  rw [Nat.add_zero] at ek
  rw [ek, Res.bind_ok, hcolon, Res.bind_ok, parseFuel_skip, ev, Res.bind_ok, hcur, Res.bind_ok]
  rcases hc with h | h
  · subst h
    rw [if_pos rfl, if_pos rfl]
  · subst h
    rw [if_neg (by decide), if_neg (by decide), if_neg (by decide)]

/-- The exit of the object loop at a closing brace. -/
theorem parseObjectLoop_close (pre rest : Str) (m : Nat) (acc : List (Str × JSONValue)) :
    parseObjectLoop (m + 1) (pre ++ '}' :: rest) pre.length acc =
      .ok (acc, skipWhiteSpace (pre ++ '}' :: rest) (pre.length + 1)) := by
  rw [parseObjectLoop_succ, getCurrentChar_at, Res.bind_ok, if_neg (by decide)]

end JSONParser

/-! ## Duplicate keys -/

/-- C4, at the text with the values `1` and `2`: the parsed object maps `k` to
the value of the first occurrence, `1`, not to the value of the last one. -/
theorem parse_duplicate_key_first :
    JSONParser.parse "1".toList = .ok (.number 1, 1) ∧
      JSONParser.parse "2".toList = .ok (.number 2, 1) ∧
      JSONParser.parse "\x7b\"k\":1,\"k\":2\x7d".toList =
        .ok (.object [("k".toList, .number 1)], 13) ∧
      JSONParser.parse "\x7b\"k\":1,\"k\":2\x7d".toList ≠
        .ok (.object [("k".toList, .number 2)], 13) := by
  decide!

/-- C4 as amended: when the text of an object has the key `k` twice, the parsed
object maps `k` to the value of its first occurrence.  For all value texts
`v1` and `v2` (texts that `parse` accepts and consumes whole), parsing
`{"k":v1,"k":v2}` yields the object with the single entry `k -> parse(v1)`. -/
theorem parse_duplicate_key (v1 v2 : Str) (a b : JSONValue)
    (h1 : JSONParser.parse v1 = .ok (a, v1.length))
    (h2 : JSONParser.parse v2 = .ok (b, v2.length)) :
    JSONParser.parse ("\x7b\"k\":".toList ++ v1 ++ ",\"k\":".toList ++ v2 ++ "\x7d".toList) =
      .ok (.object [("k".toList, a)],
        ("\x7b\"k\":".toList ++ v1 ++ ",\"k\":".toList ++ v2 ++ "\x7d".toList).length) := by
  obtain ⟨kt, hkt⟩ : ∃ kt : Str, kt = ['"', 'k', '"'] := ⟨_, rfl⟩
  have hk : JSONParser.parseString kt 0 = .ok (['k'], kt.length) := by
    rw [hkt]
    decide!
  have hkl : kt.length = 3 := by rw [hkt]; rfl
  obtain ⟨T, hT⟩ : ∃ T, T =
      "\x7b\"k\":".toList ++ v1 ++ ",\"k\":".toList ++ v2 ++ "\x7d".toList := ⟨_, rfl⟩
  rw [← hT]
  have hT' : T = ['{', '"', 'k', '"', ':'] ++ v1 ++ [',', '"', 'k', '"', ':'] ++ v2 ++ ['}'] :=
    hT
  have hlen : T.length = v1.length + v2.length + 11 := by
    rw [hT']
    simp only [List.length_append, List.length_cons, List.length_nil]
    omega
  -- the shapes of the text at the places where the cursor stops
  have s0 : T = [] ++ '{' :: (kt ++ ':' :: (v1 ++ ',' :: (kt ++ ':' :: (v2 ++ ['}'])))) := by
    rw [hT', hkt]; simp
  have s1 : T = ['{'] ++ '"' :: ('k' :: '"' :: ':' :: (v1 ++ ',' :: (kt ++ ':' :: (v2 ++ ['}'])))) := by
    rw [hT', hkt]; simp
  have s2 : T = ['{'] ++ kt ++ ':' :: (v1 ++ ',' :: (kt ++ ':' :: (v2 ++ ['}']))) := by
    rw [hT', hkt]; simp
  have s3 : T = (['{'] ++ kt ++ ':' :: v1 ++ [',']) ++ '"' :: ('k' :: '"' :: ':' :: (v2 ++ ['}'])) := by
    rw [hT', hkt]; simp
  have s4 : T = (['{'] ++ kt ++ ':' :: v1 ++ [',']) ++ kt ++ ':' :: (v2 ++ '}' :: []) := by
    rw [hT', hkt]; simp
  have s5 : T = ((['{'] ++ kt ++ ':' :: v1 ++ [',']) ++ kt ++ ':' :: v2) ++ '}' :: [] := by
    rw [hT', hkt]; simp
  have l3 : (['{'] ++ kt ++ ':' :: v1 ++ [',']).length = v1.length + 6 := by
    simp only [List.length_append, List.length_cons, List.length_nil, hkl]
    omega
  have l5 : ((['{'] ++ kt ++ ':' :: v1 ++ [',']) ++ kt ++ ':' :: v2).length =
      v1.length + v2.length + 10 := by
    simp only [List.length_append, List.length_cons, List.length_nil, hkl]
    omega
  -- the fuel
  obtain ⟨M, hM⟩ : ∃ M, 2 * T.length + 1 = M + 4 := ⟨2 * T.length - 3, by omega⟩
  unfold JSONParser.parse at h1 h2 ⊢
  rw [hM]
  -- the opening brace
  have e0 : JSONParser.parseFuel (M + 3 + 1) T 0 =
      (JSONParser.parseObjectLoop (M + 3) T (JSONParser.skipWhiteSpace T 1) []).bind
        fun r => .ok (.object r.1, r.2) := by
    have := JSONParser.parseFuel_object (M + 3) []
      (kt ++ ':' :: (v1 ++ ',' :: (kt ++ ':' :: (v2 ++ ['}']))))
    rw [← s0] at this
    exact this
  have w1 : JSONParser.skipWhiteSpace T 1 = 1 := by
    have := JSONParser.skipWhiteSpace_at ['{'] '"'
      ('k' :: '"' :: ':' :: (v1 ++ ',' :: (kt ++ ':' :: (v2 ++ ['}'])))) (by decide)
    rw [← s1] at this
    exact this
  -- the first pair
  have e1 : JSONParser.parseObjectLoop (M + 2 + 1) T 1 [] =
      JSONParser.parseObjectLoop (M + 2) T (JSONParser.skipWhiteSpace T (v1.length + 6))
        [(['k'], a)] := by
    have := JSONParser.parseObjectLoop_pair ['{'] kt ['k'] v1 ',' (kt ++ ':' :: (v2 ++ ['}']))
      (2 * v1.length + 1) (M + 2) a [] hk h1 (by omega) (Or.inl rfl)
    rw [← s2, if_pos rfl] at this
    have hi : [('{' : Char)].length + kt.length + 1 + v1.length + 1 = v1.length + 6 := by
      simp only [List.length_singleton, hkl]
      omega
    rw [hi] at this
    exact this
  have w2 : JSONParser.skipWhiteSpace T (v1.length + 6) = v1.length + 6 := by
    have := JSONParser.skipWhiteSpace_at (['{'] ++ kt ++ ':' :: v1 ++ [',']) '"'
      ('k' :: '"' :: ':' :: (v2 ++ ['}'])) (by decide)
    rw [← s3, l3] at this
    exact this
  -- the second pair
  have e2 : JSONParser.parseObjectLoop (M + 1 + 1) T (v1.length + 6) [(['k'], a)] =
      JSONParser.parseObjectLoop (M + 1) T (v1.length + v2.length + 10) [(['k'], a)] := by
    have := JSONParser.parseObjectLoop_pair (['{'] ++ kt ++ ':' :: v1 ++ [',']) kt ['k'] v2 '}' []
      (2 * v2.length + 1) (M + 1) b [(['k'], a)] hk h2 (by omega) (Or.inr rfl)
    rw [← s4, if_neg (by decide), l3] at this
    have hi : v1.length + 6 + kt.length + 1 + v2.length = v1.length + v2.length + 10 := by
      rw [hkl]; omega
    rw [hi] at this
    exact this
  -- the closing brace
  have e3 : JSONParser.parseObjectLoop (M + 1) T (v1.length + v2.length + 10) [(['k'], a)] =
      .ok ([(['k'], a)], T.length) := by
    have := JSONParser.parseObjectLoop_close
      ((['{'] ++ kt ++ ':' :: v1 ++ [',']) ++ kt ++ ':' :: v2) [] M [(['k'], a)]
    rw [← s5, l5] at this
    have hend : v1.length + v2.length + 10 + 1 = T.length := by omega
    rw [hend, JSONParser.skipWhiteSpace_end] at this
    exact this
  rw [e0, w1, e1, w2, e2, e3]
  rfl

/-- C4 as amended on the value texts `[1, 2]` and `"x"`. -/
theorem parse_duplicate_key_witness :
    JSONParser.parse "[1, 2]".toList = .ok (.array [.number 1, .number 2], 6) ∧
      JSONParser.parse "\"x\"".toList = .ok (.string "x".toList, 3) ∧
      JSONParser.parse "\x7b\"k\":[1, 2],\"k\":\"x\"\x7d".toList =
        .ok (.object [("k".toList, .array [.number 1, .number 2])], 20) :=
  ⟨by decide!, by decide!,
    parse_duplicate_key "[1, 2]".toList "\"x\"".toList (.array [.number 1, .number 2])
      (.string "x".toList) (by decide!) (by decide!)⟩

namespace JSONParser

/-- A `\u` escape that is the last thing in a string: the cursor passes the
closing quote and `parseString` does not return, whatever the four characters
behind the `u` are. -/
theorem parseString_unicode_last (a b c d : Char) :
    ∀ r, parseString ['"', '\\', 'u', a, b, c, d, '"'] 0 ≠ .ok r := by
  intro r h
  obtain ⟨s, hs⟩ : ∃ s : Str, s = ['"', '\\', 'u', a, b, c, d, '"'] := ⟨_, rfl⟩
  rw [← hs] at h
  have hl : s.length = 8 := by rw [hs]; rfl
  have e0 : expect s 0 ['"'] = .ok 1 := by
    rw [expect_of s 0 ['"'] (by omega) (by rw [hs]; rfl)]
    have := skipWhiteSpace_at ['"'] '\\' ['u', a, b, c, d, '"'] (by decide)
    rw [hs]
    exact congrArg Res.ok this
  have e1 : getCurrentChar s 1 = .ok '\\' := by
    rw [hs]; exact getCurrentChar_at ['"'] '\\' _
  have e2 : getCurrentChar s 2 = .ok 'u' := by
    rw [hs]; exact getCurrentChar_at ['"', '\\'] 'u' _
  have e8 : getCurrentChar s 8 = .ok '\x00' := by
    rw [← hl]; exact getCurrentChar_length s
  unfold parseString at h
  rw [e0, Res.bind_ok, e1, Res.bind_ok, hl] at h
  rw [parseStringLoop] at h
  rw [if_pos ⟨by decide, by omega⟩, if_pos rfl, e2, Res.bind_ok] at h
  obtain ⟨ri, h1, h⟩ := bind_eq_ok h
  have hri : ri.2 = 7 := by
    unfold parseEscape at h1
    rw [if_pos rfl] at h1
    obtain ⟨hex, _, h1⟩ := bind_eq_ok h1
    obtain ⟨cp, _, h1⟩ := bind_eq_ok h1
    split_ifs at h1
    simp only [Res.ok.injEq] at h1
    rw [← h1]
  rw [hri, e8, Res.bind_ok, parseStringLoop] at h
  rw [if_neg (by omega), if_neg (by decide)] at h
  cases h

end JSONParser

/-- C2: parsing the text `"\uXXXX"` never succeeds, whatever the four
characters `XXXX` are and however much fuel the run is given: the escape moves
the cursor five places, one past the last hex digit, so the closing quote is
skipped and `parseString` finds the end of the text.  At the input `"\u0041"`
of the claim `invalid_argument` is thrown; the claim says the parse yields the
string `A`. -/
theorem parse_unicode_escape_throws :
    JSONParser.parse "\"\\u0041\"".toList = .throw .invalid_argument ∧
      ∀ (fuel : Nat) (a b c d : Char) (r : JSONValue × Nat),
        JSONParser.parseFuel fuel ['"', '\\', 'u', a, b, c, d, '"'] 0 ≠ .ok r := by
  refine ⟨by decide!, ?_⟩
  intro fuel a b c d r h
  cases fuel with
  | zero =>
    rw [JSONParser.parseFuel] at h
    cases h
  | succ n =>
    rw [JSONParser.parseFuel_succ] at h
    have w0 : JSONParser.skipWhiteSpace ['"', '\\', 'u', a, b, c, d, '"'] 0 = 0 :=
      JSONParser.skipWhiteSpace_at [] '"' _ (by decide)
    have c0 : JSONParser.getCurrentChar ['"', '\\', 'u', a, b, c, d, '"'] 0 = .ok '"' :=
      JSONParser.getCurrentChar_at [] '"' _
    rw [w0, c0, Res.bind_ok, if_neg (by decide), if_neg (by decide), if_neg (by decide),
      if_pos rfl] at h
    obtain ⟨x, hx, _⟩ := JSONParser.bind_eq_ok h
    exact JSONParser.parseString_unicode_last a b c d x hx

namespace JSONParser

theorem parseStringLoop_plain (rest : Str) :
    ∀ (s pre res : Str) (fuel : Nat), (∀ c ∈ s, c ≠ '"' ∧ c ≠ '\\') → s.length < fuel →
      parseStringLoop (pre ++ s ++ '"' :: rest) fuel pre.length ((s ++ ['"']).headD '"') res =
        .ok (res ++ s, skipWhiteSpace (pre ++ s ++ '"' :: rest) (pre.length + s.length + 1))
  | [], pre, res, fuel, _, hf => by
    obtain ⟨f, rfl⟩ : ∃ f, fuel = f + 1 := ⟨fuel - 1, by simp at hf; omega⟩
    rw [parseStringLoop]
    simp only [List.nil_append, List.headD_cons, ne_eq, not_true_eq_false, false_and, if_false,
      if_true, List.append_nil, List.length_nil, Nat.add_zero]
  | x :: s, pre, res, fuel, hp, hf => by
    obtain ⟨f, rfl⟩ : ∃ f, fuel = f + 1 := ⟨fuel - 1, by simp at hf; omega⟩
    have hx := hp x (by simp)
    have hT : pre ++ x :: s ++ '"' :: rest = (pre ++ [x]) ++ s ++ '"' :: rest := by simp
    have ih := parseStringLoop_plain rest s (pre ++ [x]) (res ++ [x]) f
      (fun c hc => hp c (by simp [hc])) (by simp at hf; omega)
    rw [← hT] at ih
    have hc2 : getCurrentChar (pre ++ x :: s ++ '"' :: rest) (pre.length + 1) =
        .ok ((s ++ ['"']).headD '"') := by
      have hl : pre.length + 1 = (pre ++ [x]).length := by simp
      rw [hT, hl]
      cases s with
      | nil => simpa using getCurrentChar_at (pre ++ [x]) '"' rest
      | cons y s =>
        have := getCurrentChar_at (pre ++ [x]) y (s ++ '"' :: rest)
        simpa using this
    rw [parseStringLoop]
    have hlt : pre.length < (pre ++ x :: s ++ '"' :: rest).length := by simp
    simp only [List.cons_append, List.headD_cons] at hc2 ⊢
    simp only [List.cons_append] at hlt ih
    rw [if_pos ⟨hx.1, hlt⟩, if_neg hx.2, hc2, Res.bind_ok]
    simp only [List.length_append, List.length_singleton] at ih
    rw [ih]
    simp only [List.append_assoc, List.singleton_append, List.length_cons, Res.ok.injEq,
      Prod.mk.injEq, true_and]
    congr 1
    omega

/-- The text of a string without quote and backslash parses to the characters
between the quotes without the whitespace at their head. -/
theorem parse_plain_string (s : Str) (hp : ∀ c ∈ s, c ≠ '"' ∧ c ≠ '\\') :
    parse ('"' :: s ++ ['"']) = .ok (.string (s.dropWhile isspace), s.length + 2) := by
  obtain ⟨T, hT⟩ : ∃ T : Str, T = '"' :: s ++ ['"'] := ⟨_, rfl⟩
  have hl : T.length = s.length + 2 := by rw [hT]; simp
  have hsplit : s = s.takeWhile isspace ++ s.dropWhile isspace :=
    (List.takeWhile_append_dropWhile _ _).symm
  obtain ⟨ws, hws⟩ : ∃ ws, ws = s.takeWhile isspace := ⟨_, rfl⟩
  obtain ⟨s', hs'⟩ : ∃ s', s' = s.dropWhile isspace := ⟨_, rfl⟩
  rw [← hws, ← hs'] at hsplit
  have T1 : T = [] ++ '"' :: (s ++ ['"']) := by rw [hT]; rfl
  have T2 : T = (['"'] ++ ws) ++ s' ++ '"' :: [] := by rw [hT, hsplit]; simp
  have hns : ∀ c ∈ (s' ++ ['"']).head?, isspace c = false := by
    intro c hc
    cases hd : s' with
    | nil =>
      rw [hd] at hc
      simp at hc
      subst hc
      decide
    | cons y t =>
      rw [hd] at hc
      simp at hc
      subst hc
      have := List.head_dropWhile_not isspace s (by rw [← hs', hd]; simp)
      simp only [← hs', hd, List.head_cons] at this
      simpa using this
  have w1 : skipWhiteSpace T 1 = 1 + ws.length := by
    unfold skipWhiteSpace
    have hd : T.drop 1 = ws ++ (s' ++ ['"']) := by rw [hT, hsplit]; simp
    have hall : ∀ c ∈ ws, isspace c = true := by
      intro c hc
      rw [hws] at hc
      exact List.mem_takeWhile_imp hc
    rw [hd, List.takeWhile_append_of_pos hall]
    have : (s' ++ ['"']).takeWhile isspace = [] := by
      have := takeWhile_append_of_head isspace [] (s' ++ ['"']) hns
      simpa using this
    rw [this]
    simp
  have e0 : expect T 0 ['"'] = .ok (1 + ws.length) := by
    rw [expect_of T 0 ['"'] (by omega) (by rw [hT]; rfl)]
    exact congrArg Res.ok w1
  have hpl : ∀ c ∈ s', c ≠ '"' ∧ c ≠ '\\' := by
    intro c hc
    apply hp
    rw [hsplit]
    exact List.mem_append_right _ hc
  have hlw : (['"'] ++ ws).length = 1 + ws.length := by
    simp only [List.length_append, List.length_singleton]
  have hss : ws.length + s'.length = s.length := by
    have := congrArg List.length hsplit
    simp at this
    omega
  have c1 : getCurrentChar T (1 + ws.length) = .ok ((s' ++ ['"']).headD '"') := by
    rw [← hlw, T2]
    cases s' with
    | nil => simpa using getCurrentChar_at (['"'] ++ ws) '"' []
    | cons y t =>
      have := getCurrentChar_at (['"'] ++ ws) y (t ++ ['"'])
      simpa using this
  have loop := parseStringLoop_plain [] s' (['"'] ++ ws) [] (T.length + 1) hpl (by omega)
  rw [← T2, hlw] at loop
  have hend : 1 + ws.length + s'.length + 1 = T.length := by omega
  rw [hend, skipWhiteSpace_end, List.nil_append] at loop
  unfold parse
  rw [← hT, parseFuel_succ]
  have w0 : skipWhiteSpace T 0 = 0 := by
    rw [T1]; exact skipWhiteSpace_at [] '"' _ (by decide)
  have c0 : getCurrentChar T 0 = .ok '"' := by
    rw [T1]; exact getCurrentChar_at [] '"' _
  rw [w0, c0, Res.bind_ok, if_neg (by decide), if_neg (by decide), if_neg (by decide),
    if_pos rfl]
  unfold parseString
  rw [e0, Res.bind_ok, c1, Res.bind_ok, loop, Res.bind_ok, hl, hs']

end JSONParser

/-- C3: the characters between the quotes are not copied verbatim when they
begin with whitespace.  For every string `s` without quote and backslash the
text made of a quote, `s` and a quote parses to `s` without its leading
whitespace, because `expect` skips the whitespace behind the opening quote; so
the four characters `" a"` yield the string `a`, not ` a`. -/
theorem parse_string_drops_leading_blank :
    JSONParser.parse "\" a\"".toList = .ok (.string "a".toList, 4) ∧
      ∀ s : Str, (∀ c ∈ s, c ≠ '"' ∧ c ≠ '\\') →
        JSONParser.parse ('"' :: s ++ ['"']) =
          .ok (.string (s.dropWhile isspace), s.length + 2) :=
  ⟨by decide!, JSONParser.parse_plain_string⟩

/-! ## The fuel of `parse` is enough -/

namespace JSONParser

theorem bind_ne_nofuel {α β : Type} (x : Res α) (f : α → Res β) (hx : x ≠ .nofuel)
    (hf : ∀ a, x = .ok a → f a ≠ .nofuel) : x.bind f ≠ .nofuel := by
  cases x with
  | ok a => exact hf a rfl
  | throw e => intro h; cases h
  | undefined => intro h; cases h
  | nofuel => exact absurd rfl hx

theorem getCurrentChar_ne_nofuel (s : Str) (i : Nat) : getCurrentChar s i ≠ .nofuel := by
  unfold getCurrentChar
  split_ifs <;> intro h <;> cases h

theorem substr_ne_nofuel (s : Str) (i n : Nat) : substr s i n ≠ .nofuel := by
  unfold substr
  split_ifs <;> intro h <;> cases h

theorem expect_ne_nofuel (s : Str) (i : Nat) (lit : Str) : expect s i lit ≠ .nofuel := by
  unfold expect
  apply bind_ne_nofuel _ _ (substr_ne_nofuel _ _ _)
  intro a _
  split_ifs <;> intro h <;> cases h

theorem ite_ne_nofuel {α : Type} (c : Prop) [Decidable c] (a b : Res α)
    (ha : a ≠ .nofuel) (hb : b ≠ .nofuel) : (if c then a else b) ≠ .nofuel := by
  split_ifs <;> assumption

theorem stoi16_ne_nofuel (str : Str) : stoi16 str ≠ .nofuel := by
  unfold stoi16
  exact ite_ne_nofuel _ _ _ (fun h => Res.noConfusion h)
    (ite_ne_nofuel _ _ _ (fun h => Res.noConfusion h) (fun h => Res.noConfusion h))

theorem strtodValue_ne_nofuel (str : Str) : strtodValue str ≠ .nofuel := by
  unfold strtodValue
  exact ite_ne_nofuel _ _ _ (fun h => Res.noConfusion h)
    (ite_ne_nofuel _ _ _ (fun h => Res.noConfusion h)
      (ite_ne_nofuel _ _ _ (fun h => Res.noConfusion h) (fun h => Res.noConfusion h)))

theorem roundToDouble_ne_nofuel (v : ℚ) : roundToDouble v ≠ .nofuel := by
  unfold roundToDouble
  exact ite_ne_nofuel _ _ _ (fun h => Res.noConfusion h)
    (ite_ne_nofuel _ _ _ (fun h => Res.noConfusion h)
      (ite_ne_nofuel _ _ _ (fun h => Res.noConfusion h)
        (ite_ne_nofuel _ _ _ (fun h => Res.noConfusion h) (fun h => Res.noConfusion h))))

theorem stod_ne_nofuel (str : Str) : stod str ≠ .nofuel := by
  unfold stod
  exact bind_ne_nofuel _ _ (strtodValue_ne_nofuel str) fun v _ => roundToDouble_ne_nofuel v

theorem parseEscape_ne_nofuel (s : Str) (k : Nat) (c : Char) (res : Str) :
    parseEscape s k c res ≠ .nofuel := by
  unfold parseEscape
  by_cases hu : c = 'u'
  · rw [if_pos hu]
    apply bind_ne_nofuel _ _ (substr_ne_nofuel _ _ _)
    intro hex _
    apply bind_ne_nofuel _ _ (stoi16_ne_nofuel _)
    intro cp _
    split_ifs <;> intro h <;> cases h
  · rw [if_neg hu]
    cases escapeChar c <;> intro h <;> cases h

theorem parseStringLoop_ne_nofuel (s : Str) :
    ∀ (fuel i : Nat) (c : Char) (res : Str), 0 < fuel → s.length < fuel + i →
      parseStringLoop s fuel i c res ≠ .nofuel
  | 0, i, c, res, h0, hf => by omega
  | fuel + 1, i, c, res, h0, hf => by
    rw [parseStringLoop]
    by_cases hq : c ≠ '"' ∧ i < s.length
    · rw [if_pos hq]
      by_cases hb : c = '\\'
      · rw [if_pos hb]
        apply bind_ne_nofuel _ _ (getCurrentChar_ne_nofuel _ _)
        intro c1 _
        apply bind_ne_nofuel _ _ (parseEscape_ne_nofuel _ _ _ _)
        intro ri hri
        have := parseEscape_le s _ _ _ ri.1 ri.2 hri
        apply bind_ne_nofuel _ _ (getCurrentChar_ne_nofuel _ _)
        intro c2 _
        exact parseStringLoop_ne_nofuel s fuel _ _ _ (by omega) (by omega)
      · rw [if_neg hb]
        apply bind_ne_nofuel _ _ (getCurrentChar_ne_nofuel _ _)
        intro c2 _
        exact parseStringLoop_ne_nofuel s fuel _ _ _ (by omega) (by omega)
    · rw [if_neg hq]
      split_ifs <;> intro h <;> cases h

theorem parseString_ne_nofuel (s : Str) (i : Nat) : parseString s i ≠ .nofuel := by
  unfold parseString
  apply bind_ne_nofuel _ _ (expect_ne_nofuel _ _ _)
  intro i1 _
  apply bind_ne_nofuel _ _ (getCurrentChar_ne_nofuel _ _)
  intro c _
  exact parseStringLoop_ne_nofuel s _ _ _ _ (by omega) (by omega)

theorem parseNumber_ne_nofuel (s : Str) (i : Nat) : parseNumber s i ≠ .nofuel := by
  unfold parseNumber
  simp only
  apply bind_ne_nofuel
  · unfold numberEnd
    apply bind_ne_nofuel
    · unfold numberSign
      apply bind_ne_nofuel _ _ (getCurrentChar_ne_nofuel _ _)
      intro c _ h
      cases h
    · intro i1 _
      apply bind_ne_nofuel
      · unfold numberFraction
        apply bind_ne_nofuel _ _ (getCurrentChar_ne_nofuel _ _)
        intro c _ h
        cases h
      · intro i2 _
        unfold numberExponent
        apply bind_ne_nofuel _ _ (getCurrentChar_ne_nofuel _ _)
        intro c _
        by_cases he : c = 'e' ∨ c = 'E'
        · rw [if_pos he]
          apply bind_ne_nofuel _ _ (getCurrentChar_ne_nofuel _ _)
          intro c' _ h
          cases h
        · rw [if_neg he]
          intro h
          cases h
  · intro e _
    apply bind_ne_nofuel _ _ (substr_ne_nofuel _ _ _)
    intro ns _
    apply bind_ne_nofuel _ _ (stod_ne_nofuel _)
    intro d _ h
    cases h

theorem keyword_ne_nofuel (s : Str) (i : Nat) (lit : Str) (a : JSONValue) :
    ((expect s i lit).bind fun k => Res.ok (a, k)) ≠ .nofuel := by
  apply bind_ne_nofuel _ _ (expect_ne_nofuel _ _ _)
  intro k _ h
  cases h

/-- With fuel `2 * (size - index) + 1` a call of `parse` does not run out of
fuel, and neither do the two loops with one unit more. -/
theorem parse_fuel_enough (s : Str) : ∀ n : Nat,
    (∀ i : Nat, 2 * (s.length - i) + 1 ≤ n → parseFuel n s i ≠ .nofuel) ∧
    (∀ (i : Nat) (acc : List JSONValue), 2 * (s.length - i) + 2 ≤ n →
      parseArrayLoop n s i acc ≠ .nofuel) ∧
    (∀ (i : Nat) (acc : List (Str × JSONValue)), 2 * (s.length - i) + 2 ≤ n →
      parseObjectLoop n s i acc ≠ .nofuel)
  | 0 => ⟨fun i h => by omega, fun i acc h => by omega, fun i acc h => by omega⟩
  | n + 1 => by
    obtain ⟨ihP, ihA, ihO⟩ := parse_fuel_enough s n
    refine ⟨?_, ?_, ?_⟩
    · intro i hn
      rw [parseFuel_succ]
      have hii := le_skipWhiteSpace s i
      apply bind_ne_nofuel _ _ (getCurrentChar_ne_nofuel _ _)
      intro c _
      by_cases h1 : c = 'n'
      · rw [if_pos h1]; exact keyword_ne_nofuel _ _ _ _
      rw [if_neg h1]
      by_cases h2 : c = 't'
      · rw [if_pos h2]; exact keyword_ne_nofuel _ _ _ _
      rw [if_neg h2]
      by_cases h3 : c = 'f'
      · rw [if_pos h3]; exact keyword_ne_nofuel _ _ _ _
      rw [if_neg h3]
      by_cases h4 : c = '"'
      · rw [if_pos h4]
        apply bind_ne_nofuel _ _ (parseString_ne_nofuel _ _)
        intro r _ h
        cases h
      rw [if_neg h4]
      by_cases h5 : isdigit c ∨ c = '-'
      · rw [if_pos h5]
        apply bind_ne_nofuel _ _ (parseNumber_ne_nofuel _ _)
        intro r _ h
        cases h
      rw [if_neg h5]
      by_cases h6 : c = '['
      · rw [if_pos h6]
        apply bind_ne_nofuel _ _ (expect_ne_nofuel _ _ _)
        intro i2 he
        have hb := expect_bounds s _ _ i2 he
        simp only [List.length_singleton] at hb
        apply bind_ne_nofuel _ _ (ihA i2 [] (by omega))
        intro r _ h
        cases h
      rw [if_neg h6]
      by_cases h7 : c = '{'
      · rw [if_pos h7]
        apply bind_ne_nofuel _ _ (expect_ne_nofuel _ _ _)
        intro i2 he
        have hb := expect_bounds s _ _ i2 he
        simp only [List.length_singleton] at hb
        apply bind_ne_nofuel _ _ (ihO i2 [] (by omega))
        intro r _ h
        cases h
      rw [if_neg h7]
      intro h
      cases h
    · intro i acc hn
      rw [parseArrayLoop_succ]
      apply bind_ne_nofuel _ _ (getCurrentChar_ne_nofuel _ _)
      intro c _
      by_cases h1 : c = ']'
      · rw [if_neg (fun hx => hx h1)]
        intro h
        cases h
      · rw [if_pos h1]
        apply bind_ne_nofuel _ _ (ihP i (by omega))
        intro vi hv
        obtain ⟨_, b1, b2⟩ := parseFuel_mono s n n i vi.1 vi.2 (le_refl _) hv
        apply bind_ne_nofuel _ _ (getCurrentChar_ne_nofuel _ _)
        intro c2 hc2
        by_cases h2 : c2 = ','
        · rw [if_pos h2]
          have hlt := getCurrentChar_lt_of_ne s _ c2 hc2 (by rw [h2]; decide)
          have := le_skipWhiteSpace s (vi.2 + 1)
          exact ihA _ _ (by omega)
        · rw [if_neg h2]
          by_cases h3 : c2 = ']'
          · rw [if_neg (fun hx => hx h3)]
            exact ihA _ _ (by omega)
          · rw [if_pos h3]
            intro h
            cases h
    · intro i acc hn
      rw [parseObjectLoop_succ]
      apply bind_ne_nofuel _ _ (getCurrentChar_ne_nofuel _ _)
      intro c _
      by_cases h1 : c = '}'
      · rw [if_neg (fun hx => hx h1)]
        intro h
        cases h
      · rw [if_pos h1]
        apply bind_ne_nofuel _ _ (parseString_ne_nofuel _ _)
        intro ki hk
        obtain ⟨_, bk1, bk2⟩ := parseString_ctx [] s [] (by intro c hc; simp at hc) i ki.1 ki.2
          (by simpa using hk)
        apply bind_ne_nofuel _ _ (expect_ne_nofuel _ _ _)
        intro i2 he
        have hb := expect_bounds s _ _ i2 he
        simp only [List.length_singleton] at hb
        apply bind_ne_nofuel _ _ (ihP i2 (by omega))
        intro vi hv
        obtain ⟨_, b1, b2⟩ := parseFuel_mono s n n i2 vi.1 vi.2 (le_refl _) hv
        apply bind_ne_nofuel _ _ (getCurrentChar_ne_nofuel _ _)
        intro c2 hc2
        by_cases h2 : c2 = ','
        · rw [if_pos h2]
          have hlt := getCurrentChar_lt_of_ne s _ c2 hc2 (by rw [h2]; decide)
          have := le_skipWhiteSpace s (vi.2 + 1)
          exact ihO _ _ (by omega)
        · rw [if_neg h2]
          by_cases h3 : c2 = '}'
          · rw [if_neg (fun hx => hx h3)]
            exact ihO _ _ (by omega)
          · rw [if_pos h3]
            intro h
            cases h

/-- The run of `parse` on a text never runs out of fuel: it returns a value,
throws, or reads out of bounds. -/
theorem parse_ne_nofuel (s : Str) : parse s ≠ .nofuel :=
  (parse_fuel_enough s (2 * s.length + 1)).1 0 (by omega)

end JSONParser

/-! ## Escapes in the surrogate range -/

theorem isxdigit_cases (c : Char) (h : isxdigit c = true) :
    (48 ≤ c.toNat ∧ c.toNat ≤ 57) ∨ (97 ≤ c.toNat ∧ c.toNat ≤ 102) ∨
      (65 ≤ c.toNat ∧ c.toNat ≤ 70) := by
  simpa [isxdigit, isdigit, or_assoc] using h

theorem isxdigit_not_space (c : Char) (h : isxdigit c = true) : isspace c = false := by
  have hc := isxdigit_cases c h
  by_contra hs
  simp only [Bool.not_eq_false, isspace, Bool.or_eq_true, beq_iff_eq] at hs
  rcases hs with ((((hs | hs) | hs) | hs) | hs) | hs <;> subst hs <;> revert hc <;> decide

theorem isxdigit_ne (c x : Char) (h : isxdigit c = true) (hx : isxdigit x = false) : c ≠ x := by
  intro e
  rw [e, hx] at h
  cases h

theorem hexDigitVal_le (c : Char) (h : isxdigit c = true) : hexDigitVal c ≤ 15 := by
  have hc := isxdigit_cases c h
  unfold hexDigitVal isdigit
  split_ifs with h1 h2
  · simp only [Bool.and_eq_true, decide_eq_true_eq] at h1
    omega
  · omega
  · simp only [Bool.and_eq_true, decide_eq_true_eq, not_and, not_le] at h1
    omega

theorem hexVal_four_le (a b c d : Char) (ha : isxdigit a = true) (hb : isxdigit b = true)
    (hc : isxdigit c = true) (hd : isxdigit d = true) : hexVal [a, b, c, d] ≤ 65535 := by
  have h1 := hexDigitVal_le a ha
  have h2 := hexDigitVal_le b hb
  have h3 := hexDigitVal_le c hc
  have h4 := hexDigitVal_le d hd
  simp only [hexVal, List.foldl_cons, List.foldl_nil]
  omega

/-- The call `stoi(hexString, nullptr, 16)` on four hexadecimal digits: their
value. -/
theorem stoi16_four (a b c d : Char) (ha : isxdigit a = true) (hb : isxdigit b = true)
    (hc : isxdigit c = true) (hd : isxdigit d = true) :
    stoi16 [a, b, c, d] = .ok (hexVal [a, b, c, d] : Int) := by
  have hle := hexVal_four_le a b c d ha hb hc hd
  have hsp := isxdigit_not_space a ha
  have hm : a ≠ '-' := isxdigit_ne a '-' ha (by decide)
  have hp : a ≠ '+' := isxdigit_ne a '+' ha (by decide)
  have hx : b ≠ 'x' := isxdigit_ne b 'x' hb (by decide)
  have hX : b ≠ 'X' := isxdigit_ne b 'X' hb (by decide)
  have e1 : (some a == some '-') = false := by simp [hm]
  have e2 : (some a == some '+') = false := by simp [hp]
  have e3 : List.takeWhile isxdigit [a, b, c, d] = [a, b, c, d] := by
    simp [List.takeWhile_cons, ha, hb, hc, hd]
  unfold stoi16
  simp only [List.dropWhile_cons, hsp, List.head?_cons, e1, e2, Bool.or_self,
    Bool.false_eq_true, if_false]
  have key : ∀ t : Str, t = [a, b, c, d] →
      (if (List.takeWhile isxdigit t).isEmpty = true then Res.throw Exn.invalid_argument
        else if (decide ((hexVal (List.takeWhile isxdigit t) : Int) < -2147483648) ||
            decide ((hexVal (List.takeWhile isxdigit t) : Int) > 2147483647)) = true
          then Res.throw Exn.out_of_range
          else Res.ok (hexVal (List.takeWhile isxdigit t) : Int)) =
        Res.ok (hexVal [a, b, c, d] : Int) := by
    intro t ht
    rw [ht, e3]
    simp only [List.isEmpty_cons, Bool.false_eq_true, if_false]
    rw [if_neg]
    simp only [Bool.or_eq_true, decide_eq_true_eq, not_or, not_lt]
    omega
  apply key
  split
  · rename_i x h r heq
    simp only [List.cons.injEq] at heq
    obtain ⟨_, rfl, _, _⟩ := heq
    simp [hx, hX]
  · rfl

namespace JSONParser

/-- The loop of `parseString` on characters that are neither quote nor
backslash: they are copied, one iteration each. -/
theorem parseStringLoop_plain_to (c : Char) (rest : Str) :
    ∀ (s pre res : Str) (fuel : Nat), (∀ x ∈ s, x ≠ '"' ∧ x ≠ '\\') →
      parseStringLoop (pre ++ s ++ c :: rest) (fuel + s.length) pre.length
          ((s ++ [c]).headD c) res =
        parseStringLoop (pre ++ s ++ c :: rest) fuel (pre.length + s.length) c (res ++ s)
  | [], pre, res, fuel, _ => by simp
  | x :: s, pre, res, fuel, hp => by
    have hx := hp x (by simp)
    have hT : pre ++ x :: s ++ c :: rest = (pre ++ [x]) ++ s ++ c :: rest := by simp
    have ih := parseStringLoop_plain_to c rest s (pre ++ [x]) (res ++ [x]) fuel
      (fun y hy => hp y (by simp [hy]))
    rw [← hT] at ih
    have hc2 : getCurrentChar (pre ++ x :: s ++ c :: rest) (pre.length + 1) =
        .ok ((s ++ [c]).headD c) := by
      have hl : pre.length + 1 = (pre ++ [x]).length := by simp
      rw [hT, hl]
      cases s with
      | nil => simpa using getCurrentChar_at (pre ++ [x]) c rest
      | cons y s =>
        have := getCurrentChar_at (pre ++ [x]) y (s ++ c :: rest)
        simpa using this
    have hf : fuel + (x :: s).length = (fuel + s.length) + 1 := by simp; omega
    rw [hf, parseStringLoop]
    have hlt : pre.length < (pre ++ x :: s ++ c :: rest).length := by simp
    simp only [List.cons_append, List.headD_cons] at hc2 ⊢
    simp only [List.cons_append] at hlt ih
    rw [if_pos ⟨hx.1, hlt⟩, if_neg hx.2, hc2, Res.bind_ok]
    simp only [List.length_append, List.length_singleton] at ih
    rw [ih]
    simp only [List.append_assoc, List.singleton_append, List.length_cons]
    congr 1
    omega

/-- A string text whose first escape is a `\u` escape with four hexadecimal
digits in the surrogate range: `parse` throws, whatever stands behind the
digits. -/
theorem parse_surrogate (a b c d : Char) (ha : isxdigit a = true) (hb : isxdigit b = true)
    (hc : isxdigit c = true) (hd : isxdigit d = true)
    (hv : 0xD800 ≤ hexVal [a, b, c, d] ∧ hexVal [a, b, c, d] ≤ 0xDFFF)
    (s : Str) (hp : ∀ x ∈ s, x ≠ '"' ∧ x ≠ '\\') (rest : Str) :
    parse ('"' :: s ++ '\\' :: 'u' :: a :: b :: c :: d :: rest) =
      .throw .invalid_argument := by
  obtain ⟨T, hT⟩ : ∃ T : Str, T = '"' :: s ++ '\\' :: 'u' :: a :: b :: c :: d :: rest :=
    ⟨_, rfl⟩
  have hsplit : s = s.takeWhile isspace ++ s.dropWhile isspace :=
    (List.takeWhile_append_dropWhile _ _).symm
  obtain ⟨ws, hws⟩ : ∃ ws, ws = s.takeWhile isspace := ⟨_, rfl⟩
  obtain ⟨s', hs'⟩ : ∃ s', s' = s.dropWhile isspace := ⟨_, rfl⟩
  rw [← hws, ← hs'] at hsplit
  have hl : T.length = ws.length + s'.length + 7 + rest.length := by
    rw [hT, hsplit]; simp; omega
  have T1 : T = [] ++ '"' :: (s ++ '\\' :: 'u' :: a :: b :: c :: d :: rest) := by rw [hT]; rfl
  have T2 : T = (['"'] ++ ws) ++ s' ++ '\\' :: ('u' :: a :: b :: c :: d :: rest) := by
    rw [hT, hsplit]; simp
  have T3 : T = ((['"'] ++ ws) ++ s' ++ ['\\']) ++ 'u' :: (a :: b :: c :: d :: rest) := by
    rw [hT, hsplit]; simp
  have T4 : T = ((['"'] ++ ws) ++ s' ++ ['\\', 'u']) ++ (a :: b :: c :: d :: rest) := by
    rw [hT, hsplit]; simp
  have hns : ∀ x ∈ (s' ++ ['\\']).head?, isspace x = false := by
    intro x hx
    cases hd' : s' with
    | nil =>
      rw [hd'] at hx
      simp at hx
      subst hx
      decide
    | cons y t =>
      rw [hd'] at hx
      simp at hx
      subst hx
      have := List.head_dropWhile_not isspace s (by rw [← hs', hd']; simp)
      simp only [← hs', hd', List.head_cons] at this
      simpa using this
  have w1 : skipWhiteSpace T 1 = 1 + ws.length := by
    unfold skipWhiteSpace
    have hdr : T.drop 1 = ws ++ ((s' ++ ['\\']) ++ 'u' :: a :: b :: c :: d :: rest) := by
      rw [hT, hsplit]; simp
    have hall : ∀ x ∈ ws, isspace x = true := by
      intro x hx
      rw [hws] at hx
      exact List.mem_takeWhile_imp hx
    rw [hdr, List.takeWhile_append_of_pos hall]
    have : ((s' ++ ['\\']) ++ 'u' :: a :: b :: c :: d :: rest).takeWhile isspace = [] := by
      have := takeWhile_append_of_head isspace [] ((s' ++ ['\\']) ++ 'u' :: a :: b :: c :: d :: rest)
        (by
          intro x hx
          apply hns x
          cases s' <;> simpa using hx)
      simpa using this
    rw [this]
    simp
  have e0 : expect T 0 ['"'] = .ok (1 + ws.length) := by
    rw [expect_of T 0 ['"'] (by omega) (by rw [hT]; rfl)]
    exact congrArg Res.ok w1
  have hpl : ∀ x ∈ s', x ≠ '"' ∧ x ≠ '\\' := by
    intro x hx
    apply hp
    rw [hsplit]
    exact List.mem_append_right _ hx
  have hlw : (['"'] ++ ws).length = 1 + ws.length := by
    simp only [List.length_append, List.length_singleton]
  have c1 : getCurrentChar T (1 + ws.length) = .ok ((s' ++ ['\\']).headD '\\') := by
    rw [← hlw, T2]
    cases s' with
    | nil => simpa using getCurrentChar_at (['"'] ++ ws) '\\' _
    | cons y t =>
      have := getCurrentChar_at (['"'] ++ ws) y (t ++ '\\' :: 'u' :: a :: b :: c :: d :: rest)
      simpa using this
  obtain ⟨f, hf⟩ : ∃ f, T.length + 1 = (f + 1) + s'.length := ⟨T.length - s'.length, by omega⟩
  have loop := parseStringLoop_plain_to '\\' ('u' :: a :: b :: c :: d :: rest) s' (['"'] ++ ws) []
    (f + 1) hpl
  rw [← T2, hlw, ← hf, List.nil_append] at loop
  have c2 : getCurrentChar T (1 + ws.length + s'.length + 1) = .ok 'u' := by
    have hl3 : 1 + ws.length + s'.length + 1 = ((['"'] ++ ws) ++ s' ++ ['\\']).length := by
      simp only [List.length_append, List.length_singleton]
    rw [hl3, T3]
    exact getCurrentChar_at _ 'u' _
  have e4 : substr T (1 + ws.length + s'.length + 1 + 1) 4 = .ok [a, b, c, d] := by
    have hl4 : 1 + ws.length + s'.length + 1 + 1 = ((['"'] ++ ws) ++ s' ++ ['\\', 'u']).length := by
      simp only [List.length_append, List.length_singleton, List.length_cons, List.length_nil]
    unfold substr
    rw [if_neg (by omega), hl4, T4, drop_at]
    rfl
  have esc : parseEscape T (1 + ws.length + s'.length + 1) 'u' s' = .throw .invalid_argument := by
    unfold parseEscape
    rw [if_pos rfl, e4, Res.bind_ok, stoi16_four a b c d ha hb hc hd, Res.bind_ok, if_neg]
    simp only [Bool.or_eq_true, decide_eq_true_eq, not_or, not_lt]
    omega
  unfold parse
  rw [← hT, parseFuel_succ]
  have w0 : skipWhiteSpace T 0 = 0 := by
    rw [T1]; exact skipWhiteSpace_at [] '"' _ (by decide)
  have c0 : getCurrentChar T 0 = .ok '"' := by
    rw [T1]; exact getCurrentChar_at [] '"' _
  rw [w0, c0, Res.bind_ok, if_neg (by decide), if_neg (by decide), if_neg (by decide),
    if_pos rfl]
  unfold parseString
  rw [e0, Res.bind_ok, c1, Res.bind_ok, loop, parseStringLoop,
    if_pos ⟨by decide, by omega⟩, if_pos rfl, c2, Res.bind_ok, esc]
  rfl

end JSONParser

/-- C13: a `\u` escape whose four hexadecimal digits (upper or lower case)
have a value in the surrogate range `[0xD800, 0xDFFF]` makes the parse fail.  For
every string `s` without quote and backslash, parsing the text made of a quote,
`s`, `\uXXXX` and a quote throws `invalid_argument`. -/
theorem parse_surrogate_escape_throws (a b c d : Char) (ha : isxdigit a = true)
    (hb : isxdigit b = true) (hc : isxdigit c = true) (hd : isxdigit d = true)
    (hv : 0xD800 ≤ hexVal [a, b, c, d] ∧ hexVal [a, b, c, d] ≤ 0xDFFF)
    (s : Str) (hp : ∀ x ∈ s, x ≠ '"' ∧ x ≠ '\\') :
    JSONParser.parse ('"' :: s ++ ['\\', 'u', a, b, c, d, '"']) = .throw .invalid_argument :=
  JSONParser.parse_surrogate a b c d ha hb hc hd hv s hp ['"']

/-- C13 at the text `"\uD800"` of the claim and at `"ab\udFfF"`. -/
theorem parse_surrogate_escape_throws_witness :
    JSONParser.parse "\"\\uD800\"".toList = .throw .invalid_argument ∧
      JSONParser.parse "\"ab\\udFfF\"".toList = .throw .invalid_argument :=
  ⟨parse_surrogate_escape_throws 'D' '8' '0' '0' (by decide) (by decide) (by decide) (by decide)
      (by decide) [] (by simp),
    parse_surrogate_escape_throws 'd' 'F' 'f' 'F' (by decide) (by decide) (by decide) (by decide)
      (by decide) "ab".toList (by decide)⟩

/-! ## Decimal numbers -/

theorem decVal_foldl (ds : Str) (n : Nat) :
    ds.foldl (fun acc c => 10 * acc + (c.toNat - 48)) n =
      n * 10 ^ ds.length + decVal ds := by
  induction ds generalizing n with
  | nil => simp [decVal]
  | cons c ds ih =>
    simp only [List.foldl_cons, List.length_cons, decVal]
    rw [ih, ih (10 * 0 + (c.toNat - 48))]
    ring

theorem decVal_append (a b : Str) : decVal (a ++ b) = decVal a * 10 ^ b.length + decVal b := by
  unfold decVal
  rw [List.foldl_append, decVal_foldl]
  rfl

theorem decVal_eq_digitsValue (ds : Str) : decVal ds = digitsValue ds := by
  induction ds using List.reverseRecOn with
  | nil => rfl
  | append_singleton ds c ih =>
    rw [decVal_append, ih]
    simp [digitsValue, decVal, Nat.ofDigits_cons]
    ring

theorem isdigit_ne (c x : Char) (h : isdigit c = true) (hx : isdigit x = false) : c ≠ x := by
  intro e
  rw [e, hx] at h
  cases h

theorem isdigit_not_space (c : Char) (h : isdigit c = true) : isspace c = false := by
  by_contra hs
  simp only [Bool.not_eq_false, isspace, Bool.or_eq_true, beq_iff_eq] at hs
  rcases hs with ((((hs | hs) | hs) | hs) | hs) | hs <;> subst hs <;> revert h <;> decide

theorem takeWhile_all {α : Type} (f : α → Bool) (a b : List α) (ha : ∀ x ∈ a, f x = true)
    (hb : ∀ x ∈ b.head?, f x = false) : (a ++ b).takeWhile f = a := by
  rw [List.takeWhile_append_of_pos ha]
  have := JSONParser.takeWhile_append_of_head f [] b hb
  simp only [List.nil_append, List.takeWhile_nil] at this
  rw [this, List.append_nil]

theorem dropWhile_all {α : Type} (f : α → Bool) (a b : List α) (ha : ∀ x ∈ a, f x = true)
    (hb : ∀ x ∈ b.head?, f x = false) : (a ++ b).dropWhile f = b := by
  have h1 := takeWhile_all f a b ha hb
  have h2 := List.takeWhile_append_dropWhile f (a ++ b)
  rw [h1] at h2
  exact List.append_cancel_left h2

theorem head?_append_cons {α : Type} (a : List α) (x : α) (b : List α) :
    (a ++ x :: b).head? = (a ++ [x]).head? := by
  cases a <;> rfl

theorem strtodValue_decimalText_aux (neg : Bool) (ip : Str) (fp : Option Str)
    (hne : ip ≠ []) (hip : allDigits ip) (hf : allDigits (fp.getD [])) :
    strtodValue (decimalText neg ip fp) =
      .ok (mkRat (if neg then -(decVal (ip ++ fp.getD []) : Int)
          else (decVal (ip ++ fp.getD []) : Int)) (10 ^ (fp.getD []).length)) := by
  obtain ⟨tail, htail⟩ : ∃ tail : Str, tail = fractionText fp := ⟨_, rfl⟩
  obtain ⟨d, ip', hd⟩ := List.exists_cons_of_ne_nil hne
  have hd0 : isdigit d = true := hip d (by rw [hd]; simp)
  have hT : decimalText neg ip fp = (if neg then ['-'] else []) ++ ip ++ tail := by
    rw [htail]; rfl
  have htl : ∀ x ∈ tail.head?, isdigit x = false := by
    intro x hx
    rw [htail] at hx
    cases fp with
    | none => simp [fractionText] at hx
    | some f =>
      simp [fractionText] at hx
      subst hx
      decide
  unfold strtodValue
  lift_lets
  extract_lets t0 neg0 t1 ip0 t2 fp0 t3 t4 eneg t5 ex m
  have h0 : t0 = (if neg then ['-'] else []) ++ ip ++ tail := by
    rw [← hT]
    show List.dropWhile isspace (decimalText neg ip fp) = _
    rw [hT]
    cases neg
    · rw [hd]
      simp [List.dropWhile_cons, isdigit_not_space d hd0]
    · simp [List.dropWhile_cons, show isspace '-' = false from by decide]
  have hn : neg0 = neg := by
    show (t0.head? == some '-') = neg
    rw [h0, hd]
    cases neg
    · simp [isdigit_ne d '-' hd0 (by decide)]
    · simp
  have h1 : t1 = ip ++ tail := by
    show (if t0.head? == some '-' || t0.head? == some '+' then t0.drop 1 else t0) = _
    rw [h0, hd]
    cases neg
    · simp [isdigit_ne d '-' hd0 (by decide), isdigit_ne d '+' hd0 (by decide)]
    · simp
  have hi : ip0 = ip := by
    show t1.takeWhile isdigit = ip
    rw [h1]
    exact takeWhile_all isdigit ip tail hip htl
  have h2 : t2 = tail := by
    show t1.dropWhile isdigit = tail
    rw [h1]
    exact dropWhile_all isdigit ip tail hip htl
  have hfp : fp0 = fp.getD [] := by
    show (if t2.head? == some '.' then (t2.drop 1).takeWhile isdigit else []) = _
    rw [h2, htail]
    cases fp with
    | none => simp [fractionText]
    | some f =>
      simp only [fractionText, List.head?_cons, beq_self_eq_true, if_true, List.drop_succ_cons, List.drop_zero,
        Option.getD_some]
      have := takeWhile_all isdigit f [] hf (by simp)
      simpa using this
  have h3 : t3 = [] := by
    show (if t2.head? == some '.' then (t2.drop 1).dropWhile isdigit else t2) = _
    rw [h2, htail]
    cases fp with
    | none => simp [fractionText]
    | some f =>
      simp only [fractionText, List.head?_cons, beq_self_eq_true, if_true, List.drop_succ_cons, List.drop_zero]
      have := dropWhile_all isdigit f [] hf (by simp)
      simpa using this
  have h4 : t4 = [] := by
    show (if t3.head? == some 'e' || t3.head? == some 'E' then t3.drop 1 else []) = _
    rw [h3]
    rfl
  have he : eneg = false := by
    show (t4.head? == some '-') = false
    rw [h4]
    rfl
  have h5 : t5 = [] := by
    show (if t4.head? == some '-' || t4.head? == some '+' then t4.drop 1 else t4) = _
    rw [h4]
    rfl
  have hex : ex = 0 := by
    show decVal (t5.takeWhile isdigit) = 0
    rw [h5]
    rfl
  have hm : m = if neg then -(decVal (ip ++ fp.getD []) : Int)
      else (decVal (ip ++ fp.getD []) : Int) := by
    show (if neg0 then -(decVal (ip0 ++ fp0) : Int) else (decVal (ip0 ++ fp0) : Int)) = _
    rw [hn, hi, hfp]
  clear_value t0 neg0 t1 ip0 t2 fp0 t3 t4 eneg t5 ex m
  subst hi hfp he hex hm
  have hemp : (ip0.isEmpty && (fp.getD []).isEmpty) = false := by
    rw [hd]; rfl
  rw [hemp]
  simp only [Bool.false_eq_true, if_false, Nat.le_zero_eq, Nat.sub_zero, Nat.zero_sub]
  by_cases hz : (fp.getD []).length = 0
  · rw [if_pos hz, hz]
    simp
  · rw [if_neg hz]

theorem mkRat_decimal (neg : Bool) (ip : Str) (fp : Option Str) :
    mkRat (if neg then -(decVal (ip ++ fp.getD []) : Int)
      else (decVal (ip ++ fp.getD []) : Int)) (10 ^ (fp.getD []).length) =
      decimalValue neg ip fp := by
  have hp : ((10 : ℚ) ^ (fp.getD []).length) ≠ 0 := by positivity
  rw [Rat.mkRat_eq_div, decVal_append, decVal_eq_digitsValue, decVal_eq_digitsValue]
  unfold decimalValue
  cases neg
  · simp only [Bool.false_eq_true, if_false]
    push_cast
    field_simp
  · simp only [if_true]
    push_cast
    field_simp

theorem strtodValue_decimalText (neg : Bool) (ip : Str) (fp : Option Str)
    (hne : ip ≠ []) (hip : allDigits ip) (hf : allDigits (fp.getD [])) :
    strtodValue (decimalText neg ip fp) = .ok (decimalValue neg ip fp) := by
  rw [strtodValue_decimalText_aux neg ip fp hne hip hf, mkRat_decimal]

theorem stod_decimalText (neg : Bool) (ip : Str) (fp : Option Str)
    (hne : ip ≠ []) (hip : allDigits ip) (hf : allDigits (fp.getD [])) :
    stod (decimalText neg ip fp) = roundToDouble (decimalValue neg ip fp) := by
  unfold stod
  rw [strtodValue_decimalText neg ip fp hne hip hf, Res.bind_ok]

namespace JSONParser

theorem skipDigits_at (pre ds rest : Str) (hds : allDigits ds)
    (hr : ∀ x ∈ rest.head?, isdigit x = false) :
    skipDigits (pre ++ ds ++ rest) pre.length = pre.length + ds.length := by
  unfold skipDigits
  rw [List.append_assoc, drop_at, takeWhile_all isdigit ds rest hds hr]

theorem getCurrentChar_end (pre : Str) : getCurrentChar (pre ++ []) pre.length = .ok '\x00' := by
  rw [List.append_nil]
  exact getCurrentChar_length pre

/-- The cursor behind a decimal text is its end. -/
theorem numberEnd_decimalText (neg : Bool) (ip : Str) (fp : Option Str)
    (hne : ip ≠ []) (hip : allDigits ip) (hf : allDigits (fp.getD [])) :
    numberEnd (decimalText neg ip fp) 0 = .ok (decimalText neg ip fp).length := by
  obtain ⟨sign, hsign⟩ : ∃ sign : Str, sign = if neg then ['-'] else [] := ⟨_, rfl⟩
  obtain ⟨T, hT⟩ : ∃ T, T = decimalText neg ip fp := ⟨_, rfl⟩
  obtain ⟨d, ip', hd⟩ := List.exists_cons_of_ne_nil hne
  have hd0 : isdigit d = true := hip d (by rw [hd]; simp)
  have hT1 : T = sign ++ ip ++ fractionText fp := by rw [hT, hsign]; rfl
  -- the sign
  have e1 : numberSign T 0 = .ok sign.length := by
    unfold numberSign
    cases neg
    · have hc : getCurrentChar T 0 = .ok d := by
        rw [hT1, hsign, hd]
        exact getCurrentChar_at [] d _
      rw [hc, Res.bind_ok, if_neg (isdigit_ne d '-' hd0 (by decide)), hsign]
      rfl
    · have hc : getCurrentChar T 0 = .ok '-' := by
        rw [hT1, hsign]
        exact getCurrentChar_at [] '-' _
      rw [hc, Res.bind_ok, if_pos rfl, hsign]
      rfl
  -- the digits before the dot
  have e2 : skipDigits T sign.length = (sign ++ ip).length := by
    rw [hT1, skipDigits_at sign ip (fractionText fp) hip, List.length_append]
    intro x hx
    cases fp with
    | none => simp [fractionText] at hx
    | some f =>
      simp [fractionText] at hx
      subst hx
      decide
  -- the fraction
  have e3 : numberFraction T (sign ++ ip).length = .ok T.length := by
    unfold numberFraction
    cases fp with
    | none =>
      have hT2 : T = sign ++ ip := by rw [hT1]; simp [fractionText]
      rw [← hT2, getCurrentChar_length, Res.bind_ok, if_neg (by decide)]
    | some f =>
      have hc : getCurrentChar T (sign ++ ip).length = .ok '.' := by
        rw [hT1]
        exact getCurrentChar_at (sign ++ ip) '.' f
      have hT3 : T = (sign ++ ip ++ ['.']) ++ f ++ [] := by rw [hT1]; simp [fractionText]
      have hl : (sign ++ ip).length + 1 = (sign ++ ip ++ ['.']).length := by
        simp only [List.length_append, List.length_singleton]
      rw [hc, Res.bind_ok, if_pos rfl, hl]
      conv_lhs => rw [hT3]
      rw [skipDigits_at (sign ++ ip ++ ['.']) f [] hf (by simp), hT3]
      simp only [List.length_append, List.length_singleton, List.length_nil, Nat.add_zero]
  -- no exponent
  have e4 : numberExponent T T.length = .ok T.length := by
    unfold numberExponent
    rw [getCurrentChar_length, Res.bind_ok, if_neg (by decide)]
  unfold numberEnd
  rw [← hT, e1, Res.bind_ok, e2, e3, Res.bind_ok, e4]

/-- Method `parse` on a decimal text: the number it denotes, converted to
`double`, and the cursor at the end; `out_of_range` when the conversion throws
it. -/
theorem parse_decimalText (neg : Bool) (ip : Str) (fp : Option Str)
    (hne : ip ≠ []) (hip : allDigits ip) (hf : allDigits (fp.getD [])) :
    parse (decimalText neg ip fp) =
      (roundToDouble (decimalValue neg ip fp)).bind fun d =>
        .ok (.number d, (decimalText neg ip fp).length) := by
  obtain ⟨T, hT⟩ : ∃ T, T = decimalText neg ip fp := ⟨_, rfl⟩
  obtain ⟨d, ip', hd⟩ := List.exists_cons_of_ne_nil hne
  have hd0 : isdigit d = true := hip d (by rw [hd]; simp)
  obtain ⟨c0, rest, hc0, hcases⟩ : ∃ c0 rest, T = [] ++ c0 :: rest ∧
      (isdigit c0 = true ∨ c0 = '-') := by
    cases neg
    · exact ⟨d, ip' ++ fractionText fp, by rw [hT, hd]; rfl, Or.inl hd0⟩
    · exact ⟨'-', ip ++ fractionText fp, by rw [hT]; simp [decimalText], Or.inr rfl⟩
  have hnot : ∀ x : Char, isdigit x = false → x ≠ '-' → c0 ≠ x := by
    intro x hx hx' e
    rcases hcases with h | h
    · rw [e, hx] at h
      cases h
    · exact hx' (e ▸ h)
  have hsp : isspace c0 = false := by
    rcases hcases with h | h
    · exact isdigit_not_space c0 h
    · rw [h]; decide
  have w0 : skipWhiteSpace T 0 = 0 := by
    rw [hc0]; exact skipWhiteSpace_at [] c0 rest hsp
  have g0 : getCurrentChar T 0 = .ok c0 := by
    rw [hc0]; exact getCurrentChar_at [] c0 rest
  have pn : parseNumber T 0 =
      (roundToDouble (decimalValue neg ip fp)).bind fun d => .ok (d, T.length) := by
    unfold parseNumber
    simp only
    rw [hT, numberEnd_decimalText neg ip fp hne hip hf, Res.bind_ok]
    unfold substr
    rw [if_neg (by omega), Res.bind_ok, Nat.sub_zero, List.drop_zero, List.take_length,
      stod_decimalText neg ip fp hne hip hf, skipWhiteSpace_end]
  unfold parse
  rw [← hT, parseFuel_succ, w0, g0, Res.bind_ok, if_neg (hnot 'n' (by decide) (by decide)),
    if_neg (hnot 't' (by decide) (by decide)), if_neg (hnot 'f' (by decide) (by decide)),
    if_neg (hnot '"' (by decide) (by decide)), if_pos (by simpa using hcases), pn]
  cases roundToDouble (decimalValue neg ip fp) <;> rfl

end JSONParser

/-! ## Rounding to `double` -/

theorem ilog2Fuel_eq : ∀ fuel n : Nat, n ≤ fuel → ilog2Fuel fuel n = Nat.log 2 n
  | 0, n, h => by
    have : n = 0 := by omega
    subst this
    simp [ilog2Fuel]
  | fuel + 1, n, h => by
    rw [ilog2Fuel]
    by_cases h2 : n < 2
    · rw [if_pos h2, Nat.log_of_lt h2]
    · rw [if_neg h2, ilog2Fuel_eq fuel (n / 2) (by omega),
        @Nat.log_of_one_lt_of_le 2 n (by decide) (by omega)]

theorem ilog2_spec (n : Nat) (h : 0 < n) : 2 ^ ilog2 n ≤ n ∧ n < 2 ^ (ilog2 n + 1) := by
  unfold ilog2
  rw [ilog2Fuel_eq n n (le_refl _)]
  exact ⟨Nat.pow_log_le_self 2 (by omega), Nat.lt_pow_succ_log_self (by decide) n⟩

theorem pow_toNat_div (u : Int) :
    ((2 : ℚ) ^ (-u).toNat) / (2 : ℚ) ^ u.toNat = ((2 : ℚ) ^ u)⁻¹ := by
  rcases le_total 0 u with h | h
  · obtain ⟨k, rfl⟩ := Int.eq_ofNat_of_zero_le h
    have : (-(k : Int)).toNat = 0 := by omega
    rw [this]
    simp
  · obtain ⟨k, hk⟩ := Int.eq_ofNat_of_zero_le (by omega : 0 ≤ -u)
    have hu : u = -(k : Int) := by omega
    subst hu
    have : (-(k : Int)).toNat = 0 := by omega
    rw [this]
    simp

theorem scaled_eq (n d : Nat) (u : Int) :
    ((n * 2 ^ (-u).toNat : Nat) : ℚ) / ((d * 2 ^ u.toNat : Nat) : ℚ) =
      (n : ℚ) / d / (2 : ℚ) ^ u := by
  push_cast
  rw [mul_div_mul_comm, pow_toNat_div]
  rfl

theorem binade_spec (n d : Nat) (hn : 0 < n) (hd : 0 < d) :
    (2 : ℚ) ^ binade n d ≤ (n : ℚ) / d ∧ (n : ℚ) / d < (2 : ℚ) ^ (binade n d + 1) := by
  obtain ⟨a1, a2⟩ := ilog2_spec n hn
  obtain ⟨b1, b2⟩ := ilog2_spec d hd
  have hdq : (0 : ℚ) < d := by exact_mod_cast hd
  have hnq : (0 : ℚ) < n := by exact_mod_cast hn
  have a1q : (2 : ℚ) ^ (ilog2 n : Int) ≤ n := by
    rw [zpow_natCast]; exact_mod_cast a1
  have a2q : (n : ℚ) < (2 : ℚ) ^ ((ilog2 n : Int) + 1) := by
    have : (n : ℚ) < (2 : ℚ) ^ (ilog2 n + 1) := by exact_mod_cast a2
    rw [← zpow_natCast] at this
    exact_mod_cast this
  have b1q : (2 : ℚ) ^ (ilog2 d : Int) ≤ d := by
    rw [zpow_natCast]; exact_mod_cast b1
  have b2q : (d : ℚ) < (2 : ℚ) ^ ((ilog2 d : Int) + 1) := by
    have : (d : ℚ) < (2 : ℚ) ^ (ilog2 d + 1) := by exact_mod_cast b2
    rw [← zpow_natCast] at this
    exact_mod_cast this
  have h2 : (0 : ℚ) < 2 := by norm_num
  have two_ne : (2 : ℚ) ≠ 0 := by norm_num
  -- the test of the definition
  have htest : (d * 2 ^ ((ilog2 n : Int) - (ilog2 d : Int)).toNat ≤
      n * 2 ^ (-((ilog2 n : Int) - (ilog2 d : Int))).toNat) ↔
      (2 : ℚ) ^ ((ilog2 n : Int) - (ilog2 d : Int)) ≤ (n : ℚ) / d := by
    have hs := scaled_eq n d ((ilog2 n : Int) - (ilog2 d : Int))
    have hden : (0 : ℚ) < ((d * 2 ^ ((ilog2 n : Int) - (ilog2 d : Int)).toNat : Nat) : ℚ) := by
      exact_mod_cast Nat.mul_pos hd (by positivity)
    have hp : (0 : ℚ) < (2 : ℚ) ^ ((ilog2 n : Int) - (ilog2 d : Int)) := zpow_pos h2 _
    constructor
    · intro h
      have h' : (1 : ℚ) ≤ ((n * 2 ^ (-((ilog2 n : Int) - (ilog2 d : Int))).toNat : Nat) : ℚ) /
          ((d * 2 ^ ((ilog2 n : Int) - (ilog2 d : Int)).toNat : Nat) : ℚ) := by
        rw [le_div_iff₀ hden, one_mul]
        exact_mod_cast h
      rw [hs, le_div_iff₀ hp, one_mul] at h'
      exact h'
    · intro h
      have h' : (1 : ℚ) ≤ ((n * 2 ^ (-((ilog2 n : Int) - (ilog2 d : Int))).toNat : Nat) : ℚ) /
          ((d * 2 ^ ((ilog2 n : Int) - (ilog2 d : Int)).toNat : Nat) : ℚ) := by
        rw [hs, le_div_iff₀ hp, one_mul]
        exact h
      rw [le_div_iff₀ hden, one_mul] at h'
      exact_mod_cast h'
  unfold binade
  simp only
  by_cases ht : d * 2 ^ ((ilog2 n : Int) - (ilog2 d : Int)).toNat ≤
      n * 2 ^ (-((ilog2 n : Int) - (ilog2 d : Int))).toNat
  · rw [if_pos ht]
    refine ⟨htest.mp ht, ?_⟩
    -- n / d < 2^(a+1) / 2^b
    have : (n : ℚ) / d < (2 : ℚ) ^ ((ilog2 n : Int) + 1) / (2 : ℚ) ^ (ilog2 d : Int) := by
      calc (n : ℚ) / d < (2 : ℚ) ^ ((ilog2 n : Int) + 1) / d := by
            exact div_lt_div_of_pos_right a2q hdq
        _ ≤ (2 : ℚ) ^ ((ilog2 n : Int) + 1) / (2 : ℚ) ^ (ilog2 d : Int) := by
            exact div_le_div_of_nonneg_left (le_of_lt (zpow_pos h2 _)) (zpow_pos h2 _) b1q
    rw [← zpow_sub₀ two_ne] at this
    have e : (ilog2 n : Int) + 1 - (ilog2 d : Int) = (ilog2 n : Int) - (ilog2 d : Int) + 1 := by
      ring
    rw [e] at this
    exact this
  · rw [if_neg ht]
    have hlt : (n : ℚ) / d < (2 : ℚ) ^ ((ilog2 n : Int) - (ilog2 d : Int)) := by
      by_contra hc
      exact ht (htest.mpr (not_lt.mp hc))
    refine ⟨?_, by rw [sub_add_cancel]; exact hlt⟩
    have : (2 : ℚ) ^ (ilog2 n : Int) / (2 : ℚ) ^ ((ilog2 d : Int) + 1) ≤ (n : ℚ) / d := by
      calc (2 : ℚ) ^ (ilog2 n : Int) / (2 : ℚ) ^ ((ilog2 d : Int) + 1)
          ≤ (n : ℚ) / (2 : ℚ) ^ ((ilog2 d : Int) + 1) := by
            exact div_le_div_of_nonneg_right a1q (le_of_lt (zpow_pos h2 _))
        _ ≤ (n : ℚ) / d := by
            exact div_le_div_of_nonneg_left (le_of_lt hnq) hdq (le_of_lt b2q)
    rw [← zpow_sub₀ two_ne] at this
    have e : (ilog2 n : Int) - ((ilog2 d : Int) + 1) = (ilog2 n : Int) - (ilog2 d : Int) - 1 := by
      ring
    rw [e] at this
    exact this

theorem roundScaled_spec (n d : Nat) (u : Int) (hd : 0 < d) :
    |((roundScaled n d u : Nat) : ℚ) - (n : ℚ) / d / (2 : ℚ) ^ u| ≤ 1 / 2 := by
  rw [← scaled_eq n d u]
  obtain ⟨num, hnum⟩ : ∃ num, num = n * 2 ^ (-u).toNat := ⟨_, rfl⟩
  obtain ⟨den, hden⟩ : ∃ den, den = d * 2 ^ u.toNat := ⟨_, rfl⟩
  have hdp : 0 < den := by rw [hden]; exact Nat.mul_pos hd (by positivity)
  have hdq : (0 : ℚ) < den := by exact_mod_cast hdp
  have hr : num % den < den := Nat.mod_lt _ hdp
  have hsplit : (num : ℚ) / den = (num / den : Nat) + ((num % den : Nat) : ℚ) / den := by
    have h := Nat.div_add_mod num den
    have hq : (num : ℚ) = (den : ℚ) * (num / den : Nat) + (num % den : Nat) := by
      exact_mod_cast h.symm
    rw [hq, add_div, mul_div_cancel_left₀ _ (ne_of_gt hdq)]
  have hr0 : (0 : ℚ) ≤ ((num % den : Nat) : ℚ) / den := by positivity
  have hr1 : ((num % den : Nat) : ℚ) / den < 1 := by
    rw [div_lt_one hdq]
    exact_mod_cast hr
  unfold roundScaled
  simp only
  rw [← hnum, ← hden, hsplit]
  by_cases hc : 2 * (num % den) > den ∨ (2 * (num % den) = den ∧ (num / den) % 2 = 1)
  · rw [if_pos hc]
    have hge : (1 : ℚ) / 2 ≤ ((num % den : Nat) : ℚ) / den := by
      rw [le_div_iff₀ hdq]
      have : (den : ℚ) ≤ 2 * ((num % den : Nat) : ℚ) := by
        rcases hc with h | h
        · exact_mod_cast le_of_lt h
        · exact_mod_cast le_of_eq h.1.symm
      linarith
    push_cast
    rw [abs_le]
    constructor <;> linarith
  · rw [if_neg hc]
    have hle : ((num % den : Nat) : ℚ) / den ≤ 1 / 2 := by
      rw [div_le_iff₀ hdq]
      have : 2 * (num % den) ≤ den := by
        by_contra h
        exact hc (Or.inl (by omega))
      have : 2 * ((num % den : Nat) : ℚ) ≤ (den : ℚ) := by exact_mod_cast this
      linarith
    rw [abs_le]
    constructor <;> linarith

theorem mul_pow_lt (m a b c k : Nat) (hm : m ≤ 2 ^ a) (hk : k ≤ b) (h : a + b < c) :
    m * 2 ^ k < 2 ^ c :=
  calc m * 2 ^ k ≤ 2 ^ a * 2 ^ b := Nat.mul_le_mul hm (Nat.pow_le_pow_right (by decide) hk)
    _ = 2 ^ (a + b) := (Nat.pow_add 2 a b).symm
    _ < 2 ^ c := Nat.pow_lt_pow_right (by decide) h

theorem pow_toNat_div2 (u : Int) :
    ((2 : ℚ) ^ u.toNat) / (2 : ℚ) ^ (-u).toNat = (2 : ℚ) ^ u := by
  have h := pow_toNat_div (-u)
  rw [neg_neg, zpow_neg, inv_inv] at h
  exact h

theorem abs_eq_natAbs_div (v : ℚ) : |v| = (v.num.natAbs : ℚ) / v.den := by
  have h : v = (v.num : ℚ) / v.den := (Rat.num_div_den v).symm
  have hd : (0 : ℚ) < v.den := by exact_mod_cast v.den_pos
  conv_lhs => rw [h]
  rw [abs_div, abs_of_pos hd, Nat.cast_natAbs, Int.cast_abs]

theorem nearest_int (m N : Int) (x : ℚ) (h : |(m : ℚ) - x| ≤ 1 / 2) :
    |(m : ℚ) - x| ≤ |(N : ℚ) - x| := by
  by_cases hN : N = m
  · rw [hN]
  · have h1 : (1 : ℚ) ≤ |(N : ℚ) - m| := by
      have : (1 : Int) ≤ |N - m| := Int.one_le_abs (sub_ne_zero.mpr hN)
      have : ((1 : Int) : ℚ) ≤ ((|N - m| : Int) : ℚ) := by exact_mod_cast this
      rw [Int.cast_abs] at this
      push_cast at this
      exact this
    have h2 : |(N : ℚ) - m| ≤ |(N : ℚ) - x| + |(m : ℚ) - x| := by
      have := abs_sub_le (N : ℚ) x m
      rw [abs_sub_comm x (m : ℚ)] at this
      exact this
    linarith

/-- A multiple `m * 2 ^ u` of `2 ^ u` with `m` an integer nearest to `a / 2 ^ u`,
where `2 ^ 52 * 2 ^ u ≤ a`, is at least as near to `a` as every number
`M * 2 ^ k` with `M ≤ 2 ^ 53`. -/
theorem nearest_grid (a : ℚ) (u : Int) (m : Nat) (ha : (2 : ℚ) ^ 52 * (2 : ℚ) ^ u ≤ a)
    (hr : |(m : ℚ) - a / (2 : ℚ) ^ u| ≤ 1 / 2) (M : Nat) (k : Int) (hM : M ≤ 2 ^ 53) :
    |(m : ℚ) * (2 : ℚ) ^ u - a| ≤ |(M : ℚ) * (2 : ℚ) ^ k - a| := by
  have h2p : (0 : ℚ) < 2 := by norm_num
  have hup : (0 : ℚ) < (2 : ℚ) ^ u := zpow_pos h2p _
  have key : ∀ N : Int, |(m : ℚ) * (2 : ℚ) ^ u - a| ≤ |(N : ℚ) * (2 : ℚ) ^ u - a| := by
    intro N
    have e1 : (m : ℚ) * (2 : ℚ) ^ u - a = ((m : ℚ) - a / (2 : ℚ) ^ u) * (2 : ℚ) ^ u := by
      field_simp
    have e2 : (N : ℚ) * (2 : ℚ) ^ u - a = ((N : ℚ) - a / (2 : ℚ) ^ u) * (2 : ℚ) ^ u := by
      field_simp
    rw [e1, e2, abs_mul, abs_mul]
    have := nearest_int (m : Int) N (a / (2 : ℚ) ^ u) (by exact_mod_cast hr)
    exact mul_le_mul_of_nonneg_right (by exact_mod_cast this) (abs_nonneg _)
  rcases le_or_lt u k with hk | hk
  · -- a multiple of `2 ^ u`
    obtain ⟨j, hj⟩ := Int.eq_ofNat_of_zero_le (by omega : 0 ≤ k - u)
    have hke : k = u + j := by omega
    have e : (M : ℚ) * (2 : ℚ) ^ k = ((M * 2 ^ j : Nat) : Int) * (2 : ℚ) ^ u := by
      rw [hke, zpow_add₀ (by norm_num), zpow_natCast]
      push_cast
      ring
    rw [e]
    exact key _
  · -- below `2 ^ 52 * 2 ^ u`
    have hy : (M : ℚ) * (2 : ℚ) ^ k ≤ (2 : ℚ) ^ 52 * (2 : ℚ) ^ u := by
      have hk1 : (2 : ℚ) ^ k ≤ (2 : ℚ) ^ (u - 1) :=
        zpow_le_zpow_right₀ (by norm_num) (by omega)
      have hM' : (M : ℚ) ≤ 2 ^ 53 := by exact_mod_cast hM
      have e : (2 : ℚ) ^ 52 * (2 : ℚ) ^ u = 2 ^ 53 * (2 : ℚ) ^ (u - 1) := by
        rw [zpow_sub_one₀ (by norm_num)]
        ring
      rw [e]
      exact mul_le_mul hM' hk1 (le_of_lt (zpow_pos h2p _)) (by positivity)
    have h52 := key ((2 ^ 52 : Nat) : Int)
    have e52 : (((2 ^ 52 : Nat) : Int) : ℚ) = (2 : ℚ) ^ 52 := by push_cast; rfl
    rw [e52] at h52
    have h3 : |(2 : ℚ) ^ 52 * (2 : ℚ) ^ u - a| = a - (2 : ℚ) ^ 52 * (2 : ℚ) ^ u := by
      rw [abs_sub_comm, abs_of_nonneg (by linarith)]
    have h4 : |(M : ℚ) * (2 : ℚ) ^ k - a| = a - (M : ℚ) * (2 : ℚ) ^ k := by
      rw [abs_sub_comm, abs_of_nonneg (by linarith)]
    rw [h3] at h52
    rw [h4]
    linarith

/-- In the range of the normal doubles the conversion succeeds.  The result is
a double, a number of 53 bits scaled by a power of two in the range of the
format; its relative error is at most `2 ^ (-53)`, and no number of 53 bits
scaled by a power of two is nearer to `v`. -/
theorem roundToDouble_normal (v : ℚ) (h1 : (2 : ℚ) ^ (-1022 : Int) ≤ |v|)
    (h2 : |v| < (2 : ℚ) ^ (1023 : Int)) :
    ∃ d, roundToDouble v = .ok d ∧ |d - v| * 2 ^ 53 ≤ |v| ∧
      (∀ (M k : Int), |M| ≤ 2 ^ 53 → |d - v| ≤ |(M : ℚ) * (2 : ℚ) ^ k - v|) ∧
      ∃ (m : Nat) (k : Int), m < 2 ^ 53 ∧ -1074 ≤ k ∧ k ≤ 971 ∧ |d| = (m : ℚ) * (2 : ℚ) ^ k := by
  have h2p : (0 : ℚ) < 2 := by norm_num
  have h2o : (1 : ℚ) < 2 := by norm_num
  have hvpos : 0 < |v| := lt_of_lt_of_le (zpow_pos h2p _) h1
  have hv0 : v ≠ 0 := abs_pos.mp hvpos
  have hnum : v.num ≠ 0 := Rat.num_ne_zero.mpr hv0
  have hn : 0 < v.num.natAbs := Int.natAbs_pos.mpr hnum
  have habs := abs_eq_natAbs_div v
  obtain ⟨n, hnn⟩ : ∃ n, n = v.num.natAbs := ⟨_, rfl⟩
  rw [← hnn] at hn habs
  obtain ⟨e, he⟩ : ∃ e, e = binade n v.den := ⟨_, rfl⟩
  obtain ⟨b1, b2⟩ := binade_spec n v.den hn v.den_pos
  rw [← he, ← habs] at b1 b2
  have e_lo : -1022 ≤ e := by
    have := lt_of_le_of_lt h1 b2
    have := (zpow_lt_zpow_iff_right₀ h2o).mp this
    omega
  have e_hi : e ≤ 1022 := by
    have := lt_of_le_of_lt b1 h2
    have := (zpow_lt_zpow_iff_right₀ h2o).mp this
    omega
  obtain ⟨u, hu⟩ : ∃ u, u = e - 52 := ⟨_, rfl⟩
  have hmax : max (e - 52) (-1074) = u := by rw [hu]; omega
  obtain ⟨m, hm⟩ : ∃ m, m = roundScaled n v.den u := ⟨_, rfl⟩
  have hr := roundScaled_spec n v.den u v.den_pos
  rw [← hm, ← habs] at hr
  have hup : (0 : ℚ) < (2 : ℚ) ^ u := zpow_pos h2p _
  -- the scaled value lies between 2^52 and 2^53
  have hx2 : |v| / (2 : ℚ) ^ u < 2 ^ 53 := by
    rw [div_lt_iff₀ hup]
    have : (2 : ℚ) ^ (e + 1) = 2 ^ 53 * (2 : ℚ) ^ u := by
      rw [hu, show e + 1 = 53 + (e - 52) by ring, zpow_add₀ (by norm_num)]
      norm_num
    rw [← this]
    exact b2
  have hx1 : (2 : ℚ) ^ 52 ≤ |v| / (2 : ℚ) ^ u := by
    rw [le_div_iff₀ hup]
    have : (2 : ℚ) ^ e = 2 ^ 52 * (2 : ℚ) ^ u := by
      rw [hu, show e = 52 + (e - 52) by ring, zpow_add₀ (by norm_num)]
      norm_num
    rw [← this]
    exact b1
  have hm53 : m ≤ 2 ^ 53 := by
    have : (m : ℚ) < 2 ^ 53 + 1 := by
      have := (abs_le.mp hr).2
      linarith
    have : m < 2 ^ 53 + 1 := by exact_mod_cast this
    omega
  have hnot_over : ¬ 2 ^ 1024 ≤ m * 2 ^ u.toNat :=
    not_le.mpr (mul_pow_lt m 53 970 1024 u.toNat hm53 (by omega) (by decide))
  have hnot_under : ¬ ((n * 2 ^ (-u).toNat) % (v.den * 2 ^ u.toNat) ≠ 0 ∧
      (e < -1023 ∨ (e = -1023 ∧ roundScaled n v.den (-1075) < 2 ^ 53))) := by
    rintro ⟨_, h | ⟨h, _⟩⟩ <;> omega
  have hval : ((((m * 2 ^ u.toNat : Nat) : Int) : ℚ)) / (((2 ^ (-u).toNat : Nat)) : ℚ) =
      (m : ℚ) * (2 : ℚ) ^ u := by
    push_cast
    rw [mul_div_assoc, pow_toNat_div2]
  have herr : |(m : ℚ) * (2 : ℚ) ^ u - abs v| * 2 ^ 53 ≤ |v| := by
    have e1 : (m : ℚ) * (2 : ℚ) ^ u - abs v = ((m : ℚ) - abs v / (2 : ℚ) ^ u) * (2 : ℚ) ^ u := by
      field_simp
    rw [e1, abs_mul, abs_of_pos hup]
    have : (2 : ℚ) ^ 52 * (2 : ℚ) ^ u ≤ |v| := by
      have := hx1
      rw [le_div_iff₀ hup] at this
      exact this
    have h53 : (2 : ℚ) ^ 53 = 2 * 2 ^ 52 := by norm_num
    calc |(m : ℚ) - abs v / (2 : ℚ) ^ u| * (2 : ℚ) ^ u * 2 ^ 53
        ≤ 1 / 2 * (2 : ℚ) ^ u * 2 ^ 53 := by
          apply mul_le_mul_of_nonneg_right _ (by positivity)
          exact mul_le_mul_of_nonneg_right hr (le_of_lt hup)
      _ = 2 ^ 52 * (2 : ℚ) ^ u := by rw [h53]; ring
      _ ≤ |v| := this
  have hgrid := nearest_grid (abs v) u m (by
    have := hx1
    rw [le_div_iff₀ hup] at this
    exact this) hr
  have hnear : ∀ (M k : Int), |M| ≤ 2 ^ 53 →
      |(m : ℚ) * (2 : ℚ) ^ u - abs v| ≤ |(M : ℚ) * (2 : ℚ) ^ k - v| := by
    intro M k hM
    have hMn : M.natAbs ≤ 2 ^ 53 := by
      rw [Int.abs_eq_natAbs] at hM
      exact_mod_cast hM
    have g1 := hgrid M.natAbs k hMn
    have g2 := abs_abs_sub_abs_le_abs_sub ((M : ℚ) * (2 : ℚ) ^ k) v
    rw [abs_mul, abs_of_pos (zpow_pos h2p k), ← Int.cast_abs, Int.abs_eq_natAbs,
      Int.cast_natCast] at g2
    exact le_trans g1 g2
  have hrep : ∃ (m' : Nat) (k : Int), m' < 2 ^ 53 ∧ -1074 ≤ k ∧ k ≤ 971 ∧
      (m : ℚ) * (2 : ℚ) ^ u = (m' : ℚ) * (2 : ℚ) ^ k := by
    by_cases hlt : m < 2 ^ 53
    · exact ⟨m, u, hlt, by omega, by omega, rfl⟩
    · have hme : m = 2 ^ 53 := by omega
      refine ⟨2 ^ 52, u + 1, by norm_num, by omega, by omega, ?_⟩
      rw [hme, zpow_add_one₀ (by norm_num)]
      push_cast
      ring
  have hDnn : (0 : ℚ) ≤ (m : ℚ) * (2 : ℚ) ^ u := by positivity
  unfold roundToDouble
  rw [if_neg hnum]
  simp only
  rw [← hnn, ← he, hmax, ← hm, if_neg hnot_over, if_neg hnot_under]
  by_cases hneg : v.num < 0
  · rw [if_pos hneg]
    have hvneg : v < 0 := Rat.num_neg.mp hneg
    have hd : mkRat (-((m * 2 ^ u.toNat : Nat) : Int)) (2 ^ (-u).toNat) =
        -((m : ℚ) * (2 : ℚ) ^ u) := by
      rw [Rat.mkRat_eq_div, Int.cast_neg, neg_div, hval]
    have hdv : |(-((m : ℚ) * (2 : ℚ) ^ u)) - v| = |(m : ℚ) * (2 : ℚ) ^ u - abs v| := by
      have : -((m : ℚ) * (2 : ℚ) ^ u) - v = -((m : ℚ) * (2 : ℚ) ^ u - abs v) := by
        rw [abs_of_neg hvneg]
        ring
      rw [this, abs_neg]
    refine ⟨_, rfl, ?_, ?_, ?_⟩
    · rw [hd, hdv]
      exact herr
    · intro M k hM
      rw [hd, hdv]
      exact hnear M k hM
    · obtain ⟨m', k, g1, g2, g3, g4⟩ := hrep
      exact ⟨m', k, g1, g2, g3, by rw [hd, abs_neg, abs_of_nonneg hDnn, g4]⟩
  · rw [if_neg hneg]
    have hvpos2 : 0 ≤ v := by
      rw [← Rat.num_nonneg]
      omega
    have hd : mkRat ((m * 2 ^ u.toNat : Nat) : Int) (2 ^ (-u).toNat) =
        (m : ℚ) * (2 : ℚ) ^ u := by
      rw [Rat.mkRat_eq_div, hval]
    have hdv : |(m : ℚ) * (2 : ℚ) ^ u - v| = |(m : ℚ) * (2 : ℚ) ^ u - abs v| := by
      rw [abs_of_nonneg hvpos2]
    refine ⟨_, rfl, ?_, ?_, ?_⟩
    · rw [hd, hdv]
      exact herr
    · intro M k hM
      rw [hd, hdv]
      exact hnear M k hM
    · obtain ⟨m', k, g1, g2, g3, g4⟩ := hrep
      exact ⟨m', k, g1, g2, g3, by rw [hd, abs_of_nonneg hDnn, g4]⟩

/-- C14 at the text made of `1` and 400 zeros: the value is beyond the range of
`double`, `stod` throws `out_of_range` and `parse` fails, where the claim says it
yields a number; so it is at the text `0.` followed by 400 zeros and a `1`, the
value of which is tiny. -/
theorem parse_decimal_number_overflow :
    allDigits ('1' :: List.replicate 400 '0') ∧
    decimalText false ('1' :: List.replicate 400 '0') none = '1' :: List.replicate 400 '0' ∧
    JSONParser.parse ('1' :: List.replicate 400 '0') = .throw .out_of_range ∧
    JSONParser.parse ("0.".toList ++ List.replicate 400 '0' ++ ['1']) =
      .throw .out_of_range := by
  refine ⟨by decide!, by decide!, by decide!, by decide!⟩

/-- C14 as amended: for every text made of an optional `-`, a non-empty run of
decimal digits and, optionally, a `.` followed by a run of decimal digits,
`parse` converts the decimal value `v` that the text denotes to `double`: when
the conversion gives the double `d`, `parse` consumes the whole text and yields
the number `d`; when the conversion throws `out_of_range`, so does `parse`.
When `v` is zero the number is zero, and when `v` is in the range of the normal
doubles, `2 ^ (-1022) ≤ |v| < 2 ^ 1023`, the conversion gives a number `d` with
`|d - v| ≤ |v| / 2 ^ 53` that is a double (`|d| = m * 2 ^ k` with `m < 2 ^ 53`
and `-1074 ≤ k ≤ 971`) and a nearest one: no number `M * 2 ^ k` with
`|M| ≤ 2 ^ 53` is nearer to `v`. -/
theorem parse_decimal_number (neg : Bool) (ip : Str) (fp : Option Str)
    (hne : ip ≠ []) (hip : allDigits ip) (hf : allDigits (fp.getD [])) :
    JSONParser.parse (decimalText neg ip fp) =
      ((roundToDouble (decimalValue neg ip fp)).bind fun d =>
        .ok (.number d, (decimalText neg ip fp).length)) ∧
    (decimalValue neg ip fp = 0 →
      JSONParser.parse (decimalText neg ip fp) =
        .ok (.number 0, (decimalText neg ip fp).length)) ∧
    ((2 : ℚ) ^ (-1022 : Int) ≤ |decimalValue neg ip fp| →
      |decimalValue neg ip fp| < (2 : ℚ) ^ (1023 : Int) →
      ∃ d, JSONParser.parse (decimalText neg ip fp) =
          .ok (.number d, (decimalText neg ip fp).length) ∧
        |d - decimalValue neg ip fp| * 2 ^ 53 ≤ |decimalValue neg ip fp| ∧
        (∀ (M k : Int), |M| ≤ 2 ^ 53 →
          |d - decimalValue neg ip fp| ≤ |(M : ℚ) * (2 : ℚ) ^ k - decimalValue neg ip fp|) ∧
        ∃ (m : Nat) (k : Int), m < 2 ^ 53 ∧ -1074 ≤ k ∧ k ≤ 971 ∧
          |d| = (m : ℚ) * (2 : ℚ) ^ k) := by
  have h := JSONParser.parse_decimalText neg ip fp hne hip hf
  refine ⟨h, ?_, ?_⟩
  · intro h0
    rw [h, h0]
    rfl
  · intro h1 h2
    obtain ⟨d, hd, he, hn, hr⟩ := roundToDouble_normal _ h1 h2
    exact ⟨d, by rw [h, hd]; rfl, he, hn, hr⟩

/-- C14 as amended at the texts `123` and `123.40` of the claim and at `-0.5`:
the numbers 123, the double nearest to 123.4, which is
4341751515761869 / 2 ^ 45, and -0.5. -/
theorem parse_decimal_number_witness :
    JSONParser.parse "123".toList = .ok (.number 123, 3) ∧
      JSONParser.parse "123.40".toList =
        .ok (.number (mkRat 4341751515761869 (2 ^ 45)), 6) ∧
      JSONParser.parse "-0.5".toList = .ok (.number (-0.5), 4) := by
  have h1 := (parse_decimal_number false "123".toList none (by decide) (by decide)
    (by decide)).1
  have h2 := (parse_decimal_number false "123".toList (some "40".toList) (by decide) (by decide)
    (by decide)).1
  have h3 := (parse_decimal_number true "0".toList (some "5".toList) (by decide) (by decide)
    (by decide)).1
  have d0 : digitsValue [] = 0 := by decide
  have d1 : digitsValue ['1', '2', '3'] = 123 := by decide
  have d2 : digitsValue ['4', '0'] = 40 := by decide
  have d3 : digitsValue ['0'] = 0 := by decide
  have d4 : digitsValue ['5'] = 5 := by decide
  have v1 : decimalValue false "123".toList none = mkRat 123 1 := by
    norm_num [decimalValue, d0, d1]
  have v2 : decimalValue false "123".toList (some "40".toList) = mkRat 617 5 := by
    norm_num [decimalValue, d1, d2]
  have v3 : decimalValue true "0".toList (some "5".toList) = mkRat (-1) 2 := by
    norm_num [decimalValue, d3, d4, Rat.mkRat_eq_div]
  have r1 : roundToDouble (mkRat 123 1) = .ok (mkRat 123 1) := by decide!
  have r2 : roundToDouble (mkRat 617 5) = .ok (mkRat 4341751515761869 (2 ^ 45)) := by decide!
  have r3 : roundToDouble (mkRat (-1) 2) = .ok (mkRat (-1) 2) := by decide!
  have e1 : mkRat 123 1 = (123 : ℚ) := by norm_num
  have e3 : mkRat (-1) 2 = (-0.5 : ℚ) := by norm_num [Rat.mkRat_eq_div]
  rw [v1, r1, e1] at h1
  rw [v2, r2] at h2
  rw [v3, r3, e3] at h3
  exact ⟨h1, h2, h3⟩

/-! ## The key loop of the emitter -/

theorem fieldFragments_literal (v : JSONValue) (h : fitsInt v = true) :
    fieldFragments v =
      .ok (if isLiteral v = true then some (typeName v, argText v) else none) := by
  cases v with
  | string s => rfl
  | number q =>
    simp only [fitsInt, decide_eq_true_eq] at h
    unfold fieldFragments typeName argText
    simp only [JSONValue.type, JSONValue.numberValue, if_true, isLiteral]
    rw [if_neg (by decide)]
    by_cases hc : Rat.ceil q = Rat.floor q
    · rw [if_pos hc, if_pos hc, if_pos hc]
      simp only [intText, h hc, and_self, if_true, Res.bind]
    · rw [if_neg hc, if_neg hc, if_neg hc]
      rfl
  | null => rfl
  | boolean b => rfl
  | array xs => rfl
  | object kvs => rfl

theorem argText_of_not_literal (v : JSONValue) (h : isLiteral v = false) : argText v = [] := by
  cases v <;> first | rfl | cases h

theorem fieldStep_skip (acc : FieldAcc) (element : Str × JSONValue)
    (h : isFieldKey element.1 = false) : fieldStep acc element = .ok acc := by
  unfold fieldStep
  unfold isFieldKey at h
  rw [if_neg (by rw [h]; decide)]

/-- The body of `fieldStep` with the boundary of the test named. -/
theorem fieldStep_eq (acc : FieldAcc) (element : Str × JSONValue) :
    fieldStep acc element =
      if isFieldKey element.1 = true then
        (substrFrom element.1 5).bind fun index =>
        if (mapFind acc.jsonMap ("Value".toList ++ index)).isNone = true then .undefined else
        (fieldFragments (mapIndex acc.jsonMap ("Value".toList ++ index)).1).bind fun frag =>
          if acc.count + 1 ≠ boundary (mapIndex acc.jsonMap ("Value".toList ++ index)).2 then
            .ok ⟨(mapIndex acc.jsonMap ("Value".toList ++ index)).2, acc.count + 1,
              (match frag with
                | some (ty, _) => acc.headerParamStr ++
                  (ty ++ " ".toList ++ element.2.stringValue ++ ";\n".toList)
                | none => acc.headerParamStr),
              (match frag with
                | some (ty, _) => acc.consParamStr ++ (ty ++ " ".toList ++ element.2.stringValue)
                | none => acc.consParamStr) ++ ", ".toList,
              acc.consInitStr ++ ("this->".toList ++ element.2.stringValue ++ " = ".toList ++
                element.2.stringValue ++ ";\n".toList),
              (match frag with
                | some (_, arg) => acc.objInstStr ++ arg
                | none => acc.objInstStr) ++ ", ".toList⟩
          else
            .ok ⟨(mapIndex acc.jsonMap ("Value".toList ++ index)).2, acc.count + 1,
              (match frag with
                | some (ty, _) => acc.headerParamStr ++
                  (ty ++ " ".toList ++ element.2.stringValue ++ ";\n".toList)
                | none => acc.headerParamStr),
              (match frag with
                | some (ty, _) => acc.consParamStr ++ (ty ++ " ".toList ++ element.2.stringValue)
                | none => acc.consParamStr),
              acc.consInitStr ++ ("this->".toList ++ element.2.stringValue ++ " = ".toList ++
                element.2.stringValue ++ ";\n".toList),
              (match frag with
                | some (_, arg) => acc.objInstStr ++ arg
                | none => acc.objInstStr)⟩
      else .ok acc := rfl

/-- One iteration of the key loop at a field key whose value key is in the
map. -/
theorem fieldStep_field (acc : FieldAcc) (k : Str) (nv v : JSONValue)
    (hk : isFieldKey k = true) (hv : mapFind acc.jsonMap (valueKeyOf k) = some v)
    (hf : fitsInt v = true) :
    fieldStep acc (k, nv) = .ok
      ⟨acc.jsonMap, acc.count + 1, acc.headerParamStr ++ declOf nv.stringValue v,
        acc.consParamStr ++ (paramOf nv.stringValue v ++
          if acc.count + 1 ≠ boundary acc.jsonMap then ", ".toList else []),
        acc.consInitStr ++ initOf nv.stringValue,
        acc.objInstStr ++ (argText v ++
          if acc.count + 1 ≠ boundary acc.jsonMap then ", ".toList else [])⟩ := by
  have hk' := hk
  unfold isFieldKey at hk'
  obtain ⟨p, hp⟩ := Option.isSome_iff_exists.mp hk'
  have hle := find_some_le _ _ _ hp
  have hsub : substrFrom k 5 = .ok (k.drop 5) := by
    unfold substrFrom
    rw [if_neg]
    simp only [String.toList, List.length_cons, List.length_nil] at hle
    omega
  have hmi : mapIndex acc.jsonMap ("Value".toList ++ k.drop 5) = (v, acc.jsonMap) := by
    unfold mapIndex
    unfold valueKeyOf at hv
    rw [hv]
  have hsome : ¬ (mapFind acc.jsonMap ("Value".toList ++ k.drop 5)).isNone = true := by
    unfold valueKeyOf at hv
    rw [hv]
    simp
  rw [fieldStep_eq, if_pos hk, hsub, Res.bind_ok, if_neg hsome, hmi,
    fieldFragments_literal v hf, Res.bind_ok]
  unfold declOf paramOf initOf
  by_cases hl : isLiteral v = true
  · rw [if_pos hl, if_pos hl, if_pos hl]
    by_cases hb : acc.count + 1 ≠ boundary acc.jsonMap
    · rw [if_pos hb, if_pos hb]
      simp
    · rw [if_neg hb, if_neg hb]
      simp
  · rw [if_neg hl, if_neg hl, if_neg hl, argText_of_not_literal v (by simpa using hl)]
    by_cases hb : acc.count + 1 ≠ boundary acc.jsonMap
    · rw [if_pos hb, if_pos hb]
      simp
    · rw [if_neg hb, if_neg hb]
      simp

/-- The key loop over entries whose field keys have their value key in the map:
the map is not extended, and each field adds its declaration, its parameter,
its initializer and its argument. -/
theorem fieldLoop_fields (m : List (Str × JSONValue)) (hfit : intsFit m) :
    ∀ (l : List (Str × JSONValue)) (acc : FieldAcc), acc.jsonMap = m →
      (∀ kv ∈ l, isFieldKey kv.1 = true → (mapFind m (valueKeyOf kv.1)).isSome = true) →
      fieldLoop l acc = .ok
        ⟨m, acc.count + (fieldsIn m l).length,
          acc.headerParamStr ++ ((fieldsIn m l).map fun f => declOf f.1 f.2).flatten,
          acc.consParamStr ++
            sepJoin (boundary m) acc.count ((fieldsIn m l).map fun f => paramOf f.1 f.2),
          acc.consInitStr ++ ((fieldsIn m l).map fun f => initOf f.1).flatten,
          acc.objInstStr ++
            sepJoin (boundary m) acc.count ((fieldsIn m l).map fun f => argText f.2)⟩
  | [], acc, hm, _ => by
    cases acc
    simp only at hm
    subst hm
    simp [fieldLoop, fieldsIn, sepJoin]
  | (k, nv) :: l, acc, hm, hl => by
    by_cases hk : isFieldKey k = true
    · obtain ⟨v, hv⟩ := Option.isSome_iff_exists.mp (hl (k, nv) (by simp) hk)
      have hv' : mapFind acc.jsonMap (valueKeyOf k) = some v := by rw [hm]; exact hv
      obtain ⟨kv, hkv, he⟩ := mapFind_mem m _ v hv
      have hfv : fitsInt v = true := he ▸ hfit kv hkv
      have ih := fieldLoop_fields m hfit l
        ⟨acc.jsonMap, acc.count + 1, acc.headerParamStr ++ declOf nv.stringValue v,
          acc.consParamStr ++ (paramOf nv.stringValue v ++
            if acc.count + 1 ≠ boundary acc.jsonMap then ", ".toList else []),
          acc.consInitStr ++ initOf nv.stringValue,
          acc.objInstStr ++ (argText v ++
            if acc.count + 1 ≠ boundary acc.jsonMap then ", ".toList else [])⟩ hm
        (fun kv hkv => hl kv (List.mem_cons_of_mem _ hkv))
      dsimp only at ih hv
      rw [fieldLoop, fieldStep_field acc k nv v hk hv' hfv, Res.bind_ok, ih]
      simp only [fieldsIn, List.filter_cons, hk, if_true, List.map_cons, hv, Option.getD_some,
        List.length_cons, List.flatten_cons, sepJoin, hm, List.append_assoc, Res.ok.injEq,
        FieldAcc.mk.injEq, true_and, and_true]
      omega
    · have hk' : isFieldKey k = false := by simpa using hk
      have ih := fieldLoop_fields m hfit l acc hm
        (fun kv hkv => hl kv (List.mem_cons_of_mem _ hkv))
      rw [fieldLoop, fieldStep_skip acc (k, nv) hk', Res.bind_ok, ih]
      simp [fieldsIn, List.filter_cons, hk']

theorem sepJoin_eq_commaJoin (n : Nat) : ∀ (xs : List Str) (c : Nat), c + xs.length = n →
    sepJoin n c xs = commaJoin xs
  | [], _, _ => rfl
  | [x], c, h => by
    simp only [List.length_singleton] at h
    simp [sepJoin, commaJoin, h]
  | x :: y :: xs, c, h => by
    have ih := sepJoin_eq_commaJoin n (y :: xs) (c + 1) (by simp at h ⊢; omega)
    have hne : c + 1 ≠ n := by simp at h; omega
    rw [sepJoin, ih, if_pos hne, commaJoin]

theorem boundary_eq (m : List (Str × JSONValue)) (n : Nat) (h : m.length = 2 * n + 2)
    (hs : m.length < 2 ^ 64) : boundary m = n := by
  unfold boundary
  rw [h] at hs ⊢
  have : (2 * n + 2 + 2 ^ 64 - 2) % 2 ^ 64 = 2 * n := by
    have e : 2 * n + 2 + 2 ^ 64 - 2 = 2 * n + 2 ^ 64 := by omega
    rw [e, Nat.add_mod_right]
    exact Nat.mod_eq_of_lt (by omega)
  rw [this]
  omega

/-! ## The emitter on object nodes without `Class` or `Instance` -/

theorem isFieldKey_class : isFieldKey "Class".toList = false := by decide

theorem valueKeyOf_ne_class (k : Str) : "Class".toList ≠ valueKeyOf k := by
  intro h
  have := congrArg List.head? h
  simp [valueKeyOf] at this

theorem mapFind_mapIndex_class (kvs : List (Str × JSONValue)) (k : Str) :
    mapFind (mapIndex kvs "Class".toList).2 (valueKeyOf k) = mapFind kvs (valueKeyOf k) := by
  unfold mapIndex
  cases mapFind kvs "Class".toList with
  | some v => rfl
  | none => exact mapFind_append_other kvs _ _ .null (valueKeyOf_ne_class k)

theorem mem_mapIndex_class (kvs : List (Str × JSONValue)) (kv : Str × JSONValue)
    (h : kv ∈ (mapIndex kvs "Class".toList).2) : kv ∈ kvs ∨ kv = ("Class".toList, .null) := by
  unfold mapIndex at h
  cases hf : mapFind kvs "Class".toList with
  | some v =>
    rw [hf] at h
    exact Or.inl h
  | none =>
    rw [hf] at h
    rcases List.mem_append.mp h with h1 | h1
    · exact Or.inl h1
    · exact Or.inr (List.mem_singleton.mp h1)

theorem fieldsIn_mapIndex_class (kvs : List (Str × JSONValue)) :
    fieldsIn (mapIndex kvs "Class".toList).2 (mapIndex kvs "Class".toList).2 =
      fieldsIn kvs kvs := by
  have hfilt : ((mapIndex kvs "Class".toList).2.filter fun kv => isFieldKey kv.1) =
      kvs.filter fun kv => isFieldKey kv.1 := by
    unfold mapIndex
    cases mapFind kvs "Class".toList with
    | some v => rfl
    | none =>
      have e : ([("Class".toList, JSONValue.null)].filter fun kv => isFieldKey kv.1) = [] := by
        rw [List.filter_cons, isFieldKey_class]
        rfl
      rw [List.filter_append, e, List.append_nil]
  unfold fieldsIn
  rw [hfilt]
  apply List.map_congr_left
  intro kv _
  rw [mapFind_mapIndex_class]

/-- C1 at object nodes that lack `Class`, `Instance` or both: the emitter does
not fail.  For the node with the only keys `Field0` = `x` and `Value0` = 1, in
either order, it returns the statement `  = (1, );`, made of empty names; for the
node with `Class` = `P` and no `Instance` it returns `P  = P(1, );`, and for the
node with `Instance` = `p` and no `Class` it returns ` p = (1);`. -/
theorem generate_impl_file_no_class :
    mapFind [("Field0".toList, .string "x".toList), ("Value0".toList, .number 1)]
      "Class".toList = none ∧
    mapFind [("Field0".toList, .string "x".toList), ("Value0".toList, .number 1)]
      "Instance".toList = none ∧
    generate_impl_file (.object [("Field0".toList, .string "x".toList),
        ("Value0".toList, .number 1)]) emptyTable =
      .ok {
        header := "class  \x7b\nprivate:\nint x;\npublic:\n(int x, );\nprotected: \n\x7d;\n".toList
        cpp := "::(int x, ) \x7b\nthis->x = x;\n\x7d\n".toList
        outStr := "  = (1, );\n".toList } ∧
    generate_impl_file (.object [("Value0".toList, .number 1),
        ("Field0".toList, .string "x".toList)]) emptyTable =
      .ok {
        header := "class  \x7b\nprivate:\nint x;\npublic:\n(int x, );\nprotected: \n\x7d;\n".toList
        cpp := "::(int x, ) \x7b\nthis->x = x;\n\x7d\n".toList
        outStr := "  = (1, );\n".toList } ∧
    generate_impl_file (.object [("Class".toList, .string "P".toList),
        ("Field0".toList, .string "x".toList), ("Value0".toList, .number 1)]) emptyTable =
      .ok {
        header :=
          "class P \x7b\nprivate:\nint x;\npublic:\nP(int x, );\nprotected: \n\x7d;\n".toList
        cpp := "P::P(int x, ) \x7b\nthis->x = x;\n\x7d\n".toList
        outStr := "P  = P(1, );\n".toList } ∧
    generate_impl_file (.object [("Instance".toList, .string "p".toList),
        ("Field0".toList, .string "x".toList), ("Value0".toList, .number 1)]) emptyTable =
      .ok {
        header := "class  \x7b\nprivate:\nint x;\npublic:\n(int x);\nprotected: \n\x7d;\n".toList
        cpp := "::(int x) \x7b\nthis->x = x;\n\x7d\n".toList
        outStr := " p = (1);\n".toList } := by
  decide!

/-- C1 as amended: the emitter has no check for a missing `Class` or `Instance`
key and does not fail on one.  For every object node in which each field key has
its value key, in every iteration order `kvs` of its keys, with or without
`Class` and `Instance`, for an aligned method table and no integral number
outside the range of `int`, it returns the statement `C I = C(args);`: `C` and
`I` are the strings under `Class` and `Instance`, empty when the key is absent,
and `args` are the arguments of the fields in the order in which their keys are
visited, each followed by `, ` unless its number equals the bound
`(size - 2) / 2` of the loop, where `size` counts the keys of the node and the
key `Class` that the emitter adds when it is absent. -/
theorem generate_impl_file_missing_keys (kvs : List (Str × JSONValue)) (t : MethodTable)
    (ht : t.aligned) (hv : intsFit kvs)
    (hc : ∀ kv ∈ kvs, isFieldKey kv.1 = true → (mapFind kvs (valueKeyOf kv.1)).isSome = true) :
    ∃ e, generate_impl_file (.object kvs) t = .ok e ∧
      e.outStr = keyString kvs "Class".toList ++ " ".toList ++
        keyString kvs "Instance".toList ++ " = ".toList ++ keyString kvs "Class".toList ++
        "(".toList ++
        sepJoin (boundary (mapIndex kvs "Class".toList).2) 0
          ((fieldsIn kvs kvs).map fun f => argText f.2) ++ ");\n".toList := by
  obtain ⟨_, hm⟩ := mapIndex_fits kvs "Class".toList hv
  have hall : ∀ kv ∈ (mapIndex kvs "Class".toList).2, isFieldKey kv.1 = true →
      (mapFind (mapIndex kvs "Class".toList).2 (valueKeyOf kv.1)).isSome = true := by
    intro kv hkv hk
    rw [mapFind_mapIndex_class]
    rcases mem_mapIndex_class kvs kv hkv with h | h
    · exact hc kv h hk
    · rw [h] at hk
      rw [isFieldKey_class] at hk
      cases hk
  have hf := fieldLoop_fields (mapIndex kvs "Class".toList).2 hm (mapIndex kvs "Class".toList).2
    ⟨(mapIndex kvs "Class".toList).2, 0, [], [], [], []⟩ rfl hall
  rw [fieldsIn_mapIndex_class] at hf
  obtain ⟨m, hmt⟩ := mtdStrLoop_ok t (mapIndex kvs "Class".toList).1.stringValue ht
  have he : ∃ e, generate_impl_file (.object kvs) t = .ok e ∧
      e.outStr = (mapIndex kvs "Class".toList).1.stringValue ++ " ".toList ++
        (mapIndex (mapIndex kvs "Class".toList).2 "Instance".toList).1.stringValue ++
        " = ".toList ++ (mapIndex kvs "Class".toList).1.stringValue ++
        "(".toList ++ ([] ++ sepJoin (boundary (mapIndex kvs "Class".toList).2) 0
          ((fieldsIn kvs kvs).map fun f => argText f.2)) ++ ");\n".toList := by
    simp only [generate_impl_file, JSONValue.objectValue, hf, hmt, Res.bind]
    exact ⟨_, rfl, rfl⟩
  obtain ⟨e, h1, h2⟩ := he
  refine ⟨e, h1, ?_⟩
  rw [h2, List.nil_append, mapIndex_stringValue, mapIndex_stringValue,
    keyString_mapIndex_other kvs "Instance".toList "Class".toList (by decide)]

/-- C1 as amended on the object node with `Class` = `P`, `Field0` = `x` and
`Value0` = 1, which lacks `Instance`, visited in the order `Value0`, `Field0`,
`Class`: the statement `P  = P(1, );`. -/
theorem generate_impl_file_missing_keys_witness :
    emptyTable.aligned ∧
      mapFind [("Value0".toList, .number 1), ("Field0".toList, .string "x".toList),
        ("Class".toList, .string "P".toList)] "Instance".toList = none ∧
      ∃ e,
        generate_impl_file
          (.object [("Value0".toList, .number 1), ("Field0".toList, .string "x".toList),
            ("Class".toList, .string "P".toList)])
          emptyTable = .ok e ∧
        e.outStr = "P  = P(1, );\n".toList := by
  obtain ⟨e, h1, h2⟩ := generate_impl_file_missing_keys
    [("Value0".toList, .number 1), ("Field0".toList, .string "x".toList),
      ("Class".toList, .string "P".toList)] emptyTable ⟨rfl, rfl, rfl, rfl⟩ (by decide!)
    (by decide!)
  exact ⟨⟨rfl, rfl, rfl, rfl⟩, by decide!, e, h1, h2.trans (by decide!)⟩

/-! ## Object nodes made of `Class`, `Instance` and field pairs -/

theorem isFieldKey_field (idx : Str) : isFieldKey ("Field".toList ++ idx) = true := by
  unfold isFieldKey
  have : find ("Field".toList ++ idx) "Field".toList = some 0 := by
    show find ('F' :: ('i' :: 'e' :: 'l' :: 'd' :: idx)) ['F', 'i', 'e', 'l', 'd'] = some 0
    rw [find_cons, if_pos]
    exact List.prefix_append ['F', 'i', 'e', 'l', 'd'] idx
  rw [this]
  rfl

theorem isFieldKey_value (idx : Str) (h : allDigits idx) :
    isFieldKey ("Value".toList ++ idx) = false := by
  unfold isFieldKey
  have : find ("Value".toList ++ idx) "Field".toList = none := by
    apply find_none_of_head_not_mem
    intro hm
    rcases List.mem_append.mp hm with h1 | h1
    · revert h1
      decide
    · have := h 'F' h1
      revert this
      decide
  rw [this]
  rfl

theorem valueKeyOf_field (idx : Str) : valueKeyOf ("Field".toList ++ idx) = "Value".toList ++ idx :=
  rfl

theorem mapFind_of_mem : ∀ (m : List (Str × JSONValue)) (k : Str) (v : JSONValue),
    (m.map Prod.fst).Nodup → (k, v) ∈ m → mapFind m k = some v
  | [], _, _, _, h => by simp at h
  | (k', v') :: m, k, v, hn, h => by
    simp only [List.map_cons, List.nodup_cons] at hn
    unfold mapFind
    by_cases hk : k' = k
    · subst hk
      rcases List.mem_cons.mp h with h1 | h1
      · simp only [Prod.mk.injEq, true_and] at h1
        subst h1
        simp [List.find?]
      · exact absurd (List.mem_map_of_mem Prod.fst h1) hn.1
    · rcases List.mem_cons.mp h with h1 | h1
      · simp only [Prod.mk.injEq] at h1
        exact absurd h1.1.symm hk
      · have hb : (k' == k) = false := by simpa using hk
        have ih := mapFind_of_mem m k v hn.2 h1
        unfold mapFind at ih
        simp only [List.find?, hb]
        exact ih

theorem mapFind_perm (m m' : List (Str × JSONValue)) (hp : m'.Perm m)
    (hn : (m.map Prod.fst).Nodup) (k : Str) (v : JSONValue) (h : (k, v) ∈ m) :
    mapFind m' k = some v :=
  mapFind_of_mem m' k v ((hp.map Prod.fst).nodup_iff.mpr hn) (hp.mem_iff.mpr h)

/-- The keys of the entries of the fields. -/
theorem mem_entries (fields : List FieldSpec) (kv : Str × JSONValue) :
    kv ∈ (fields.map FieldSpec.entries).flatten ↔
      ∃ f ∈ fields, kv = ("Field".toList ++ f.idx, .string f.name) ∨
        kv = ("Value".toList ++ f.idx, f.value) := by
  simp only [List.mem_flatten, List.mem_map, FieldSpec.entries]
  constructor
  · rintro ⟨l, ⟨f, hf, rfl⟩, hkv⟩
    simp only [List.mem_cons, List.mem_singleton, List.not_mem_nil, or_false] at hkv
    exact ⟨f, hf, hkv⟩
  · rintro ⟨f, hf, hkv⟩
    exact ⟨_, ⟨f, hf, rfl⟩, by simpa using hkv⟩

theorem field_ne_value (i j : Str) : "Field".toList ++ i ≠ "Value".toList ++ j := by
  intro h
  have := congrArg List.head? h
  simp at this

theorem nodup_entries : ∀ fields : List FieldSpec, (fields.map FieldSpec.idx).Nodup →
    (((fields.map FieldSpec.entries).flatten).map Prod.fst).Nodup
  | [], _ => by simp
  | f :: fs, hn => by
    simp only [List.map_cons, List.nodup_cons] at hn
    have ih := nodup_entries fs hn.2
    have hmem : ∀ k, k ∈ ((fs.map FieldSpec.entries).flatten).map Prod.fst →
        ∃ g ∈ fs, k = "Field".toList ++ g.idx ∨ k = "Value".toList ++ g.idx := by
      intro k hk
      obtain ⟨kv, hkv, rfl⟩ := List.mem_map.mp hk
      obtain ⟨g, hg, h⟩ := (mem_entries fs kv).mp hkv
      refine ⟨g, hg, ?_⟩
      rcases h with h | h <;> rw [h]
      · exact Or.inl rfl
      · exact Or.inr rfl
    simp only [List.map_cons, List.flatten_cons, FieldSpec.entries, List.cons_append,
      List.nil_append, List.nodup_cons, List.mem_cons]
    refine ⟨?_, ?_, ih⟩
    · rintro (h | h)
      · exact field_ne_value _ _ h
      · obtain ⟨g, hg, h⟩ := hmem _ h
        rcases h with h | h
        · have : f.idx = g.idx := List.append_cancel_left h
          exact hn.1 (this ▸ List.mem_map_of_mem FieldSpec.idx hg)
        · exact field_ne_value _ _ h
    · intro h
      obtain ⟨g, hg, h⟩ := hmem _ h
      rcases h with h | h
      · exact field_ne_value _ _ h.symm
      · have : f.idx = g.idx := List.append_cancel_left h
        exact hn.1 (this ▸ List.mem_map_of_mem FieldSpec.idx hg)

theorem nodup_objectOf (C I : Str) (fields : List FieldSpec)
    (hn : (fields.map FieldSpec.idx).Nodup) : ((objectOf C I fields).map Prod.fst).Nodup := by
  have hh : ∀ k, k ∈ ((fields.map FieldSpec.entries).flatten).map Prod.fst →
      k.head? = some 'F' ∨ k.head? = some 'V' := by
    intro k hk
    obtain ⟨kv, hkv, rfl⟩ := List.mem_map.mp hk
    obtain ⟨g, _, h⟩ := (mem_entries fields kv).mp hkv
    rcases h with h | h <;> rw [h]
    · exact Or.inl rfl
    · exact Or.inr rfl
  simp only [objectOf, List.map_cons, List.nodup_cons, List.mem_cons]
  refine ⟨?_, ?_, nodup_entries fields hn⟩
  · rintro (h | h)
    · revert h
      decide
    · have := hh _ h
      revert this
      decide
  · intro h
    have := hh _ h
    revert this
    decide

theorem length_objectOf (C I : Str) (fields : List FieldSpec) :
    (objectOf C I fields).length = 2 * fields.length + 2 := by
  have : ∀ fs : List FieldSpec, ((fs.map FieldSpec.entries).flatten).length = 2 * fs.length := by
    intro fs
    induction fs with
    | nil => rfl
    | cons f fs ih =>
      simp only [List.map_cons, List.flatten_cons, List.length_append, ih, FieldSpec.entries,
        List.length_cons, List.length_nil]
      omega
  simp only [objectOf, List.length_cons, this]

/-- The entries that the key loop treats as fields are the `Field<i>` entries. -/
theorem filter_objectOf (C I : Str) (fields : List FieldSpec)
    (hd : ∀ f ∈ fields, allDigits f.idx) :
    (objectOf C I fields).filter (fun kv => isFieldKey kv.1) =
      fields.map fun f => ("Field".toList ++ f.idx, JSONValue.string f.name) := by
  have hc : isFieldKey "Class".toList = false := by decide
  have hi : isFieldKey "Instance".toList = false := by decide
  have : ∀ fs : List FieldSpec, (∀ f ∈ fs, allDigits f.idx) →
      ((fs.map FieldSpec.entries).flatten).filter (fun kv => isFieldKey kv.1) =
        fs.map fun f => ("Field".toList ++ f.idx, JSONValue.string f.name) := by
    intro fs
    induction fs with
    | nil => intro _; rfl
    | cons f fs ih =>
      intro h
      have h1 := isFieldKey_field f.idx
      have h2 := isFieldKey_value f.idx (h f (by simp))
      simp only [List.map_cons, List.flatten_cons, FieldSpec.entries, List.cons_append,
        List.nil_append, List.filter_cons, h1, h2, if_true, Bool.false_eq_true, if_false,
        ih (fun g hg => h g (List.mem_cons_of_mem _ hg))]
  simp only [objectOf, List.filter_cons, hc, hi, Bool.false_eq_true, if_false, this fields hd]

theorem intsFit_objectOf (C I : Str) (fields : List FieldSpec)
    (h : ∀ f ∈ fields, fitsInt f.value = true) : intsFit (objectOf C I fields) := by
  intro kv hkv
  simp only [objectOf, List.mem_cons] at hkv
  rcases hkv with h1 | h1 | h1
  · rw [h1]; rfl
  · rw [h1]; rfl
  · obtain ⟨f, hf, h2⟩ := (mem_entries fields kv).mp h1
    rcases h2 with h2 | h2 <;> rw [h2]
    · rfl
    · exact h f hf

theorem value_mem_objectOf (C I : Str) (fields : List FieldSpec) (f : FieldSpec)
    (hf : f ∈ fields) : ("Value".toList ++ f.idx, f.value) ∈ objectOf C I fields := by
  simp only [objectOf, List.mem_cons]
  exact Or.inr (Or.inr ((mem_entries fields _).mpr ⟨f, hf, Or.inr rfl⟩))

/-- The key loop on every iteration order `kvs` of the object node made of
`Class`, `Instance` and the pairs of `fields`. -/
theorem fieldLoop_perm (C I : Str) (fields : List FieldSpec) (kvs : List (Str × JSONValue))
    (hp : kvs.Perm (objectOf C I fields)) (hg : goodIndices fields)
    (hfit : ∀ f ∈ fields, fitsInt f.value = true) (hs : kvs.length < 2 ^ 64) :
    fieldLoop kvs ⟨kvs, 0, [], [], [], []⟩ = .ok
        ⟨kvs, fields.length, ((fieldsIn kvs kvs).map fun f => declOf f.1 f.2).flatten,
          commaJoin ((fieldsIn kvs kvs).map fun f => paramOf f.1 f.2),
          ((fieldsIn kvs kvs).map fun f => initOf f.1).flatten,
          commaJoin ((fieldsIn kvs kvs).map fun f => argText f.2)⟩ ∧
      (fieldsIn kvs kvs).Perm (fields.map fun f => (f.name, f.value)) := by
  have hnd := nodup_objectOf C I fields hg.2
  have hfit' : intsFit kvs := by
    intro kv hkv
    exact intsFit_objectOf C I fields hfit kv (hp.mem_iff.mp hkv)
  have hval : ∀ f ∈ fields, mapFind kvs ("Value".toList ++ f.idx) = some f.value := by
    intro f hf
    exact mapFind_perm (objectOf C I fields) kvs hp hnd _ _ (value_mem_objectOf C I fields f hf)
  have hfilt : (kvs.filter fun kv => isFieldKey kv.1).Perm
      (fields.map fun f => ("Field".toList ++ f.idx, JSONValue.string f.name)) := by
    rw [← filter_objectOf C I fields hg.1]
    exact hp.filter _
  have hfield : ∀ kv ∈ kvs, isFieldKey kv.1 = true →
      ∃ f ∈ fields, kv = ("Field".toList ++ f.idx, JSONValue.string f.name) := by
    intro kv hkv hk
    have : kv ∈ kvs.filter fun kv => isFieldKey kv.1 := List.mem_filter.mpr ⟨hkv, hk⟩
    obtain ⟨f, hf, he⟩ := List.mem_map.mp (hfilt.mem_iff.mp this)
    exact ⟨f, hf, he.symm⟩
  have hall : ∀ kv ∈ kvs, isFieldKey kv.1 = true →
      (mapFind kvs (valueKeyOf kv.1)).isSome = true := by
    intro kv hkv hk
    obtain ⟨f, hf, rfl⟩ := hfield kv hkv hk
    rw [valueKeyOf_field, hval f hf]
    rfl
  have hperm : (fieldsIn kvs kvs).Perm (fields.map fun f => (f.name, f.value)) := by
    unfold fieldsIn
    have h1 := hfilt.map fun kv : Str × JSONValue =>
      (kv.2.stringValue, (mapFind kvs (valueKeyOf kv.1)).getD JSONValue.null)
    refine h1.trans (List.Perm.of_eq ?_)
    rw [List.map_map]
    apply List.map_congr_left
    intro f hf
    simp only [Function.comp, valueKeyOf_field, hval f hf, Option.getD_some,
      JSONValue.stringValue]
  have hlen : (fieldsIn kvs kvs).length = fields.length := by
    rw [hperm.length_eq, List.length_map]
  have hb : boundary kvs = fields.length :=
    boundary_eq kvs fields.length (by rw [hp.length_eq, length_objectOf]) hs
  refine ⟨?_, hperm⟩
  rw [fieldLoop_fields kvs hfit' kvs ⟨kvs, 0, [], [], [], []⟩ rfl hall]
  simp only [Nat.zero_add, List.nil_append, hlen, hb]
  rw [sepJoin_eq_commaJoin fields.length _ 0 (by simp [hlen]),
    sepJoin_eq_commaJoin fields.length _ 0 (by simp [hlen])]

theorem commaJoin_eq_intercalate : ∀ xs : List Str, commaJoin xs = List.intercalate ", ".toList xs
  | [] => rfl
  | [x] => by simp [commaJoin, List.intercalate, List.intersperse]
  | x :: y :: xs => by
    have ih := commaJoin_eq_intercalate (y :: xs)
    rw [commaJoin, ih]
    simp [List.intercalate, List.intersperse]

theorem fieldsIn_ordered (C I : Str) (fields : List FieldSpec) (kvs : List (Str × JSONValue))
    (hp : kvs.Perm (objectOf C I fields)) (hg : goodIndices fields)
    (hord : (kvs.filter fun kv => isFieldKey kv.1) =
      fields.map fun f => ("Field".toList ++ f.idx, JSONValue.string f.name)) :
    fieldsIn kvs kvs = fields.map fun f => (f.name, f.value) := by
  unfold fieldsIn
  rw [hord, List.map_map]
  apply List.map_congr_left
  intro f hf
  have := mapFind_perm (objectOf C I fields) kvs hp (nodup_objectOf C I fields hg.2) _ _
    (value_mem_objectOf C I fields f hf)
  simp only [Function.comp, valueKeyOf_field, this, Option.getD_some, JSONValue.stringValue]

theorem declOf_literal (name : Str) (v : JSONValue) (h : isLiteral v = true) :
    declOf name v = typeName v ++ " ".toList ++ name ++ ";\n".toList := by
  unfold declOf
  rw [if_pos h]

theorem paramOf_literal (name : Str) (v : JSONValue) (h : isLiteral v = true) :
    paramOf name v = typeName v ++ " ".toList ++ name := by
  unfold paramOf
  rw [if_pos h]

/-- The fields that the key loop visits on an iteration order of the node of
`fields` are fields of the node. -/
theorem mem_fieldsIn_perm (fields : List FieldSpec) (kvs : List (Str × JSONValue))
    (hperm : (fieldsIn kvs kvs).Perm (fields.map fun f => (f.name, f.value)))
    (x : Str × JSONValue) (hx : x ∈ fieldsIn kvs kvs) :
    ∃ f ∈ fields, x = (f.name, f.value) := by
  obtain ⟨f, hf, he⟩ := List.mem_map.mp (hperm.mem_iff.mp hx)
  exact ⟨f, hf, he.symm⟩

/-! ## The emitter on the fields of an object node -/

/-- C11 at the JSON text of the claim.  The text parses to the object with the
six entries.  The container of the program iterates them in the order `Field1`,
`Value1`, `Value0`, `Field0`, `Instance`, `Class`, which is not the order of the
text, and on this order the emitter declares `Point(float y, int x);` and
`generate_file` writes `Point p1 = Point(2.5f, 1);` into the entry point: the
header has no `Point(int x, float y);` and the definition text has no
`Point p1 = Point(1, 2.5f);`. -/
theorem generate_file_point_order :
    JSONParser.parse ("\x7b\"Class\":\"Point\",\"Instance\":\"p1\",\"Field0\":\"x\"," ++
        "\"Value0\":1,\"Field1\":\"y\",\"Value1\":2.5\x7d").toList =
      .ok (.object [("Class".toList, .string "Point".toList),
        ("Instance".toList, .string "p1".toList), ("Field0".toList, .string "x".toList),
        ("Value0".toList, .number 1), ("Field1".toList, .string "y".toList),
        ("Value1".toList, .number (mkRat 5 2))], 83) ∧
    List.Perm [("Field1".toList, JSONValue.string "y".toList),
        ("Value1".toList, .number (mkRat 5 2)), ("Value0".toList, .number 1),
        ("Field0".toList, .string "x".toList), ("Instance".toList, .string "p1".toList),
        ("Class".toList, .string "Point".toList)]
      [("Class".toList, .string "Point".toList),
        ("Instance".toList, .string "p1".toList), ("Field0".toList, .string "x".toList),
        ("Value0".toList, .number 1), ("Field1".toList, .string "y".toList),
        ("Value1".toList, .number (mkRat 5 2))] ∧
    generate_file (.object [("Field1".toList, .string "y".toList),
        ("Value1".toList, .number (mkRat 5 2)), ("Value0".toList, .number 1),
        ("Field0".toList, .string "x".toList), ("Instance".toList, .string "p1".toList),
        ("Class".toList, .string "Point".toList)]) "pt".toList emptyTable =
      .ok {
        header := ("#ifndef PT_H\n#define PT_H\n#include <string>\n" ++
          "using namespace std;\nclass Point \x7b\nprivate:\nfloat y;\nint x;\npublic:\n" ++
          "Point(float y, int x);\nprotected: \n\x7d;\n#endif\n").toList
        cpp := ("#include <iostream>\n#include \"pt.h\"\nusing namespace std;\n" ++
          "Point::Point(float y, int x) \x7b\nthis->y = y;\nthis->x = x;\n\x7d\n" ++
          "int main(int argc, char *argv[]) \x7b\nPoint p1 = Point(2.5f, 1);\n" ++
          "return 0;\n\x7d\n").toList
        outStr := "Point p1 = Point(2.5f, 1);\n".toList } ∧
    find ("#ifndef PT_H\n#define PT_H\n#include <string>\n" ++
          "using namespace std;\nclass Point \x7b\nprivate:\nfloat y;\nint x;\npublic:\n" ++
          "Point(float y, int x);\nprotected: \n\x7d;\n#endif\n").toList
      "Point(int x, float y);".toList = none ∧
    find ("#include <iostream>\n#include \"pt.h\"\nusing namespace std;\n" ++
          "Point::Point(float y, int x) \x7b\nthis->y = y;\nthis->x = x;\n\x7d\n" ++
          "int main(int argc, char *argv[]) \x7b\nPoint p1 = Point(2.5f, 1);\n" ++
          "return 0;\n\x7d\n").toList
      "Point p1 = Point(1, 2.5f);".toList = none := by
  refine ⟨by decide!, by decide!, by decide!, by decide!, by decide!⟩

/-- C11 as amended: for every object node made of `Class` = `C`, `Instance` =
`I` and pairs `Field<i>`/`Value<i>` with string or number values, in every order
`kvs` in which the container iterates its keys, and with an empty method table,
the emitter writes the header `class C {`, one member declaration
`<type> <field>;` per field, the constructor declaration `C(t1 f1, ..., tn fn);`,
and returns the statement `C I = C(a1, ..., an);`, the fields being taken in the
order in which their keys are visited (`fieldsIn kvs kvs`), which is an
arrangement of the fields of the node and need not be the order of the JSON
text.  An integral number is taken to lie in the range of `int`, where its
argument text is defined, and the map to have a size that fits `size_t`. -/
theorem generate_impl_file_fields (C I : Str) (fields : List FieldSpec)
    (kvs : List (Str × JSONValue)) (hp : kvs.Perm (objectOf C I fields))
    (hg : goodIndices fields)
    (hv : ∀ f ∈ fields, isLiteral f.value = true ∧ fitsInt f.value = true)
    (hs : kvs.length < 2 ^ 64) :
    generate_impl_file (.object kvs) emptyTable = .ok {
      header := "class ".toList ++ C ++ " \x7b\n".toList ++ "private:\n".toList ++
        ((fieldsIn kvs kvs).map fun f =>
          typeName f.2 ++ " ".toList ++ f.1 ++ ";\n".toList).flatten ++
        "public:\n".toList ++ C ++ "(".toList ++
        List.intercalate ", ".toList
          ((fieldsIn kvs kvs).map fun f => typeName f.2 ++ " ".toList ++ f.1) ++
        ");\n".toList ++ "protected: \n".toList ++ "\x7d;\n".toList
      cpp := C ++ "::".toList ++ C ++ "(".toList ++
        List.intercalate ", ".toList
          ((fieldsIn kvs kvs).map fun f => typeName f.2 ++ " ".toList ++ f.1) ++
        ") \x7b\n".toList ++ ((fieldsIn kvs kvs).map fun f => initOf f.1).flatten ++
        "\x7d\n".toList
      outStr := C ++ " ".toList ++ I ++ " = ".toList ++ C ++ "(".toList ++
        List.intercalate ", ".toList ((fieldsIn kvs kvs).map fun f => argText f.2) ++
        ");\n".toList } ∧
    (fieldsIn kvs kvs).Perm (fields.map fun f => (f.name, f.value)) := by
  have hnd := nodup_objectOf C I fields hg.2
  have hcls : mapIndex kvs "Class".toList = (.string C, kvs) := by
    unfold mapIndex
    rw [mapFind_perm (objectOf C I fields) kvs hp hnd "Class".toList (.string C)
      (List.mem_cons_self _ _)]
  have hins : (mapIndex kvs "Instance".toList).1 = .string I := by
    unfold mapIndex
    rw [mapFind_perm (objectOf C I fields) kvs hp hnd "Instance".toList (.string I)
      (List.mem_cons_of_mem _ (List.mem_cons_self _ _))]
  obtain ⟨hloop, hperm⟩ := fieldLoop_perm C I fields kvs hp hg (fun f hf => (hv f hf).2) hs
  refine ⟨?_, hperm⟩
  have hmt : ∀ cn : Str, mtdStrLoop emptyTable cn (List.range emptyTable.classStrings.length)
      ⟨[], [], [], []⟩ = .ok ⟨[], [], [], []⟩ := fun _ => rfl
  have hlit : ∀ x ∈ fieldsIn kvs kvs, isLiteral x.2 = true := by
    intro x hx
    obtain ⟨f, hf, rfl⟩ := mem_fieldsIn_perm fields kvs hperm x hx
    exact (hv f hf).1
  have hdecl : ((fieldsIn kvs kvs).map fun f => declOf f.1 f.2) =
      (fieldsIn kvs kvs).map fun f => typeName f.2 ++ " ".toList ++ f.1 ++ ";\n".toList := by
    apply List.map_congr_left
    intro x hx
    exact declOf_literal _ _ (hlit x hx)
  have hpar : ((fieldsIn kvs kvs).map fun f => paramOf f.1 f.2) =
      (fieldsIn kvs kvs).map fun f => typeName f.2 ++ " ".toList ++ f.1 := by
    apply List.map_congr_left
    intro x hx
    exact paramOf_literal _ _ (hlit x hx)
  rw [hdecl, hpar, commaJoin_eq_intercalate, commaJoin_eq_intercalate] at hloop
  unfold generate_impl_file
  simp only [JSONValue.objectValue]
  rw [hcls]
  simp only [JSONValue.stringValue]
  rw [hloop, Res.bind_ok, hmt, Res.bind_ok, hins]
  simp only [JSONValue.stringValue, List.append_nil]

/-- C11 as amended on the node of the claim, in the order in which the program
iterates its keys (`Field1`, `Value1`, `Value0`, `Field0`, `Instance`, `Class`)
and in the order of the text: the header has `class Point {`, `float y;` and
`int x;` with `Point(float y, int x);` and the statement is
`Point p1 = Point(2.5f, 1);` in the first order, and it has `int x;`, `float y;`
with `Point(int x, float y);` and `Point p1 = Point(1, 2.5f);` in the second. -/
theorem generate_impl_file_fields_witness :
    generate_impl_file (.object [("Field1".toList, .string "y".toList),
        ("Value1".toList, .number (mkRat 5 2)), ("Value0".toList, .number 1),
        ("Field0".toList, .string "x".toList), ("Instance".toList, .string "p1".toList),
        ("Class".toList, .string "Point".toList)]) emptyTable =
      .ok {
        header := ("class Point \x7b\nprivate:\nfloat y;\nint x;\npublic:\n" ++
          "Point(float y, int x);\nprotected: \n\x7d;\n").toList
        cpp := "Point::Point(float y, int x) \x7b\nthis->y = y;\nthis->x = x;\n\x7d\n".toList
        outStr := "Point p1 = Point(2.5f, 1);\n".toList } ∧
    generate_impl_file (.object (objectOf "Point".toList "p1".toList
        [⟨"0".toList, "x".toList, .number 1⟩, ⟨"1".toList, "y".toList, .number (mkRat 5 2)⟩]))
        emptyTable =
      .ok {
        header := ("class Point \x7b\nprivate:\nint x;\nfloat y;\npublic:\n" ++
          "Point(int x, float y);\nprotected: \n\x7d;\n").toList
        cpp := "Point::Point(int x, float y) \x7b\nthis->x = x;\nthis->y = y;\n\x7d\n".toList
        outStr := "Point p1 = Point(1, 2.5f);\n".toList } :=
  ⟨(generate_impl_file_fields "Point".toList "p1".toList
      [⟨"0".toList, "x".toList, .number 1⟩, ⟨"1".toList, "y".toList, .number (mkRat 5 2)⟩]
      [("Field1".toList, .string "y".toList),
        ("Value1".toList, .number (mkRat 5 2)), ("Value0".toList, .number 1),
        ("Field0".toList, .string "x".toList), ("Instance".toList, .string "p1".toList),
        ("Class".toList, .string "Point".toList)]
      (by decide!) (by decide!) (by decide!) (by decide!)).1.trans (by decide!),
    (generate_impl_file_fields "Point".toList "p1".toList
      [⟨"0".toList, "x".toList, .number 1⟩, ⟨"1".toList, "y".toList, .number (mkRat 5 2)⟩]
      _ (List.Perm.refl _) (by decide!) (by decide!) (by decide!)).1.trans (by decide!)⟩

/-- C18: for every object node whose keys are exactly `Class`, `Instance` and
the `n >= 1` pairs `Field<i>`/`Value<i>` of `fields`, in every iteration order
`kvs` of these keys, the key loop of the emitter (run on the map `kvs` itself,
which `operator[]` does not extend) ends with the constructor parameter list and
the instantiation argument list equal to the per-field fragments, in the order
in which the field keys are visited, joined by `", "`: a separator behind every
fragment but the last.  The fragments are those of the `n` fields.  An integral
number is taken to lie in the range of `int`, where its fragment is defined, and
the map to have a size that fits `size_t`. -/
theorem fieldLoop_separators (C I : Str) (fields : List FieldSpec)
    (kvs : List (Str × JSONValue)) (hp : kvs.Perm (objectOf C I fields))
    (hg : goodIndices fields) (hn : fields ≠ [])
    (hfit : ∀ f ∈ fields, fitsInt f.value = true) (hs : kvs.length < 2 ^ 64) :
    (mapIndex kvs "Class".toList).2 = kvs ∧
    ∃ f, fieldLoop kvs ⟨kvs, 0, [], [], [], []⟩ = .ok f ∧
      f.count = fields.length ∧ 1 ≤ f.count ∧
      f.consParamStr =
        List.intercalate ", ".toList ((fieldsIn kvs kvs).map fun x => paramOf x.1 x.2) ∧
      f.objInstStr = List.intercalate ", ".toList ((fieldsIn kvs kvs).map fun x => argText x.2) ∧
      (fieldsIn kvs kvs).Perm (fields.map fun f => (f.name, f.value)) := by
  obtain ⟨hloop, hperm⟩ := fieldLoop_perm C I fields kvs hp hg hfit hs
  have hcls : mapIndex kvs "Class".toList = (.string C, kvs) := by
    unfold mapIndex
    rw [mapFind_perm (objectOf C I fields) kvs hp (nodup_objectOf C I fields hg.2)
      "Class".toList (.string C) (List.mem_cons_self _ _)]
  refine ⟨by rw [hcls], _, hloop, rfl, ?_, ?_, ?_, hperm⟩
  · exact List.length_pos.mpr hn
  · exact commaJoin_eq_intercalate _
  · exact commaJoin_eq_intercalate _

/-- C18 on the node of class `Point` with the fields `x` = 1 and `y` = 2.5,
iterated in the order `Value1`, `Field1`, `Instance`, `Field0`, `Class`,
`Value0`: the parameter list `float y, int x` and the argument list
`2.5f, 1`. -/
theorem fieldLoop_separators_witness :
    ∃ f, fieldLoop
        [("Value1".toList, .number (mkRat 5 2)), ("Field1".toList, .string "y".toList),
          ("Instance".toList, .string "p1".toList), ("Field0".toList, .string "x".toList),
          ("Class".toList, .string "Point".toList), ("Value0".toList, .number 1)]
        ⟨[("Value1".toList, .number (mkRat 5 2)), ("Field1".toList, .string "y".toList),
          ("Instance".toList, .string "p1".toList), ("Field0".toList, .string "x".toList),
          ("Class".toList, .string "Point".toList), ("Value0".toList, .number 1)],
          0, [], [], [], []⟩ = .ok f ∧
      f.consParamStr = "float y, int x".toList ∧ f.objInstStr = "2.5f, 1".toList := by
  obtain ⟨_, f, h1, _, _, h2, h3, _⟩ := fieldLoop_separators "Point".toList "p1".toList
    [⟨"0".toList, "x".toList, .number 1⟩, ⟨"1".toList, "y".toList, .number (mkRat 5 2)⟩]
    [("Value1".toList, .number (mkRat 5 2)), ("Field1".toList, .string "y".toList),
      ("Instance".toList, .string "p1".toList), ("Field0".toList, .string "x".toList),
      ("Class".toList, .string "Point".toList), ("Value0".toList, .number 1)]
    (by decide!) (by decide!) (List.cons_ne_nil _ _) (by decide!) (by decide!)
  exact ⟨f, h1, h2.trans (by decide!), h3.trans (by decide!)⟩

/-! ## Unsupported keys -/

/-- C12, at the object node with one field and the two additional keys `A` and
`B`: the boundary test counts the additional keys, so the field is followed by a
separator, and the three texts differ from those of the node without the
additional keys. -/
theorem generate_impl_file_extra_keys :
    generate_impl_file (.object [("Class".toList, .string "P".toList),
        ("Instance".toList, .string "p".toList), ("Field0".toList, .string "x".toList),
        ("Value0".toList, .number 1)]) emptyTable =
      .ok {
        header := "class P \x7b\nprivate:\nint x;\npublic:\nP(int x);\nprotected: \n\x7d;\n".toList
        cpp := "P::P(int x) \x7b\nthis->x = x;\n\x7d\n".toList
        outStr := "P p = P(1);\n".toList } ∧
    generate_impl_file (.object [("Class".toList, .string "P".toList),
        ("Instance".toList, .string "p".toList), ("Field0".toList, .string "x".toList),
        ("Value0".toList, .number 1), ("A".toList, .number 0), ("B".toList, .number 0)])
        emptyTable =
      .ok {
        header :=
          "class P \x7b\nprivate:\nint x;\npublic:\nP(int x, );\nprotected: \n\x7d;\n".toList
        cpp := "P::P(int x, ) \x7b\nthis->x = x;\n\x7d\n".toList
        outStr := "P p = P(1, );\n".toList } ∧
    (∀ k ∈ ["A".toList, "B".toList], find k "Field".toList = none ∧
      find k "Value".toList = none ∧ find k "Class".toList = none ∧
      find k "Instance".toList = none) := by
  decide!

/-! ## Integral and other numbers -/

/-- C15: the emitter declares a field whose value is a number `v` with type
`int` when `ceil(v) = floor(v)` and with type `float` otherwise, and 440.0 is
integral while 440.5 is not; but the argument is the integer text of `v` only
when `v` lies in the range of `int`.  For an integral `v` outside this range the
conversion `int(v)` is undefined, so for the value 10000000000 the emitter has
no defined result, where the claim promises the text `10000000000`. -/
theorem fieldFragments_number :
    JSONParser.parse
        "\x7b\"Class\":\"A\",\"Instance\":\"a\",\"Field0\":\"x\",\"Value0\":10000000000\x7d".toList =
      .ok (.object [("Class".toList, .string "A".toList),
        ("Instance".toList, .string "a".toList), ("Field0".toList, .string "x".toList),
        ("Value0".toList, .number 10000000000)], 62) ∧
    generate_impl_file (.object [("Class".toList, .string "A".toList),
        ("Instance".toList, .string "a".toList), ("Field0".toList, .string "x".toList),
        ("Value0".toList, .number 10000000000)]) emptyTable = .undefined ∧
    (∀ q : ℚ, Rat.ceil q = Rat.floor q → -2147483648 ≤ q.num → q.num ≤ 2147483647 →
      fieldFragments (.number q) = .ok (some ("int".toList, intToString q.num))) ∧
    (∀ q : ℚ, Rat.ceil q = Rat.floor q → ¬ (-2147483648 ≤ q.num ∧ q.num ≤ 2147483647) →
      fieldFragments (.number q) = .undefined) ∧
    (∀ q : ℚ, Rat.ceil q ≠ Rat.floor q →
      fieldFragments (.number q) = .ok (some ("float".toList, floatText q))) ∧
    Rat.ceil (440 : ℚ) = Rat.floor (440 : ℚ) ∧
    Rat.ceil (mkRat 881 2) ≠ Rat.floor (mkRat 881 2) ∧
    generate_impl_file (.object [("Class".toList, .string "A".toList),
        ("Instance".toList, .string "a".toList), ("Field0".toList, .string "x".toList),
        ("Value0".toList, .number 440)]) emptyTable =
      .ok {
        header := "class A \x7b\nprivate:\nint x;\npublic:\nA(int x);\nprotected: \n\x7d;\n".toList
        cpp := "A::A(int x) \x7b\nthis->x = x;\n\x7d\n".toList
        outStr := "A a = A(440);\n".toList } ∧
    generate_impl_file (.object [("Class".toList, .string "A".toList),
        ("Instance".toList, .string "a".toList), ("Field0".toList, .string "x".toList),
        ("Value0".toList, .number (mkRat 881 2))]) emptyTable =
      .ok {
        header :=
          "class A \x7b\nprivate:\nfloat x;\npublic:\nA(float x);\nprotected: \n\x7d;\n".toList
        cpp := "A::A(float x) \x7b\nthis->x = x;\n\x7d\n".toList
        outStr := "A a = A(440.5f);\n".toList } := by
  refine ⟨by decide!, by decide!, ?_, ?_, ?_, by decide!, by decide!, by decide!, by decide!⟩
  · intro q hc h1 h2
    unfold fieldFragments
    simp only [JSONValue.type, JSONValue.numberValue]
    rw [if_pos trivial, if_pos hc]
    simp only [intText, h1, h2, and_self, if_true, Res.bind]
    rw [if_neg (by decide)]
  · intro q hc hr
    unfold fieldFragments
    simp only [JSONValue.type, JSONValue.numberValue]
    rw [if_pos trivial, if_pos hc]
    simp only [intText, hr, if_false, Res.bind]
    rw [if_neg (by decide)]
  · intro q hc
    unfold fieldFragments
    simp only [JSONValue.type, JSONValue.numberValue]
    rw [if_pos trivial, if_neg hc]
    rfl

/-! ## Results do not depend on the fuel -/

namespace JSONParser

theorem bind_ne_nofuel_left {α β : Type} {x : Res α} {f : α → Res β}
    (h : x.bind f ≠ .nofuel) : x ≠ .nofuel := by
  intro hx
  rw [hx] at h
  exact h rfl

theorem bind_congr_fuel {α β : Type} {x : Res α} {f g : α → Res β}
    (h : x.bind f ≠ .nofuel) (hfg : ∀ a, x = .ok a → f a ≠ .nofuel → g a = f a) :
    x.bind g = x.bind f := by
  cases x with
  | ok a => exact hfg a rfl h
  | throw e => rfl
  | undefined => rfl
  | nofuel => rfl

/-- A result of `parse`, of the array loop or of the object loop that is not
`nofuel` is the result with every larger fuel. -/
theorem parse_stable (s : Str) : ∀ n : Nat,
    (∀ n' i, n ≤ n' → parseFuel n s i ≠ .nofuel → parseFuel n' s i = parseFuel n s i) ∧
    (∀ n' i acc, n ≤ n' → parseArrayLoop n s i acc ≠ .nofuel →
      parseArrayLoop n' s i acc = parseArrayLoop n s i acc) ∧
    (∀ n' i acc, n ≤ n' → parseObjectLoop n s i acc ≠ .nofuel →
      parseObjectLoop n' s i acc = parseObjectLoop n s i acc)
  | 0 => by
    refine ⟨?_, ?_, ?_⟩
    · intro n' i _ h
      rw [parseFuel] at h
      exact absurd rfl h
    · intro n' i acc _ h
      rw [parseArrayLoop] at h
      exact absurd rfl h
    · intro n' i acc _ h
      rw [parseObjectLoop] at h
      exact absurd rfl h
  | n + 1 => by
    obtain ⟨ihP, ihA, ihO⟩ := parse_stable s n
    refine ⟨?_, ?_, ?_⟩
    · intro n' i hn h
      obtain ⟨m, rfl⟩ : ∃ m, n' = m + 1 := ⟨n' - 1, by omega⟩
      have hnm : n ≤ m := by omega
      rw [parseFuel_succ] at h ⊢
      rw [parseFuel_succ]
      refine bind_congr_fuel h ?_
      intro c _ hc
      by_cases h1 : c = 'n'
      · rw [if_pos h1, if_pos h1]
      rw [if_neg h1] at hc ⊢
      rw [if_neg h1]
      by_cases h2 : c = 't'
      · rw [if_pos h2, if_pos h2]
      rw [if_neg h2] at hc ⊢
      rw [if_neg h2]
      by_cases h3 : c = 'f'
      · rw [if_pos h3, if_pos h3]
      rw [if_neg h3] at hc ⊢
      rw [if_neg h3]
      by_cases h4 : c = '"'
      · rw [if_pos h4, if_pos h4]
      rw [if_neg h4] at hc ⊢
      rw [if_neg h4]
      by_cases h5 : isdigit c ∨ c = '-'
      · rw [if_pos h5, if_pos h5]
      rw [if_neg h5] at hc ⊢
      rw [if_neg h5]
      by_cases h6 : c = '['
      · rw [if_pos h6] at hc ⊢
        rw [if_pos h6]
        refine bind_congr_fuel hc ?_
        intro i2 _ hi2
        rw [ihA m i2 [] hnm (bind_ne_nofuel_left hi2)]
      rw [if_neg h6] at hc ⊢
      rw [if_neg h6]
      by_cases h7 : c = '{'
      · rw [if_pos h7] at hc ⊢
        rw [if_pos h7]
        refine bind_congr_fuel hc ?_
        intro i2 _ hi2
        rw [ihO m i2 [] hnm (bind_ne_nofuel_left hi2)]
      rw [if_neg h7, if_neg h7]
    · intro n' i acc hn h
      obtain ⟨m, rfl⟩ : ∃ m, n' = m + 1 := ⟨n' - 1, by omega⟩
      have hnm : n ≤ m := by omega
      rw [parseArrayLoop_succ] at h ⊢
      rw [parseArrayLoop_succ]
      refine bind_congr_fuel h ?_
      intro c _ hc
      by_cases h1 : c = ']'
      · rw [if_neg (fun hx => hx h1), if_neg (fun hx => hx h1)]
      · rw [if_pos h1] at hc ⊢
        rw [if_pos h1, ihP m i hnm (bind_ne_nofuel_left hc)]
        refine bind_congr_fuel hc ?_
        intro vi _ hvi
        refine bind_congr_fuel hvi ?_
        intro c2 _ hc2
        by_cases h2 : c2 = ','
        · rw [if_pos h2] at hc2 ⊢
          rw [if_pos h2]
          exact ihA m _ _ hnm hc2
        · rw [if_neg h2] at hc2 ⊢
          rw [if_neg h2]
          by_cases h3 : c2 = ']'
          · rw [if_neg (fun hx => hx h3)] at hc2 ⊢
            rw [if_neg (fun hx => hx h3)]
            exact ihA m _ _ hnm hc2
          · rw [if_pos h3, if_pos h3]
    · intro n' i acc hn h
      obtain ⟨m, rfl⟩ : ∃ m, n' = m + 1 := ⟨n' - 1, by omega⟩
      have hnm : n ≤ m := by omega
      rw [parseObjectLoop_succ] at h ⊢
      rw [parseObjectLoop_succ]
      refine bind_congr_fuel h ?_
      intro c _ hc
      by_cases h1 : c = '}'
      · rw [if_neg (fun hx => hx h1), if_neg (fun hx => hx h1)]
      · rw [if_pos h1] at hc ⊢
        rw [if_pos h1]
        refine bind_congr_fuel hc ?_
        intro ki _ hki
        refine bind_congr_fuel hki ?_
        intro i2 _ hi2
        rw [ihP m i2 hnm (bind_ne_nofuel_left hi2)]
        refine bind_congr_fuel hi2 ?_
        intro vi _ hvi
        refine bind_congr_fuel hvi ?_
        intro c2 _ hc2
        by_cases h2 : c2 = ','
        · rw [if_pos h2] at hc2 ⊢
          rw [if_pos h2]
          exact ihO m _ _ hnm hc2
        · rw [if_neg h2] at hc2 ⊢
          rw [if_neg h2]
          by_cases h3 : c2 = '}'
          · rw [if_neg (fun hx => hx h3)] at hc2 ⊢
            rw [if_neg (fun hx => hx h3)]
            exact ihO m _ _ hnm hc2
          · rw [if_pos h3, if_pos h3]

theorem parseFuel_stable (s : Str) (n n' i : Nat) (hn : n ≤ n') (h : parseFuel n s i ≠ .nofuel) :
    parseFuel n' s i = parseFuel n s i :=
  (parse_stable s n).1 n' i hn h

/-- The result of a run with any fuel, when it is not `nofuel`, is the result of
every run with enough fuel. -/
theorem parseFuel_of_fuel (s : Str) (n n' i : Nat) (r : Res (JSONValue × Nat))
    (h : parseFuel n s i = r) (hr : r ≠ .nofuel) (hn : 2 * (s.length - i) + 1 ≤ n') :
    parseFuel n' s i = r := by
  have h1 : parseFuel (max n n') s i = parseFuel n s i :=
    parseFuel_stable s n _ i (le_max_left _ _) (by rw [h]; exact hr)
  have h2 : parseFuel (max n n') s i = parseFuel n' s i :=
    parseFuel_stable s n' _ i (le_max_right _ _) ((parse_fuel_enough s n').1 i hn)
  rw [← h2, h1, h]

/-- The result of `parse` is the result of a run with any fuel that is not
`nofuel`. -/
theorem parse_of_fuel (s : Str) (n : Nat) (r : Res (JSONValue × Nat))
    (h : parseFuel n s 0 = r) (hr : r ≠ .nofuel) : parse s = r :=
  parseFuel_of_fuel s n _ 0 r h hr (by omega)

theorem parseArrayLoop_of_fuel (s : Str) (n n' i : Nat) (acc : List JSONValue)
    (r : Res (List JSONValue × Nat)) (h : parseArrayLoop n s i acc = r) (hr : r ≠ .nofuel)
    (hn : 2 * (s.length - i) + 2 ≤ n') : parseArrayLoop n' s i acc = r := by
  have h1 : parseArrayLoop (max n n') s i acc = parseArrayLoop n s i acc :=
    (parse_stable s n).2.1 _ i acc (le_max_left _ _) (by rw [h]; exact hr)
  have h2 : parseArrayLoop (max n n') s i acc = parseArrayLoop n' s i acc :=
    (parse_stable s n').2.1 _ i acc (le_max_right _ _) ((parse_fuel_enough s n').2.1 i acc hn)
  rw [← h2, h1, h]

theorem parseObjectLoop_of_fuel (s : Str) (n n' i : Nat) (acc : List (Str × JSONValue))
    (r : Res (List (Str × JSONValue) × Nat)) (h : parseObjectLoop n s i acc = r)
    (hr : r ≠ .nofuel) (hn : 2 * (s.length - i) + 2 ≤ n') : parseObjectLoop n' s i acc = r := by
  have h1 : parseObjectLoop (max n n') s i acc = parseObjectLoop n s i acc :=
    (parse_stable s n).2.2 _ i acc (le_max_left _ _) (by rw [h]; exact hr)
  have h2 : parseObjectLoop (max n n') s i acc = parseObjectLoop n' s i acc :=
    (parse_stable s n').2.2 _ i acc (le_max_right _ _) ((parse_fuel_enough s n').2.2 i acc hn)
  rw [← h2, h1, h]

end JSONParser
/-! ## Steps of the array loop and of the object loop -/

namespace JSONParser

/-- A successful call of `parse` starts, behind the whitespace, at a character
that is neither a closing bracket nor a closing brace. -/
theorem parseFuel_ok_first (n : Nat) (s : Str) (i : Nat) (r : JSONValue × Nat)
    (h : parseFuel n s i = .ok r) :
    ∃ c, getCurrentChar s (skipWhiteSpace s i) = .ok c ∧ c ≠ ']' ∧ c ≠ '}' := by
  cases n with
  | zero =>
    rw [parseFuel] at h
    cases h
  | succ n =>
    rw [parseFuel_succ] at h
    obtain ⟨c, hc, h⟩ := bind_eq_ok h
    refine ⟨c, hc, ?_, ?_⟩
    · intro hx
      subst hx
      rw [if_neg (by decide), if_neg (by decide), if_neg (by decide), if_neg (by decide),
        if_neg (by decide), if_neg (by decide), if_neg (by decide)] at h
      cases h
    · intro hx
      subst hx
      rw [if_neg (by decide), if_neg (by decide), if_neg (by decide), if_neg (by decide),
        if_neg (by decide), if_neg (by decide), if_neg (by decide)] at h
      cases h

/-- The call of `parse` at an opening bracket: the array loop behind it. -/
theorem parseFuel_array (m : Nat) (pre rest : Str) :
    parseFuel (m + 1) (pre ++ '[' :: rest) pre.length =
      (parseArrayLoop m (pre ++ '[' :: rest)
        (skipWhiteSpace (pre ++ '[' :: rest) (pre.length + 1)) []).bind
        fun r => .ok (.array r.1, r.2) := by
  rw [parseFuel_succ, skipWhiteSpace_at pre '[' rest (by decide), getCurrentChar_at,
    Res.bind_ok]
  rw [if_neg (by decide), if_neg (by decide), if_neg (by decide), if_neg (by decide),
    if_neg (by decide), if_pos rfl]
  rw [expect_of _ _ _ (by simp) (by rw [drop_at]; rfl), Res.bind_ok]
  rfl

/-- One iteration of the array loop at an element that `parse` reads in the
text, up to the cursor `j`. -/
theorem parseArrayLoop_elem (T : Str) (n i : Nat) (acc : List JSONValue) (a : JSONValue)
    (j : Nat) (hv : parseFuel n T i = .ok (a, j)) :
    parseArrayLoop (n + 1) T (skipWhiteSpace T i) acc =
      (getCurrentChar T j).bind fun c2 =>
        if c2 = ',' then parseArrayLoop n T (skipWhiteSpace T (j + 1)) (acc ++ [a])
        else if c2 ≠ ']' then .throw .invalid_argument
        else parseArrayLoop n T j (acc ++ [a]) := by
  obtain ⟨c, hc, h1, _⟩ := parseFuel_ok_first n T i _ hv
  rw [parseArrayLoop_succ, hc, Res.bind_ok, if_pos h1, parseFuel_skip, hv, Res.bind_ok]

/-- The exit of the array loop at a closing bracket. -/
theorem parseArrayLoop_close (pre rest : Str) (m : Nat) (acc : List JSONValue) :
    parseArrayLoop (m + 1) (pre ++ ']' :: rest) pre.length acc =
      .ok (acc, skipWhiteSpace (pre ++ ']' :: rest) (pre.length + 1)) := by
  rw [parseArrayLoop_succ, getCurrentChar_at, Res.bind_ok, if_neg (by decide)]

/-- One iteration of the object loop at a key and a value that are read in the
text, up to the cursor `j`. -/
theorem parseObjectLoop_elem (T : Str) (n i : Nat) (acc : List (Str × JSONValue)) (k : Str)
    (i2 i3 : Nat) (a : JSONValue) (j : Nat) (hk : parseString T i = .ok (k, i2))
    (hc : expect T i2 [':'] = .ok i3) (hv : parseFuel n T i3 = .ok (a, j)) :
    parseObjectLoop (n + 1) T i acc =
      (getCurrentChar T j).bind fun c2 =>
        if c2 = ',' then parseObjectLoop n T (skipWhiteSpace T (j + 1)) (emplace acc k a)
        else if c2 ≠ '}' then .throw .invalid_argument
        else parseObjectLoop n T j (emplace acc k a) := by
  have h0 : getCurrentChar T i = .ok '"' := by
    unfold parseString at hk
    obtain ⟨i1, h1, _⟩ := bind_eq_ok hk
    obtain ⟨hle, hd, _⟩ := expect_ok T i _ i1 h1
    have hlt : i < T.length := by
      simp only [List.length_singleton] at hle
      omega
    rw [getCurrentChar_of_lt T i hlt]
    have : T.drop i = T.getD i '\x00' :: T.drop (i + 1) := by
      rw [List.getD_eq_getElem _ _ hlt]
      exact List.drop_eq_getElem_cons hlt
    rw [this] at hd
    simp only [List.length_singleton, List.take_succ_cons, List.take_zero, List.cons.injEq,
      and_true] at hd
    rw [hd]
  rw [parseObjectLoop_succ, h0, Res.bind_ok, if_pos (by decide), hk, Res.bind_ok, hc,
    Res.bind_ok, hv, Res.bind_ok]

end JSONParser

namespace JSONParser

/-- A text that `parse` accepts and consumes whole is read in the same way
inside a larger text, when what follows is empty or begins with a neutral
character. -/
theorem parseFuel_accepted (p v s : Str) (hs : neutralNext s) (a : JSONValue)
    (hv : parse v = .ok (a, v.length)) (n : Nat) (hn : 2 * v.length + 1 ≤ n) :
    parseFuel n (p ++ v ++ s) p.length = .ok (a, p.length + v.length) := by
  have := (parse_ctx_all p v s hs (2 * v.length + 1)).1 n 0 a v.length hn hv
  simpa using this.1

theorem parseString_plain (k : Str) (hp : ∀ c ∈ k, c ≠ '"' ∧ c ≠ '\\') :
    parseString ('"' :: k ++ ['"']) 0 = .ok (k.dropWhile isspace, ('"' :: k ++ ['"']).length) := by
  have h := parse_plain_string k hp
  unfold parse at h
  rw [parseFuel_succ] at h
  have w0 : skipWhiteSpace ('"' :: k ++ ['"']) 0 = 0 :=
    skipWhiteSpace_at [] '"' _ (by decide)
  have c0 : getCurrentChar ('"' :: k ++ ['"']) 0 = .ok '"' := getCurrentChar_at [] '"' _
  rw [w0, c0, Res.bind_ok, if_neg (by decide), if_neg (by decide), if_neg (by decide),
    if_pos rfl] at h
  obtain ⟨r, hr, h⟩ := bind_eq_ok h
  simp only [Res.ok.injEq, Prod.mk.injEq, JSONValue.string.injEq] at h
  rw [hr]
  obtain ⟨r1, r2⟩ := r
  simp only at h
  rw [h.1, h.2]
  simp

/-- An array text with one element, with or without a comma behind it. -/
theorem parse_array_one (v : Str) (a : JSONValue) (hv : parse v = .ok (a, v.length))
    (comma : Bool) :
    parse ('[' :: v ++ (if comma then [',', ']'] else [']'])) =
      .ok (.array [a], ('[' :: v ++ (if comma then [',', ']'] else [']'])).length) := by
  obtain ⟨tl, htl⟩ : ∃ tl : Str, tl = if comma then [',', ']'] else [']'] := ⟨_, rfl⟩
  obtain ⟨T, hT⟩ : ∃ T : Str, T = '[' :: v ++ tl := ⟨_, rfl⟩
  rw [← htl, ← hT]
  obtain ⟨N, hN⟩ : ∃ N, N = 2 * v.length + 3 := ⟨_, rfl⟩
  have hneutral : neutralNext tl := by
    rw [htl]
    cases comma <;> decide
  have s0 : T = [] ++ '[' :: (v ++ tl) := by rw [hT]; rfl
  have s1 : T = ['['] ++ v ++ tl := by rw [hT]; rfl
  have e0 : parseFuel (N + 1 + 1) T 0 =
      (parseArrayLoop (N + 1) T (skipWhiteSpace T 1) []).bind
        fun r => .ok (.array r.1, r.2) := by
    have := parseFuel_array (N + 1) [] (v ++ tl)
    rw [← s0] at this
    exact this
  have e1 : parseFuel N T 1 = .ok (a, 1 + v.length) := by
    have := parseFuel_accepted ['['] v tl hneutral a hv N (by omega)
    rw [← s1] at this
    exact this
  have e2 := parseArrayLoop_elem T N 1 [] a (1 + v.length) e1
  have fin : parseArrayLoop (N + 1) T (skipWhiteSpace T 1) [] = .ok ([a], T.length) := by
    rw [e2]
    cases comma with
    | false =>
      simp only [Bool.false_eq_true, if_false] at htl
      have s2 : T = (['['] ++ v) ++ ']' :: [] := by rw [hT, htl]; rfl
      have l2 : (['['] ++ v).length = 1 + v.length := by
        simp only [List.length_append, List.length_cons, List.length_nil]
      have hc : getCurrentChar T (1 + v.length) = .ok ']' := by
        rw [s2, ← l2]
        exact getCurrentChar_at _ ']' []
      rw [hc, Res.bind_ok, if_neg (by decide), if_neg (by decide)]
      obtain ⟨M, hM⟩ : ∃ M, N = M + 1 := ⟨N - 1, by omega⟩
      have := parseArrayLoop_close (['['] ++ v) [] M ([] ++ [a])
      rw [← s2, l2, ← hM] at this
      rw [this]
      have hend : 1 + v.length + 1 = T.length := by
        rw [s2]
        simp only [List.length_append, List.length_cons, List.length_nil]
      rw [hend, skipWhiteSpace_end]
      rfl
    | true =>
      simp only [if_true] at htl
      have s2 : T = (['['] ++ v) ++ ',' :: [']'] := by rw [hT, htl]; rfl
      have s3 : T = (['['] ++ v ++ [',']) ++ ']' :: [] := by rw [hT, htl]; simp
      have l2 : (['['] ++ v).length = 1 + v.length := by
        simp only [List.length_append, List.length_cons, List.length_nil]
      have l3 : (['['] ++ v ++ [',']).length = 1 + v.length + 1 := by
        simp only [List.length_append, List.length_cons, List.length_nil]
      have hc : getCurrentChar T (1 + v.length) = .ok ',' := by
        rw [s2, ← l2]
        exact getCurrentChar_at _ ',' _
      have w : skipWhiteSpace T (1 + v.length + 1) = 1 + v.length + 1 := by
        rw [s3, ← l3]
        exact skipWhiteSpace_at _ ']' [] (by decide)
      rw [hc, Res.bind_ok, if_pos rfl, w]
      obtain ⟨M, hM⟩ : ∃ M, N = M + 1 := ⟨N - 1, by omega⟩
      have := parseArrayLoop_close (['['] ++ v ++ [',']) [] M ([] ++ [a])
      rw [← s3, l3, ← hM] at this
      rw [this]
      have hend : 1 + v.length + 1 + 1 = T.length := by
        rw [s3]
        simp only [List.length_append, List.length_cons, List.length_nil]
      rw [hend, skipWhiteSpace_end]
      rfl
  apply parse_of_fuel T (N + 1 + 1)
  · rw [e0, fin]
    rfl
  · intro h
    cases h

/-- An object text with one pair, with or without a comma behind it; the key
text is read by `parseString` as the key `r`. -/
theorem parse_object_one (k r v : Str) (a : JSONValue)
    (hk : parseString ('"' :: k ++ ['"']) 0 = .ok (r, k.length + 2))
    (hv : parse v = .ok (a, v.length)) (comma : Bool) :
    parse ('{' :: ('"' :: k ++ ['"']) ++ ':' :: (v ++ (if comma then [',', '}'] else ['}']))) =
      .ok (.object [(r, a)],
        ('{' :: ('"' :: k ++ ['"']) ++ ':' ::
          (v ++ (if comma then [',', '}'] else ['}']))).length) := by
  obtain ⟨kt, hkt⟩ : ∃ kt : Str, kt = '"' :: k ++ ['"'] := ⟨_, rfl⟩
  obtain ⟨c, rest, hcr, hcc, hrest⟩ : ∃ (c : Char) (rest : Str),
      (if comma then [',', '}'] else ['}']) = c :: rest ∧ (c = ',' ∨ c = '}') ∧
      (c = ',' → rest = ['}']) ∧ (c = '}' → rest = []) := by
    cases comma
    · exact ⟨'}', [], rfl, Or.inr rfl, fun h => absurd h (by decide), fun _ => rfl⟩
    · exact ⟨',', ['}'], rfl, Or.inl rfl, fun _ => rfl, fun h => absurd h (by decide)⟩
  rw [hcr, ← hkt]
  obtain ⟨T, hT⟩ : ∃ T : Str, T = '{' :: kt ++ ':' :: (v ++ c :: rest) := ⟨_, rfl⟩
  rw [← hT]
  have hks : parseString kt 0 = .ok (r, kt.length) := by
    rw [hkt, hk]
    simp
  obtain ⟨N, hN⟩ : ∃ N, N = 2 * v.length + 3 := ⟨_, rfl⟩
  have s0 : T = [] ++ '{' :: (kt ++ ':' :: (v ++ c :: rest)) := by rw [hT]; rfl
  have s1 : T = ['{'] ++ '"' :: (k ++ ['"'] ++ ':' :: (v ++ c :: rest)) := by
    rw [hT, hkt]; simp
  have s2 : T = ['{'] ++ kt ++ ':' :: (v ++ c :: rest) := by rw [hT]; rfl
  have e0 : parseFuel (N + 1 + 1) T 0 =
      (parseObjectLoop (N + 1) T (skipWhiteSpace T 1) []).bind
        fun r => .ok (.object r.1, r.2) := by
    have := parseFuel_object (N + 1) [] (kt ++ ':' :: (v ++ c :: rest))
    rw [← s0] at this
    exact this
  have w1 : skipWhiteSpace T 1 = 1 := by
    have := skipWhiteSpace_at ['{'] '"' (k ++ ['"'] ++ ':' :: (v ++ c :: rest)) (by decide)
    rw [← s1] at this
    exact this
  have e1 := parseObjectLoop_pair ['{'] kt (r) v c rest (2 * v.length + 1) N a
    [] hks hv (by omega) hcc
  rw [← s2] at e1
  simp only [List.length_singleton] at e1
  have hempl : emplace [] (r) a = [(r, a)] := rfl
  rw [hempl] at e1
  obtain ⟨M, hM⟩ : ∃ M, N = M + 1 := ⟨N - 1, by omega⟩
  have fin : parseObjectLoop (N + 1) T 1 [] = .ok ([(r, a)], T.length) := by
    rw [e1]
    rcases hcc with h | h
    · have hr := hrest.1 h
      subst h
      subst hr
      rw [if_pos rfl]
      have s3 : T = (['{'] ++ kt ++ ':' :: v ++ [',']) ++ '}' :: [] := by rw [hT]; simp
      have l3 : (['{'] ++ kt ++ ':' :: v ++ [',']).length = 1 + kt.length + 1 + v.length + 1 := by
        simp only [List.length_append, List.length_cons, List.length_nil]
        omega
      have w : skipWhiteSpace T (1 + kt.length + 1 + v.length + 1) =
          1 + kt.length + 1 + v.length + 1 := by
        rw [s3, ← l3]
        exact skipWhiteSpace_at _ '}' [] (by decide)
      rw [w, hM]
      have := parseObjectLoop_close (['{'] ++ kt ++ ':' :: v ++ [',']) [] M
        [(r, a)]
      rw [← s3, l3] at this
      rw [this]
      have hend : 1 + kt.length + 1 + v.length + 1 + 1 = T.length := by
        rw [s3]
        simp only [List.length_append, List.length_cons, List.length_nil]
        omega
      rw [hend, skipWhiteSpace_end]
    · have hr := hrest.2 h
      subst h
      subst hr
      rw [if_neg (by decide)]
      have s3 : T = (['{'] ++ kt ++ ':' :: v) ++ '}' :: [] := by rw [hT]; simp
      have l3 : (['{'] ++ kt ++ ':' :: v).length = 1 + kt.length + 1 + v.length := by
        simp only [List.length_append, List.length_cons, List.length_nil]
        omega
      rw [hM]
      have := parseObjectLoop_close (['{'] ++ kt ++ ':' :: v) [] M [(r, a)]
      rw [← s3, l3] at this
      rw [this]
      have hend : 1 + kt.length + 1 + v.length + 1 = T.length := by
        rw [s3]
        simp only [List.length_append, List.length_cons, List.length_nil]
        omega
      rw [hend, skipWhiteSpace_end]
  apply parse_of_fuel T (N + 1 + 1)
  · rw [e0, w1, fin]
    rfl
  · intro h
    cases h

end JSONParser

/-! ## Trailing commas -/

/-- C19: the trailing comma is accepted, but not for every key.  For every value
text `v` that `parse` accepts (and consumes whole), parsing `[v,]` yields the
same one-element array as parsing `[v]`, and for every key text `"k"` that
`parseString` reads whole, to the key `r`, parsing `{"k":v,}` yields the same
object as parsing `{"k":v}`; a key without quote and backslash is such a key.
For the key `\u0041` neither text parses: the escape moves the cursor past the
closing quote of the key (the defect of C2), and `parse` throws where the claim
says it succeeds. -/
theorem parse_trailing_comma :
    (∀ (v : Str) (a : JSONValue) (k r : Str), JSONParser.parse v = .ok (a, v.length) →
      JSONParser.parseString ('"' :: k ++ ['"']) 0 = .ok (r, k.length + 2) →
      JSONParser.parse ("[".toList ++ v ++ ",]".toList) = .ok (.array [a], v.length + 3) ∧
      JSONParser.parse ("[".toList ++ v ++ "]".toList) = .ok (.array [a], v.length + 2) ∧
      JSONParser.parse ("\x7b\"".toList ++ k ++ "\":".toList ++ v ++ ",\x7d".toList) =
        .ok (.object [(r, a)], k.length + v.length + 6) ∧
      JSONParser.parse ("\x7b\"".toList ++ k ++ "\":".toList ++ v ++ "\x7d".toList) =
        .ok (.object [(r, a)], k.length + v.length + 5)) ∧
    (∀ k : Str, (∀ c ∈ k, c ≠ '"' ∧ c ≠ '\\') →
      JSONParser.parseString ('"' :: k ++ ['"']) 0 = .ok (k.dropWhile isspace, k.length + 2)) ∧
    JSONParser.parse "1".toList = .ok (.number 1, 1) ∧
    JSONParser.parse "\x7b\"\\u0041\":1,\x7d".toList = .throw .invalid_argument ∧
    JSONParser.parse "\x7b\"\\u0041\":1\x7d".toList = .throw .invalid_argument := by
  refine ⟨?_, ?_, by decide!, by decide!, by decide!⟩
  · intro v a k r hv hk
    have a1 := JSONParser.parse_array_one v a hv true
    have a2 := JSONParser.parse_array_one v a hv false
    have o1 := JSONParser.parse_object_one k r v a hk hv true
    have o2 := JSONParser.parse_object_one k r v a hk hv false
    simp only [if_true, Bool.false_eq_true, if_false, List.length_cons, List.length_append,
      List.length_nil] at a1 a2 o1 o2
    refine ⟨?_, ?_, ?_, ?_⟩
    · have e : "[".toList ++ v ++ ",]".toList = '[' :: v ++ [',', ']'] := rfl
      rw [e, a1]
    · have e : "[".toList ++ v ++ "]".toList = '[' :: v ++ [']'] := rfl
      rw [e, a2]
    · have e : "\x7b\"".toList ++ k ++ "\":".toList ++ v ++ ",\x7d".toList =
          '{' :: ('"' :: k ++ ['"']) ++ ':' :: (v ++ [',', '}']) := by
        simp
      rw [e, o1]
      simp only [Res.ok.injEq, Prod.mk.injEq, true_and]
      omega
    · have e : "\x7b\"".toList ++ k ++ "\":".toList ++ v ++ "\x7d".toList =
          '{' :: ('"' :: k ++ ['"']) ++ ':' :: (v ++ ['}']) := by
        simp
      rw [e, o2]
      simp only [Res.ok.injEq, Prod.mk.injEq, true_and]
      omega
  · intro k hk
    have := JSONParser.parseString_plain k hk
    simpa using this

/-- C19 on the value text `[1, 2]` with the key `k` and with the key `a\nb`,
which holds an escape. -/
theorem parse_trailing_comma_witness :
    JSONParser.parse "[1, 2]".toList = .ok (.array [.number 1, .number 2], 6) ∧
    (JSONParser.parse "[[1, 2],]".toList = .ok (.array [.array [.number 1, .number 2]], 9) ∧
    JSONParser.parse "[[1, 2]]".toList = .ok (.array [.array [.number 1, .number 2]], 8) ∧
    JSONParser.parse "\x7b\"k\":[1, 2],\x7d".toList =
      .ok (.object [("k".toList, .array [.number 1, .number 2])], 13) ∧
    JSONParser.parse "\x7b\"k\":[1, 2]\x7d".toList =
      .ok (.object [("k".toList, .array [.number 1, .number 2])], 12)) ∧
    JSONParser.parse "\x7b\"a\\nb\":[1, 2],\x7d".toList =
      .ok (.object [("a\nb".toList, .array [.number 1, .number 2])], 16) ∧
    JSONParser.parse "\x7b\"a\\nb\":[1, 2]\x7d".toList =
      .ok (.object [("a\nb".toList, .array [.number 1, .number 2])], 15) :=
  ⟨by decide!,
    parse_trailing_comma.1 "[1, 2]".toList (.array [.number 1, .number 2]) "k".toList
      "k".toList (by decide!) (by decide!),
    (parse_trailing_comma.1 "[1, 2]".toList (.array [.number 1, .number 2]) "a\\nb".toList
      "a\nb".toList (by decide!) (by decide!)).2.2⟩

/-! ## Missing separators and missing closing characters -/

namespace JSONParser

theorem accepted_iff (v : Str) : accepted v = true ↔ ∃ a, parse v = .ok (a, v.length) := by
  unfold accepted
  cases h : parse v with
  | ok r =>
    obtain ⟨a, j⟩ := r
    simp only [beq_iff_eq, Res.ok.injEq, Prod.mk.injEq]
    constructor
    · intro hj
      exact ⟨a, rfl, hj⟩
    · rintro ⟨_, _, hj⟩
      exact hj
  | throw e => simp
  | undefined => simp
  | nofuel => simp

theorem acceptedKey_iff (kt : Str) :
    acceptedKey kt = true ↔ ∃ k, parseString kt 0 = .ok (k, kt.length) := by
  unfold acceptedKey
  cases h : parseString kt 0 with
  | ok r =>
    obtain ⟨a, j⟩ := r
    simp only [beq_iff_eq, Res.ok.injEq, Prod.mk.injEq]
    constructor
    · intro hj
      exact ⟨a, rfl, hj⟩
    · rintro ⟨_, _, hj⟩
      exact hj
  | throw e => simp
  | undefined => simp
  | nofuel => simp

theorem neutralNext_comma (s : Str) : neutralNext (',' :: s) := by
  intro x hx
  simp only [List.head?_cons, Option.mem_def, Option.some.injEq] at hx
  subst hx
  decide

theorem getCurrentChar_getD (T : Str) (j : Nat) (h : j ≤ T.length) :
    getCurrentChar T j = .ok (T.getD j '\x00') := by
  unfold getCurrentChar
  rcases Nat.lt_or_ge j T.length with h1 | h1
  · rw [if_pos h1]
  · have : j = T.length := by omega
    rw [if_neg (by omega), if_pos this, this]
    simp

/-- The array loop over element texts that `parse` accepts, each followed by a
comma. -/
theorem parseArrayLoop_head : ∀ (es : List Str), (∀ e ∈ es, accepted e = true) →
    ∀ (p r : Str) (acc : List JSONValue) (N : Nat),
      2 * (p ++ (es.map fun e => e ++ [',']).flatten ++ r).length + 1 ≤ N →
      ∃ acc', parseArrayLoop (N + es.length) (p ++ (es.map fun e => e ++ [',']).flatten ++ r)
          (skipWhiteSpace (p ++ (es.map fun e => e ++ [',']).flatten ++ r) p.length) acc =
        parseArrayLoop N (p ++ (es.map fun e => e ++ [',']).flatten ++ r)
          (skipWhiteSpace (p ++ (es.map fun e => e ++ [',']).flatten ++ r)
            (p.length + ((es.map fun e => e ++ [',']).flatten).length)) acc'
  | [], _, p, r, acc, N, _ => ⟨acc, by simp⟩
  | e :: es, hes, p, r, acc, N, hN => by
    obtain ⟨a, ha⟩ := (accepted_iff e).mp (hes e (by simp))
    obtain ⟨F, hF⟩ : ∃ F, F = (es.map fun e => e ++ [',']).flatten := ⟨_, rfl⟩
    obtain ⟨T, hT⟩ : ∃ T, T = p ++ ((e :: es).map fun e => e ++ [',']).flatten ++ r := ⟨_, rfl⟩
    rw [← hT] at hN ⊢
    have s1 : T = p ++ e ++ ',' :: (F ++ r) := by rw [hT, hF]; simp
    have s2 : T = (p ++ e ++ [',']) ++ (es.map fun e => e ++ [',']).flatten ++ r := by
      rw [hT]; simp
    have hle : e.length ≤ T.length := by
      rw [s1]
      simp only [List.length_append, List.length_cons]
      omega
    have hv : parseFuel (N + es.length) T p.length = .ok (a, p.length + e.length) := by
      have := parseFuel_accepted p e (',' :: (F ++ r)) (neutralNext_comma _) a ha (N + es.length)
        (by omega)
      rw [← s1] at this
      exact this
    have hc : getCurrentChar T (p.length + e.length) = .ok ',' := by
      have := getCurrentChar_at (p ++ e) ',' (F ++ r)
      rw [List.length_append] at this
      rw [s1]
      exact this
    obtain ⟨acc', ih⟩ := parseArrayLoop_head es (fun x hx => hes x (List.mem_cons_of_mem _ hx))
      (p ++ e ++ [',']) r (acc ++ [a]) N (by rw [← s2]; exact hN)
    rw [← s2] at ih
    refine ⟨acc', ?_⟩
    have hl : (p ++ e ++ [',']).length = p.length + e.length + 1 := by
      simp only [List.length_append, List.length_singleton]
    have hl2 : p.length + (((e :: es).map fun e => e ++ [',']).flatten).length =
        (p ++ e ++ [',']).length + ((es.map fun e => e ++ [',']).flatten).length := by
      simp only [List.map_cons, List.flatten_cons, List.length_append, List.length_singleton]
      omega
    rw [hl2, ← ih, hl]
    have hn : N + (e :: es).length = (N + es.length) + 1 := by
      simp only [List.length_cons]
      omega
    rw [hn, parseArrayLoop_elem T (N + es.length) p.length acc a _ hv, hc, Res.bind_ok,
      if_pos rfl]

/-- The object loop over pairs of a key text and a value text that are
accepted, each pair followed by a comma. -/
theorem parseObjectLoop_head : ∀ (ps : List (Str × Str)),
    (∀ q ∈ ps, acceptedKey q.1 = true ∧ accepted q.2 = true) →
    ∀ (p r : Str) (acc : List (Str × JSONValue)) (N : Nat),
      2 * (p ++ (ps.map fun q => q.1 ++ ':' :: q.2 ++ [',']).flatten ++ r).length + 1 ≤ N →
      ∃ acc', parseObjectLoop (N + ps.length)
          (p ++ (ps.map fun q => q.1 ++ ':' :: q.2 ++ [',']).flatten ++ r)
          (skipWhiteSpace (p ++ (ps.map fun q => q.1 ++ ':' :: q.2 ++ [',']).flatten ++ r)
            p.length) acc =
        parseObjectLoop N (p ++ (ps.map fun q => q.1 ++ ':' :: q.2 ++ [',']).flatten ++ r)
          (skipWhiteSpace (p ++ (ps.map fun q => q.1 ++ ':' :: q.2 ++ [',']).flatten ++ r)
            (p.length + ((ps.map fun q => q.1 ++ ':' :: q.2 ++ [',']).flatten).length)) acc'
  | [], _, p, r, acc, N, _ => ⟨acc, by simp⟩
  | (kt, vt) :: ps, hps, p, r, acc, N, hN => by
    obtain ⟨hkt, hvt⟩ := hps (kt, vt) (by simp)
    obtain ⟨k, hk⟩ := (acceptedKey_iff kt).mp hkt
    obtain ⟨a, ha⟩ := (accepted_iff vt).mp hvt
    obtain ⟨F, hF⟩ : ∃ F, F = (ps.map fun q => q.1 ++ ':' :: q.2 ++ [',']).flatten := ⟨_, rfl⟩
    obtain ⟨T, hT⟩ : ∃ T,
        T = p ++ (((kt, vt) :: ps).map fun q => q.1 ++ ':' :: q.2 ++ [',']).flatten ++ r :=
      ⟨_, rfl⟩
    rw [← hT] at hN ⊢
    have s1 : T = p ++ kt ++ ':' :: (vt ++ ',' :: (F ++ r)) := by rw [hT, hF]; simp
    have s2 : T = (p ++ kt ++ ':' :: vt ++ [',']) ++
        (ps.map fun q => q.1 ++ ':' :: q.2 ++ [',']).flatten ++ r := by
      rw [hT]; simp
    have hle : vt.length ≤ T.length := by
      rw [s1]
      simp only [List.length_append, List.length_cons]
      omega
    obtain ⟨kt', hkt'⟩ : ∃ kt', kt = '"' :: kt' := by
      unfold parseString at hk
      obtain ⟨i1, h1, _⟩ := bind_eq_ok hk
      obtain ⟨_, h2, _⟩ := expect_ok kt 0 _ i1 h1
      cases kt with
      | nil => simp at h2
      | cons x kt' =>
        simp at h2
        exact ⟨kt', by rw [h2]⟩
    have w : skipWhiteSpace T p.length = p.length := by
      have : T = p ++ '"' :: (kt' ++ ':' :: (vt ++ ',' :: (F ++ r))) := by
        rw [s1, hkt']; simp
      rw [this]
      exact skipWhiteSpace_at p '"' _ (by decide)
    have step := parseObjectLoop_pair p kt k vt ',' (F ++ r) (2 * vt.length + 1) (N + ps.length)
      a acc hk ha (by omega) (Or.inl rfl)
    rw [← s1, if_pos rfl] at step
    obtain ⟨acc', ih⟩ := parseObjectLoop_head ps
      (fun x hx => hps x (List.mem_cons_of_mem _ hx))
      (p ++ kt ++ ':' :: vt ++ [',']) r (emplace acc k a) N (by rw [← s2]; exact hN)
    rw [← s2] at ih
    refine ⟨acc', ?_⟩
    have hl : (p ++ kt ++ ':' :: vt ++ [',']).length =
        p.length + kt.length + 1 + vt.length + 1 := by
      simp only [List.length_append, List.length_cons, List.length_nil]
      omega
    have hl2 : p.length +
        ((((kt, vt) :: ps).map fun q => q.1 ++ ':' :: q.2 ++ [',']).flatten).length =
        (p ++ kt ++ ':' :: vt ++ [',']).length +
          ((ps.map fun q => q.1 ++ ':' :: q.2 ++ [',']).flatten).length := by
      simp only [List.map_cons, List.flatten_cons, List.length_append, List.length_cons,
        List.length_nil]
      omega
    rw [hl2, ← ih, hl, w]
    have hn : N + ((kt, vt) :: ps).length = (N + ps.length) + 1 := by
      simp only [List.length_cons]
      omega
    rw [hn, step]

end JSONParser

namespace JSONParser

theorem length_arrayHead (es : List Str) :
    (arrayHead es).length = 1 + ((es.map fun e => e ++ [',']).flatten).length := by
  simp only [arrayHead, List.length_cons]
  omega

theorem length_objectHead (ps : List (Str × Str)) :
    (objectHead ps).length =
      1 + ((ps.map fun q => q.1 ++ ':' :: q.2 ++ [',']).flatten).length := by
  simp only [objectHead, List.length_cons]
  omega

/-- The call of `parse` at the end of the text throws. -/
theorem parseFuel_end (T : Str) (n : Nat) :
    parseFuel (n + 1) T T.length = .throw .invalid_argument := by
  rw [parseFuel_succ, skipWhiteSpace_end, getCurrentChar_length, Res.bind_ok,
    if_neg (by decide), if_neg (by decide), if_neg (by decide), if_neg (by decide),
    if_neg (by decide), if_neg (by decide), if_neg (by decide)]

/-- An array text in which an element is followed by a character that is
neither a comma nor a closing bracket, or by the end of the input. -/
theorem parse_array_bad (es : List Str) (hes : ∀ e ∈ es, accepted e = true) (r : Str)
    (fuel : Nat) (a : JSONValue) (j : Nat)
    (hv : parseFuel fuel (arrayHead es ++ r) (arrayHead es).length = .ok (a, j))
    (h1 : (arrayHead es ++ r).getD j '\x00' ≠ ',')
    (h2 : (arrayHead es ++ r).getD j '\x00' ≠ ']') :
    parse (arrayHead es ++ r) = .throw .invalid_argument := by
  obtain ⟨T, hT⟩ : ∃ T, T = arrayHead es ++ r := ⟨_, rfl⟩
  rw [← hT] at hv h1 h2 ⊢
  rw [length_arrayHead] at hv
  obtain ⟨N, hN⟩ : ∃ N, N = 2 * T.length + 1 := ⟨_, rfl⟩
  have s0 : T = [] ++ '[' :: ((es.map fun e => e ++ [',']).flatten ++ r) := by rw [hT]; rfl
  have s1 : T = ['['] ++ (es.map fun e => e ++ [',']).flatten ++ r := by rw [hT]; rfl
  have e0 : parseFuel (N + 1 + es.length + 1) T 0 =
      (parseArrayLoop (N + 1 + es.length) T (skipWhiteSpace T 1) []).bind
        fun r => .ok (.array r.1, r.2) := by
    have := parseFuel_array (N + 1 + es.length) [] ((es.map fun e => e ++ [',']).flatten ++ r)
    rw [← s0] at this
    exact this
  obtain ⟨acc', e1⟩ := parseArrayLoop_head es hes ['['] r [] (N + 1) (by rw [← s1]; omega)
  rw [← s1] at e1
  simp only [List.length_singleton] at e1
  have hv' : parseFuel N T (1 + ((es.map fun e => e ++ [',']).flatten).length) = .ok (a, j) :=
    parseFuel_of_fuel T fuel N _ _ hv (by intro h; cases h) (by omega)
  have hj := (parseFuel_mono T fuel fuel _ a j (le_refl _) hv).2.2
  have e2 := parseArrayLoop_elem T N _ acc' a j hv'
  apply parse_of_fuel T (N + 1 + es.length + 1)
  · rw [e0, e1, e2, getCurrentChar_getD T j hj, Res.bind_ok, if_neg h1, if_pos h2]
    rfl
  · intro h
    cases h

/-- An array text that ends behind the opening bracket or behind a comma. -/
theorem parse_array_end (es : List Str) (hes : ∀ e ∈ es, accepted e = true) :
    parse (arrayHead es) = .throw .invalid_argument := by
  obtain ⟨T, hT⟩ : ∃ T, T = arrayHead es := ⟨_, rfl⟩
  rw [← hT]
  obtain ⟨N, hN⟩ : ∃ N, N = 2 * T.length + 1 := ⟨_, rfl⟩
  have s0 : T = [] ++ '[' :: ((es.map fun e => e ++ [',']).flatten ++ []) := by
    rw [hT]; simp [arrayHead]
  have s1 : T = ['['] ++ (es.map fun e => e ++ [',']).flatten ++ [] := by
    rw [hT]; simp [arrayHead]
  have e0 : parseFuel (N + 1 + es.length + 1) T 0 =
      (parseArrayLoop (N + 1 + es.length) T (skipWhiteSpace T 1) []).bind
        fun r => .ok (.array r.1, r.2) := by
    have := parseFuel_array (N + 1 + es.length) [] ((es.map fun e => e ++ [',']).flatten ++ [])
    rw [← s0] at this
    exact this
  obtain ⟨acc', e1⟩ := parseArrayLoop_head es hes ['['] [] [] (N + 1) (by rw [← s1]; omega)
  rw [← s1] at e1
  have hl : ['['].length + ((es.map fun e => e ++ [',']).flatten).length = T.length := by
    rw [hT, length_arrayHead]
    rfl
  rw [hl, skipWhiteSpace_end] at e1
  simp only [List.length_singleton] at e1
  have e2 : parseArrayLoop (N + 1) T T.length acc' = .throw .invalid_argument := by
    obtain ⟨M, hM⟩ : ∃ M, N = M + 1 := ⟨N - 1, by omega⟩
    rw [parseArrayLoop_succ, getCurrentChar_length, Res.bind_ok, if_pos (by decide), hM,
      parseFuel_end]
    rfl
  apply parse_of_fuel T (N + 1 + es.length + 1)
  · rw [e0, e1, e2]
    rfl
  · intro h
    cases h

/-- An object text in which a pair is followed by a character that is neither
a comma nor a closing brace, or by the end of the input. -/
theorem parse_object_bad (ps : List (Str × Str))
    (hps : ∀ q ∈ ps, acceptedKey q.1 = true ∧ accepted q.2 = true) (kt : Str)
    (hkt : acceptedKey kt = true) (r : Str) (fuel : Nat) (a : JSONValue) (j : Nat)
    (hv : parseFuel fuel (objectHead ps ++ kt ++ ':' :: r)
      ((objectHead ps).length + kt.length + 1) = .ok (a, j))
    (h1 : (objectHead ps ++ kt ++ ':' :: r).getD j '\x00' ≠ ',')
    (h2 : (objectHead ps ++ kt ++ ':' :: r).getD j '\x00' ≠ '}') :
    parse (objectHead ps ++ kt ++ ':' :: r) = .throw .invalid_argument := by
  obtain ⟨T, hT⟩ : ∃ T, T = objectHead ps ++ kt ++ ':' :: r := ⟨_, rfl⟩
  obtain ⟨F, hF⟩ : ∃ F, F = (ps.map fun q => q.1 ++ ':' :: q.2 ++ [',']).flatten := ⟨_, rfl⟩
  rw [← hT] at hv h1 h2 ⊢
  rw [length_objectHead, ← hF] at hv
  obtain ⟨k, hk⟩ := (acceptedKey_iff kt).mp hkt
  obtain ⟨N, hN⟩ : ∃ N, N = 2 * T.length + 1 := ⟨_, rfl⟩
  have s0 : T = [] ++ '{' :: (F ++ (kt ++ ':' :: r)) := by rw [hT, hF]; simp [objectHead]
  have s1 : T = ['{'] ++ (ps.map fun q => q.1 ++ ':' :: q.2 ++ [',']).flatten ++
      (kt ++ ':' :: r) := by
    rw [hT]; simp [objectHead]
  have s2 : T = (['{'] ++ F) ++ kt ++ ':' :: r := by rw [hT, hF]; simp [objectHead]
  have e0 : parseFuel (N + 1 + ps.length + 1) T 0 =
      (parseObjectLoop (N + 1 + ps.length) T (skipWhiteSpace T 1) []).bind
        fun r => .ok (.object r.1, r.2) := by
    have := parseFuel_object (N + 1 + ps.length) [] (F ++ (kt ++ ':' :: r))
    rw [← s0] at this
    exact this
  obtain ⟨acc', e1⟩ := parseObjectLoop_head ps hps ['{'] (kt ++ ':' :: r) [] (N + 1)
    (by rw [← s1]; omega)
  rw [← s1, ← hF] at e1
  simp only [List.length_singleton] at e1
  obtain ⟨kt', hkt'⟩ : ∃ kt', kt = '"' :: kt' := by
    unfold parseString at hk
    obtain ⟨i1, h1, _⟩ := bind_eq_ok hk
    obtain ⟨_, h2, _⟩ := expect_ok kt 0 _ i1 h1
    cases kt with
    | nil => simp at h2
    | cons x kt' =>
      simp at h2
      exact ⟨kt', by rw [h2]⟩
  have hlF : (['{'] ++ F).length = 1 + F.length := by
    simp only [List.length_append, List.length_singleton]
  have w : skipWhiteSpace T (1 + F.length) = 1 + F.length := by
    have : T = (['{'] ++ F) ++ '"' :: (kt' ++ ':' :: r) := by rw [s2, hkt']; simp
    rw [this, ← hlF]
    exact skipWhiteSpace_at _ '"' _ (by decide)
  have ek : parseString T (1 + F.length) = .ok (k, 1 + F.length + kt.length) := by
    have := (parseString_ctx (['{'] ++ F) kt (':' :: r)
      (by intro x hx; simp at hx; subst hx; decide) 0 k kt.length hk).1
    rw [← s2, hlF] at this
    exact this
  have ec : expect T (1 + F.length + kt.length) [':'] =
      .ok (skipWhiteSpace T (1 + F.length + kt.length + 1)) := by
    have hd : T.drop (1 + F.length + kt.length) = ':' :: r := by
      have : 1 + F.length + kt.length = ((['{'] ++ F) ++ kt).length := by
        simp only [List.length_append, List.length_singleton]
      rw [this, s2, drop_at]
    exact expect_of T _ _ (by rw [s2]; simp; omega) (by rw [hd]; rfl)
  have hv' : parseFuel N T (skipWhiteSpace T (1 + F.length + kt.length + 1)) = .ok (a, j) := by
    rw [parseFuel_skip]
    exact parseFuel_of_fuel T fuel N _ _ hv (by intro h; cases h) (by omega)
  have hj := (parseFuel_mono T fuel fuel _ a j (le_refl _) hv).2.2
  have e2 := parseObjectLoop_elem T N (1 + F.length) acc' k _ _ a j ek ec hv'
  apply parse_of_fuel T (N + 1 + ps.length + 1)
  · rw [e0, e1, w, e2, getCurrentChar_getD T j hj, Res.bind_ok, if_neg h1, if_pos h2]
    rfl
  · intro h
    cases h

/-- An object text that ends behind the opening brace or behind a comma. -/
theorem parse_object_end (ps : List (Str × Str))
    (hps : ∀ q ∈ ps, acceptedKey q.1 = true ∧ accepted q.2 = true) :
    parse (objectHead ps) = .throw .invalid_argument := by
  obtain ⟨T, hT⟩ : ∃ T, T = objectHead ps := ⟨_, rfl⟩
  rw [← hT]
  obtain ⟨N, hN⟩ : ∃ N, N = 2 * T.length + 1 := ⟨_, rfl⟩
  have s0 : T = [] ++ '{' :: ((ps.map fun q => q.1 ++ ':' :: q.2 ++ [',']).flatten ++ []) := by
    rw [hT]; simp [objectHead]
  have s1 : T = ['{'] ++ (ps.map fun q => q.1 ++ ':' :: q.2 ++ [',']).flatten ++ [] := by
    rw [hT]; simp [objectHead]
  have e0 : parseFuel (N + 1 + ps.length + 1) T 0 =
      (parseObjectLoop (N + 1 + ps.length) T (skipWhiteSpace T 1) []).bind
        fun r => .ok (.object r.1, r.2) := by
    have := parseFuel_object (N + 1 + ps.length) []
      ((ps.map fun q => q.1 ++ ':' :: q.2 ++ [',']).flatten ++ [])
    rw [← s0] at this
    exact this
  obtain ⟨acc', e1⟩ := parseObjectLoop_head ps hps ['{'] [] [] (N + 1) (by rw [← s1]; omega)
  rw [← s1] at e1
  have hl : ['{'].length + ((ps.map fun q => q.1 ++ ':' :: q.2 ++ [',']).flatten).length =
      T.length := by
    rw [hT, length_objectHead]
    rfl
  rw [hl, skipWhiteSpace_end] at e1
  simp only [List.length_singleton] at e1
  have e2 : parseObjectLoop (N + 1) T T.length acc' = .throw .invalid_argument := by
    have hs : parseString T T.length = .throw .invalid_argument := by
      unfold parseString expect substr
      rw [if_neg (by omega), Res.bind_ok, List.drop_length, List.take_nil, if_neg (by decide)]
      rfl
    rw [parseObjectLoop_succ, getCurrentChar_length, Res.bind_ok, if_pos (by decide), hs]
    rfl
  apply parse_of_fuel T (N + 1 + ps.length + 1)
  · rw [e0, e1, e2]
    rfl
  · intro h
    cases h

end JSONParser

/-! ## A text inside a larger text, followed by whitespace -/

namespace JSONParser

theorem cursorIn_lt (v s : Str) (j : Nat) (h : j < v.length) : cursorIn v s j = j := by
  unfold cursorIn
  rw [if_neg (by omega)]

theorem cursorIn_length (v s : Str) :
    cursorIn v s v.length = v.length + (s.takeWhile isspace).length := by
  unfold cursorIn
  rw [if_pos rfl]

theorem takeWhile_append_length {α : Type} (f : α → Bool) (r s : List α) :
    ((r ++ s).takeWhile f).length =
      if (r.takeWhile f).length = r.length then r.length + (s.takeWhile f).length
      else (r.takeWhile f).length := by
  induction r with
  | nil => simp
  | cons x r ih =>
    by_cases hx : f x = true
    · simp only [List.cons_append, List.takeWhile_cons, hx, if_true, List.length_cons, ih,
        add_left_inj]
      split_ifs <;> omega
    · simp [List.takeWhile_cons, hx]

theorem skipWhiteSpace_ctxw (p v s : Str) (i : Nat) (hi : i ≤ v.length) :
    skipWhiteSpace (p ++ v ++ s) (p.length + i) = p.length + cursorIn v s (skipWhiteSpace v i) := by
  unfold skipWhiteSpace cursorIn
  rw [drop_ctx p v s i hi, takeWhile_append_length]
  have := takeWhile_length_le isspace (v.drop i)
  simp only [List.length_drop] at this ⊢
  split_ifs <;> omega

theorem quietNext_digit (s : Str) (h : quietNext s) : ∀ c ∈ s.head?, isdigit c = false :=
  fun c hc => (h c hc).1

/-- The character under the cursor inside `v` and inside the larger text: the
same, or, at the end of `v`, NUL in `v` and a character that continues no number
in the larger text. -/
theorem getCurrentChar_ctxq (p v s : Str) (i : Nat) (hi : i ≤ v.length) (hs : quietNext s) :
    ∃ c c', getCurrentChar v i = .ok c ∧ getCurrentChar (p ++ v ++ s) (p.length + i) = .ok c' ∧
      ((i < v.length ∧ c = c') ∨ (i = v.length ∧ c = '\x00' ∧ isQuiet c')) := by
  rcases Nat.lt_or_ge i v.length with h | h
  · refine ⟨_, _, getCurrentChar_of_lt v i h, getCurrentChar_of_lt _ _ (by simp; omega), ?_⟩
    exact Or.inl ⟨h, (getD_ctx p v s i h).symm⟩
  · have he : i = v.length := by omega
    subst he
    cases s with
    | nil =>
      refine ⟨_, '\x00', getCurrentChar_length v, ?_,
        Or.inr ⟨rfl, rfl, (by decide : isQuiet '\x00')⟩⟩
      have : p.length + v.length = (p ++ v ++ []).length := by simp
      rw [this]
      exact getCurrentChar_length _
    | cons c s =>
      refine ⟨_, c, getCurrentChar_length v, ?_, Or.inr ⟨rfl, rfl, hs c (by simp)⟩⟩
      rw [getCurrentChar_of_lt _ _ (by simp)]
      congr 1
      rw [List.append_assoc, List.getD_append_right _ _ _ _ (by omega),
        List.getD_append_right _ _ _ _ (by omega)]
      simp

theorem expect_ctxw (p v s : Str) (i : Nat) (lit : Str) (j : Nat)
    (h : expect v i lit = .ok j) :
    expect (p ++ v ++ s) (p.length + i) lit = .ok (p.length + cursorIn v s j) := by
  obtain ⟨h1, h2, h3⟩ := expect_ok v i lit j h
  have hd : ((p ++ v ++ s).drop (p.length + i)).take lit.length = lit := by
    rw [drop_ctx p v s i (by omega), List.take_append_of_le_length (by simp; omega), h2]
  rw [expect_of _ _ _ (by simp; omega) hd, h3, Nat.add_assoc, skipWhiteSpace_ctxw p v s _ h1]

theorem parseStringLoop_ctxw (p v s : Str) :
    ∀ (fuel fuel' i : Nat) (c : Char) (res r : Str) (j : Nat), fuel ≤ fuel' →
      getCurrentChar v i = .ok c → parseStringLoop v fuel i c res = .ok (r, j) →
      parseStringLoop (p ++ v ++ s) fuel' (p.length + i) c res =
        .ok (r, p.length + cursorIn v s j)
  | 0, _, _, _, _, _, _, _, _, h => by cases h
  | fuel + 1, 0, _, _, _, _, _, hf, _, _ => by omega
  | fuel + 1, fuel' + 1, i, c, res, r, j, hf, hc, h => by
    have hi := parseStringLoop_lt v _ i c res _ h hc
    have hit : p.length + i < (p ++ v ++ s).length := by simp; omega
    unfold parseStringLoop at h ⊢
    by_cases hq : c = '"'
    · simp only [hq, ne_eq, not_true_eq_false, false_and, if_false, if_true] at h ⊢
      cases h
      rw [Nat.add_assoc, skipWhiteSpace_ctxw p v s (i + 1) (by omega)]
    · simp only [ne_eq, hq, not_false_eq_true, hi, hit, and_self, if_true] at h ⊢
      by_cases hb : c = '\\'
      · simp only [hb, if_true] at h ⊢
        obtain ⟨c1, h1, h⟩ := bind_eq_ok h
        obtain ⟨ri, h2, h⟩ := bind_eq_ok h
        obtain ⟨c2, h3, h⟩ := bind_eq_ok h
        have hle := parseEscape_le v _ _ _ _ _ h2
        have hlt := parseStringLoop_lt v _ _ _ _ _ h h3
        have ih1 := parseStringLoop_ctxw p v s fuel fuel' (ri.2 + 1) c2 ri.1 r j
          (by omega) h3 h
        have e1 : getCurrentChar (p ++ v ++ s) (p.length + i + 1) = .ok c1 := by
          rw [Nat.add_assoc, getCurrentChar_ctx_lt p v s (i + 1) (by omega), h1]
        have e2 : parseEscape (p ++ v ++ s) (p.length + i + 1) c1 res =
            .ok (ri.1, p.length + ri.2) := by
          rw [Nat.add_assoc]
          exact parseEscape_ctx p v s (i + 1) c1 res ri.1 ri.2 h2 (by omega)
        have e3 : getCurrentChar (p ++ v ++ s) (p.length + ri.2 + 1) = .ok c2 := by
          rw [Nat.add_assoc, getCurrentChar_ctx_lt p v s (ri.2 + 1) hlt, h3]
        simp only [e1, e2, e3, Res.bind]
        rw [Nat.add_assoc]
        exact ih1
      · simp only [hb, if_false] at h ⊢
        obtain ⟨c2, h3, h⟩ := bind_eq_ok h
        have hlt := parseStringLoop_lt v _ _ _ _ _ h h3
        have ih1 := parseStringLoop_ctxw p v s fuel fuel' (i + 1) c2
          (res ++ [c]) r j (by omega) h3 h
        have e3 : getCurrentChar (p ++ v ++ s) (p.length + i + 1) = .ok c2 := by
          rw [Nat.add_assoc, getCurrentChar_ctx_lt p v s (i + 1) hlt, h3]
        simp only [e3, Res.bind]
        rw [Nat.add_assoc]
        exact ih1

theorem parseString_ctxw (p v s : Str) (i : Nat) (r : Str) (j : Nat)
    (h : parseString v i = .ok (r, j)) :
    parseString (p ++ v ++ s) (p.length + i) = .ok (r, p.length + cursorIn v s j) := by
  unfold parseString at h ⊢
  obtain ⟨i1, h1, h⟩ := bind_eq_ok h
  obtain ⟨c, h2, h⟩ := bind_eq_ok h
  have hlt := parseStringLoop_lt v _ _ _ _ _ h h2
  have ih1 := parseStringLoop_ctxw p v s (v.length + 1)
    ((p ++ v ++ s).length + 1) i1 c [] r j (by simp; omega) h2 h
  have e2 : getCurrentChar (p ++ v ++ s) (p.length + i1) = .ok c := by
    rw [getCurrentChar_ctx_lt p v s i1 hlt, h2]
  have e1 := expect_ctxw p v s i _ i1 h1
  rw [cursorIn_lt v s i1 hlt] at e1
  simp only [e1, e2, Res.bind]
  exact ih1

theorem numberSign_ctxq (p v s : Str) (hs : quietNext s) (i j : Nat)
    (h : numberSign v i = .ok j) :
    numberSign (p ++ v ++ s) (p.length + i) = .ok (p.length + j) ∧ i ≤ j ∧ j ≤ v.length := by
  unfold numberSign at h ⊢
  obtain ⟨c0, h0, h⟩ := bind_eq_ok h
  have hi := getCurrentChar_ok_le v i c0 h0
  obtain ⟨c, c', hc, hc', hcase⟩ := getCurrentChar_ctxq p v s i hi hs
  rw [h0] at hc
  simp only [Res.ok.injEq] at hc h
  subst hc
  rw [hc', Res.bind_ok]
  rcases hcase with ⟨hlt, he⟩ | ⟨_, he, hn⟩
  · subst he
    by_cases hm : c0 = '-'
    · rw [if_pos hm] at h ⊢
      exact ⟨by rw [← h, Nat.add_assoc], by omega, by omega⟩
    · rw [if_neg hm] at h ⊢
      exact ⟨by rw [← h], by omega, by omega⟩
  · have hm : ¬ c0 = '-' := by rw [he]; decide
    rw [if_neg hm] at h
    rw [if_neg hn.2.2.2.2.2]
    exact ⟨by rw [← h], by omega, by omega⟩

theorem numberFraction_ctxq (p v s : Str) (hs : quietNext s) (i j : Nat)
    (h : numberFraction v i = .ok j) :
    numberFraction (p ++ v ++ s) (p.length + i) = .ok (p.length + j) ∧ i ≤ j ∧
      j ≤ v.length := by
  unfold numberFraction at h ⊢
  obtain ⟨c0, h0, h⟩ := bind_eq_ok h
  have hi := getCurrentChar_ok_le v i c0 h0
  obtain ⟨c, c', hc, hc', hcase⟩ := getCurrentChar_ctxq p v s i hi hs
  rw [h0] at hc
  simp only [Res.ok.injEq] at hc h
  subst hc
  rw [hc', Res.bind_ok]
  rcases hcase with ⟨hlt, he⟩ | ⟨_, he, hn⟩
  · subst he
    by_cases hm : c0 = '.'
    · rw [if_pos hm] at h ⊢
      have h1 := le_skipDigits v (i + 1)
      have h2 := skipDigits_le v (i + 1) (by omega)
      refine ⟨?_, by omega, by omega⟩
      rw [← h, Nat.add_assoc, skipDigits_ctx p v s (i + 1) (by omega) (quietNext_digit s hs)]
    · rw [if_neg hm] at h ⊢
      exact ⟨by rw [← h], by omega, by omega⟩
  · have hm : ¬ c0 = '.' := by rw [he]; decide
    rw [if_neg hm] at h
    rw [if_neg hn.2.1]
    exact ⟨by rw [← h], by omega, by omega⟩

theorem numberExponent_ctxq (p v s : Str) (hs : quietNext s) (i j : Nat)
    (h : numberExponent v i = .ok j) :
    numberExponent (p ++ v ++ s) (p.length + i) = .ok (p.length + j) ∧ i ≤ j ∧
      j ≤ v.length := by
  unfold numberExponent at h ⊢
  obtain ⟨c0, h0, h⟩ := bind_eq_ok h
  have hi := getCurrentChar_ok_le v i c0 h0
  obtain ⟨c, c', hc, hc', hcase⟩ := getCurrentChar_ctxq p v s i hi hs
  rw [h0] at hc
  simp only [Res.ok.injEq] at hc
  subst hc
  rw [hc', Res.bind_ok]
  rcases hcase with ⟨hlt, he⟩ | ⟨_, he, hn⟩
  · subst he
    by_cases hm : c0 = 'e' ∨ c0 = 'E'
    · rw [if_pos hm] at h ⊢
      obtain ⟨c1, h1, h⟩ := bind_eq_ok h
      obtain ⟨d, d', hd, hd', hcase'⟩ := getCurrentChar_ctxq p v s (i + 1) (by omega) hs
      rw [h1] at hd
      simp only [Res.ok.injEq] at hd h
      subst hd
      rw [Nat.add_assoc, hd', Res.bind_ok]
      rcases hcase' with ⟨hlt', he'⟩ | ⟨_, he', hn'⟩
      · subst he'
        by_cases hg : c1 = '-' ∨ c1 = '+'
        · rw [if_pos hg] at h ⊢
          have h2 := le_skipDigits v (i + 2)
          have h3 := skipDigits_le v (i + 2) (by omega)
          refine ⟨?_, by omega, by omega⟩
          rw [← h, Nat.add_assoc,
            skipDigits_ctx p v s (i + 2) (by omega) (quietNext_digit s hs)]
        · rw [if_neg hg] at h ⊢
          have h2 := le_skipDigits v (i + 1)
          have h3 := skipDigits_le v (i + 1) (by omega)
          refine ⟨?_, by omega, by omega⟩
          rw [← h, skipDigits_ctx p v s (i + 1) (by omega) (quietNext_digit s hs)]
      · have hg : ¬ (c1 = '-' ∨ c1 = '+') := by rw [he']; decide
        have hg' : ¬ (d' = '-' ∨ d' = '+') := by
          rintro (h4 | h4)
          · exact hn'.2.2.2.2.2 h4
          · exact hn'.2.2.2.2.1 h4
        rw [if_neg hg] at h
        rw [if_neg hg']
        have h2 := le_skipDigits v (i + 1)
        have h3 := skipDigits_le v (i + 1) (by omega)
        refine ⟨?_, by omega, by omega⟩
        rw [← h, skipDigits_ctx p v s (i + 1) (by omega) (quietNext_digit s hs)]
    · rw [if_neg hm] at h ⊢
      simp only [Res.ok.injEq] at h
      exact ⟨by rw [← h], by omega, by omega⟩
  · have hm : ¬ (c0 = 'e' ∨ c0 = 'E') := by rw [he]; decide
    have hm' : ¬ (c' = 'e' ∨ c' = 'E') := by
      rintro (h4 | h4)
      · exact hn.2.2.1 h4
      · exact hn.2.2.2.1 h4
    rw [if_neg hm] at h
    rw [if_neg hm']
    simp only [Res.ok.injEq] at h
    exact ⟨by rw [← h], by omega, by omega⟩

theorem numberEnd_ctxq (p v s : Str) (hs : quietNext s) (i j : Nat)
    (h : numberEnd v i = .ok j) :
    numberEnd (p ++ v ++ s) (p.length + i) = .ok (p.length + j) ∧ i ≤ j ∧ j ≤ v.length := by
  unfold numberEnd at h ⊢
  obtain ⟨i1, h1, h⟩ := bind_eq_ok h
  obtain ⟨i2, h2, h⟩ := bind_eq_ok h
  obtain ⟨e1, b1, b1'⟩ := numberSign_ctxq p v s hs i i1 h1
  have hd1 := le_skipDigits v i1
  have hd2 := skipDigits_le v i1 b1'
  obtain ⟨e2, b2, b2'⟩ := numberFraction_ctxq p v s hs _ i2 h2
  obtain ⟨e3, b3, b3'⟩ := numberExponent_ctxq p v s hs i2 j h
  rw [e1, Res.bind_ok, skipDigits_ctx p v s i1 b1' (quietNext_digit s hs), e2, Res.bind_ok, e3]
  exact ⟨rfl, by omega, b3'⟩

theorem parseNumber_ctxw (p v s : Str) (hs : quietNext s) (i : Nat) (q : ℚ) (j : Nat)
    (h : parseNumber v i = .ok (q, j)) :
    parseNumber (p ++ v ++ s) (p.length + i) = .ok (q, p.length + cursorIn v s j) := by
  unfold parseNumber at h ⊢
  obtain ⟨e, h1, h⟩ := bind_eq_ok h
  obtain ⟨ns, h2, h⟩ := bind_eq_ok h
  obtain ⟨d, h3, h⟩ := bind_eq_ok h
  obtain ⟨e1, b1, b1'⟩ := numberEnd_ctxq p v s hs i e h1
  simp only [Res.ok.injEq, Prod.mk.injEq] at h
  have hns : ns = (v.drop i).take (e - i) := by
    unfold substr at h2
    split_ifs at h2
    simp only [Res.ok.injEq] at h2
    exact h2.symm
  have hsub : substr (p ++ v ++ s) (p.length + i) (p.length + e - (p.length + i)) = .ok ns := by
    unfold substr
    rw [if_neg (by simp; omega), drop_ctx p v s i (by omega),
      List.take_append_of_le_length (by simp; omega), hns]
    congr 2
    omega
  rw [e1, Res.bind_ok, hsub, Res.bind_ok, h3, Res.bind_ok,
    skipWhiteSpace_ctxw p v s e b1', h.1, h.2]

theorem keyword_ctxw (p v s : Str) (i : Nat) (lit : Str) (a b : JSONValue)
    (j : Nat) (h : ((expect v i lit).bind fun k => Res.ok (a, k)) = .ok (b, j)) :
    ((expect (p ++ v ++ s) (p.length + i) lit).bind fun k => Res.ok (a, k)) =
        .ok (b, p.length + cursorIn v s j) := by
  obtain ⟨j', he, h⟩ := bind_eq_ok h
  rw [expect_ctxw p v s i lit j' he, Res.bind_ok]
  simp only [Res.ok.injEq, Prod.mk.injEq] at h
  obtain ⟨ha, hj⟩ := h
  subst ha hj
  rfl

theorem parseArrayLoop_bounds (v : Str) (n i : Nat) (acc r : List JSONValue) (j : Nat)
    (h : parseArrayLoop n v i acc = .ok (r, j)) : i < j ∧ j ≤ v.length := by
  have := (parse_ctx_all [] v [] (by intro c hc; simp at hc) n).2.1 n i acc r j (le_refl _) h
  exact this.2

theorem parseObjectLoop_bounds (v : Str) (n i : Nat) (acc r : List (Str × JSONValue)) (j : Nat)
    (h : parseObjectLoop n v i acc = .ok (r, j)) : i < j ∧ j ≤ v.length := by
  have := (parse_ctx_all [] v [] (by intro c hc; simp at hc) n).2.2 n i acc r j (le_refl _) h
  exact this.2

/-- A successful run of `parse`, of the array loop and of the object loop on `v`
is repeated inside `p ++ v ++ s` when `s` is empty or begins with a character
that continues no number: a run that ends inside `v` ends at the same place, and
a run that ends at the end of `v` goes on over the whitespace at the head of
`s`. -/
theorem parse_ctx_ws (p v s : Str) (hs : quietNext s) : ∀ n : Nat,
    (∀ (i : Nat) (a : JSONValue) (j : Nat), parseFuel n v i = .ok (a, j) →
      parseFuel n (p ++ v ++ s) (p.length + i) = .ok (a, p.length + cursorIn v s j)) ∧
    (∀ (i : Nat) (acc r : List JSONValue) (j : Nat),
      parseArrayLoop n v i acc = .ok (r, j) →
      parseArrayLoop n (p ++ v ++ s) (p.length + i) acc =
        .ok (r, p.length + cursorIn v s j)) ∧
    (∀ (i : Nat) (acc r : List (Str × JSONValue)) (j : Nat),
      parseObjectLoop n v i acc = .ok (r, j) →
      parseObjectLoop n (p ++ v ++ s) (p.length + i) acc =
        .ok (r, p.length + cursorIn v s j))
  | 0 => by
    refine ⟨?_, ?_, ?_⟩
    · intro i a j h
      rw [parseFuel] at h
      cases h
    · intro i acc r j h
      rw [parseArrayLoop] at h
      cases h
    · intro i acc r j h
      rw [parseObjectLoop] at h
      cases h
  | n + 1 => by
    obtain ⟨ihP, ihA, ihO⟩ := parse_ctx_ws p v s hs n
    refine ⟨?_, ?_, ?_⟩
    · intro i a j h
      rw [parseFuel_succ] at h ⊢
      obtain ⟨c, hc, h⟩ := bind_eq_ok h
      have hi1 := getCurrentChar_ok_le _ _ _ hc
      have hii := le_skipWhiteSpace v i
      by_cases h0 : c = '\x00'
      · subst h0
        rw [if_neg (by decide), if_neg (by decide), if_neg (by decide), if_neg (by decide),
          if_neg (by decide), if_neg (by decide), if_neg (by decide)] at h
        cases h
      have hlt := getCurrentChar_lt_of_ne v _ c hc h0
      rw [skipWhiteSpace_ctxw p v s i (by omega), cursorIn_lt v s _ hlt,
        getCurrentChar_ctx_lt p v s _ hlt, hc, Res.bind_ok]
      by_cases h1 : c = 'n'
      · rw [if_pos h1] at h ⊢
        exact keyword_ctxw p v s _ _ _ _ _ h
      rw [if_neg h1] at h ⊢
      by_cases h2 : c = 't'
      · rw [if_pos h2] at h ⊢
        exact keyword_ctxw p v s _ _ _ _ _ h
      rw [if_neg h2] at h ⊢
      by_cases h3 : c = 'f'
      · rw [if_pos h3] at h ⊢
        exact keyword_ctxw p v s _ _ _ _ _ h
      rw [if_neg h3] at h ⊢
      by_cases h4 : c = '"'
      · rw [if_pos h4] at h ⊢
        obtain ⟨r, hr, h⟩ := bind_eq_ok h
        rw [parseString_ctxw p v s _ r.1 r.2 hr, Res.bind_ok]
        simp only [Res.ok.injEq, Prod.mk.injEq] at h
        obtain ⟨ha, hj⟩ := h
        subst ha hj
        rfl
      rw [if_neg h4] at h ⊢
      by_cases h5 : isdigit c ∨ c = '-'
      · rw [if_pos h5] at h ⊢
        obtain ⟨r, hr, h⟩ := bind_eq_ok h
        rw [parseNumber_ctxw p v s hs _ r.1 r.2 hr, Res.bind_ok]
        simp only [Res.ok.injEq, Prod.mk.injEq] at h
        obtain ⟨ha, hj⟩ := h
        subst ha hj
        rfl
      rw [if_neg h5] at h ⊢
      by_cases h6 : c = '['
      · rw [if_pos h6] at h ⊢
        obtain ⟨i2, he, h⟩ := bind_eq_ok h
        obtain ⟨r, hr, h⟩ := bind_eq_ok h
        have hb := parseArrayLoop_bounds v n i2 [] r.1 r.2 hr
        rw [expect_ctxw p v s _ _ i2 he, cursorIn_lt v s i2 (by omega), Res.bind_ok,
          ihA i2 [] r.1 r.2 hr, Res.bind_ok]
        simp only [Res.ok.injEq, Prod.mk.injEq] at h
        obtain ⟨ha, hj⟩ := h
        subst ha hj
        rfl
      rw [if_neg h6] at h ⊢
      by_cases h7 : c = '{'
      · rw [if_pos h7] at h ⊢
        obtain ⟨i2, he, h⟩ := bind_eq_ok h
        obtain ⟨r, hr, h⟩ := bind_eq_ok h
        have hb := parseObjectLoop_bounds v n i2 [] r.1 r.2 hr
        rw [expect_ctxw p v s _ _ i2 he, cursorIn_lt v s i2 (by omega), Res.bind_ok,
          ihO i2 [] r.1 r.2 hr, Res.bind_ok]
        simp only [Res.ok.injEq, Prod.mk.injEq] at h
        obtain ⟨ha, hj⟩ := h
        subst ha hj
        rfl
      rw [if_neg h7] at h
      cases h
    · intro i acc r j h
      rw [parseArrayLoop_succ] at h ⊢
      obtain ⟨c, hc, h⟩ := bind_eq_ok h
      have hi := getCurrentChar_ok_le _ _ _ hc
      by_cases h1 : c = ']'
      · have hlt := getCurrentChar_lt_of_ne v _ c hc (by rw [h1]; decide)
        rw [getCurrentChar_ctx_lt p v s i hlt, hc, Res.bind_ok]
        rw [if_neg (fun hx => hx h1)] at h ⊢
        simp only [Res.ok.injEq, Prod.mk.injEq] at h
        obtain ⟨ha, hj⟩ := h
        subst ha hj
        rw [Nat.add_assoc, skipWhiteSpace_ctxw p v s (i + 1) (by omega)]
      · rw [if_pos h1] at h
        obtain ⟨vi, hv, h⟩ := bind_eq_ok h
        obtain ⟨c2, hc2, h⟩ := bind_eq_ok h
        have hb := (parseFuel_mono v n n i vi.1 vi.2 (le_refl _) hv).2
        rw [getCurrentChar_ctx_lt p v s i (by omega), hc, Res.bind_ok, if_pos h1,
          ihP i vi.1 vi.2 hv, Res.bind_ok]
        by_cases h2 : c2 = ','
        · have hlt := getCurrentChar_lt_of_ne v _ c2 hc2 (by rw [h2]; decide)
          rw [if_pos h2] at h
          have hb2 := parseArrayLoop_bounds v n _ _ r j h
          rw [cursorIn_lt v s _ hlt, getCurrentChar_ctx_lt p v s vi.2 hlt, hc2, Res.bind_ok,
            if_pos h2, Nat.add_assoc, skipWhiteSpace_ctxw p v s (vi.2 + 1) (by omega),
            cursorIn_lt v s _ (by omega)]
          exact ihA _ _ r j h
        · rw [if_neg h2] at h
          by_cases h3 : c2 = ']'
          · have hlt := getCurrentChar_lt_of_ne v _ c2 hc2 (by rw [h3]; decide)
            rw [if_neg (fun hx => hx h3)] at h
            rw [cursorIn_lt v s _ hlt, getCurrentChar_ctx_lt p v s vi.2 hlt, hc2, Res.bind_ok,
              if_neg h2, if_neg (fun hx => hx h3)]
            exact ihA _ _ r j h
          · rw [if_pos h3] at h
            cases h
    · intro i acc r j h
      rw [parseObjectLoop_succ] at h ⊢
      obtain ⟨c, hc, h⟩ := bind_eq_ok h
      have hi := getCurrentChar_ok_le _ _ _ hc
      by_cases h1 : c = '}'
      · have hlt := getCurrentChar_lt_of_ne v _ c hc (by rw [h1]; decide)
        rw [getCurrentChar_ctx_lt p v s i hlt, hc, Res.bind_ok]
        rw [if_neg (fun hx => hx h1)] at h ⊢
        simp only [Res.ok.injEq, Prod.mk.injEq] at h
        obtain ⟨ha, hj⟩ := h
        subst ha hj
        rw [Nat.add_assoc, skipWhiteSpace_ctxw p v s (i + 1) (by omega)]
      · rw [if_pos h1] at h
        obtain ⟨ki, hk, h⟩ := bind_eq_ok h
        obtain ⟨i2, he, h⟩ := bind_eq_ok h
        obtain ⟨vi, hv, h⟩ := bind_eq_ok h
        obtain ⟨c2, hc2, h⟩ := bind_eq_ok h
        have hbk := (parseString_ctx [] v [] (by intro c hc; simp at hc) i ki.1 ki.2 hk).2
        have hbe := expect_bounds v _ _ i2 he
        simp only [List.length_singleton] at hbe
        have hb := (parseFuel_mono v n n i2 vi.1 vi.2 (le_refl _) hv).2
        rw [getCurrentChar_ctx_lt p v s i (by omega), hc, Res.bind_ok, if_pos h1,
          parseString_ctxw p v s i ki.1 ki.2 hk, Res.bind_ok, cursorIn_lt v s _ (by omega),
          expect_ctxw p v s _ _ i2 he, Res.bind_ok, cursorIn_lt v s _ (by omega),
          ihP i2 vi.1 vi.2 hv, Res.bind_ok]
        by_cases h2 : c2 = ','
        · have hlt := getCurrentChar_lt_of_ne v _ c2 hc2 (by rw [h2]; decide)
          rw [if_pos h2] at h
          have hb2 := parseObjectLoop_bounds v n _ _ r j h
          rw [cursorIn_lt v s _ hlt, getCurrentChar_ctx_lt p v s vi.2 hlt, hc2, Res.bind_ok,
            if_pos h2, Nat.add_assoc, skipWhiteSpace_ctxw p v s (vi.2 + 1) (by omega),
            cursorIn_lt v s _ (by omega)]
          exact ihO _ _ r j h
        · rw [if_neg h2] at h
          by_cases h3 : c2 = '}'
          · have hlt := getCurrentChar_lt_of_ne v _ c2 hc2 (by rw [h3]; decide)
            rw [if_neg (fun hx => hx h3)] at h
            rw [cursorIn_lt v s _ hlt, getCurrentChar_ctx_lt p v s vi.2 hlt, hc2, Res.bind_ok,
              if_neg h2, if_neg (fun hx => hx h3)]
            exact ihO _ _ r j h
          · rw [if_pos h3] at h
            cases h

/-- A text that `parse` accepts and consumes whole is read in the same way
inside a larger text, when what follows is empty or begins with a character
that continues no number; the cursor ends behind the whitespace that follows the
text. -/
theorem parseFuel_accepted_ws (p v s : Str) (hs : quietNext s) (a : JSONValue)
    (hv : parse v = .ok (a, v.length)) (n : Nat) (hn : 2 * (v.length + s.length) + 1 ≤ n) :
    parseFuel n (p ++ v ++ s) p.length =
      .ok (a, p.length + v.length + (s.takeWhile isspace).length) := by
  have h := (parse_ctx_ws p v s hs (2 * v.length + 1)).1 0 a v.length hv
  rw [cursorIn_length, Nat.add_zero, ← Nat.add_assoc] at h
  exact parseFuel_of_fuel _ _ n _ _ h (by intro hx; cases hx)
    (by simp only [List.length_append]; omega)

end JSONParser

namespace JSONParser

theorem getD_after (pre s : Str) :
    (pre ++ s).getD pre.length '\x00' = (s.head?).getD '\x00' := by
  cases s with
  | nil => simp
  | cons c s =>
    rw [List.getD_append_right _ _ _ _ (le_refl _)]
    simp

theorem getD_after_ws (pre s : Str) :
    (pre ++ s).getD (pre.length + (s.takeWhile isspace).length) '\x00' =
      ((s.dropWhile isspace).head?).getD '\x00' := by
  rw [List.getD_append_right _ _ _ _ (by omega), Nat.add_sub_cancel_left,
    ← drop_takeWhile_length isspace s]
  have h := getD_after (s.take (s.takeWhile isspace).length) (s.drop (s.takeWhile isspace).length)
  rw [List.take_append_drop, List.length_take,
    Nat.min_eq_left (takeWhile_length_le isspace s)] at h
  exact h

/-- An array text in which an element text is followed, behind optional
whitespace, by the end of the input or by a character that is neither a comma
nor a closing bracket; what follows the element text does not continue a
number. -/
theorem parse_array_bad_text (es : List Str) (hes : ∀ e ∈ es, accepted e = true) (v s : Str)
    (hv : accepted v = true) (hs : quietNext s)
    (hc : ∀ c ∈ (s.dropWhile isspace).head?, c ≠ ',' ∧ c ≠ ']') :
    parse (arrayHead es ++ v ++ s) = .throw .invalid_argument := by
  obtain ⟨a, ha⟩ := (accepted_iff v).mp hv
  have h := parseFuel_accepted_ws (arrayHead es) v s hs a ha _ (le_refl _)
  have hg : (arrayHead es ++ v ++ s).getD
      ((arrayHead es).length + v.length + (s.takeWhile isspace).length) '\x00' =
      ((s.dropWhile isspace).head?).getD '\x00' := by
    rw [← List.length_append]
    exact getD_after_ws _ s
  have hne : ((s.dropWhile isspace).head?).getD '\x00' ≠ ',' ∧
      ((s.dropWhile isspace).head?).getD '\x00' ≠ ']' := by
    cases hd : s.dropWhile isspace with
    | nil => exact ⟨by decide, by decide⟩
    | cons c r =>
      rw [hd] at hc
      exact hc c rfl
  rw [List.append_assoc] at h hg ⊢
  exact parse_array_bad es hes (v ++ s) _ a _ h (by rw [hg]; exact hne.1) (by rw [hg]; exact hne.2)

/-- An object text in which a pair is followed, behind optional whitespace, by
the end of the input or by a character that is neither a comma nor a closing
brace; what follows the value text does not continue a number. -/
theorem parse_object_bad_text (ps : List (Str × Str))
    (hps : ∀ q ∈ ps, acceptedKey q.1 = true ∧ accepted q.2 = true) (kt v s : Str)
    (hkt : acceptedKey kt = true) (hv : accepted v = true) (hs : quietNext s)
    (hc : ∀ c ∈ (s.dropWhile isspace).head?, c ≠ ',' ∧ c ≠ '\x7d') :
    parse (objectHead ps ++ kt ++ ':' :: (v ++ s)) = .throw .invalid_argument := by
  obtain ⟨a, ha⟩ := (accepted_iff v).mp hv
  have h := parseFuel_accepted_ws (objectHead ps ++ kt ++ [':']) v s hs a ha _ (le_refl _)
  have hg : (objectHead ps ++ kt ++ [':'] ++ v ++ s).getD
      ((objectHead ps ++ kt ++ [':']).length + v.length + (s.takeWhile isspace).length) '\x00' =
      ((s.dropWhile isspace).head?).getD '\x00' := by
    rw [← List.length_append]
    exact getD_after_ws _ s
  have hne : ((s.dropWhile isspace).head?).getD '\x00' ≠ ',' ∧
      ((s.dropWhile isspace).head?).getD '\x00' ≠ '\x7d' := by
    cases hd : s.dropWhile isspace with
    | nil => exact ⟨by decide, by decide⟩
    | cons c r =>
      rw [hd] at hc
      exact hc c rfl
  have hT : objectHead ps ++ kt ++ [':'] ++ v ++ s = objectHead ps ++ kt ++ ':' :: (v ++ s) := by
    simp
  have hl : (objectHead ps ++ kt ++ [':']).length = (objectHead ps).length + kt.length + 1 := by
    simp only [List.length_append, List.length_singleton]
  rw [hT, hl] at h hg
  exact parse_object_bad ps hps kt hkt (v ++ s) _ a _ h (by rw [hg]; exact hne.1)
    (by rw [hg]; exact hne.2)

end JSONParser

/-- C17: a missing comma or a missing closing character makes the parse fail,
except behind a `\u` escape.  The array text `["\u0041" "]"]`, two strings
with no comma between them, parses to the array of the one string `A `, and so
does `["\u0041" "]`, whose input ends before the closing bracket; the object
text `{"a":"\u0041" "}":1}`, two pairs with no comma between them, parses to the
object with the one pair `a`, `A `: the escape moves the cursor past the closing
quote of the first string (the defect of C2), which then runs on to the next
quote.  Where every element is a text that `parse` accepts the claim holds.  In
an array text whose elements so far are value texts followed by commas, when the
next element is read up to the cursor `j` (behind the whitespace that follows
it) and the character at `j` is neither a comma nor a closing bracket, as it is
when another element or the end of the input stands there, `parse` throws; so it
does when an element text is followed, behind optional whitespace, by the end of
the input or by a character other than comma and bracket (what follows the
element text must not continue a number: `12` is one element), and when the
input ends behind the opening bracket or behind a comma.  The same holds for an
object text with its pairs `key:value` and the closing brace. -/
theorem parse_missing_separator :
    (∀ (es : List Str) (r : Str) (fuel : Nat) (a : JSONValue) (j : Nat),
      (∀ e ∈ es, accepted e = true) →
      JSONParser.parseFuel fuel (arrayHead es ++ r) (arrayHead es).length = .ok (a, j) →
      (arrayHead es ++ r).getD j '\x00' ≠ ',' → (arrayHead es ++ r).getD j '\x00' ≠ ']' →
      JSONParser.parse (arrayHead es ++ r) = .throw .invalid_argument) ∧
    (∀ (es : List Str) (v s : Str), (∀ e ∈ es, accepted e = true) → accepted v = true →
      quietNext s → (∀ c ∈ (s.dropWhile isspace).head?, c ≠ ',' ∧ c ≠ ']') →
      JSONParser.parse (arrayHead es ++ v ++ s) = .throw .invalid_argument) ∧
    (∀ es : List Str, (∀ e ∈ es, accepted e = true) →
      JSONParser.parse (arrayHead es) = .throw .invalid_argument) ∧
    (∀ (ps : List (Str × Str)) (kt r : Str) (fuel : Nat) (a : JSONValue) (j : Nat),
      (∀ q ∈ ps, acceptedKey q.1 = true ∧ accepted q.2 = true) → acceptedKey kt = true →
      JSONParser.parseFuel fuel (objectHead ps ++ kt ++ ':' :: r)
        ((objectHead ps).length + kt.length + 1) = .ok (a, j) →
      (objectHead ps ++ kt ++ ':' :: r).getD j '\x00' ≠ ',' →
      (objectHead ps ++ kt ++ ':' :: r).getD j '\x00' ≠ '\x7d' →
      JSONParser.parse (objectHead ps ++ kt ++ ':' :: r) = .throw .invalid_argument) ∧
    (∀ (ps : List (Str × Str)) (kt v s : Str),
      (∀ q ∈ ps, acceptedKey q.1 = true ∧ accepted q.2 = true) → acceptedKey kt = true →
      accepted v = true → quietNext s →
      (∀ c ∈ (s.dropWhile isspace).head?, c ≠ ',' ∧ c ≠ '\x7d') →
      JSONParser.parse (objectHead ps ++ kt ++ ':' :: (v ++ s)) = .throw .invalid_argument) ∧
    (∀ ps : List (Str × Str), (∀ q ∈ ps, acceptedKey q.1 = true ∧ accepted q.2 = true) →
      JSONParser.parse (objectHead ps) = .throw .invalid_argument) ∧
    JSONParser.parse "[\"\\u0041\" \"]\"]".toList = .ok (.array [.string "A ".toList], 12) ∧
    JSONParser.parse "[\"\\u0041\" \"]".toList = .ok (.array [.string "A ".toList], 12) ∧
    JSONParser.parse "\x7b\"a\":\"\\u0041\" \"\x7d\":1\x7d".toList =
      .ok (.object [("a".toList, .string "A ".toList)], 16) ∧
    accepted "\"\\u0041\"".toList = false :=
  ⟨fun es r fuel a j hes hv h1 h2 => JSONParser.parse_array_bad es hes r fuel a j hv h1 h2,
    fun es v s hes hv hs hc => JSONParser.parse_array_bad_text es hes v s hv hs hc,
    fun es hes => JSONParser.parse_array_end es hes,
    fun ps kt r fuel a j hps hkt hv h1 h2 =>
      JSONParser.parse_object_bad ps hps kt hkt r fuel a j hv h1 h2,
    fun ps kt v s hps hkt hv hs hc => JSONParser.parse_object_bad_text ps hps kt v s hkt hv hs hc,
    fun ps hps => JSONParser.parse_object_end ps hps,
    by decide!, by decide!, by decide!, by decide!⟩

/-- C17 on the texts `[1,2 3]`, `[1 2]`, `[ 1 , "a" "b" ]`, `[1,"a""b"]`, `[1,2`,
`[1,`, `{"a":1 "b":2}`, `{"a" : 1  "b" : 2}`, `{"a":1` and `{"a":1,`. -/
theorem parse_missing_separator_witness :
    JSONParser.parse "[1,2 3]".toList = .throw .invalid_argument ∧
    JSONParser.parse "[1 2]".toList = .throw .invalid_argument ∧
    JSONParser.parse "[ 1 , \"a\" \"b\" ]".toList = .throw .invalid_argument ∧
    JSONParser.parse "[1,\"a\"\"b\"]".toList = .throw .invalid_argument ∧
    JSONParser.parse "[1,2".toList = .throw .invalid_argument ∧
    JSONParser.parse "[1,".toList = .throw .invalid_argument ∧
    JSONParser.parse "\x7b\"a\":1 \"b\":2\x7d".toList = .throw .invalid_argument ∧
    JSONParser.parse "\x7b\"a\" : 1  \"b\" : 2\x7d".toList = .throw .invalid_argument ∧
    JSONParser.parse "\x7b\"a\":1".toList = .throw .invalid_argument ∧
    JSONParser.parse "\x7b\"a\":1,".toList = .throw .invalid_argument :=
  ⟨parse_missing_separator.1 ["1".toList] "2 3]".toList 5 (.number 2) 5 (by decide!) (by decide!)
      (by decide) (by decide),
    parse_missing_separator.2.1 [] "1".toList " 2]".toList (by decide) (by decide!)
      (by decide) (by decide),
    parse_missing_separator.2.1 [" 1 ".toList] " \"a\"".toList " \"b\" ]".toList (by decide!)
      (by decide!) (by decide) (by decide),
    parse_missing_separator.2.1 ["1".toList] "\"a\"".toList "\"b\"]".toList (by decide!)
      (by decide!) (by decide) (by decide),
    parse_missing_separator.2.1 ["1".toList] "2".toList [] (by decide!) (by decide!)
      (by decide) (by decide),
    parse_missing_separator.2.2.1 ["1".toList] (by decide!),
    parse_missing_separator.2.2.2.1 [] "\"a\"".toList "1 \"b\":2\x7d".toList 5 (.number 1) 7
      (by decide) (by decide!) (by decide!) (by decide) (by decide),
    parse_missing_separator.2.2.2.2.1 [] "\"a\" ".toList " 1".toList "  \"b\" : 2\x7d".toList
      (by decide) (by decide!) (by decide!) (by decide) (by decide),
    parse_missing_separator.2.2.2.2.1 [] "\"a\"".toList "1".toList [] (by decide) (by decide!)
      (by decide!) (by decide) (by decide),
    parse_missing_separator.2.2.2.2.2.1 [("\"a\"".toList, "1".toList)] (by decide!)⟩

/-! ## Parsing a canonical text -/

theorem escapeOf_plain (c : Char) (h : escapeOf c = [c]) : c ≠ '"' ∧ c ≠ '\\' := by
  constructor
  · intro hc
    subst hc
    revert h
    decide
  · intro hc
    subst hc
    revert h
    decide

theorem serializeString_plain (s : Str) (h : ∀ c ∈ s, escapeOf c = [c]) :
    serializeString s = '"' :: s ++ ['"'] := by
  have : (s.map escapeOf).flatten = s := by
    induction s with
    | nil => rfl
    | cons c s ih =>
      rw [List.map_cons, List.flatten_cons, h c (List.mem_cons_self _ _),
        ih fun x hx => h x (List.mem_cons_of_mem _ hx)]
      rfl
  unfold serializeString
  rw [this]
  rfl

theorem parse_serialize_plain (s : Str) (h : ∀ c ∈ s, escapeOf c = [c]) :
    JSONParser.parse (serialize (.string s)) = .ok (.string (s.dropWhile isspace), s.length + 2) := by
  have e : serialize (.string s) = '"' :: s ++ ['"'] := by
    rw [serialize]
    exact serializeString_plain s h
  rw [e]
  exact JSONParser.parse_plain_string s fun c hc => escapeOf_plain c (h c hc)

theorem escapeOf_control (c : Char) (h : c.toNat < 32) (h1 : c ≠ '\x08') (h2 : c ≠ '\x0c')
    (h3 : c ≠ '\n') (h4 : c ≠ '\r') (h5 : c ≠ '\t') :
    escapeOf c =
      ['\\', 'u', '0', '0', Nat.digitChar (c.toNat / 16), Nat.digitChar (c.toNat % 16)] := by
  have hq : c ≠ '"' := by
    intro hc
    subst hc
    revert h
    decide
  have hb : c ≠ '\\' := by
    intro hc
    subst hc
    revert h
    decide
  unfold escapeOf
  rw [if_neg hq, if_neg hb, if_neg h1, if_neg h2, if_neg h3, if_neg h4, if_neg h5, if_pos h]

theorem parse_unicode_last (a b c d : Char) (r : JSONValue × Nat) :
    JSONParser.parse ['"', '\\', 'u', a, b, c, d, '"'] ≠ .ok r := by
  intro h
  unfold JSONParser.parse at h
  rw [JSONParser.parseFuel_succ] at h
  have w0 : JSONParser.skipWhiteSpace ['"', '\\', 'u', a, b, c, d, '"'] 0 = 0 :=
    JSONParser.skipWhiteSpace_at [] '"' _ (by decide)
  have c0 : JSONParser.getCurrentChar ['"', '\\', 'u', a, b, c, d, '"'] 0 = .ok '"' :=
    JSONParser.getCurrentChar_at [] '"' _
  rw [w0, c0, Res.bind_ok, if_neg (by decide), if_neg (by decide), if_neg (by decide),
    if_pos rfl] at h
  obtain ⟨x, hx, _⟩ := JSONParser.bind_eq_ok h
  exact JSONParser.parseString_unicode_last a b c d x hx

theorem parse_serialize_control (c : Char) (h : c.toNat < 32) (h1 : c ≠ '\x08')
    (h2 : c ≠ '\x0c') (h3 : c ≠ '\n') (h4 : c ≠ '\r') (h5 : c ≠ '\t')
    (r : JSONValue × Nat) : JSONParser.parse (serialize (.string [c])) ≠ .ok r := by
  have e : serialize (.string [c]) = ['"', '\\', 'u', '0', '0', Nat.digitChar (c.toNat / 16),
      Nat.digitChar (c.toNat % 16), '"'] := by
    rw [serialize, serializeString, List.map_cons, List.map_nil, List.flatten_cons,
      List.flatten_nil, escapeOf_control c h h1 h2 h3 h4 h5]
    rfl
  rw [e]
  exact parse_unicode_last _ _ _ _ r

/-- C16: parsing does not undo canonical serialization.  The canonical text
`" a"` of the string ` a` parses to the string `a`, because `expect` skips the
whitespace behind the opening quote (the defect of C3): a string of characters
that need no escape is read back without its leading whitespace.  The canonical
text `"a\u0001b"` of the string made of `a`, the control character 1 and `b`
parses to the string without the `b`, because the escape moves the cursor one
place too far (the defect of C2), and the canonical text of a string that is one
control character written as `\u00XX` does not parse.  A value with neither
feature is read back, as the object of the last lines. -/
theorem parse_serialize_string :
    serialize (.string " a".toList) = "\" a\"".toList ∧
    JSONParser.parse (serialize (.string " a".toList)) = .ok (.string "a".toList, 4) ∧
    (∀ j, JSONParser.parse (serialize (.string " a".toList)) ≠ .ok (.string " a".toList, j)) ∧
    (∀ s : Str, (∀ c ∈ s, escapeOf c = [c]) →
      JSONParser.parse (serialize (.string s)) =
        .ok (.string (s.dropWhile isspace), s.length + 2)) ∧
    serialize (.string ['a', '\x01', 'b']) = "\"a\\u0001b\"".toList ∧
    JSONParser.parse (serialize (.string ['a', '\x01', 'b'])) =
      .ok (.string ['a', '\x01'], 10) ∧
    (∀ (c : Char) (r : JSONValue × Nat), c.toNat < 32 → c ≠ '\x08' → c ≠ '\x0c' → c ≠ '\n' →
      c ≠ '\r' → c ≠ '\t' → JSONParser.parse (serialize (.string [c])) ≠ .ok r) ∧
    serialize (.object [("k".toList, .array [.null, .boolean true, .boolean false,
        .number (-12), .string "a\"b\\c\nd".toList, .array [], .object []]),
        ("m".toList, .number 0)]) =
      "\x7b\"k\":[null,true,false,-12,\"a\\\"b\\\\c\\nd\",[],\x7b\x7d],\"m\":0\x7d".toList ∧
    JSONParser.parse (serialize (.object [("k".toList, .array [.null, .boolean true,
        .boolean false, .number (-12), .string "a\"b\\c\nd".toList, .array [], .object []]),
        ("m".toList, .number 0)])) =
      .ok (.object [("k".toList, .array [.null, .boolean true, .boolean false,
        .number (-12), .string "a\"b\\c\nd".toList, .array [], .object []]),
        ("m".toList, .number 0)], 52) := by
  refine ⟨by decide!, by decide!, ?_, parse_serialize_plain, by decide!, by decide!,
    fun c r h h1 h2 h3 h4 h5 => parse_serialize_control c h h1 h2 h3 h4 h5 r, by decide!,
    by decide!⟩
  intro j h
  have h2 : JSONParser.parse (serialize (.string " a".toList)) = .ok (.string "a".toList, 4) := by
    decide!
  rw [h2] at h
  simp only [Res.ok.injEq, Prod.mk.injEq, JSONValue.string.injEq] at h
  exact absurd h.1 (by decide)

/-! ## Termination and the cursor -/

namespace JSONParser

/-- A `\u` escape with four hexadecimal digits outside the surrogate range, at
the end of a text without closing quote: the cursor is moved past the end of the
text and the next read is out of bounds. -/
theorem parse_unicode_unclosed (a b c d : Char) (ha : isxdigit a = true)
    (hb : isxdigit b = true) (hc : isxdigit c = true) (hd : isxdigit d = true)
    (hv : hexVal [a, b, c, d] < 0xD800 ∨ 0xDFFF < hexVal [a, b, c, d]) :
    parse ['"', '\\', 'u', a, b, c, d] = .undefined := by
  obtain ⟨s, hs⟩ : ∃ s : Str, s = ['"', '\\', 'u', a, b, c, d] := ⟨_, rfl⟩
  rw [← hs]
  have hl : s.length = 7 := by rw [hs]; rfl
  have w0 : skipWhiteSpace s 0 = 0 := by
    rw [hs]; exact skipWhiteSpace_at [] '"' _ (by decide)
  have c0 : getCurrentChar s 0 = .ok '"' := by
    rw [hs]; exact getCurrentChar_at [] '"' _
  have e0 : expect s 0 ['"'] = .ok 1 := by
    rw [expect_of s 0 ['"'] (by omega) (by rw [hs]; rfl)]
    have := skipWhiteSpace_at ['"'] '\\' ['u', a, b, c, d] (by decide)
    rw [hs]
    exact congrArg Res.ok this
  have e1 : getCurrentChar s 1 = .ok '\\' := by
    rw [hs]; exact getCurrentChar_at ['"'] '\\' _
  have e2 : getCurrentChar s 2 = .ok 'u' := by
    rw [hs]; exact getCurrentChar_at ['"', '\\'] 'u' _
  have e8 : getCurrentChar s 8 = .undefined := by
    unfold getCurrentChar
    rw [if_neg (by omega), if_neg (by omega)]
  have esub : substr s 3 4 = .ok [a, b, c, d] := by
    unfold substr
    rw [if_neg (by omega), hs]
    rfl
  have hcond : (((hexVal [a, b, c, d] : Nat) : Int) < 0xD800 ||
      ((hexVal [a, b, c, d] : Nat) : Int) > 0xDFFF) = true := by
    rcases hv with h | h
    · simp only [Bool.or_eq_true, decide_eq_true_eq]
      left
      omega
    · simp only [Bool.or_eq_true, decide_eq_true_eq]
      right
      omega
  have eesc : parseEscape s 2 'u' [] =
      .ok ([] ++ [Char.ofNat (((hexVal [a, b, c, d] : Nat) : Int) % 256).toNat], 7) := by
    unfold parseEscape
    rw [if_pos rfl, esub, Res.bind_ok, stoi16_four a b c d ha hb hc hd, Res.bind_ok, if_pos hcond]
  unfold parse
  rw [parseFuel_succ, w0, c0, Res.bind_ok, if_neg (by decide), if_neg (by decide),
    if_neg (by decide), if_pos rfl]
  unfold parseString
  rw [e0, Res.bind_ok, e1, Res.bind_ok, hl, parseStringLoop, if_pos ⟨by decide, by omega⟩,
    if_pos rfl, e2, Res.bind_ok, eesc, Res.bind_ok, e8]
  rfl

end JSONParser

/-- C20: no run of `parse` goes on for ever (the result is never `nofuel`), a
successful call of `parse`, of `parseString` and of the loops of `parseArray`
and `parseObject` ends with the cursor moved forward and at most at the length
of the text, and an escape never moves the cursor back, as long as every read is
inside the text.  On a string that ends with a `\u` escape and has no closing
quote, as the seven characters `"\u0041` and the twenty characters
`"aaaaaaaaaaaaa\u0041`, the escape and the loop move the cursor two places past
the last character, one past the length of the text, and `getCurrentChar` reads
a character that is no part of the text (so for every four hexadecimal digits
outside the surrogate range, and inside an array).  The loop ends there, and the
test behind it goes by the character read: when it is a quote `parseString`
returns, with the cursor two past the length of the text; when it is any other
character `parseString` throws. -/
theorem parse_terminates :
    JSONParser.parse "\"\\u0041".toList = .undefined ∧
    JSONParser.parse "[\"\\u0041".toList = .undefined ∧
    (∀ a b c d : Char, isxdigit a = true → isxdigit b = true → isxdigit c = true →
      isxdigit d = true → hexVal [a, b, c, d] < 0xD800 ∨ 0xDFFF < hexVal [a, b, c, d] →
      JSONParser.parse ['"', '\\', 'u', a, b, c, d] = .undefined) ∧
    (∀ s : Str, JSONParser.parse s ≠ .nofuel) ∧
    (∀ (s : Str) (fuel i : Nat) (a : JSONValue) (j : Nat),
      JSONParser.parseFuel fuel s i = .ok (a, j) → i < j ∧ j ≤ s.length) ∧
    (∀ (s : Str) (a : JSONValue) (j : Nat),
      JSONParser.parse s = .ok (a, j) → 0 < j ∧ j ≤ s.length) ∧
    (∀ (s : Str) (i : Nat) (r : Str) (j : Nat),
      JSONParser.parseString s i = .ok (r, j) → i < j ∧ j ≤ s.length) ∧
    (∀ (s : Str) (fuel i : Nat) (acc r : List JSONValue) (j : Nat),
      JSONParser.parseArrayLoop fuel s i acc = .ok (r, j) → i < j ∧ j ≤ s.length) ∧
    (∀ (s : Str) (fuel i : Nat) (acc r : List (Str × JSONValue)) (j : Nat),
      JSONParser.parseObjectLoop fuel s i acc = .ok (r, j) → i < j ∧ j ≤ s.length) ∧
    (∀ (s : Str) (k : Nat) (c : Char) (res r : Str) (k' : Nat),
      JSONParser.parseEscape s k c res = .ok (r, k') → k ≤ k') ∧
    JSONParser.getCurrentChar "\"\\u0041".toList 8 = .undefined ∧
    (∀ (fuel : Nat) (res : Str),
      JSONParser.parseStringLoop "\"\\u0041".toList (fuel + 1) 8 '"' res = .ok (res, 9)) ∧
    (∀ (fuel : Nat) (c : Char) (res : Str), c ≠ '"' →
      JSONParser.parseStringLoop "\"\\u0041".toList (fuel + 1) 8 c res =
        .throw .invalid_argument) ∧
    "\"aaaaaaaaaaaaa\\u0041".toList.length = 20 ∧
    JSONParser.parse "\"aaaaaaaaaaaaa\\u0041".toList = .undefined ∧
    JSONParser.getCurrentChar "\"aaaaaaaaaaaaa\\u0041".toList 21 = .undefined ∧
    (∀ (fuel : Nat) (res : Str),
      JSONParser.parseStringLoop "\"aaaaaaaaaaaaa\\u0041".toList (fuel + 1) 21 '"' res =
        .ok (res, 22)) ∧
    (∀ (fuel : Nat) (c : Char) (res : Str), c ≠ '"' →
      JSONParser.parseStringLoop "\"aaaaaaaaaaaaa\\u0041".toList (fuel + 1) 21 c res =
        .throw .invalid_argument) := by
  refine ⟨by decide!, by decide!, JSONParser.parse_unicode_unclosed,
    JSONParser.parse_ne_nofuel, ?_, ?_, ?_, ?_, ?_, ?_, by decide!, ?_, ?_, by decide!,
    by decide!, by decide!, ?_, ?_⟩
  · intro s fuel i a j h
    exact (JSONParser.parseFuel_mono s fuel fuel i a j (le_refl _) h).2
  · intro s a j h
    exact (JSONParser.parseFuel_mono s _ _ 0 a j (le_refl _) h).2
  · intro s i r j h
    have := JSONParser.parseString_ctx [] s [] (by intro c hc; simp at hc) i r j
      (by simpa using h)
    exact this.2
  · intro s fuel i acc r j h
    have := (JSONParser.parse_ctx_all [] s [] (by intro c hc; simp at hc) fuel).2.1 fuel i acc r j
      (le_refl _) (by simpa using h)
    exact this.2
  · intro s fuel i acc r j h
    have := (JSONParser.parse_ctx_all [] s [] (by intro c hc; simp at hc) fuel).2.2 fuel i acc r j
      (le_refl _) (by simpa using h)
    exact this.2
  · intro s k c res r k' h
    exact JSONParser.parseEscape_le s k c res r k' h
  · intro fuel res
    rw [JSONParser.parseStringLoop, if_neg (fun h => h.1 rfl), if_pos rfl]
    rfl
  · intro fuel c res hc
    rw [JSONParser.parseStringLoop, if_neg (fun h => absurd h.2 (by decide)), if_neg hc]
  · intro fuel res
    rw [JSONParser.parseStringLoop, if_neg (fun h => h.1 rfl), if_pos rfl]
    rfl
  · intro fuel c res hc
    rw [JSONParser.parseStringLoop, if_neg (fun h => absurd h.2 (by decide)), if_neg hc]

/-- C20 on the text `[1, "a"]`, which `parse` accepts with the cursor at 8, the
length of the text, and on the seven characters `"\u0041` when the character read
behind the text is an `x`: `parseString` throws. -/
theorem parse_terminates_witness :
    JSONParser.parse "[1, \"a\"]".toList = .ok (.array [.number 1, .string "a".toList], 8) ∧
    (0 < 8 ∧ 8 ≤ "[1, \"a\"]".toList.length) ∧
    JSONParser.parseStringLoop "\"\\u0041".toList (0 + 1) 8 'x' [] =
      .throw .invalid_argument :=
  ⟨by decide!,
    parse_terminates.2.2.2.2.2.1 "[1, \"a\"]".toList
      (.array [.number 1, .string "a".toList]) 8 (by decide!),
    parse_terminates.2.2.2.2.2.2.2.2.2.2.2.2.1 0 'x' [] (by decide)⟩
